import Mathlib

/-! # A shallow embedding of the store (`src/store.js`) and its module tree
(`src/module/module.js`, `src/module/module-collection.js`)

Conventions of the embedding.

* JavaScript strings are lists of characters (`Str`), so that `+`, `slice`
  and `length` are `++`, `take`/`drop` and `length`.
* Plain objects used as maps (`Object.create(null)`, `{}`) are association
  lists in the enumeration order of `Object.keys`; keys are unique because
  writes go through `objSet`.
* State is a tree of `JVal`; a module's live state is the sub-value of the
  root state at the module's path (the source keeps it as an aliased
  sub-object, the embedding reads it through `getNestedState`).
* Code that can throw runs in `M`: a state-and-trace passing function whose
  result is `Except JsError`.  A throw keeps the store as it was at the
  point of the throw, exactly as a JavaScript exception does.
* Everything a caller can observe besides the store (handler invocations,
  subscriber notifications, console diagnostics) is appended to a trace.
* User code is a parameter: a transition handler is a function from the
  local state and the payload to the new local state (and possibly a thrown
  error); it does not re-enter the store.  An action handler returns the
  settlement of its awaitable.  A derived-value handler is a function of
  the four values it is invoked with.
-/

namespace Vuex

/-- JavaScript strings. -/
abbrev Str := List Char

/-- The build flag: the sources guard their diagnostics and assertions by
it.  Modelled from the spec: the flag is not defined in the given sources;
the spec describes the build in which diagnostics are reported. -/
def __DEV__ : Bool := true

/-! ## Values -/

/-- JavaScript values that occur in state trees and payloads. -/
inductive JVal where
  | undefined
  | null
  | bool (b : Bool)
  | num (n : Int)
  | str (s : Str)
  | obj (fields : List (Str × JVal))

mutual
/-- Decidable equality of values. -/
def JVal.decEq : (a b : JVal) → Decidable (a = b)
  | .undefined, b => by cases b <;> first | exact isTrue rfl | exact isFalse nofun
  | .null, b => by cases b <;> first | exact isTrue rfl | exact isFalse nofun
  | .bool x, .bool y =>
    if h : x = y then isTrue (by rw [h]) else isFalse (fun e => h (by cases e; rfl))
  | .num x, .num y =>
    if h : x = y then isTrue (by rw [h]) else isFalse (fun e => h (by cases e; rfl))
  | .str x, .str y =>
    if h : x = y then isTrue (by rw [h]) else isFalse (fun e => h (by cases e; rfl))
  | .obj x, .obj y =>
    match JVal.decEqFields x y with
    | isTrue h => isTrue (by rw [h])
    | isFalse h => isFalse (fun e => h (by cases e; rfl))
  | .bool _, .undefined | .bool _, .null | .bool _, .num _ | .bool _, .str _
  | .bool _, .obj _ => isFalse nofun
  | .num _, .undefined | .num _, .null | .num _, .bool _ | .num _, .str _
  | .num _, .obj _ => isFalse nofun
  | .str _, .undefined | .str _, .null | .str _, .bool _ | .str _, .num _
  | .str _, .obj _ => isFalse nofun
  | .obj _, .undefined | .obj _, .null | .obj _, .bool _ | .obj _, .num _
  | .obj _, .str _ => isFalse nofun
/-- Decidable equality of field lists. -/
def JVal.decEqFields : (a b : List (Str × JVal)) → Decidable (a = b)
  | [], [] => isTrue rfl
  | [], _ :: _ => isFalse nofun
  | _ :: _, [] => isFalse nofun
  | (k, v) :: r, (k', v') :: r' =>
    if hk : k = k' then
      match JVal.decEq v v', JVal.decEqFields r r' with
      | isTrue hv, isTrue hr => isTrue (by rw [hk, hv, hr])
      | isFalse hv, _ => isFalse (fun e => hv (by cases e; rfl))
      | _, isFalse hr => isFalse (fun e => hr (by cases e; rfl))
    else isFalse (fun e => hk (by cases e; rfl))
end

instance : DecidableEq JVal := JVal.decEq

instance : Inhabited JVal := ⟨.undefined⟩

/-- What a `throw` carries. -/
inductive JsError where
  /-- a `TypeError` raised by the language (property read on `undefined`,
  call of a non-function, `in` on a non-object) -/
  | typeError
  /-- an `Error` raised by the `assert` helper -/
  | assertion (msg : Str)
  /-- a value thrown, or a rejection reason supplied, by user code -/
  | thrown (v : JVal)
  deriving DecidableEq

/-! ## Objects as maps -/

/-- Read `o[k]`: `none` stands for `undefined` (absent key). -/
def objGet {α : Type} : List (Str × α) → Str → Option α
  | [], _ => none
  | (k', v) :: r, k => if k' = k then some v else objGet r k

/-- Write `o[k] = v`: an existing key keeps its place, a new key goes last. -/
def objSet {α : Type} : List (Str × α) → Str → α → List (Str × α)
  | [], k, v => [(k, v)]
  | (k', v') :: r, k, v => if k' = k then (k, v) :: r else (k', v') :: objSet r k v

/-- Remove a key: `delete o[k]`. -/
def objDelete {α : Type} : List (Str × α) → Str → List (Str × α)
  | [], _ => []
  | (k', v') :: r, k => if k' = k then r else (k', v') :: objDelete r k

/-- Whether `k in o`. -/
def objHas {α : Type} (o : List (Str × α)) (k : Str) : Bool :=
  (objGet o k).isSome

/-- Enumerate the keys: `Object.keys(o)`. -/
def objKeys {α : Type} (o : List (Str × α)) : List Str :=
  o.map Prod.fst

/-- JavaScript truthiness. -/
def JVal.truthy : JVal → Bool
  | .undefined => false
  | .null => false
  | .bool b => b
  | .num n => n != 0
  | .str s => !s.isEmpty
  | .obj _ => true

/-- Property read `v[k]`.  Reading a property of `undefined` or `null`
throws; a primitive has no own properties (the index and `length`
properties of strings are not modelled). -/
def JVal.getProp (v : JVal) (k : Str) : Except JsError JVal :=
  match v with
  | .undefined => .error .typeError
  | .null => .error .typeError
  | .obj fields => .ok ((objGet fields k).getD .undefined)
  | _ => .ok .undefined

/-- The source function `getNestedState` of `store.js`:
`path.reduce((state, key) => state[key], state)`. -/
def getNestedState : JVal → List Str → Except JsError JVal
  | state, [] => .ok state
  | state, key :: rest =>
    match state.getProp key with
    | .error e => .error e
    | .ok sub => getNestedState sub rest

/-- The root state after the object reached by `getNestedState state path`
has been mutated in place into `v`.  Only an object that is reachable can
be mutated; nothing changes otherwise. -/
def setNestedState : JVal → List Str → JVal → JVal
  | _, [], v => v
  | .obj fields, key :: rest, v =>
    match objGet fields key with
    | some sub => .obj (objSet fields key (setNestedState sub rest v))
    | none => .obj fields
  | state, _ :: _, _ => state

/-- The last key of a path, `path[path.length - 1]`; on the empty path
the source reads `undefined`, which as a property key is the string
`"undefined"`. -/
def lastKey (path : List Str) : Str :=
  path.getLast?.getD "undefined".toList

/-! ## User code -/

/-- The first argument of a subscriber and of an action subscriber:
`{ type, payload }`. -/
structure Mutation where
  type : Str
  payload : JVal
  deriving DecidableEq

/-- What a transition handler did: the contents of the local state object
when it returned or threw, and the error when it threw. -/
structure MutationResult where
  state : JVal
  raised : Option JsError

/-- A transition handler `(state, payload) => ...`. -/
abbrev MutationFn := JVal → JVal → MutationResult

/-- The settlement of an awaitable on a logical clock. -/
inductive Promise (α : Type) where
  | pending
  | fulfilled (settledAt : Nat) (value : α)
  | rejected (settledAt : Nat) (reason : JsError)

/-- A getters object as seen by user code: its enumerable keys and the
result of reading a key.  A read is `none` when the evaluation of the
derived value does not finish within the given number of nested reads. -/
structure GettersView where
  keys : List Str
  read : Nat → Str → Option (Except JsError JVal)

/-- The first argument of an action handler.  The fields `dispatch` and
`commit` of the source are the local functions of the module, which are
determined by its namespace. -/
structure ActionContext where
  localNamespace : Str
  getters : GettersView
  state : JVal
  rootGetters : GettersView
  rootState : JVal

/-- An action handler `(context, payload) => ...`: it throws, or returns
a value that `registerAction` normalises to an awaitable. -/
abbrev ActionFn := ActionContext → JVal → Except JsError (Promise JVal)

/-- An entry of `actions`: a function, or `{ root, handler }`. -/
inductive ActionEntry where
  | fn (handler : ActionFn)
  | withOptions (root : Bool) (handler : ActionFn)

/-- The field `action.root` as tested by `installModule`. -/
def ActionEntry.root : ActionEntry → Bool
  | .fn _ => false
  | .withOptions r _ => r

/-- The function `action.handler || action`. -/
def ActionEntry.handler : ActionEntry → ActionFn
  | .fn h => h
  | .withOptions _ h => h

/-- Reading a key of a getters object inside a derived-value handler. -/
abbrev GetterRead := Str → Option (Except JsError JVal)

/-- A derived-value handler `(state, getters, rootState, rootGetters) => ...`. -/
abbrev GetterFn := JVal → GetterRead → JVal → GetterRead → Option (Except JsError JVal)

/-! ## Module specifications and modules (`module/module.js`) -/

/-- The `state` field of a module specification. -/
inductive RawState where
  | absent
  | value (v : JVal)
  | factory (result : JVal)

/-- A module specification as passed by the programmer.  An absent
`modules` field is the empty list (the source only iterates over it). -/
inductive RawModule where
  | mk (state : RawState) (namespaced : Bool)
      (mutations : Option (List (Str × MutationFn)))
      (actions : Option (List (Str × ActionEntry)))
      (getters : Option (List (Str × GetterFn)))
      (modules : List (Str × RawModule))

namespace RawModule

def state : RawModule → RawState
  | .mk s _ _ _ _ _ => s

def namespaced : RawModule → Bool
  | .mk _ n _ _ _ _ => n

def mutations : RawModule → Option (List (Str × MutationFn))
  | .mk _ _ m _ _ _ => m

def actions : RawModule → Option (List (Str × ActionEntry))
  | .mk _ _ _ a _ _ => a

def getters : RawModule → Option (List (Str × GetterFn))
  | .mk _ _ _ _ g _ => g

def modules : RawModule → List (Str × RawModule)
  | .mk _ _ _ _ _ m => m

end RawModule

/-- The class `Module`.  The field `context` that `installModule` assigns
is not kept: it is determined by the namespace and the path. -/
inductive Module where
  | mk (runtime : Bool) (_children : List (Str × Module)) (_rawModule : RawModule)
      (state : JVal)

namespace Module

def runtime : Module → Bool
  | .mk r _ _ _ => r

def _children : Module → List (Str × Module)
  | .mk _ c _ _ => c

def _rawModule : Module → RawModule
  | .mk _ _ r _ => r

def state : Module → JVal
  | .mk _ _ _ s => s

/-- The constructor: `(typeof rawState === 'function' ? rawState() : rawState) || {}`. -/
def new (rawModule : RawModule) (runtime : Bool) : Module :=
  let rawState : JVal :=
    match rawModule.state with
    | .absent => .undefined
    | .value v => v
    | .factory r => r
  .mk runtime [] rawModule (if rawState.truthy then rawState else .obj [])

/-- The getter `namespaced`: `!!this._rawModule.namespaced`. -/
def namespaced (m : Module) : Bool :=
  m._rawModule.namespaced

def addChild (m : Module) (key : Str) (module : Module) : Module :=
  .mk m.runtime (objSet m._children key module) m._rawModule m.state

def removeChild (m : Module) (key : Str) : Module :=
  .mk m.runtime (objDelete m._children key) m._rawModule m.state

def getChild (m : Module) (key : Str) : Option Module :=
  objGet m._children key

def hasChild (m : Module) (key : Str) : Bool :=
  objHas m._children key

/-- The method `update`: the flag is copied, a handler map is replaced
only when the new specification has one.  The specification object is
kept here by value, so this is what the method does to the module itself;
in the source the assignments go into the object the module holds by
reference and reach every module that holds the same object, which
`ByRef.Module.update` states.  The two agree on a tree in which no two
modules hold the same specification object. -/
def update (m : Module) (rawModule : RawModule) : Module :=
  let old := m._rawModule
  .mk m.runtime m._children
    (.mk old.state rawModule.namespaced
      (rawModule.mutations.orElse (fun _ => old.mutations))
      (rawModule.actions.orElse (fun _ => old.actions))
      (rawModule.getters.orElse (fun _ => old.getters))
      old.modules)
    m.state

/-- The maps iterated by `forEachMutation`, `forEachAction` and
`forEachGetter`: nothing when the field is absent. -/
def mutations (m : Module) : List (Str × MutationFn) :=
  m._rawModule.mutations.getD []

def actions (m : Module) : List (Str × ActionEntry) :=
  m._rawModule.actions.getD []

def getters (m : Module) : List (Str × GetterFn) :=
  m._rawModule.getters.getD []

end Module

/-! ## Diagnostics -/

/-- Which callback of an action subscriber. -/
inductive Hook where
  | before
  | after
  | error
  deriving DecidableEq

/-- The messages written with `console.error` and `console.warn`. -/
inductive Diagnostic where
  | unknownMutation (type : Str)
  | unknownAction (type : Str)
  | unknownLocalMutation (type : Str) (globalType : Str)
  | unknownLocalAction (type : Str) (globalType : Str)
  | silentRemoved (type : Str)
  | subscriberError (hook : Hook) (e : JsError)
  | duplicateNamespace (ns : Str) (path : List Str)
  | stateOverridden (moduleName : Str) (path : List Str)
  | duplicateGetter (type : Str)
  | unregisterMissing (key : Str)
  | hotReloadNewModule (key : Str)
  deriving DecidableEq

/-! ## The module tree (`module/module-collection.js`) -/

/-- The class `ModuleCollection`. -/
structure ModuleCollection where
  root : Module

/-- The body of `get`: `path.reduce((module, key) => module.getChild(key), root)`.
The accumulator may become `undefined`; calling `getChild` on it throws. -/
def getFrom : Option Module → List Str → Except JsError (Option Module)
  | module, [] => .ok module
  | none, _ :: _ => .error .typeError
  | some module, key :: rest => getFrom (module.getChild key) rest

/-- The body of `getNamespace`: the walk from `module` with the text
accumulated so far. -/
def getNamespaceFrom : Module → Str → List Str → Except JsError Str
  | _, ns, [] => .ok ns
  | module, ns, key :: rest =>
    match module.getChild key with
    | none => .error .typeError
    | some child =>
      getNamespaceFrom child (ns ++ (if child.namespaced then key ++ ['/'] else [])) rest

/-- The module tree after the module at `path` has been changed in place
by `f`; nothing changes when there is no module at `path`. -/
def Module.modifyAt : Module → List Str → (Module → Module) → Module
  | m, [], f => f m
  | m, key :: rest, f =>
    match m.getChild key with
    | some child =>
      .mk m.runtime (objSet m._children key (Module.modifyAt child rest f)) m._rawModule m.state
    | none => m

mutual
/-- The function `update` of `module-collection.js`; the result is the
target module after the in-place update, with the warnings issued. -/
def update (path : List Str) (targetModule : Module) (newModule : RawModule) :
    Module × List Diagnostic :=
  match newModule with
  | .mk st ns ms as gs modules =>
    updateNested path (targetModule.update (.mk st ns ms as gs modules)) modules
/-- The loop `for (const key in newModule.modules)` of `update`. -/
def updateNested (path : List Str) (targetModule : Module) :
    List (Str × RawModule) → Module × List Diagnostic
  | [] => (targetModule, [])
  | (key, rawChild) :: rest =>
    match targetModule.getChild key with
    | none => (targetModule, [.hotReloadNewModule key])
    | some child =>
      let r := update (path ++ [key]) child rawChild
      let t := updateNested path (targetModule.addChild key r.1) rest
      (t.1, r.2 ++ t.2)
end

namespace ModuleCollection

def get (mc : ModuleCollection) (path : List Str) : Except JsError (Option Module) :=
  getFrom (some mc.root) path

def getNamespace (mc : ModuleCollection) (path : List Str) : Except JsError Str :=
  getNamespaceFrom mc.root [] path

def update (mc : ModuleCollection) (rawRootModule : RawModule) :
    ModuleCollection × List Diagnostic :=
  let r := Vuex.update [] mc.root rawRootModule
  (⟨r.1⟩, r.2)

mutual
/-- The method `register`.  The call of `assertRawModule` passes: the
entries of the handler maps are callables by their type. -/
def register (mc : ModuleCollection) (path : List Str) (rawModule : RawModule)
    (runtime : Bool) : Except JsError ModuleCollection :=
  match rawModule with
  | .mk st ns ms as gs modules =>
    let newModule := Module.new (.mk st ns ms as gs modules) runtime
    let attached : Except JsError ModuleCollection :=
      if path.length = 0 then .ok ⟨newModule⟩
      else
        match mc.get path.dropLast with
        | .error e => .error e
        | .ok none => .error .typeError
        | .ok (some _) =>
          .ok ⟨mc.root.modifyAt path.dropLast (fun parent => parent.addChild (lastKey path) newModule)⟩
    match attached with
    | .error e => .error e
    | .ok mc1 => registerNested mc1 path modules runtime
/-- The loop over `rawModule.modules` of `register`. -/
def registerNested (mc : ModuleCollection) (path : List Str) :
    List (Str × RawModule) → Bool → Except JsError ModuleCollection
  | [], _ => .ok mc
  | (key, rawChildModule) :: rest, runtime =>
    match register mc (path ++ [key]) rawChildModule runtime with
    | .error e => .error e
    | .ok mc1 => registerNested mc1 path rest runtime
end

/-- The constructor: `this.register([], rawRootModule, false)`. -/
def new (rawRootModule : RawModule) : Except JsError ModuleCollection :=
  register ⟨Module.new rawRootModule false⟩ [] rawRootModule false

/-- The method `unregister`, with the warnings issued. -/
def unregister (mc : ModuleCollection) (path : List Str) :
    Except JsError (ModuleCollection × List Diagnostic) :=
  match mc.get path.dropLast with
  | .error e => .error e
  | .ok none => .error .typeError
  | .ok (some parent) =>
    let key := lastKey path
    match parent.getChild key with
    | none => .ok (mc, if __DEV__ then [.unregisterMissing key] else [])
    | some child =>
      if !child.runtime then .ok (mc, [])
      else .ok (⟨mc.root.modifyAt path.dropLast (fun parent => parent.removeChild key)⟩, [])

def isRegistered (mc : ModuleCollection) (path : List Str) : Except JsError Bool :=
  match mc.get path.dropLast with
  | .error e => .error e
  | .ok none => .ok false
  | .ok (some parent) => .ok (parent.hasChild (lastKey path))

end ModuleCollection

/-! ## The store (`store.js`): data -/

/-- The object built by `makeLocalContext(store, namespace, path)`: its
functions and accessors close over the namespace and the path. -/
structure LocalContext where
  ns : Str
  path : List Str

/-- The closure `wrappedMutationHandler` pushed by `registerMutation`. -/
structure WrappedMutation where
  handler : MutationFn
  localCtx : LocalContext

/-- The closure `wrappedActionHandler` pushed by `registerAction`. -/
structure WrappedAction where
  handler : ActionFn
  localCtx : LocalContext

/-- The closure `wrappedGetter` stored by `registerGetter`. -/
structure WrappedGetter where
  rawGetter : GetterFn
  localCtx : LocalContext

/-- A change of the subscriber list made by a subscriber while it runs:
a call of an unsubscribe function, or a call of `subscribe` with a new
function that does nothing. -/
inductive SubOp where
  | unsubscribe (id : Nat)
  | subscribe (id : Nat) (prepend : Bool)

/-- What a subscriber did. -/
structure SubResult where
  ops : List SubOp
  raised : Option JsError

/-- A function passed to `subscribe`.  The identity of the function
object (what `indexOf` compares) is `id`. -/
structure Subscriber where
  id : Nat
  run : Mutation → JVal → SubResult

/-- An object passed to `subscribeAction`.  The callbacks are observers:
they read the action and the state, do not call back into the store, and
each returns the error it throws, if any. -/
structure ActionSubscriber where
  id : Nat
  before : Option (Mutation → JVal → Option JsError)
  after : Option (Mutation → JVal → Option JsError)
  error : Option (Mutation → JVal → JsError → Option JsError)

/-- The third argument of `commit` and `dispatch`. -/
structure Options where
  root : Bool
  silent : Bool

/-- The Vue instance `store._vm`: the hosted state `_data.$$state` and
the computed properties, one per derived value. -/
structure VM where
  state : JVal
  computed : List (Str × WrappedGetter)

/-- The class `Store`.  The namespace map holds the path of the module
(the source holds a reference to it); `getters` holds the keys of the
object `store.getters`, each an accessor reading `store._vm[key]`. -/
structure Store where
  _committing : Bool
  _actions : List (Str × List WrappedAction)
  _actionSubscribers : List ActionSubscriber
  _mutations : List (Str × List WrappedMutation)
  _wrappedGetters : List (Str × WrappedGetter)
  _modules : ModuleCollection
  _modulesNamespaceMap : List (Str × List Str)
  _subscribers : List Subscriber
  _makeLocalGettersCache : List (Str × List (Str × Str))
  strict : Bool
  getters : List Str
  _vm : VM

/-- The accessor `get state ()`: `this._vm._data.$$state`. -/
def Store.state (s : Store) : JVal :=
  s._vm.state

/-- The store after the assignment `this._committing = b`. -/
def Store.setCommitting (s : Store) (b : Bool) : Store :=
  { s with _committing := b }

/-- The store after its subscriber array has been changed into `subs`. -/
def Store.setSubscribers (s : Store) (subs : List Subscriber) : Store :=
  { s with _subscribers := subs }

/-- The store after the hosted state object has been mutated in place (or
replaced) so that it reads `state`. -/
def Store.setState (s : Store) (state : JVal) : Store :=
  { s with _vm := { s._vm with state := state } }

/-- What an observer outside the store can see. -/
inductive Event where
  | diag (d : Diagnostic)
  | mutationHandler (h : WrappedMutation) (payload : JVal)
  | actionHandler (h : WrappedAction) (payload : JVal)
  | subscriber (id : Nat) (mutation : Mutation) (state : JVal)
  | actionSubscriber (hook : Hook) (id : Nat) (action : Mutation) (state : JVal)
      (error : Option JsError)

/-! ## Running code against the store -/

/-- The result of running a piece of the source: what it returned or
threw, the store afterwards, and what it made observable. -/
structure Res (α : Type) where
  result : Except JsError α
  store : Store
  trace : List Event

/-- A piece of the source that reads and writes the store. -/
def M (α : Type) : Type := Store → Res α

namespace M

def pure {α : Type} (a : α) : M α :=
  fun s => ⟨.ok a, s, []⟩

def bind {α β : Type} (x : M α) (f : α → M β) : M β :=
  fun s =>
    let r := x s
    match r.result with
    | .error e => ⟨.error e, r.store, r.trace⟩
    | .ok a =>
      let r2 := f a r.store
      ⟨r2.result, r2.store, r.trace ++ r2.trace⟩

instance : Monad M where
  pure := M.pure
  bind := M.bind

end M

/-- Read the store. -/
def getStore : M Store :=
  fun s => ⟨.ok s, s, []⟩

/-- Write the store. -/
def modifyStore (f : Store → Store) : M Unit :=
  fun s => ⟨.ok (), f s, []⟩

/-- Make something observable. -/
def emit (e : Event) : M Unit :=
  fun s => ⟨.ok (), s, [e]⟩

/-- The statement `throw e`. -/
def throwJs {α : Type} (e : JsError) : M α :=
  fun s => ⟨.error e, s, []⟩

/-- Run a computation that does not touch the store. -/
def liftExcept {α : Type} (x : Except JsError α) : M α :=
  fun s => ⟨x, s, []⟩

/-- The statement `try { body } catch (e) { handler(e) }`. -/
def tryCatch (body : M Unit) (handler : JsError → M Unit) : M Unit :=
  fun s =>
    let r := body s
    match r.result with
    | .ok _ => r
    | .error e =>
      let r2 := handler e r.store
      ⟨r2.result, r2.store, r.trace ++ r2.trace⟩

/-- The method `forEach` of arrays. -/
def forEach {α : Type} : List α → (α → M Unit) → M Unit
  | [], _ => pure ()
  | a :: rest, f => do f a; forEach rest f

/-- The method `map` of arrays, with a callback that runs against the store. -/
def mapEach {α β : Type} : List α → (α → M β) → M (List β)
  | [], _ => pure []
  | a :: rest, f => do
    let b ← f a
    let bs ← mapEach rest f
    pure (b :: bs)

/-- A statement `if (c) { body }` followed by further statements. -/
def doWhen (c : Bool) (body : M Unit) : M Unit :=
  if c then body else pure ()

/-- A console message, written only in the diagnostics build. -/
def warn (d : Diagnostic) : M Unit :=
  if __DEV__ then emit (.diag d) else pure ()

/-! ## The store: subscriptions, commit -/

/-- The method `_withCommit`. -/
def _withCommit (fn : M Unit) : M Unit := do
  let committing := (← getStore)._committing
  modifyStore (fun s => s.setCommitting true)
  fn
  modifyStore (fun s => s.setCommitting committing)

/-- The array method `indexOf` on function objects, which compares
identities. -/
def indexOfId {α : Type} (ident : α → Nat) : List α → Nat → Option Nat
  | [], _ => none
  | a :: rest, id => if ident a = id then some 0 else (indexOfId ident rest id).map (· + 1)

/-- The first part of `genericSubscribe(fn, subs, options)`: the list
after the call. -/
def genericSubscribe {α : Type} (ident : α → Nat) (fn : α) (subs : List α) (prepend : Bool) :
    List α :=
  if (indexOfId ident subs (ident fn)).isNone then
    (if prepend then fn :: subs else subs ++ [fn])
  else subs

/-- The function returned by `genericSubscribe`: the list after it has
been called. -/
def genericUnsubscribe {α : Type} (ident : α → Nat) (id : Nat) (subs : List α) : List α :=
  match indexOfId ident subs id with
  | some i => subs.eraseIdx i
  | none => subs

/-- The method `subscribe`. -/
def subscribe (fn : Subscriber) (prepend : Bool) : M Unit :=
  modifyStore (fun s =>
    s.setSubscribers (genericSubscribe Subscriber.id fn s._subscribers prepend))

/-- A call of the function returned by `subscribe`. -/
def unsubscribe (id : Nat) : M Unit :=
  modifyStore (fun s =>
    s.setSubscribers (genericUnsubscribe Subscriber.id id s._subscribers))

/-- The method `subscribeAction` called with an object. -/
def subscribeAction (subs : ActionSubscriber) (prepend : Bool) : M Unit :=
  modifyStore (fun s =>
    { s with _actionSubscribers :=
        genericSubscribe ActionSubscriber.id subs s._actionSubscribers prepend })

/-- A call of the function returned by `subscribeAction`. -/
def unsubscribeAction (id : Nat) : M Unit :=
  modifyStore (fun s =>
    { s with _actionSubscribers :=
        genericUnsubscribe ActionSubscriber.id id s._actionSubscribers })

/-- One change of the subscriber list made from inside a subscriber. -/
def SubOp.apply : SubOp → M Unit
  | .unsubscribe id => Vuex.unsubscribe id
  | .subscribe id prepend => Vuex.subscribe ⟨id, fun _ _ => ⟨[], none⟩⟩ prepend

/-- The call `sub(mutation, this.state)`. -/
def Subscriber.call (sub : Subscriber) (mutation : Mutation) : M Unit := do
  let state := (← getStore).state
  emit (.subscriber sub.id mutation state)
  let r := sub.run mutation state
  forEach r.ops SubOp.apply
  match r.raised with
  | none => pure ()
  | some e => throwJs e

/-- The call `handler(payload)` of a `wrappedMutationHandler`:
`handler.call(store, local.state, payload)`. -/
def WrappedMutation.call (w : WrappedMutation) (payload : JVal) : M Unit := do
  let localState ← liftExcept (getNestedState (← getStore).state w.localCtx.path)
  emit (.mutationHandler w payload)
  let r := w.handler localState payload
  modifyStore (fun s => s.setState (setNestedState s.state w.localCtx.path r.state))
  match r.raised with
  | none => pure ()
  | some e => throwJs e

/-- The method `commit`, called with a string type (`unifyObjectStyle`
then returns its arguments). -/
def commit (type : Str) (payload : JVal) (options : Option Options) : M Unit := do
  let mutation : Mutation := ⟨type, payload⟩
  match objGet (← getStore)._mutations type with
  | none => warn (.unknownMutation type)
  | some entry =>
    _withCommit (forEach entry (fun handler => handler.call payload))
    forEach (← getStore)._subscribers (fun sub => sub.call mutation)
    match options with
    | some o => if __DEV__ && o.silent then emit (.diag (.silentRemoved type)) else pure ()
    | none => pure ()

/-! ## The store: derived values -/

/-- The loop of `makeLocalGetters`: for each key `type` of the root
getters object that starts with the namespace, the proxy gets the key
`type.slice(splitPos)`, an accessor reading `store.getters[type]`. -/
def gettersProxy (keys : List Str) (ns : Str) : List (Str × Str) :=
  keys.filterMap (fun type =>
    if type.take ns.length ≠ ns then none else some (type.drop ns.length, type))

/-- The function `makeLocalGetters`. -/
def makeLocalGetters (ns : Str) : M (List (Str × Str)) := do
  let store ← getStore
  match objGet store._makeLocalGettersCache ns with
  | some cached => pure cached
  | none =>
    let proxy := gettersProxy store.getters ns
    modifyStore (fun s =>
      { s with _makeLocalGettersCache := objSet s._makeLocalGettersCache ns proxy })
    pure proxy

/-- The object returned by `makeLocalGetters`, without the write to the
cache. -/
def Store.localGettersProxy (s : Store) (ns : Str) : List (Str × Str) :=
  (objGet s._makeLocalGettersCache ns).getD (gettersProxy s.getters ns)

/-- The body of a `wrappedGetter`: `rawGetter(local.state, local.getters,
store.state, store.getters)`, where reading a key of the root getters
object is `read`.  The local getters are the root getters when the
namespace is empty and the proxy of `makeLocalGetters` otherwise. -/
def WrappedGetter.callWith (w : WrappedGetter) (s : Store) (read : GetterRead) :
    Option (Except JsError JVal) :=
  match getNestedState s.state w.localCtx.path with
  | .error e => some (.error e)
  | .ok localState =>
    w.rawGetter localState
      (if w.localCtx.ns = [] then read
       else fun k =>
        match objGet (s.localGettersProxy w.localCtx.ns) k with
        | none => some (.ok .undefined)
        | some t => read t)
      s.state read

/-- The read `store.getters[type]`: the accessor defined by `resetStoreVM`
reads the computed property of `store._vm`, which invokes the
`wrappedGetter`.  At most `fuel` nested reads. -/
def readGetter : Nat → Store → Str → Option (Except JsError JVal)
  | 0, _, _ => none
  | fuel + 1, s, type =>
    if type ∈ s.getters then
      match objGet s._vm.computed type with
      | none => some (.ok .undefined)
      | some w => w.callWith s (readGetter fuel s)
    else some (.ok .undefined)

/-- The output of a `wrappedGetter` invoked against the store, its reads
of other derived values nested at most `fuel` deep. -/
def WrappedGetter.call (w : WrappedGetter) (fuel : Nat) (s : Store) :
    Option (Except JsError JVal) :=
  w.callWith s (readGetter fuel s)

/-- Reading key `k` of a proxy returned by `makeLocalGetters`. -/
def readProxy (fuel : Nat) (s : Store) (proxy : List (Str × Str)) (k : Str) :
    Option (Except JsError JVal) :=
  match objGet proxy k with
  | none => some (.ok .undefined)
  | some type => readGetter fuel s type

/-- The object `store.getters` as user code sees it. -/
def Store.gettersView (s : Store) : GettersView :=
  ⟨s.getters, fun fuel k => readGetter fuel s k⟩

/-- The accessor `local.getters` of `makeLocalContext`. -/
def LocalContext.getters (l : LocalContext) : M GettersView := do
  if l.ns = [] then
    pure (← getStore).gettersView
  else
    let proxy ← makeLocalGetters l.ns
    let s ← getStore
    pure ⟨objKeys proxy, fun fuel k => readProxy fuel s proxy k⟩

/-! ## The store: dispatch -/

/-- The value an awaitable returned by `dispatch` resolves with: the
result of the only handler, or the array built by `Promise.all`. -/
inductive ActionValue where
  | one (v : JVal)
  | all (vs : List JVal)
  deriving DecidableEq

/-- The earliest rejection among awaitables, the first of the array on a tie. -/
def firstRejection : List (Promise JVal) → Option (Nat × JsError)
  | [] => none
  | .rejected t e :: rest =>
    match firstRejection rest with
    | some (t', e') => if t ≤ t' then some (t, e) else some (t', e')
    | none => some (t, e)
  | _ :: rest => firstRejection rest

/-- The values of awaitables that are all fulfilled, with the time at
which the last of them was. -/
def allFulfilled : List (Promise JVal) → Option (Nat × List JVal)
  | [] => some (0, [])
  | .fulfilled t v :: rest =>
    match allFulfilled rest with
    | some (t', vs) => some (max t t', v :: vs)
    | none => none
  | _ :: _ => none

/-- The function `Promise.all`: rejected as soon as one awaitable is,
fulfilled when all are. -/
def Promise.all (ps : List (Promise JVal)) : Promise ActionValue :=
  match firstRejection ps with
  | some (t, e) => .rejected t e
  | none =>
    match allFulfilled ps with
    | some (t, vs) => .fulfilled t (.all vs)
    | none => .pending

/-- The awaitable `entry[0](payload)` of a single handler, as the value
`dispatch` passes on. -/
def Promise.single : Promise JVal → Promise ActionValue
  | .pending => .pending
  | .fulfilled t v => .fulfilled t (.one v)
  | .rejected t e => .rejected t e

/-- The call `handler(payload)` of a `wrappedActionHandler`.  The result
of the handler is normalised to an awaitable by the type of `ActionFn`;
no devtool hook is attached (`store._devtoolHook` is set only by the
devtool plugin, which is not part of the sources). -/
def WrappedAction.call (w : WrappedAction) (payload : JVal) : M (Promise JVal) := do
  let getters ← w.localCtx.getters
  let state ← liftExcept (getNestedState (← getStore).state w.localCtx.path)
  let store ← getStore
  emit (.actionHandler w payload)
  liftExcept (w.handler ⟨w.localCtx.ns, getters, state, store.gettersView, store.state⟩ payload)

/-- The call `sub.before(action, this.state)`. -/
def ActionSubscriber.callBefore (sub : ActionSubscriber) (action : Mutation) : M Unit := do
  let state := (← getStore).state
  match sub.before with
  | none => throwJs .typeError
  | some f =>
    emit (.actionSubscriber .before sub.id action state none)
    match f action state with
    | none => pure ()
    | some e => throwJs e

/-- The call `sub.after(action, this.state)`. -/
def ActionSubscriber.callAfter (sub : ActionSubscriber) (action : Mutation) : M Unit := do
  let state := (← getStore).state
  match sub.after with
  | none => throwJs .typeError
  | some f =>
    emit (.actionSubscriber .after sub.id action state none)
    match f action state with
    | none => pure ()
    | some e => throwJs e

/-- The call `sub.error(action, this.state, error)`. -/
def ActionSubscriber.callError (sub : ActionSubscriber) (action : Mutation) (error : JsError) :
    M Unit := do
  let state := (← getStore).state
  match sub.error with
  | none => throwJs .typeError
  | some f =>
    emit (.actionSubscriber .error sub.id action state (some error))
    match f action state error with
    | none => pure ()
    | some e => throwJs e

/-- The awaitable returned by `dispatch`, before its reaction has run:
the action and the inner `result`. -/
structure Dispatched where
  action : Mutation
  result : Promise ActionValue

/-- The expression `entry.length > 1 ? Promise.all(entry.map(handler =>
handler(payload))) : entry[0](payload)` of `dispatch`. -/
def invokeHandlers (entry : List WrappedAction) (payload : JVal) : M (Promise ActionValue) :=
  if entry.length > 1 then do
    let ps ← mapEach entry (fun handler => handler.call payload)
    pure (Promise.all ps)
  else
    match entry.head? with
    | none => throwJs .typeError
    | some handler => do
      let p ← handler.call payload
      pure p.single

/-- The synchronous part of the method `dispatch`, called with a string
type: everything up to `return new Promise(...)`.  The result is `none`
when `dispatch` returns `undefined`. -/
def dispatch (type : Str) (payload : JVal) : M (Option Dispatched) := do
  let action : Mutation := ⟨type, payload⟩
  match objGet (← getStore)._actions type with
  | none =>
    warn (.unknownAction type)
    pure none
  | some entry =>
    tryCatch
      (do
        let subs := (← getStore)._actionSubscribers.filter (fun sub => sub.before.isSome)
        forEach subs (fun sub => sub.callBefore action))
      (fun e => warn (.subscriberError .before e))
    let result ← invokeHandlers entry payload
    pure (some ⟨action, result⟩)

/-- The reaction `result.then(...)` inside the awaitable returned by
`dispatch`, run when `result` has settled, against the store as it is
then; the value is the settlement of the returned awaitable. -/
def Dispatched.settle (d : Dispatched) : M (Promise ActionValue) :=
  match d.result with
  | .pending => pure .pending
  | .fulfilled t res => do
    tryCatch
      (do
        let subs := (← getStore)._actionSubscribers.filter (fun sub => sub.after.isSome)
        forEach subs (fun sub => sub.callAfter d.action))
      (fun e => warn (.subscriberError .after e))
    pure (.fulfilled t res)
  | .rejected t error => do
    tryCatch
      (do
        let subs := (← getStore)._actionSubscribers.filter (fun sub => sub.error.isSome)
        forEach subs (fun sub => sub.callError d.action error))
      (fun e => warn (.subscriberError .error e))
    pure (.rejected t error)

/-! ## The store: local context -/

/-- The function `makeLocalContext(store, namespace, path)`. -/
def makeLocalContext (ns : Str) (path : List Str) : LocalContext :=
  ⟨ns, path⟩

/-- Whether `!options || !options.root` fails. -/
def Options.isRoot : Option Options → Bool
  | none => false
  | some o => o.root

/-- The function `local.dispatch` of `makeLocalContext`. -/
def LocalContext.dispatch (l : LocalContext) (type : Str) (payload : JVal)
    (options : Option Options) : M (Option Dispatched) :=
  if l.ns = [] then Vuex.dispatch type payload
  else do
    if !Options.isRoot options then
      if __DEV__ && (objGet (← getStore)._actions (l.ns ++ type)).isNone then
        emit (.diag (.unknownLocalAction type (l.ns ++ type)))
        pure none
      else Vuex.dispatch (l.ns ++ type) payload
    else Vuex.dispatch type payload

/-- The function `local.commit` of `makeLocalContext`. -/
def LocalContext.commit (l : LocalContext) (type : Str) (payload : JVal)
    (options : Option Options) : M Unit :=
  if l.ns = [] then Vuex.commit type payload options
  else do
    if !Options.isRoot options then
      if __DEV__ && (objGet (← getStore)._mutations (l.ns ++ type)).isNone then
        emit (.diag (.unknownLocalMutation type (l.ns ++ type)))
      else Vuex.commit (l.ns ++ type) payload options
    else Vuex.commit type payload options

/-- The accessor `local.state` of `makeLocalContext`. -/
def LocalContext.state (l : LocalContext) : M JVal := do
  liftExcept (getNestedState (← getStore).state l.path)

/-! ## The store: installation -/

/-- The function `registerMutation`. -/
def registerMutation (type : Str) (handler : MutationFn) (localCtx : LocalContext) : M Unit :=
  modifyStore (fun s =>
    { s with _mutations :=
        objSet s._mutations type ((objGet s._mutations type).getD [] ++ [⟨handler, localCtx⟩]) })

/-- The function `registerAction`. -/
def registerAction (type : Str) (handler : ActionFn) (localCtx : LocalContext) : M Unit :=
  modifyStore (fun s =>
    { s with _actions :=
        objSet s._actions type ((objGet s._actions type).getD [] ++ [⟨handler, localCtx⟩]) })

/-- The function `registerGetter`. -/
def registerGetter (type : Str) (rawGetter : GetterFn) (localCtx : LocalContext) : M Unit := do
  if (objGet (← getStore)._wrappedGetters type).isSome then
    warn (.duplicateGetter type)
  else
    modifyStore (fun s =>
      { s with _wrappedGetters := objSet s._wrappedGetters type ⟨rawGetter, localCtx⟩ })

/-- The calls `Vue.set(parentState, moduleName, state)` of `installModule`,
preceded in the diagnostics build by the test `moduleName in parentState`.
Modelled from the spec: the reactive substrate is not part of the sources;
the node's state is grafted onto its parent's state at the key, and both
the test and the call throw on a parent that is not an object. -/
def graftState (parentPath : List Str) (moduleName : Str) (path : List Str)
    (state : JVal) : M Unit := do
  let rootState := (← getStore).state
  match getNestedState rootState parentPath with
  | .ok (.obj fields) =>
    doWhen (objHas fields moduleName) (warn (.stateOverridden moduleName path))
    modifyStore (fun s =>
      s.setState (setNestedState s.state parentPath (.obj (objSet fields moduleName state))))
  | _ => throwJs .typeError

/-- The body of `if (module.namespaced)` in `installModule`. -/
def registerNamespace (ns : Str) (path : List Str) : M Unit := do
  doWhen ((objGet (← getStore)._modulesNamespaceMap ns).isSome && __DEV__)
    (emit (.diag (.duplicateNamespace ns path)))
  modifyStore (fun s =>
    { s with _modulesNamespaceMap := objSet s._modulesNamespaceMap ns path })

/-- The body of `if (!isRoot && !hot)` in `installModule`. -/
def setModuleState (path : List Str) (state : JVal) : M Unit := do
  let _ ← liftExcept (getNestedState (← getStore).state path.dropLast)
  _withCommit (graftState path.dropLast (lastKey path) path state)

mutual
/-- The function `installModule(store, rootState, path, module, hot)`.
The argument `rootState` is the object hosted by the store, so it is read
from the store. -/
def installModule (path : List Str) (module : Module) (hot : Bool) : M Unit :=
  match module with
  | .mk runtime children raw st => do
    let isRoot := path.length == 0
    let ns ← liftExcept ((← getStore)._modules.getNamespace path)
    doWhen (Module.mk runtime children raw st).namespaced (registerNamespace ns path)
    doWhen (!isRoot && !hot) (setModuleState path st)
    let localCtx := makeLocalContext ns path
    forEach (Module.mk runtime children raw st).mutations (fun kv =>
      registerMutation (ns ++ kv.1) kv.2 localCtx)
    forEach (Module.mk runtime children raw st).actions (fun kv =>
      registerAction (if kv.2.root then kv.1 else ns ++ kv.1) kv.2.handler localCtx)
    forEach (Module.mk runtime children raw st).getters (fun kv =>
      registerGetter (ns ++ kv.1) kv.2 localCtx)
    installChildren path children hot
/-- The loop `module.forEachChild(...)` of `installModule`. -/
def installChildren (path : List Str) : List (Str × Module) → Bool → M Unit
  | [], _ => pure ()
  | (key, child) :: rest, hot => do
    installModule (path ++ [key]) child hot
    installChildren path rest hot
end

/-- The function `resetStoreVM(store, state, hot)`.  The watcher of strict
mode and the disposal of the old Vue instance belong to the reactive
substrate; writing `null` into the old instance under `_withCommit`
changes nothing the store keeps. -/
def resetStoreVM (state : JVal) (hot : Bool) : M Unit := do
  modifyStore (fun s =>
    { s with
      getters := objKeys s._wrappedGetters
      _makeLocalGettersCache := []
      _vm := ⟨state, s._wrappedGetters⟩ })
  doWhen hot (_withCommit (pure ()))

/-- The function `resetStore(store, hot)`. -/
def resetStore (hot : Bool) : M Unit := do
  modifyStore (fun s =>
    { s with _actions := [], _mutations := [], _wrappedGetters := [], _modulesNamespaceMap := [] })
  installModule [] (← getStore)._modules.root true
  resetStoreVM (← getStore).state hot

/-! ## The store: construction and lifecycle -/

/-- The fields set by the constructor before `installModule` runs.  The
Vue instance does not exist yet in the source; here it holds the root
module's state, the object that `resetStoreVM` is about to host. -/
def Store.initial (modules : ModuleCollection) (strict : Bool) : Store where
  _committing := false
  _actions := []
  _actionSubscribers := []
  _mutations := []
  _wrappedGetters := []
  _modules := modules
  _modulesNamespaceMap := []
  _subscribers := []
  _makeLocalGettersCache := []
  strict := strict
  getters := []
  _vm := ⟨modules.root.state, []⟩

/-- The constructor `new Store(options)` without plugins and without the
devtool plugin: the store, and what construction made observable. -/
def Store.new (options : RawModule) (strict : Bool) : Except JsError (Store × List Event) :=
  match ModuleCollection.new options with
  | .error e => .error e
  | .ok modules =>
    let r := (do
      installModule [] modules.root false
      resetStoreVM (← getStore).state false : M Unit) (Store.initial modules strict)
    match r.result with
    | .error e => .error e
    | .ok _ => .ok (r.store, r.trace)

/-- The method `replaceState`. -/
def replaceState (state : JVal) : M Unit :=
  _withCommit (modifyStore (fun s => s.setState state))

/-- The call `installModule(this, this.state, path, this._modules.get(path),
options.preserveState)` of `registerModule`; on `undefined` the function
throws when it reads `module.namespaced`. -/
def installFound (path : List Str) (module : Option Module) (hot : Bool) : M Unit :=
  match module with
  | none => throwJs .typeError
  | some module => installModule path module hot

/-- The method `registerModule(path, rawModule, options)` called with an
array path; `preserveState` is `options.preserveState`. -/
def registerModule (path : List Str) (rawModule : RawModule) (preserveState : Bool) :
    M Unit := do
  doWhen (__DEV__ && path.length == 0)
    (throwJs (.assertion "cannot register the root module by using registerModule.".toList))
  let modules ← liftExcept ((← getStore)._modules.register path rawModule true)
  modifyStore (fun s => { s with _modules := modules })
  installFound path (← liftExcept (modules.get path)) preserveState
  resetStoreVM (← getStore).state false

/-- The call `Vue.delete(parentState, key)` of `unregisterModule`.
Modelled from the spec: the reactive substrate is not part of the sources;
the state key is excised from its parent. -/
def deleteState (parentPath : List Str) (key : Str) : M Unit := do
  match ← liftExcept (getNestedState (← getStore).state parentPath) with
  | .obj fields =>
    modifyStore (fun s =>
      s.setState (setNestedState s.state parentPath (.obj (objDelete fields key))))
  | .undefined => throwJs .typeError
  | .null => throwJs .typeError
  | _ => pure ()

/-- The method `unregisterModule(path)` called with an array path. -/
def unregisterModule (path : List Str) : M Unit := do
  let r ← liftExcept ((← getStore)._modules.unregister path)
  modifyStore (fun s => { s with _modules := r.1 })
  forEach r.2 (fun d => emit (.diag d))
  _withCommit (deleteState path.dropLast (lastKey path))
  resetStore false

/-- The method `hasModule(path)` called with an array path. -/
def hasModule (path : List Str) : M Bool := do
  liftExcept ((← getStore)._modules.isRegistered path)

/-- The method `hotUpdate(newOptions)`. -/
def hotUpdate (newOptions : RawModule) : M Unit := do
  let r := (← getStore)._modules.update newOptions
  modifyStore (fun s => { s with _modules := r.1 })
  forEach r.2 (fun d => emit (.diag d))
  resetStore true

/-! ## Specification-side definitions and example inputs -/

/-- The outcome of a call that threw `raised`, or returned when there is
no error. -/
def resultOf (raised : Option JsError) : Except JsError Unit :=
  match raised with
  | none => .ok ()
  | some e => .error e

/-- The warning `commit` ends with when the removed option `silent` is passed. -/
def silentWarning (type : Str) (o : Option Options) : List Event :=
  match o with
  | some o => if __DEV__ && o.silent then [.diag (.silentRemoved type)] else []
  | none => []

/-- The root state after the handlers of a list have run on it in order,
each on the local state of its module. -/
def applyHandlers (entry : List WrappedMutation) (payload : JVal) (state : JVal) : JVal :=
  entry.foldl (fun st w =>
    match getNestedState st w.localCtx.path with
    | .ok localState => setNestedState st w.localCtx.path (w.handler localState payload).state
    | .error _ => st) state

/-- The subscribers that a notification loop reaches: all of them up to
and including the first that throws. -/
def untilRaise (subs : List Subscriber) (mutation : Mutation) (state : JVal) : List Subscriber :=
  match subs with
  | [] => []
  | sub :: rest =>
    if (sub.run mutation state).raised.isSome then [sub]
    else sub :: untilRaise rest mutation state

/-- A transition handler that increments the field `count`. -/
def incCount : MutationFn := fun state _ =>
  match state with
  | .obj fields =>
    match objGet fields "count".toList with
    | some (.num n) => ⟨.obj (objSet fields "count".toList (.num (n + 1))), none⟩
    | _ => ⟨state, none⟩
  | .undefined => ⟨state, some .typeError⟩
  | .null => ⟨state, some .typeError⟩
  | _ => ⟨state, none⟩

/-- The root module `{ state: { count: 0 }, mutations: { inc } }`. -/
def counterSpec : RawModule :=
  .mk (.value (.obj [("count".toList, .num 0)])) false (some [("inc".toList, incCount)])
    none none []

/-- The store built from a specification, for specifications whose
construction completes. -/
def storeOf (options : RawModule) : Store :=
  match Store.new options false with
  | .ok r => r.1
  | .error _ => Store.initial ⟨Module.new options false⟩ false

/-- The store `new Store(counterSpec)`. -/
def counterStore : Store :=
  storeOf counterSpec

/-- The namespace of a path in the words of the specification: the
concatenation, root to node, of `key + '/'` for the keys of the path
whose module declares `namespaced`. -/
def specNamespace (mc : ModuleCollection) (path : List Str) : Str :=
  (path.inits.tail.map (fun q =>
    match mc.get q with
    | .ok (some m) => if m.namespaced then lastKey q ++ ['/'] else []
    | _ => [])).flatten


/-- A subscriber that does nothing. -/
def quietSubscriber (id : Nat) : Subscriber :=
  ⟨id, fun _ _ => ⟨[], none⟩⟩

/-- The store `counterStore` after `subscribe` has been called with one
quiet function. -/
def counterStoreSubscribed : Store :=
  (subscribe (quietSubscriber 7) false counterStore).store

/-- A transition handler that leaves the state alone. -/
def keepState : MutationFn := fun state _ => ⟨state, none⟩

/-- The specification of a namespaced module `B` with one transition. -/
def specB : RawModule :=
  .mk .absent true (some [("mb".toList, keepState)]) none none []

/-- The specification of a module that is not namespaced, with one
transition and the nested module `B`. -/
def specC : RawModule :=
  .mk .absent false (some [("mc".toList, keepState)]) none none [("B".toList, specB)]

/-- The specification of a namespaced module `A` with one transition and
the nested module `c`. -/
def specA : RawModule :=
  .mk .absent true (some [("ma".toList, keepState)]) none none [("c".toList, specC)]

/-- A root specification with the nested modules `A`, `A.c` and `A.c.B`. -/
def nestedSpec : RawModule :=
  .mk .absent false none none none [("A".toList, specA)]

/-- The store `new Store(nestedSpec)`. -/
def nestedStore : Store :=
  storeOf nestedSpec

/-- A derived-value handler that returns the number `n`. -/
def constGetter (n : Int) : GetterFn := fun _ _ _ _ => some (.ok (.num n))

/-- The specification of a module that is not namespaced and declares the
derived value `x`. -/
def dupChildSpec : RawModule :=
  .mk .absent false none none (some [("x".toList, constGetter 2)]) []

/-- A root specification that declares the derived value `x` and nests a
module, not namespaced, that declares `x` too. -/
def dupSpec : RawModule :=
  .mk .absent false none none (some [("x".toList, constGetter 1)]) [("c".toList, dupChildSpec)]

/-- The store `new Store(dupSpec)`. -/
def dupStore : Store :=
  storeOf dupSpec

/-- A derived-value handler that returns the field `items` of the local state. -/
def itemsGetter : GetterFn := fun state _ _ _ =>
  match state.getProp "items".toList with
  | .ok v => some (.ok v)
  | .error e => some (.error e)

/-- A transition handler that sets the field `items` to the payload. -/
def setItems : MutationFn := fun state payload =>
  match state with
  | .obj fields => ⟨.obj (objSet fields "items".toList payload), none⟩
  | .undefined => ⟨state, some .typeError⟩
  | .null => ⟨state, some .typeError⟩
  | _ => ⟨state, none⟩

/-- An action handler that resolves with the value of `getters.total` it
reads from its context. -/
def readTotal : ActionFn := fun context _ =>
  match context.getters.read 2 "total".toList with
  | some (.ok v) => .ok (.fulfilled 0 v)
  | some (.error e) => .error e
  | none => .ok .pending

/-- The specification of the namespaced module `cart` with the derived
value `total`. -/
def cartModuleSpec : RawModule :=
  .mk (.value (.obj [("items".toList, .num 3)])) true
    (some [("set".toList, setItems)])
    (some [("checkout".toList, .fn readTotal)])
    (some [("total".toList, itemsGetter)]) []

/-- A root specification with the namespaced child `cart`. -/
def cartSpec : RawModule :=
  .mk .absent false none none none [("cart".toList, cartModuleSpec)]

/-- The store `new Store(cartSpec)`. -/
def cartStore : Store :=
  storeOf cartSpec

/-- The local context of the module `cart` of `cartStore`. -/
def cartContext : LocalContext :=
  makeLocalContext "cart/".toList ["cart".toList]

/-- The store `cartStore` after the local getters of `cart` have been read
once, so that the cache holds their proxy. -/
def cartStoreCached : Store :=
  (makeLocalGetters "cart/".toList cartStore).store

/-- A new specification for `cartSpec` in which the derived value `total`
of `cart` returns 7. -/
def cartUpdate : RawModule :=
  .mk .absent false none none none
    [("cart".toList, .mk .absent true none none (some [("total".toList, constGetter 7)]) [])]

/-- The elements that a loop reaches when a call on an element may throw:
all of them up to and including the first that throws. -/
def takeUntilRaise {α : Type} (raises : α → Option JsError) : List α → List α
  | [] => []
  | a :: rest => if (raises a).isSome then [a] else a :: takeUntilRaise raises rest

/-- The error the `before` callback of an action subscriber throws, if any. -/
def beforeRaises (action : Mutation) (state : JVal) (sub : ActionSubscriber) :
    Option JsError :=
  match sub.before with
  | some f => f action state
  | none => some .typeError

/-- The error the `after` callback of an action subscriber throws, if any. -/
def afterRaises (action : Mutation) (state : JVal) (sub : ActionSubscriber) :
    Option JsError :=
  match sub.after with
  | some f => f action state
  | none => some .typeError

/-- The error the `error` callback of an action subscriber throws, if any. -/
def errorRaises (action : Mutation) (state : JVal) (error : JsError)
    (sub : ActionSubscriber) : Option JsError :=
  match sub.error with
  | some f => f action state error
  | none => some .typeError

/-- What one notification round of action subscribers makes observable:
the callbacks reached, then the report of the error when one threw. -/
def hookTrace (hook : Hook) (raises : ActionSubscriber → Option JsError)
    (subs : List ActionSubscriber) (action : Mutation) (state : JVal)
    (error : Option JsError) : List Event :=
  (takeUntilRaise raises subs).map
      (fun sub => Event.actionSubscriber hook sub.id action state error) ++
    match subs.findSome? raises with
    | none => []
    | some e => if __DEV__ then [.diag (.subscriberError hook e)] else []

/-- The subscribers of a store that have a `before` callback. -/
def Store.beforeSubscribers (s : Store) : List ActionSubscriber :=
  s._actionSubscribers.filter (fun sub => sub.before.isSome)

/-- The subscribers of a store that have an `after` callback. -/
def Store.afterSubscribers (s : Store) : List ActionSubscriber :=
  s._actionSubscribers.filter (fun sub => sub.after.isSome)

/-- The subscribers of a store that have an `error` callback. -/
def Store.errorSubscribers (s : Store) : List ActionSubscriber :=
  s._actionSubscribers.filter (fun sub => sub.error.isSome)

/-- The store after its array of action subscribers has been changed. -/
def Store.setActionSubscribers (s : Store) (subs : List ActionSubscriber) : Store :=
  { s with _actionSubscribers := subs }

/-- The value `dispatch` returns, from the result of its handlers. -/
def dispatched (action : Mutation) (r : Except JsError (Promise ActionValue)) :
    Except JsError (Option Dispatched) :=
  match r with
  | .ok result => .ok (some ⟨action, result⟩)
  | .error e => .error e

/-- The identities of the subscribers notified in a trace, in order. -/
def notifiedIds : List Event → List Nat
  | [] => []
  | .subscriber id _ _ :: rest => id :: notifiedIds rest
  | _ :: rest => notifiedIds rest

/-- The identities of the action subscribers whose callback `hook` was
called in a trace, in order. -/
def hookIds (hook : Hook) : List Event → List Nat
  | [] => []
  | .actionSubscriber h id _ _ _ :: rest =>
    if h = hook then id :: hookIds hook rest else hookIds hook rest
  | _ :: rest => hookIds hook rest

/-- An action handler whose awaitable is rejected at time `t` with the
number `n`. -/
def rejectWith (t : Nat) (n : Int) : ActionFn :=
  fun _ _ => .ok (.rejected t (.thrown (.num n)))

/-- An action handler whose awaitable is fulfilled at time `t` with the
number `n`. -/
def resolveWith (t : Nat) (n : Int) : ActionFn :=
  fun _ _ => .ok (.fulfilled t (.num n))

/-- A root specification with the action `a`, and a nested module, not
namespaced, that declares `a` too: two handlers for one type. -/
def twoHandlersSpec (first second : ActionFn) : RawModule :=
  .mk .absent false none (some [("a".toList, .fn first)]) none
    [("m".toList, .mk .absent false none (some [("a".toList, .fn second)]) none [])]

/-- An action subscriber whose callbacks all return. -/
def quietActionSubscriber (id : Nat) : ActionSubscriber :=
  ⟨id, some (fun _ _ => none), some (fun _ _ => none), some (fun _ _ _ => none)⟩

/-- An action subscriber whose `before` callback throws. -/
def failingActionSubscriber (id : Nat) : ActionSubscriber :=
  ⟨id, some (fun _ _ => some (.thrown (.str "boom".toList))), none, none⟩

/-- A subscriber that throws. -/
def failingSubscriber (id : Nat) : Subscriber :=
  ⟨id, fun _ _ => ⟨[], some (.thrown (.str "boom".toList))⟩⟩

/-- A store with two handlers for the action `a`, both rejecting, and one
quiet action subscriber. -/
def bothFailStore : Store :=
  (storeOf (twoHandlersSpec (rejectWith 1 10) (rejectWith 2 20))).setActionSubscribers
    [quietActionSubscriber 9]

/-- A store with two handlers for the action `a`, both resolving, and two
action subscribers of which the first throws in `before`. -/
def beforeFailStore : Store :=
  (storeOf (twoHandlersSpec (resolveWith 1 10) (resolveWith 2 20))).setActionSubscribers
    [failingActionSubscriber 1, quietActionSubscriber 2]

/-- The store `counterStore` with two subscribers of which the first throws. -/
def commitFailStore : Store :=
  counterStore.setSubscribers [failingSubscriber 1, quietSubscriber 2]

/-! ## Predicates used in the statements -/

/-- The wrapped handler `w` is in the transition registry under `type`. -/
def MutRegistered (s : Store) (type : Str) (w : WrappedMutation) : Prop :=
  ∃ entry, objGet s._mutations type = some entry ∧ w ∈ entry

/-- The wrapped handler `w` is in the action registry under `type`. -/
def ActRegistered (s : Store) (type : Str) (w : WrappedAction) : Prop :=
  ∃ entry, objGet s._actions type = some entry ∧ w ∈ entry

/-- The registries of `s'` extend those of `s`: the module tree is the
same, every registered transition and action handler is still registered
under its type, and every derived-value type keeps its handler. -/
structure Grows (s s' : Store) : Prop where
  modules : s'._modules = s._modules
  mutations : ∀ t w, MutRegistered s t w → MutRegistered s' t w
  actions : ∀ t w, ActRegistered s t w → ActRegistered s' t w
  getters : ∀ t w, objGet s._wrappedGetters t = some w → objGet s'._wrappedGetters t = some w

/-- The handlers of module `m`, installed at `path` with namespace `ns`,
are in the registries of `s` under their qualified types: each transition
handler under `ns + key`; each action handler under `key` when declared
with `root: true` and under `ns + key` otherwise; each derived-value
handler under `ns + key`, unless that type was already taken, which the
trace `tr` then reports as a duplicate. -/
def Installed (s : Store) (tr : List Event) (ns : Str) (path : List Str) (m : Module) : Prop :=
  (∀ kv ∈ m.mutations, MutRegistered s (ns ++ kv.1) ⟨kv.2, ⟨ns, path⟩⟩) ∧
  (∀ kv ∈ m.actions,
    ActRegistered s (if kv.2.root then kv.1 else ns ++ kv.1) ⟨kv.2.handler, ⟨ns, path⟩⟩) ∧
  (∀ kv ∈ m.getters, ∃ w, objGet s._wrappedGetters (ns ++ kv.1) = some w ∧
    (w = ⟨kv.2, ⟨ns, path⟩⟩ ∨ Event.diag (.duplicateGetter (ns ++ kv.1)) ∈ tr))

/-- The first of two optional values that is present. -/
def firstOf {α : Type} (a b : Option α) : Option α :=
  match a with
  | some x => some x
  | none => b

mutual
/-- The derived values declared in the subtree of `module` at `path`, in
installation order (a parent before its children, children in their
order of enumeration), each under its qualified type `ns + key` with
`ns = getNamespace(path)`. -/
def declaredGetters (mc : ModuleCollection) (path : List Str) :
    Module → List (Str × WrappedGetter)
  | .mk runtime children raw st =>
    (match mc.getNamespace path with
     | .ok ns =>
       (Module.mk runtime children raw st).getters.map
         (fun kv => (ns ++ kv.1, (⟨kv.2, ⟨ns, path⟩⟩ : WrappedGetter)))
     | .error _ => []) ++ declaredGettersOfChildren mc path children
/-- The derived values declared in the subtrees of a list of children. -/
def declaredGettersOfChildren (mc : ModuleCollection) (path : List Str) :
    List (Str × Module) → List (Str × WrappedGetter)
  | [] => []
  | (key, child) :: rest =>
    declaredGetters mc (path ++ [key]) child ++ declaredGettersOfChildren mc path rest
end

/-- The registry of derived values of `s'` is that of `s` extended, first
registration wins, by the declarations `decls`; the module tree is the
same. -/
def GettersExtend (s s' : Store) (decls : List (Str × WrappedGetter)) : Prop :=
  s'._modules = s._modules ∧
  ∀ t, objGet s'._wrappedGetters t = firstOf (objGet s._wrappedGetters t) (objGet decls t)

/-- Whenever `m` run from `s` returns normally, the value, the store and
the trace satisfy `Q`. -/
def Post {α : Type} (m : M α) (s : Store) (Q : α → Store → List Event → Prop) : Prop :=
  ∀ a, (m s).result = .ok a → Q a (m s).store (m s).trace

/-- Every proxy in the cache of local getters is the one `makeLocalGetters`
would build now from the keys of the root getters object. -/
def CacheFresh (s : Store) : Prop :=
  ∀ ns proxy, objGet s._makeLocalGettersCache ns = some proxy →
    proxy = gettersProxy s.getters ns

/-- The object `store.getters` and the computed properties of `store._vm`
are those built from the registry of wrapped getters. -/
def VMSynced (s : Store) : Prop :=
  s.getters = objKeys s._wrappedGetters ∧ s._vm.computed = s._wrappedGetters

/-- A call from outside the store, or from user code holding a local
context. -/
inductive Call where
  | commit (type : Str) (payload : JVal) (options : Option Options)
  | dispatch (type : Str) (payload : JVal)
  | settle (d : Dispatched)
  | subscribe (fn : Subscriber) (prepend : Bool)
  | unsubscribe (id : Nat)
  | subscribeAction (subs : ActionSubscriber) (prepend : Bool)
  | unsubscribeAction (id : Nat)
  | replaceState (state : JVal)
  | registerModule (path : List Str) (rawModule : RawModule) (preserveState : Bool)
  | unregisterModule (path : List Str)
  | hotUpdate (newOptions : RawModule)
  | localCommit (l : LocalContext) (type : Str) (payload : JVal) (options : Option Options)
  | localDispatch (l : LocalContext) (type : Str) (payload : JVal) (options : Option Options)
  | localGetters (l : LocalContext)

/-- The store after a call has returned or thrown. -/
def Call.run : Call → Store → Store
  | .commit type payload options, s => (Vuex.commit type payload options s).store
  | .dispatch type payload, s => (Vuex.dispatch type payload s).store
  | .settle d, s => (d.settle s).store
  | .subscribe fn prepend, s => (Vuex.subscribe fn prepend s).store
  | .unsubscribe id, s => (Vuex.unsubscribe id s).store
  | .subscribeAction subs prepend, s => (Vuex.subscribeAction subs prepend s).store
  | .unsubscribeAction id, s => (Vuex.unsubscribeAction id s).store
  | .replaceState state, s => (Vuex.replaceState state s).store
  | .registerModule path rawModule preserveState, s =>
    (Vuex.registerModule path rawModule preserveState s).store
  | .unregisterModule path, s => (Vuex.unregisterModule path s).store
  | .hotUpdate newOptions, s => (Vuex.hotUpdate newOptions s).store
  | .localCommit l type payload options, s => (l.commit type payload options s).store
  | .localDispatch l type payload options, s => (l.dispatch type payload options s).store
  | .localGetters l, s => (l.getters s).store

/-- The stores that exist: a store as constructed, and the store after
any call on a store that exists. -/
inductive Reachable : Store → Prop where
  | new {options : RawModule} {strict : Bool} {s : Store} {tr : List Event} :
      Store.new options strict = .ok (s, tr) → Reachable s
  | call {s : Store} (c : Call) : Reachable s → Reachable (c.run s)

/-- Running `m` keeps the property `I` of the store, whether `m` returns
or throws. -/
def Keeps {α : Type} (m : M α) (I : Store → Prop) : Prop :=
  ∀ s, I s → I (m s).store

/-- The property `I` only depends on the cache of local getters and on
the keys of the root getters object. -/
def GettersOnly (I : Store → Prop) : Prop :=
  ∀ s s', s'._makeLocalGettersCache = s._makeLocalGettersCache → s'.getters = s.getters →
    I s → I s'

/-! ## Definitions for the claims on notification snapshots and the module tree -/

/-- The subscriber notifications in a trace, in order: the identity of
the subscriber and the two arguments it was called with. -/
def notified : List Event → List (Nat × Mutation × JVal)
  | [] => []
  | .subscriber id m st :: rest => (id, m, st) :: notified rest
  | _ :: rest => notified rest

/-- A subscriber that changes the subscriber list while it is notified. -/
def editingSubscriber (id : Nat) (ops : List SubOp) : Subscriber :=
  ⟨id, fun _ _ => ⟨ops, none⟩⟩

/-- The store `counterStore` with three subscribers, of which the first
calls its own unsubscribe function and that of the second, and subscribes
a new function. -/
def snapshotStore : Store :=
  counterStore.setSubscribers
    [editingSubscriber 1 [.unsubscribe 1, .unsubscribe 2, .subscribe 5 false],
     quietSubscriber 2, quietSubscriber 3]

/-! ## Validation of module specifications (`assertRawModule`) -/

/-- A JavaScript value found where a handler is expected, as far as the
validation looks at it: a function, an object with a boolean field `root`
and a field `handler` (`undefined` when the object has none), `null`,
`undefined`, a boolean or a number. -/
inductive Untyped (α : Type) where
  | function (f : α)
  | object (root : Bool) (handler : Untyped α)
  | null
  | undefined
  | boolean (b : Bool)
  | number (n : Int)

namespace Untyped

/-- The test `typeof value === 'function'`. -/
def isFunction {α : Type} : Untyped α → Bool
  | .function _ => true
  | _ => false

/-- The callable, when the value is one. -/
def asFunction {α : Type} : Untyped α → Option α
  | .function f => some f
  | _ => none

/-- The text `JSON.stringify(value)` as it appears in a template literal:
functions and `undefined` are not serialisable, and fields holding them
are left out of an object. -/
def stringify {α : Type} : Untyped α → Str
  | .function _ => "undefined".toList
  | .object root (.function _) => "\x7b\"root\":".toList ++ (toString root).toList ++ ['}']
  | .object root .undefined => "\x7b\"root\":".toList ++ (toString root).toList ++ ['}']
  | .object root handler =>
    "\x7b\"root\":".toList ++ (toString root).toList ++ ",\"handler\":".toList ++
      stringify handler ++ ['}']
  | .null => "null".toList
  | .undefined => "undefined".toList
  | .boolean b => (toString b).toList
  | .number n => (toString n).toList

end Untyped

/-- The entry of `actions` that the store reads from a value that passed
the validation. -/
def Untyped.asAction : Untyped ActionFn → Option ActionEntry
  | .function f => some (.fn f)
  | .object root (.function h) => some (.withOptions root h)
  | _ => none

/-- A module specification before validation: the entries of its handler
maps are arbitrary values. -/
inductive UntypedModule where
  | mk (state : RawState) (namespaced : Bool)
      (mutations : Option (List (Str × Untyped MutationFn)))
      (actions : Option (List (Str × Untyped ActionFn)))
      (getters : Option (List (Str × Untyped GetterFn)))
      (modules : List (Str × UntypedModule))

mutual
/-- The specification as the store reads it once it has been validated:
the entries that are handlers, with their types. -/
def UntypedModule.typed : UntypedModule → RawModule
  | .mk st ns ms as gs modules =>
    .mk st ns
      (ms.map (List.filterMap (fun kv => kv.2.asFunction.map (fun f => (kv.1, f)))))
      (as.map (List.filterMap (fun kv => kv.2.asAction.map (fun f => (kv.1, f)))))
      (gs.map (List.filterMap (fun kv => kv.2.asFunction.map (fun f => (kv.1, f)))))
      (UntypedModule.typedModules modules)
/-- The nested specifications, read the same way. -/
def UntypedModule.typedModules : List (Str × UntypedModule) → List (Str × RawModule)
  | [] => []
  | (key, child) :: rest => (key, child.typed) :: UntypedModule.typedModules rest
end

/-- The helper `assert(condition, msg)` of `util.js`.  Modelled from the
spec: the helper is not part of the sources; a violated condition fails
with an error that carries the message. -/
def assert (condition : Bool) (msg : Str) : Except JsError Unit :=
  if condition then .ok () else .error (.assertion msg)

/-- The test `functionAssert.assert`. -/
def functionAssert {α : Type} (value : Untyped α) : Except JsError Bool :=
  .ok value.isFunction

/-- The test `objectAssert.assert`: `typeof value === 'function' ||
(typeof value === 'object' && typeof value.handler === 'function')`.
The type of `null` is `'object'`, and reading a field of `null` throws. -/
def objectAssert {α : Type} (value : Untyped α) : Except JsError Bool :=
  match value with
  | .function _ => .ok true
  | .object _ handler => .ok handler.isFunction
  | .null => .error .typeError
  | _ => .ok false

/-- The function `makeAssertionMessage`. -/
def makeAssertionMessage {α : Type} (path : List Str) (key type : Str) (value : Untyped α)
    (expected : Str) : Str :=
  let buf := key ++ " should be ".toList ++ expected ++ " but \"".toList ++ key ++ ['.'] ++
    type ++ ['"']
  let buf := if path.length > 0 then
      buf ++ " in module \"".toList ++ List.intercalate ['.'] path ++ ['"']
    else buf
  buf ++ " is ".toList ++ value.stringify ++ ['.']

/-- The loop `forEachValue(rawModule[key], (value, type) => assert(...))`
of `assertRawModule` for one of the keys of `assertTypes`. -/
def assertEntries {α : Type} (check : Untyped α → Except JsError Bool) (expected : Str)
    (path : List Str) (key : Str) : List (Str × Untyped α) → Except JsError Unit
  | [] => .ok ()
  | (type, value) :: rest =>
    match check value with
    | .error e => .error e
    | .ok ok =>
      match assert ok (makeAssertionMessage path key type value expected) with
      | .error e => .error e
      | .ok _ => assertEntries check expected path key rest

/-- The function `assertRawModule`: the keys of `assertTypes` in their
order, each skipped when the specification has no such map. -/
def assertRawModule (path : List Str) (rawModule : UntypedModule) : Except JsError Unit :=
  match rawModule with
  | .mk _ _ mutations actions getters _ =>
    match assertEntries functionAssert "function".toList path "getters".toList
        (getters.getD []) with
    | .error e => .error e
    | .ok _ =>
      match assertEntries functionAssert "function".toList path "mutations".toList
          (mutations.getD []) with
      | .error e => .error e
      | .ok _ =>
        assertEntries objectAssert "function or object with \"handler\" function".toList path
          "actions".toList (actions.getD [])

mutual
/-- The method `register` with its validation, called with a
specification that has not been validated.  A failure leaves the modules
attached so far in the tree; the result is then the error alone. -/
def ModuleCollection.registerChecked (mc : ModuleCollection) (path : List Str)
    (rawModule : UntypedModule) (runtime : Bool) : Except JsError ModuleCollection :=
  match rawModule with
  | .mk st ns ms as gs modules =>
    match (if __DEV__ then assertRawModule path (.mk st ns ms as gs modules) else .ok ()) with
    | .error e => .error e
    | .ok _ =>
      let newModule := Module.new (UntypedModule.mk st ns ms as gs modules).typed runtime
      let attached : Except JsError ModuleCollection :=
        if path.length = 0 then .ok ⟨newModule⟩
        else
          match mc.get path.dropLast with
          | .error e => .error e
          | .ok none => .error .typeError
          | .ok (some _) =>
            .ok ⟨mc.root.modifyAt path.dropLast
              (fun parent => parent.addChild (lastKey path) newModule)⟩
      match attached with
      | .error e => .error e
      | .ok mc1 => ModuleCollection.registerCheckedNested mc1 path modules runtime
/-- The loop over `rawModule.modules` of `register`. -/
def ModuleCollection.registerCheckedNested (mc : ModuleCollection) (path : List Str) :
    List (Str × UntypedModule) → Bool → Except JsError ModuleCollection
  | [], _ => .ok mc
  | (key, rawChildModule) :: rest, runtime =>
    match ModuleCollection.registerChecked mc (path ++ [key]) rawChildModule runtime with
    | .error e => .error e
    | .ok mc1 => ModuleCollection.registerCheckedNested mc1 path rest runtime
end

/-- A specification whose only entry is the action `a` with the given value. -/
def actionSpec (value : Untyped ActionFn) : UntypedModule :=
  .mk .absent false none (some [("a".toList, value)]) none []

/-- A specification whose only entry is the derived value `x` with the
given value. -/
def getterSpec (value : Untyped GetterFn) : UntypedModule :=
  .mk .absent false none none (some [("x".toList, value)]) []

/-- A specification without entries that nests the module `n`. -/
def nestingSpec (child : UntypedModule) : UntypedModule :=
  .mk .absent false none none none [("n".toList, child)]

/-! ## Specification-side view of registration -/

/-- The value of the `state` field of a specification node, a factory
being called; `undefined` when the node has none. -/
def RawModule.supplied (raw : RawModule) : JVal :=
  match raw.state with
  | .absent => .undefined
  | .value v => v
  | .factory r => r

/-- The node of a specification reached by following the entries of the
nested `modules` maps along a chain of keys. -/
def RawModule.nodeAt : RawModule → List Str → Option RawModule
  | raw, [] => some raw
  | raw, k :: rest =>
    match objGet raw.modules k with
    | none => none
    | some child => child.nodeAt rest

mutual
/-- Whether the keys of every `modules` map of a specification are
distinct, as the keys of an object are. -/
def RawModule.keysDistinct : RawModule → Bool
  | .mk _ _ _ _ _ modules =>
    decide (objKeys modules).Nodup && RawModule.keysDistinctIn modules
/-- Whether all the specifications of a list have distinct keys in every
`modules` map. -/
def RawModule.keysDistinctIn : List (Str × RawModule) → Bool
  | [] => true
  | (_, child) :: rest => child.keysDistinct && RawModule.keysDistinctIn rest
end

/-- A module with its children replaced. -/
def Module.withChildren (m : Module) (children : List (Str × Module)) : Module :=
  .mk m.runtime children m._rawModule m.state

mutual
/-- In the words of the specification: the module a specification node
yields, with the modules of its nested entries attached under their keys,
all with the same `runtime` flag. -/
def buildModule (runtime : Bool) : RawModule → Module
  | .mk st ns ms as gs modules =>
    (Module.new (.mk st ns ms as gs modules) runtime).withChildren
      (buildChildren runtime modules [])
/-- The children map after the modules of a list of nested entries have
been attached to it in order. -/
def buildChildren (runtime : Bool) :
    List (Str × RawModule) → List (Str × Module) → List (Str × Module)
  | [], acc => acc
  | (key, child) :: rest, acc =>
    buildChildren runtime rest (objSet acc key (buildModule runtime child))
end

/-- The tree after a module has been put at `path`: as the root when the
path is empty, under the last key of the path in its parent otherwise. -/
def ModuleCollection.attach (mc : ModuleCollection) (path : List Str) (module : Module) :
    ModuleCollection :=
  if path = [] then ⟨module⟩
  else ⟨mc.root.modifyAt path.dropLast (fun parent => parent.addChild (lastKey path) module)⟩

/-- The store after `resetStoreVM(store, store.state)`. -/
def Store.resetVM (s : Store) : Store :=
  { s with
    getters := objKeys s._wrappedGetters
    _makeLocalGettersCache := []
    _vm := ⟨s.state, s._wrappedGetters⟩ }

/-- The store with another module tree. -/
def Store.setModules (s : Store) (modules : ModuleCollection) : Store :=
  { s with _modules := modules }

/-- The state of the module found at `path ++ chain` after
`register(path, spec, runtime)`. -/
def stateAfterRegister (mc : ModuleCollection) (path : List Str) (spec : RawModule)
    (runtime : Bool) (chain : List Str) : Except JsError (Option JVal) :=
  match mc.register path spec runtime with
  | .error e => .error e
  | .ok mc' =>
    match mc'.get (path ++ chain) with
    | .error e => .error e
    | .ok m => .ok (m.map Module.state)

/-- A specification whose state is the number 0. -/
def zeroStateSpec : RawModule :=
  .mk (.value (.num 0)) false none none none []

/-- A specification whose state comes from a factory, with a nested
module that has no state and one whose state is a string. -/
def factorySpec : RawModule :=
  .mk (.factory (.obj [("n".toList, .num 1)])) false none none none
    [("u".toList, .mk .absent false none none none []),
     ("v".toList, .mk (.value (.str "on".toList)) true none none none [])]

/-! ## Specification-side view of hot update -/

mutual
/-- Whether a path is named by a specification: it follows entries of
the nested `modules` maps from the root of the specification. -/
def RawModule.names : RawModule → List Str → Bool
  | .mk _ _ _ _ _ _, [] => true
  | .mk _ _ _ _ _ modules, k :: rest => RawModule.namesIn modules k rest
/-- Whether one of the entries of a list has the key `k` and names the
rest of the path. -/
def RawModule.namesIn : List (Str × RawModule) → Str → List Str → Bool
  | [], _, _ => false
  | (key, child) :: others, k, rest =>
    (key == k && child.names rest) || RawModule.namesIn others k rest
end

/-- What hot update must not touch in a module: its `runtime` flag and
its state. -/
def Module.kept (m : Module) : Bool × JVal :=
  (m.runtime, m.state)

/-- The property `I` of a store only depends on its module tree and on
its root state. -/
def TreeAndState (I : Store → Prop) : Prop :=
  ∀ s s', s'._modules = s._modules → s'.state = s.state → I s → I s'

/-- A new specification for `cartSpec` that carries `state` fields at the
root and in `cart`, and in which the derived value `total` of `cart`
returns 7. -/
def cartUpdateWithState : RawModule :=
  .mk (.value (.obj [("fresh".toList, .bool true)])) false none none none
    [("cart".toList,
      .mk (.factory (.obj [("items".toList, .num 99)])) true none none
        (some [("total".toList, constGetter 7)]) [])]

/-- A new specification for `nestedSpec` that redefines the module `A`
as not namespaced, with the transition `m2`, and names a module `zz` that
is not registered. -/
def partialUpdate : RawModule :=
  .mk .absent false none none none
    [("A".toList, .mk .absent false (some [("m2".toList, keepState)]) none none []),
     ("zz".toList, .mk .absent true none none none [])]

/-- The entry of a `modules` map that the loop of `update` hands on to
the child `k` of the target: the loop stops at the first key that names
no child of the target. -/
def visitedIn (t : Module) : List (Str × RawModule) → Str → Option RawModule
  | [], _ => none
  | (key, child) :: others, k =>
    if (t.getChild key).isNone then none
    else if key = k then some child
    else visitedIn t others k

/-- The node of the new specification with which the walk of `update`
reaches the module at `path`, if it reaches it. -/
def visited : Module → RawModule → List Str → Option RawModule
  | _, raw, [] => some raw
  | t, raw, k :: rest =>
    match visitedIn t raw.modules k, t.getChild k with
    | some c, some child => visited child c rest
    | _, _ => none

/-- The module `new` has the definitions of the specification node
`node`, put on the module `old`: the flag of the node, each handler map
the node supplies, and the map of `old` where the node supplies none. -/
structure Redefined (old new : Module) (node : RawModule) : Prop where
  namespaced : new.namespaced = node.namespaced
  mutations : ∀ ms, node.mutations = some ms → new._rawModule.mutations = some ms
  actions : ∀ as, node.actions = some as → new._rawModule.actions = some as
  getters : ∀ gs, node.getters = some gs → new._rawModule.getters = some gs
  mutationsKept : node.mutations = none → new._rawModule.mutations = old._rawModule.mutations
  actionsKept : node.actions = none → new._rawModule.actions = old._rawModule.actions
  gettersKept : node.getters = none → new._rawModule.getters = old._rawModule.getters

/-- A new specification for `nestedSpec` that names a module `zz`, which
is not registered, before it redefines the module `A`. -/
def abortingUpdate : RawModule :=
  .mk .absent false none none none
    [("zz".toList, .mk .absent true none none none []),
     ("A".toList, .mk .absent false (some [("m2".toList, keepState)]) none none [])]

/-! ## Specification-side view of the installation of a new subtree -/

mutual
/-- In the words of the specification: the state of a module with the
states of its children grafted onto it under their keys, in their order. -/
def Module.fullState : Module → JVal
  | .mk _ children _ st => graftChildren children st
/-- A state onto which the states of a list of modules have been grafted
under their keys; only an object takes fields. -/
def graftChildren : List (Str × Module) → JVal → JVal
  | [], st => st
  | (key, child) :: rest, st =>
    match st with
    | .obj fields => graftChildren rest (.obj (objSet fields key child.fullState))
    | _ => st
end

/-- A specification with the state `{ n: 1 }` and no handlers. -/
def plainSpec : RawModule :=
  .mk (.value (.obj [("n".toList, .num 1)])) false none none none []

/-! ## Example inputs for the committing flag and the subscriber lists -/

/-- A transition handler that throws. -/
def raisingHandler : MutationFn := fun state _ =>
  ⟨state, some (.thrown (.str "bad".toList))⟩

/-- The root module `{ state: { count: 0 }, mutations: { boom, inc } }`,
whose transition `boom` throws. -/
def raisingSpec : RawModule :=
  .mk (.value (.obj [("count".toList, .num 0)])) false
    (some [("boom".toList, raisingHandler), ("inc".toList, incCount)]) none none []

/-- The store `new Store(raisingSpec)`. -/
def raisingStore : Store :=
  storeOf raisingSpec

/-- The method `subscribeAction` called with a function: the function is
wrapped in a new object `{ before: fn }`, whose identity is `wrapper`. -/
def subscribeActionFn (wrapper : Nat) (fn : Mutation → JVal → Option JsError)
    (prepend : Bool) : M Unit :=
  subscribeAction ⟨wrapper, some fn, none, none⟩ prepend

/-! ## Specification-side view of the full reset -/

/-- The four registries that `resetStore` rebuilds. -/
structure Registries where
  mutations : List (Str × List WrappedMutation)
  actions : List (Str × List WrappedAction)
  wrappedGetters : List (Str × WrappedGetter)
  namespaceMap : List (Str × List Str)

/-- The registries of a store. -/
def Store.registries (s : Store) : Registries :=
  ⟨s._mutations, s._actions, s._wrappedGetters, s._modulesNamespaceMap⟩

/-- The store after the first four assignments of `resetStore`. -/
def Store.cleared (s : Store) : Store :=
  { s with _actions := [], _mutations := [], _wrappedGetters := [], _modulesNamespaceMap := [] }

/-- The store `r` holding the module tree and the registries of `s`. -/
def Store.withInstalled (r s : Store) : Store :=
  { r with
    _modules := s._modules
    _mutations := s._mutations
    _actions := s._actions
    _wrappedGetters := s._wrappedGetters
    _modulesNamespaceMap := s._modulesNamespaceMap }

/-- In the words of the specification: the installation of a module tree
from the root into empty registries. -/
def freshInstall (mc : ModuleCollection) : Res Unit :=
  installModule [] mc.root true (Store.initial mc false)

/-- Running `m` commutes with the change `T` of the store: whatever `m`
does, it does the same after `T`, and `T` can be made afterwards. -/
def Commutes {α : Type} (T : Store → Store) (m : M α) : Prop :=
  ∀ s, m (T s) = ⟨(m s).result, T (m s).store, (m s).trace⟩

mutual
/-- The transitions declared in the subtree of `module` at `path`, in
installation order (a parent before its children, children in their order
of enumeration), each under its qualified type `ns + key`. -/
def declaredMutations (mc : ModuleCollection) (path : List Str) :
    Module → List (Str × WrappedMutation)
  | .mk runtime children raw st =>
    (match mc.getNamespace path with
     | .ok ns =>
       (Module.mk runtime children raw st).mutations.map
         (fun kv => (ns ++ kv.1, (⟨kv.2, ⟨ns, path⟩⟩ : WrappedMutation)))
     | .error _ => []) ++ declaredMutationsOfChildren mc path children
/-- The transitions declared in the subtrees of a list of children. -/
def declaredMutationsOfChildren (mc : ModuleCollection) (path : List Str) :
    List (Str × Module) → List (Str × WrappedMutation)
  | [] => []
  | (key, child) :: rest =>
    declaredMutations mc (path ++ [key]) child ++ declaredMutationsOfChildren mc path rest
end

mutual
/-- The actions declared in the subtree of `module` at `path`, in
installation order, each under `key` when it is declared with `root: true`
and under `ns + key` otherwise. -/
def declaredActions (mc : ModuleCollection) (path : List Str) :
    Module → List (Str × WrappedAction)
  | .mk runtime children raw st =>
    (match mc.getNamespace path with
     | .ok ns =>
       (Module.mk runtime children raw st).actions.map
         (fun kv => (if kv.2.root then kv.1 else ns ++ kv.1,
           (⟨kv.2.handler, ⟨ns, path⟩⟩ : WrappedAction)))
     | .error _ => []) ++ declaredActionsOfChildren mc path children
/-- The actions declared in the subtrees of a list of children. -/
def declaredActionsOfChildren (mc : ModuleCollection) (path : List Str) :
    List (Str × Module) → List (Str × WrappedAction)
  | [] => []
  | (key, child) :: rest =>
    declaredActions mc (path ++ [key]) child ++ declaredActionsOfChildren mc path rest
end

/-- The handlers declared for the type `t` in a list of declarations, in
the order of the list. -/
def handlersFor {α : Type} (t : Str) (decls : List (Str × α)) : List α :=
  (decls.filter (fun d => decide (d.1 = t))).map (fun d => d.2)

/-- The entry a registry holds for a list of handlers: none when there is
no handler. -/
def entryOf {α : Type} (l : List α) : Option (List α) :=
  if l.isEmpty then none else some l

/-- The registry `new` is the registry `old` after the declarations
`decls` have been added in order, each at the end of the list of its type. -/
def HandlersExtend {α : Type} (old new : List (Str × List α)) (decls : List (Str × α)) :
    Prop :=
  ∀ t, (objGet new t).getD [] = (objGet old t).getD [] ++ handlersFor t decls ∧
    (objGet new t).isSome = ((objGet old t).isSome || !(handlersFor t decls).isEmpty)

/-- The property `I` of a store only depends on its module tree and on
its registries of transitions and actions. -/
def HandlersOnly (I : Store → Prop) : Prop :=
  ∀ s s', s'._modules = s._modules → s'._mutations = s._mutations →
    s'._actions = s._actions → I s → I s'

/-- The registries of a store are those of a fresh installation of its
module tree: the four registries are equal to those obtained by
installing the tree from the root into empty registries; the transition
and the action registry hold for every type the handlers declared for it,
in installation order, and no entry for a type without declaration; the
derived-value registry holds for every type the handler declared first. -/
structure FreshlyInstalled (s : Store) : Prop where
  completes : (freshInstall s._modules).result = .ok ()
  registries : s.registries = (freshInstall s._modules).store.registries
  mutations : ∀ t, objGet s._mutations t =
    entryOf (handlersFor t (declaredMutations s._modules [] s._modules.root))
  actions : ∀ t, objGet s._actions t =
    entryOf (handlersFor t (declaredActions s._modules [] s._modules.root))
  getters : ∀ t, objGet s._wrappedGetters t =
    objGet (declaredGetters s._modules [] s._modules.root) t

/-- A specification with the state `{ count: 5 }` and the transition `inc`. -/
def extraSpec : RawModule :=
  .mk (.value (.obj [("count".toList, .num 5)])) false (some [("inc".toList, incCount)])
    none none []

/-- The store `counterStore` after `registerModule(['x'], extraSpec)`. -/
def extendedStore : Store :=
  (registerModule ["x".toList] extraSpec false counterStore).store

/-! ## The root state and the module tree -/

/-- Whether a state has a value at a path: walking the keys of the path,
every key is a field of the object reached so far. -/
def hasPath : JVal → List Str → Bool
  | _, [] => true
  | .obj fields, k :: rest =>
    match objGet fields k with
    | some sub => hasPath sub rest
    | none => false
  | _, _ :: _ => false

mutual
/-- Whether the keys of the children of every module of a tree are
distinct, as the keys of an object are. -/
def Module.treeNodup : Module → Bool
  | .mk _ children _ _ => decide (objKeys children).Nodup && Module.treeNodupIn children
/-- Whether all the modules of a list have distinct keys everywhere. -/
def Module.treeNodupIn : List (Str × Module) → Bool
  | [] => true
  | (_, child) :: rest => child.treeNodup && Module.treeNodupIn rest
end

/-- The root state mirrors the module tree: it has a value at every path
at which a module is registered. -/
def Mirror (s : Store) : Prop :=
  ∀ path m, s._modules.get path = .ok (some m) → hasPath s.state path = true

/-- The handler `w` never removes the state slot of a module registered
under its own module: whenever its local state has a value at a chain of
keys that leads to a registered module, so has the state it leaves. -/
def KeepsSlots (mc : ModuleCollection) (w : WrappedMutation) (payload : JVal) : Prop :=
  ∀ localState chain m, mc.get (w.localCtx.path ++ chain) = .ok (some m) →
    hasPath localState chain = true → hasPath (w.handler localState payload).state chain = true

/-- The stores reached from construction by commits whose handlers keep
the slots of nested modules, by completed registrations that do not
preserve the state, by completed removals of runtime modules, by hot
updates, and by replacements of the state by a state that has a value at
every registered path. -/
inductive MirrorReachable : Store → Prop where
  | new {options : RawModule} {strict : Bool} {s : Store} {tr : List Event} :
      Store.new options strict = .ok (s, tr) → MirrorReachable s
  | commit {s : Store} (type : Str) (payload : JVal) (options : Option Options) :
      MirrorReachable s →
      (∀ entry, objGet s._mutations type = some entry →
        ∀ w ∈ entry, KeepsSlots s._modules w payload) →
      MirrorReachable (Vuex.commit type payload options s).store
  | registerModule {s : Store} (path : List Str) (rawModule : RawModule) :
      MirrorReachable s → (Vuex.registerModule path rawModule false s).result = .ok () →
      MirrorReachable (Vuex.registerModule path rawModule false s).store
  | unregisterModule {s : Store} (path : List Str) (m : Module) :
      MirrorReachable s → s._modules.get path = .ok (some m) → m.runtime = true →
      path ≠ [] → (Vuex.unregisterModule path s).result = .ok () →
      MirrorReachable (Vuex.unregisterModule path s).store
  | hotUpdate {s : Store} (newOptions : RawModule) :
      MirrorReachable s → MirrorReachable (Vuex.hotUpdate newOptions s).store
  | replaceState {s : Store} (state : JVal) :
      MirrorReachable s →
      (∀ path m, s._modules.get path = .ok (some m) → hasPath state path = true) →
      MirrorReachable (Vuex.replaceState state s).store

/-- The root state mirrors the module tree, and in the tree the keys of
the children of every module are distinct. -/
def Mirrored (s : Store) : Prop :=
  Mirror s ∧ s._modules.root.treeNodup = true

/-- A transition handler that empties the local state, removing every
field of it. -/
def wipeState : MutationFn := fun _ _ => ⟨.obj [], none⟩

/-- A root specification with the transition `wipe` and the nested module
`cart`, whose state is `{ n: 1 }`. -/
def wipeSpec : RawModule :=
  .mk .absent false (some [("wipe".toList, wipeState)]) none none [("cart".toList, plainSpec)]

/-- The store `new Store(wipeSpec)`. -/
def wipeStore : Store :=
  storeOf wipeSpec

/-! ## Example inputs for commits that do not complete -/

/-- A root module whose transition `boom` throws, with a nested module
`m` that is not namespaced and declares a transition `boom` too, so that
both handlers are registered under the type `boom`. -/
def sharedRaisingSpec : RawModule :=
  .mk (.value (.obj [("count".toList, .num 0)])) false
    (some [("boom".toList, raisingHandler)]) none none
    [("m".toList, .mk (.value (.obj [("count".toList, .num 0)])) false
      (some [("boom".toList, incCount)]) none none [])]

/-- The store `new Store(sharedRaisingSpec)` with one quiet subscriber. -/
def sharedRaisingStore : Store :=
  (storeOf sharedRaisingSpec).setSubscribers [quietSubscriber 2]

/-! ## Specification objects held by reference (`module.js`, `update`) -/

/-- The class `Module` with the field `_rawModule` as the source holds
it: the specification object that was passed in, kept by reference.  The
object is given by its address among the specification objects; two
modules built from one specification object hold the same address. -/
inductive ByRef.Module where
  | mk (runtime : Bool) (_children : List (Str × ByRef.Module)) (_rawModule : Nat)
      (state : JVal)

def ByRef.Module.runtime : ByRef.Module → Bool
  | .mk r _ _ _ => r

def ByRef.Module._children : ByRef.Module → List (Str × ByRef.Module)
  | .mk _ c _ _ => c

def ByRef.Module._rawModule : ByRef.Module → Nat
  | .mk _ _ a _ => a

def ByRef.Module.state : ByRef.Module → JVal
  | .mk _ _ _ s => s

def ByRef.Module.getChild (m : ByRef.Module) (key : Str) : Option ByRef.Module :=
  objGet m._children key

/-- The method `update` of `Module`: it assigns to the fields of the
specification object the module holds, so the new flag and the new maps
are seen by every module that holds this object.  `specs` gives the
specification object at every address. -/
def ByRef.Module.update (m : ByRef.Module) (rawModule : RawModule) (specs : Nat → RawModule) :
    Nat → RawModule :=
  fun a =>
    if a = m._rawModule then
      .mk (specs a).state rawModule.namespaced
        (rawModule.mutations.orElse (fun _ => (specs a).mutations))
        (rawModule.actions.orElse (fun _ => (specs a).actions))
        (rawModule.getters.orElse (fun _ => (specs a).getters))
        (specs a).modules
    else specs a

mutual
/-- The function `update` of `module-collection.js` on modules that hold
their specification objects by reference: the tree is not changed, the
result is the specification objects after the walk, with the warnings
issued. -/
def ByRef.update (path : List Str) (targetModule : ByRef.Module) (newModule : RawModule)
    (specs : Nat → RawModule) : (Nat → RawModule) × List Diagnostic :=
  match newModule with
  | .mk st ns ms as gs modules =>
    ByRef.updateNested path targetModule modules
      (targetModule.update (.mk st ns ms as gs modules) specs)
/-- The loop `for (const key in newModule.modules)` of `update`. -/
def ByRef.updateNested (path : List Str) (targetModule : ByRef.Module) :
    List (Str × RawModule) → (Nat → RawModule) → (Nat → RawModule) × List Diagnostic
  | [], specs => (specs, [])
  | (key, rawChild) :: rest, specs =>
    match targetModule.getChild key with
    | none => (specs, [.hotReloadNewModule key])
    | some child =>
      let r := ByRef.update (path ++ [key]) child rawChild specs
      let t := ByRef.updateNested path targetModule rest r.1
      (t.1, r.2 ++ t.2)
end

/-- The class `ModuleCollection` over modules that hold their
specification objects by reference. -/
structure ByRef.ModuleCollection where
  root : ByRef.Module

/-- The method `update` of `ModuleCollection`:
`update([], this.root, rawRootModule)`. -/
def ByRef.ModuleCollection.update (mc : ByRef.ModuleCollection) (rawRootModule : RawModule)
    (specs : Nat → RawModule) : (Nat → RawModule) × List Diagnostic :=
  ByRef.update [] mc.root rawRootModule specs

mutual
/-- The module as it reads with given specification objects: every
`_rawModule` replaced by the object at its address. -/
def ByRef.Module.view (specs : Nat → RawModule) : ByRef.Module → Vuex.Module
  | .mk r children a st => Vuex.Module.mk r (ByRef.viewChildren specs children) (specs a) st
/-- The children of a module as they read with given specification objects. -/
def ByRef.viewChildren (specs : Nat → RawModule) :
    List (Str × ByRef.Module) → List (Str × Vuex.Module)
  | [] => []
  | (k, c) :: rest => (k, c.view specs) :: ByRef.viewChildren specs rest
end

/-- The module tree as it reads with given specification objects. -/
def ByRef.ModuleCollection.view (mc : ByRef.ModuleCollection) (specs : Nat → RawModule) :
    Vuex.ModuleCollection :=
  ⟨mc.root.view specs⟩

mutual
/-- The addresses of the specification objects held by the modules of a
tree, one entry per module. -/
def ByRef.Module.addresses : ByRef.Module → List Nat
  | .mk _ children a _ => a :: ByRef.addressesIn children
/-- The addresses held by the modules of the trees of a list. -/
def ByRef.addressesIn : List (Str × ByRef.Module) → List Nat
  | [] => []
  | (_, c) :: rest => c.addresses ++ ByRef.addressesIn rest
end

/-- No two modules of the tree hold the same specification object. -/
def ByRef.ModuleCollection.Unshared (mc : ByRef.ModuleCollection) : Prop :=
  mc.root.addresses.Nodup

/-- The specification object `{ namespaced: true, mutations: { m } }`. -/
def sharedChildSpec : RawModule :=
  .mk .absent true (some [("m".toList, keepState)]) none none []

/-- The specification objects of the examples: `sharedChildSpec` at the
addresses 1 and 2, an empty root specification elsewhere. -/
def exampleSpecs : Nat → RawModule :=
  fun a => if a = 1 ∨ a = 2 then sharedChildSpec else .mk .absent false none none none []

/-- The tree built from `{ modules: { a: shared, b: shared } }` with one
object `shared`: the modules `a` and `b` hold the same specification
object, at address 1. -/
def sharedTree : ByRef.ModuleCollection :=
  ⟨.mk false [("a".toList, .mk false [] 1 (.obj [])), ("b".toList, .mk false [] 1 (.obj []))]
    0 (.obj [])⟩

/-- The tree built from `{ modules: { a: specA, b: specB } }` with two
objects: `a` holds the object at address 1 and `b` the object at
address 2. -/
def unsharedTree : ByRef.ModuleCollection :=
  ⟨.mk false [("a".toList, .mk false [] 1 (.obj [])), ("b".toList, .mk false [] 2 (.obj []))]
    0 (.obj [])⟩

/-- A new specification that names the module `a` only: not namespaced,
with the transition `m2`. -/
def updateOfA : RawModule :=
  .mk .absent false none none none
    [("a".toList, .mk .absent false (some [("m2".toList, keepState)]) none none [])]

/-- A new specification that names `a`, not namespaced with the
transition `m2`, and then `b`, namespaced with no handler map. -/
def updateOfBoth : RawModule :=
  .mk .absent false none none none
    [("a".toList, .mk .absent false (some [("m2".toList, keepState)]) none none []),
     ("b".toList, .mk .absent true none none none [])]

/-- A new specification that names a module `zz`, which is not
registered, before it names `a`. -/
def updateAfterUnknown : RawModule :=
  .mk .absent false none none none
    [("zz".toList, .mk .absent true none none none []),
     ("a".toList, .mk .absent false (some [("m2".toList, keepState)]) none none [])]

/-- The specification object `old` after the assignments of
`Module.update(node)`: the flag of `node`, each handler map that `node`
supplies, and its own map where `node` supplies none. -/
def RawModule.assigned (old node : RawModule) : RawModule :=
  .mk old.state node.namespaced
    (node.mutations.orElse (fun _ => old.mutations))
    (node.actions.orElse (fun _ => old.actions))
    (node.getters.orElse (fun _ => old.getters))
    old.modules

mutual
/-- The calls `targetModule.update(newModule)` that the walk of `update`
makes, in order: the address of the specification object written into,
with the node of the new specification. -/
def ByRef.writes (targetModule : ByRef.Module) : RawModule → List (Nat × RawModule)
  | .mk st ns ms as gs modules =>
    (targetModule._rawModule, .mk st ns ms as gs modules) ::
      ByRef.writesNested targetModule modules
/-- The calls made by the loop over the nested entries. -/
def ByRef.writesNested (targetModule : ByRef.Module) :
    List (Str × RawModule) → List (Nat × RawModule)
  | [] => []
  | (key, rawChild) :: rest =>
    match targetModule.getChild key with
    | none => []
    | some child => ByRef.writes child rawChild ++ ByRef.writesNested targetModule rest
end

/-- The walk `path.reduce((module, key) => module.getChild(key), root)`
of `get` on modules that hold their specification objects by reference. -/
def ByRef.getFrom : Option ByRef.Module → List Str → Except JsError (Option ByRef.Module)
  | module, [] => .ok module
  | none, _ :: _ => .error .typeError
  | some module, key :: rest => ByRef.getFrom (module.getChild key) rest

/-- The method `get` of `ModuleCollection`. -/
def ByRef.ModuleCollection.get (mc : ByRef.ModuleCollection) (path : List Str) :
    Except JsError (Option ByRef.Module) :=
  ByRef.getFrom (some mc.root) path

/-! ## State objects with identity (`store.js`: the state of the modules)

In the source the field `state` of a module is a reference to an object,
and `installModule` puts that same object into the state of the parent
module.  The definitions above keep states by value.  Here the objects
that the constructor of `Module` creates carry their identity, so that
"the value at the path is the state of the module" can be said of the
object itself.  The definitions of this section follow the same source
functions as the ones above, as far as these touch the state; actions,
derived values, subscribers and the Vue instance hold no state object and
are left to the definitions above. -/

/-- A value of the state.  An object that was created as the state of a
module carries the number it was given when the module was constructed;
any other object carries none. -/
inductive SVal where
  | undefined
  | null
  | bool (b : Bool)
  | num (n : Int)
  | str (s : Str)
  | obj (id : Option Nat) (fields : List (Str × SVal))

/-- What a reference to a state can be compared by: the identity of a
state object of a module, the value itself when it is not an object, or
an object that is not the state object of any module. -/
inductive Slot where
  | object (id : Nat)
  | plain (v : JVal)
  | foreign
  deriving DecidableEq

mutual
/-- A plain value as a value of the state: none of its objects is the
state object of a module. -/
def SVal.ofValue : JVal → SVal
  | .undefined => .undefined
  | .null => .null
  | .bool b => .bool b
  | .num n => .num n
  | .str s => .str s
  | .obj fields => .obj none (SVal.ofFields fields)
/-- The fields of a plain object as values of the state. -/
def SVal.ofFields : List (Str × JVal) → List (Str × SVal)
  | [] => []
  | (k, v) :: rest => (k, SVal.ofValue v) :: SVal.ofFields rest
end

mutual
/-- The plain value of a value of the state: what a handler reads. -/
def SVal.erase : SVal → JVal
  | .undefined => .undefined
  | .null => .null
  | .bool b => .bool b
  | .num n => .num n
  | .str s => .str s
  | .obj _ fields => .obj (SVal.eraseFields fields)
/-- The plain values of the fields of an object. -/
def SVal.eraseFields : List (Str × SVal) → List (Str × JVal)
  | [] => []
  | (k, v) :: rest => (k, v.erase) :: SVal.eraseFields rest
end

mutual
/-- The value `old` after a handler has mutated it in place into the
plain value given: an object stays the object it was and its fields are
mutated in turn; a field that the new value does not have is removed; an
object put where there was none is a new object. -/
def SVal.assign (old : SVal) : JVal → SVal
  | .undefined => .undefined
  | .null => .null
  | .bool b => .bool b
  | .num n => .num n
  | .str s => .str s
  | .obj fields =>
    match old with
    | .obj id oldFields => .obj id (SVal.assignFields oldFields fields)
    | _ => .obj none (SVal.assignFields [] fields)
/-- The fields of an object after the mutation in place. -/
def SVal.assignFields (oldFields : List (Str × SVal)) :
    List (Str × JVal) → List (Str × SVal)
  | [] => []
  | (k, v) :: rest =>
    (k, SVal.assign ((objGet oldFields k).getD .undefined) v) ::
      SVal.assignFields oldFields rest
end

/-- What a value of the state is compared by. -/
def SVal.slot : SVal → Slot
  | .undefined => .plain .undefined
  | .null => .plain .null
  | .bool b => .plain (.bool b)
  | .num n => .plain (.num n)
  | .str s => .plain (.str s)
  | .obj (some id) _ => .object id
  | .obj none _ => .foreign

/-- Property read `v[k]` on a value of the state. -/
def SVal.getProp (v : SVal) (k : Str) : Except JsError SVal :=
  match v with
  | .undefined => .error .typeError
  | .null => .error .typeError
  | .obj _ fields => .ok ((objGet fields k).getD .undefined)
  | _ => .ok .undefined

/-- The source function `getNestedState`:
`path.reduce((state, key) => state[key], state)`. -/
def Live.getNestedState : SVal → List Str → Except JsError SVal
  | state, [] => .ok state
  | state, key :: rest =>
    match state.getProp key with
    | .error e => .error e
    | .ok sub => Live.getNestedState sub rest

/-- The root state after the object reached by `getNestedState state path`
has been mutated in place into `v`; the objects on the way stay the
objects they were. -/
def Live.setNestedState : SVal → List Str → SVal → SVal
  | _, [], v => v
  | .obj id fields, key :: rest, v =>
    match objGet fields key with
    | some sub => .obj id (objSet fields key (Live.setNestedState sub rest v))
    | none => .obj id fields
  | state, _ :: _, _ => state

/-- What the root state holds at a path, walking the keys of the path:
nothing when a key of the path is not a field of the object reached. -/
def Live.slotAt : SVal → List Str → Option Slot
  | v, [] => some v.slot
  | .obj _ fields, k :: rest =>
    match objGet fields k with
    | some sub => Live.slotAt sub rest
    | none => none
  | _, _ :: _ => none

/-- The field `state` that the constructor of `Module` sets,
`(typeof rawState === 'function' ? rawState() : rawState) || {}`, as a
reference: the object created for the module, known by `id`, or the value
itself when the state is not an object. -/
def Live.stateSlot (state : JVal) (id : Nat) : Slot :=
  match state with
  | .obj _ => .object id
  | v => .plain v

/-- The state of a module as a value of the state: its state object with
the fields it has when `installModule` puts it into the parent's state. -/
def Live.moduleState (ref : Slot) (state : JVal) : SVal :=
  match ref, state with
  | .object id, .obj fields => .obj (some id) (SVal.ofFields fields)
  | _, v => SVal.ofValue v

/-- The store as far as the state objects are concerned: the module
tree, the transition registry, the root state `this._vm._data.$$state`,
the field `state` of the module registered at each path (as a reference),
and the number the next state object will be given. -/
structure Live.Store where
  _modules : ModuleCollection
  _mutations : List (Str × List WrappedMutation)
  state : SVal
  stateOf : List Str → Slot
  next : Nat

mutual
/-- The constructor calls `new Module(rawModule, runtime)` that `register`
makes for a module and the modules nested in it, in its order (a module
before its children): each sets the field `state` of its module,
`(typeof rawState === 'function' ? rawState() : rawState) || {}`.  When
the state is an object it is known by an identity of its own: the object
is the one the function returns or the new `{}`; an object that the
specification itself gives as `state` is taken to be given to this module
only (the specification is kept by value and does not tell whether two
modules are given one object). -/
def Live.stamp : List Str → Module → (List Str → Slot) × Nat → (List Str → Slot) × Nat
  | path, .mk _ children _ st, x =>
    Live.stampChildren path children
      ((fun q => if q = path then Live.stateSlot st x.2 else x.1 q), x.2 + 1)
/-- The constructor calls for the modules of a list of children. -/
def Live.stampChildren : List Str → List (Str × Module) → (List Str → Slot) × Nat →
    (List Str → Slot) × Nat
  | _, [], x => x
  | path, (k, c) :: rest, x => Live.stampChildren path rest (Live.stamp (path ++ [k]) c x)
end

/-- The calls of `registerMutation` that `installModule` makes for the
transitions of a module. -/
def Live.registerMutations (ns : Str) (path : List Str) (ms : List (Str × MutationFn))
    (registry : List (Str × List WrappedMutation)) : List (Str × List WrappedMutation) :=
  ms.foldl (fun r kv =>
    objSet r (ns ++ kv.1) ((objGet r (ns ++ kv.1)).getD [] ++ [⟨kv.2, ⟨ns, path⟩⟩])) registry

/-- The body of `if (!isRoot && !hot)` in `installModule`:
`Vue.set(parentState, moduleName, module.state)` with
`parentState = getNestedState(rootState, path.slice(0, -1))`; the object
put under the key is the state object of the module itself. -/
def Live.graftState (parentPath : List Str) (moduleName : Str) (state : SVal)
    (s : Live.Store) : Except JsError Live.Store :=
  match Live.getNestedState s.state parentPath with
  | .ok (.obj id fields) =>
    .ok { s with
      state := Live.setNestedState s.state parentPath (.obj id (objSet fields moduleName state)) }
  | _ => .error .typeError

mutual
/-- The function `installModule(store, rootState, path, module, hot)`, as
far as it touches the state and the transition registry.  A call that
throws yields the error only. -/
def Live.installModule (path : List Str) : Module → Bool → Live.Store →
    Except JsError Live.Store
  | .mk runtime children raw st, hot, s =>
    match s._modules.getNamespace path with
    | .error e => .error e
    | .ok ns =>
      match (if !(path.length == 0) && !hot then
          Live.graftState path.dropLast (lastKey path)
            (Live.moduleState (s.stateOf path) st) s
        else .ok s) with
      | .error e => .error e
      | .ok s1 =>
        Live.installChildren path children hot
          { s1 with
            _mutations := Live.registerMutations ns path
              (Module.mk runtime children raw st).mutations s1._mutations }
/-- The loop `module.forEachChild(...)` of `installModule`. -/
def Live.installChildren (path : List Str) :
    List (Str × Module) → Bool → Live.Store → Except JsError Live.Store
  | [], _, s => .ok s
  | (k, c) :: rest, hot, s =>
    match Live.installModule (path ++ [k]) c hot s with
    | .error e => .error e
    | .ok s1 => Live.installChildren path rest hot s1
end

/-- The constructor `new Store(options)`: the root state is the state
object of the root module (`const state = this._modules.root.state`). -/
def Live.Store.new (options : RawModule) : Except JsError Live.Store :=
  match ModuleCollection.new options with
  | .error e => .error e
  | .ok modules =>
    Live.installModule [] modules.root false
      { _modules := modules
        _mutations := []
        state := Live.moduleState ((Live.stamp [] modules.root (fun _ => .foreign, 0)).1 [])
          modules.root.state
        stateOf := (Live.stamp [] modules.root (fun _ => .foreign, 0)).1
        next := (Live.stamp [] modules.root (fun _ => .foreign, 0)).2 }

/-- The call `handler(payload)` of a `wrappedMutationHandler`: the handler
mutates the object `local.state` in place.  The store afterwards, and the
error when the call throws. -/
def Live.callHandler (w : WrappedMutation) (payload : JVal) (s : Live.Store) :
    Live.Store × Option JsError :=
  match Live.getNestedState s.state w.localCtx.path with
  | .error e => (s, some e)
  | .ok localState =>
    ({ s with
        state := Live.setNestedState s.state w.localCtx.path
          (localState.assign (w.handler localState.erase payload).state) },
      (w.handler localState.erase payload).raised)

/-- The loop `entry.forEach(handler => handler(payload))` of `commit`. -/
def Live.runHandlers : List WrappedMutation → JVal → Live.Store → Live.Store × Option JsError
  | [], _, s => (s, none)
  | w :: rest, payload, s =>
    match (Live.callHandler w payload s).2 with
    | some e => ((Live.callHandler w payload s).1, some e)
    | none => Live.runHandlers rest payload (Live.callHandler w payload s).1

/-- The method `commit`, as far as it touches the state: the store
afterwards, and the error when the call throws. -/
def Live.commit (type : Str) (payload : JVal) (s : Live.Store) : Live.Store × Option JsError :=
  match objGet s._mutations type with
  | none => (s, none)
  | some entry => Live.runHandlers entry payload s

/-- The method `replaceState`: `this._vm._data.$$state = state`. -/
def Live.replaceState (state : SVal) (s : Live.Store) : Live.Store :=
  { s with state := state }

/-- The method `registerModule(path, rawModule, options)` called with an
array path. -/
def Live.registerModule (path : List Str) (rawModule : RawModule) (preserveState : Bool)
    (s : Live.Store) : Except JsError Live.Store :=
  if path.length == 0 then
    .error (.assertion "cannot register the root module by using registerModule.".toList)
  else
    match s._modules.register path rawModule true with
    | .error e => .error e
    | .ok modules =>
      match modules.get path with
      | .error e => .error e
      | .ok none => .error .typeError
      | .ok (some module) =>
        Live.installModule path module preserveState
          { s with
            _modules := modules
            stateOf := (Live.stamp path module (s.stateOf, s.next)).1
            next := (Live.stamp path module (s.stateOf, s.next)).2 }

/-- The call `Vue.delete(parentState, key)` of `unregisterModule`. -/
def Live.deleteState (parentPath : List Str) (key : Str) (s : Live.Store) :
    Except JsError Live.Store :=
  match Live.getNestedState s.state parentPath with
  | .error e => .error e
  | .ok (.obj id fields) =>
    .ok { s with
      state := Live.setNestedState s.state parentPath (.obj id (objDelete fields key)) }
  | .ok .undefined => .error .typeError
  | .ok .null => .error .typeError
  | .ok _ => .ok s

/-- The function `resetStore(store, hot)`: the registry is emptied and the
tree is installed again from the root, with `hot` set. -/
def Live.resetStore (s : Live.Store) : Except JsError Live.Store :=
  Live.installModule [] s._modules.root true { s with _mutations := [] }

/-- The method `unregisterModule(path)` called with an array path. -/
def Live.unregisterModule (path : List Str) (s : Live.Store) : Except JsError Live.Store :=
  match s._modules.unregister path with
  | .error e => .error e
  | .ok r =>
    match Live.deleteState path.dropLast (lastKey path) { s with _modules := r.1 } with
    | .error e => .error e
    | .ok s1 => Live.resetStore s1

/-- The method `hotUpdate(newOptions)`. -/
def Live.hotUpdate (newOptions : RawModule) (s : Live.Store) : Except JsError Live.Store :=
  Live.resetStore { s with _modules := (s._modules.update newOptions).1 }

/-- The store built from a specification, for specifications whose
construction completes. -/
def Live.storeOf (options : RawModule) : Live.Store :=
  match Live.Store.new options with
  | .ok s => s
  | .error _ => ⟨⟨Module.new options false⟩, [], .undefined, fun _ => .foreign, 0⟩

/-- The store after a call, for calls that complete. -/
def Live.after (call : Live.Store → Except JsError Live.Store) (s : Live.Store) : Live.Store :=
  match call s with
  | .ok s' => s'
  | .error _ => s

/-- The handler `w` never removes or replaces the state object of a
module registered under its own module (its own state object included):
whatever the local state holds at a chain of keys that leads to a
registered module, it holds there after the handler has run. -/
def Live.KeepsObjects (mc : ModuleCollection) (w : WrappedMutation) (payload : JVal) : Prop :=
  ∀ (localState : SVal) (chain : List Str) (m : Module) (slot : Slot),
    mc.get (w.localCtx.path ++ chain) = .ok (some m) →
    Live.slotAt localState chain = some slot →
    Live.slotAt (localState.assign (w.handler localState.erase payload).state) chain = some slot

/-- The stores reached from construction by commits whose handlers keep
the state objects of the modules in place, by completed registrations that
do not preserve the state, by completed removals of runtime modules, by
hot updates, and by replacements of the state by a state that holds at
every registered path the state of the module registered there.
No object is the state of two modules (see `Live.stamp`). -/
inductive Live.Reachable : Live.Store → Prop where
  | new {options : RawModule} {s : Live.Store} :
      Live.Store.new options = .ok s → Live.Reachable s
  | commit {s : Live.Store} (type : Str) (payload : JVal) :
      Live.Reachable s →
      (∀ entry, objGet s._mutations type = some entry →
        ∀ w ∈ entry, Live.KeepsObjects s._modules w payload) →
      Live.Reachable (Live.commit type payload s).1
  | registerModule {s s' : Live.Store} (path : List Str) (rawModule : RawModule) :
      Live.Reachable s → Live.registerModule path rawModule false s = .ok s' →
      Live.Reachable s'
  | unregisterModule {s s' : Live.Store} (path : List Str) (m : Module) :
      Live.Reachable s → s._modules.get path = .ok (some m) → m.runtime = true →
      path ≠ [] → Live.unregisterModule path s = .ok s' → Live.Reachable s'
  | hotUpdate {s : Live.Store} (newOptions : RawModule) :
      Live.Reachable s → Live.Reachable (Live.after (Live.hotUpdate newOptions) s)
  | replaceState {s : Live.Store} (state : SVal) :
      Live.Reachable s →
      (∀ path m, s._modules.get path = .ok (some m) →
        Live.slotAt state path = some (s.stateOf path)) →
      Live.Reachable (Live.replaceState state s)

/-- The state of every registered module sits in the root state at the
path of the module, the keys of the children of every module of the tree
are distinct, and the field `state` of every registered module is what its
constructor set: an object of its own when the state is an object, the
value itself otherwise. -/
def Live.Mirrors (s : Live.Store) : Prop :=
  (∀ path m, s._modules.get path = .ok (some m) →
    Live.slotAt s.state path = some (s.stateOf path)) ∧
  s._modules.root.treeNodup = true ∧
  (∀ path m, s._modules.get path = .ok (some m) →
    ∃ id, s.stateOf path = Live.stateSlot m.state id)
/-! # Theorems -/

/-! ## Maps and paths -/

theorem getFrom_none_cons (k : Str) (rest : List Str) :
    getFrom none (k :: rest) = .error .typeError := rfl

theorem getFrom_concat (m : Option Module) (p : List Str) (k : Str) :
    getFrom m (p ++ [k]) =
      match getFrom m p with
      | .ok (some x) => .ok (x.getChild k)
      | .ok none => .error .typeError
      | .error e => .error e := by
  induction p generalizing m with
  | nil =>
    cases m with
    | none => rfl
    | some x => cases hx : x.getChild k <;> simp [getFrom, hx]
  | cons a p ih =>
    cases m with
    | none => rfl
    | some x => simpa [getFrom] using ih (x.getChild a)

theorem getFrom_concat_some {m : Option Module} {p : List Str} {k : Str} {c : Module}
    (h : getFrom m (p ++ [k]) = .ok (some c)) :
    ∃ x, getFrom m p = .ok (some x) ∧ x.getChild k = some c := by
  rw [getFrom_concat] at h
  cases hp : getFrom m p with
  | error e => simp [hp] at h
  | ok o =>
    cases o with
    | none => simp [hp] at h
    | some x =>
      simp only [hp] at h
      exact ⟨x, rfl, by injection h⟩

theorem getNamespaceFrom_concat (m : Module) (acc : Str) (p : List Str) (k : Str) (c : Module)
    (h : getFrom (some m) (p ++ [k]) = .ok (some c)) :
    ∃ ns, getNamespaceFrom m acc p = .ok ns ∧
      getNamespaceFrom m acc (p ++ [k]) =
        .ok (ns ++ (if c.namespaced then k ++ ['/'] else [])) := by
  induction p generalizing m acc with
  | nil =>
    have hc : m.getChild k = some c := by
      simpa [getFrom] using h
    exact ⟨acc, rfl, by simp [getNamespaceFrom, hc]⟩
  | cons a p ih =>
    cases hch : m.getChild a with
    | none =>
      exfalso
      cases p <;> simp [getFrom, hch] at h
    | some child =>
      have h2 : getFrom (some child) (p ++ [k]) = .ok (some c) := by
        simpa [getFrom, hch] using h
      obtain ⟨ns, h3, h4⟩ := ih child (acc ++ (if child.namespaced then a ++ ['/'] else [])) h2
      exact ⟨ns, by simpa [getNamespaceFrom, hch] using h3,
        by simpa [getNamespaceFrom, hch] using h4⟩

theorem specNamespace_concat (mc : ModuleCollection) (p : List Str) (k : Str) (c : Module)
    (h : mc.get (p ++ [k]) = .ok (some c)) :
    specNamespace mc (p ++ [k]) =
      specNamespace mc p ++ (if c.namespaced then k ++ ['/'] else []) := by
  have hne : p.inits ≠ [] := by cases p <;> simp
  simp [specNamespace, List.inits_append, List.tail_append_of_ne_nil hne, h, lastKey]

theorem getNamespace_eq_spec (mc : ModuleCollection) (path : List Str) :
    ∀ m, mc.get path = .ok (some m) → mc.getNamespace path = .ok (specNamespace mc path) := by
  induction path using List.reverseRecOn with
  | nil => intro m _; rfl
  | append_singleton p k ih =>
    intro c h
    obtain ⟨x, hx, _⟩ := getFrom_concat_some h
    obtain ⟨ns, h1, h2⟩ := getNamespaceFrom_concat mc.root [] p k c h
    have h3 := ih x hx
    unfold ModuleCollection.getNamespace at h3 ⊢
    rw [h1] at h3
    injection h3 with h3
    rw [h2, specNamespace_concat mc p k c h, h3]

/-- C3: for every module tree and every path whose modules all exist,
`getNamespace(path)` is the concatenation, root to node, of `key + '/'`
for exactly the keys whose module is namespaced; `getNamespace([])` is the
empty string, and `getNamespace(p ++ [k])` is `getNamespace(p) + k + '/'`
when the module at `p ++ [k]` is namespaced and `getNamespace(p)` when it
is not. -/
theorem getNamespace_concatenation (mc : ModuleCollection) (path : List Str) (m : Module)
    (h : mc.get path = .ok (some m)) :
    mc.getNamespace path = .ok (specNamespace mc path) ∧
    mc.getNamespace [] = .ok [] ∧
    ∀ p k, path = p ++ [k] →
      ∃ ns, mc.getNamespace p = .ok ns ∧
        mc.getNamespace path = .ok (ns ++ (if m.namespaced then k ++ ['/'] else [])) := by
  refine ⟨getNamespace_eq_spec mc path m h, rfl, ?_⟩
  intro p k hp
  subst hp
  exact getNamespaceFrom_concat mc.root [] p k m h

theorem getNamespace_concatenation_witness :
    nestedStore._modules.get ["A".toList, "c".toList, "B".toList] =
      .ok (some (Module.mk false [] specB (.obj []))) ∧
    nestedStore._modules.getNamespace ["A".toList, "c".toList, "B".toList] =
      .ok "A/B/".toList ∧
    nestedStore._modules.getNamespace ["A".toList, "c".toList] = .ok "A/".toList ∧
    nestedStore._modules.getNamespace ["A".toList, "c".toList, "B".toList] =
      .ok (specNamespace nestedStore._modules ["A".toList, "c".toList, "B".toList]) :=
  ⟨rfl, rfl, rfl,
    (getNamespace_concatenation nestedStore._modules ["A".toList, "c".toList, "B".toList]
      (Module.mk false [] specB (.obj [])) rfl).1⟩

/-! ## Running code: unfolding lemmas -/

@[simp] theorem pure_apply {α : Type} (a : α) (s : Store) :
    (pure a : M α) s = ⟨.ok a, s, []⟩ := rfl

theorem bind_apply {α β : Type} (x : M α) (f : α → M β) (s : Store) :
    (x >>= f) s =
      match (x s).result with
      | .error e => ⟨.error e, (x s).store, (x s).trace⟩
      | .ok a =>
        ⟨(f a (x s).store).result, (f a (x s).store).store,
          (x s).trace ++ (f a (x s).store).trace⟩ := rfl

theorem forEach_nil {α : Type} (f : α → M Unit) (s : Store) :
    forEach [] f s = ⟨.ok (), s, []⟩ := rfl

theorem forEach_cons {α : Type} (a : α) (rest : List α) (f : α → M Unit) (s : Store) :
    forEach (a :: rest) f s =
      match (f a s).result with
      | .error e => ⟨.error e, (f a s).store, (f a s).trace⟩
      | .ok _ =>
        ⟨(forEach rest f (f a s).store).result, (forEach rest f (f a s).store).store,
          (f a s).trace ++ (forEach rest f (f a s).store).trace⟩ := by
  rw [forEach, bind_apply]
  cases (f a s).result <;> rfl

theorem forEach_cons_of_error {α : Type} {a : α} (rest : List α) {f : α → M Unit} {s s1 : Store}
    {e : JsError} {t1 : List Event} (h : f a s = ⟨.error e, s1, t1⟩) :
    forEach (a :: rest) f s = ⟨.error e, s1, t1⟩ := by
  rw [forEach_cons, h]

theorem forEach_cons_of_ok {α : Type} {a : α} (rest : List α) {f : α → M Unit} {s s1 : Store}
    {t1 : List Event} (h : f a s = ⟨.ok (), s1, t1⟩) :
    forEach (a :: rest) f s =
      ⟨(forEach rest f s1).result, (forEach rest f s1).store, t1 ++ (forEach rest f s1).trace⟩ := by
  rw [forEach_cons, h]

theorem withCommit_of_error {fn : M Unit} {s s1 : Store} {e : JsError} {t1 : List Event}
    (h : fn (s.setCommitting true) = ⟨.error e, s1, t1⟩) :
    _withCommit fn s = ⟨.error e, s1, t1⟩ := by
  simp only [_withCommit, bind_apply, getStore, modifyStore, h]
  simp

theorem withCommit_of_ok {fn : M Unit} {s s1 : Store} {t1 : List Event}
    (h : fn (s.setCommitting true) = ⟨.ok (), s1, t1⟩) :
    _withCommit fn s = ⟨.ok (), s1.setCommitting s._committing, t1⟩ := by
  simp only [_withCommit, bind_apply, getStore, modifyStore, h]
  simp

theorem mutation_call_of_error {w : WrappedMutation} {s : Store} {e : JsError} (p : JVal)
    (h : getNestedState s.state w.localCtx.path = .error e) :
    w.call p s = ⟨.error e, s, []⟩ := by
  simp only [WrappedMutation.call, bind_apply, getStore, liftExcept, h]
  simp

theorem mutation_call_of_ok {w : WrappedMutation} {s : Store} {l : JVal} (p : JVal)
    (h : getNestedState s.state w.localCtx.path = .ok l) :
    w.call p s =
      ⟨resultOf (w.handler l p).raised,
       s.setState (setNestedState s.state w.localCtx.path (w.handler l p).state),
       [.mutationHandler w p]⟩ := by
  simp only [WrappedMutation.call, bind_apply, getStore, liftExcept, emit, modifyStore, h]
  cases h2 : (w.handler l p).raised <;> simp [h2, throwJs, resultOf]

/-! ## The handler loop and the notification loop of `commit` -/

@[simp] theorem setState_state (s : Store) (st : JVal) : (s.setState st).state = st := rfl

@[simp] theorem setState_setState (s : Store) (a b : JVal) :
    (s.setState a).setState b = s.setState b := rfl

@[simp] theorem setState_self (s : Store) : s.setState s.state = s := rfl

@[simp] theorem setSubscribers_state (s : Store) (subs : List Subscriber) :
    (s.setSubscribers subs).state = s.state := rfl

@[simp] theorem setSubscribers_setSubscribers (s : Store) (a b : List Subscriber) :
    (s.setSubscribers a).setSubscribers b = s.setSubscribers b := rfl

@[simp] theorem setSubscribers_self (s : Store) : s.setSubscribers s._subscribers = s := rfl

@[simp] theorem setCommitting_state (s : Store) (b : Bool) :
    (s.setCommitting b).state = s.state := rfl

@[simp] theorem setCommitting_setCommitting (s : Store) (a b : Bool) :
    (s.setCommitting a).setCommitting b = s.setCommitting b := rfl

@[simp] theorem setCommitting_self (s : Store) : s.setCommitting s._committing = s := rfl

theorem handlers_run (entry : List WrappedMutation) (p : JVal) (s : Store) :
    (forEach entry (fun w => w.call p) s).store =
        s.setState (forEach entry (fun w => w.call p) s).store.state ∧
    ((forEach entry (fun w => w.call p) s).result = .ok () →
      (forEach entry (fun w => w.call p) s).store.state = applyHandlers entry p s.state ∧
      (forEach entry (fun w => w.call p) s).trace =
        entry.map (fun w => Event.mutationHandler w p)) := by
  induction entry generalizing s with
  | nil => exact ⟨rfl, fun _ => ⟨rfl, rfl⟩⟩
  | cons w rest ih =>
    cases hl : getNestedState s.state w.localCtx.path with
    | error e =>
      rw [forEach_cons_of_error rest (mutation_call_of_error p hl)]
      exact ⟨rfl, fun h => by simp at h⟩
    | ok l =>
      have hc := mutation_call_of_ok p hl
      cases hr : (w.handler l p).raised with
      | some e =>
        rw [hr] at hc
        rw [forEach_cons_of_error rest hc]
        exact ⟨rfl, fun h => by simp at h⟩
      | none =>
        rw [hr] at hc
        rw [forEach_cons_of_ok rest hc]
        obtain ⟨h1, h2⟩ :=
          ih (s.setState (setNestedState s.state w.localCtx.path (w.handler l p).state))
        refine ⟨?_, ?_⟩
        · simp only []
          rw [h1]
          rfl
        · intro hok
          obtain ⟨h3, h4⟩ := h2 hok
          refine ⟨?_, ?_⟩
          · simp only []
            rw [h3]
            simp [applyHandlers, hl]
          · simp only []
            rw [h4]
            rfl

theorem subOps_apply (ops : List SubOp) (s : Store) :
    ∃ subs, forEach ops SubOp.apply s = ⟨.ok (), s.setSubscribers subs, []⟩ := by
  induction ops generalizing s with
  | nil => exact ⟨s._subscribers, rfl⟩
  | cons op rest ih =>
    have h1 : ∃ subs, SubOp.apply op s = ⟨.ok (), s.setSubscribers subs, []⟩ := by
      cases op with
      | unsubscribe id => exact ⟨_, rfl⟩
      | subscribe id pre => exact ⟨_, rfl⟩
    obtain ⟨subs1, h1⟩ := h1
    obtain ⟨subs2, h2⟩ := ih (s.setSubscribers subs1)
    refine ⟨subs2, ?_⟩
    rw [forEach_cons_of_ok rest h1, h2]
    rfl

theorem subscriber_call_apply (sub : Subscriber) (m : Mutation) (s : Store) :
    ∃ subs, sub.call m s =
      ⟨resultOf (sub.run m s.state).raised,
       s.setSubscribers subs, [.subscriber sub.id m s.state]⟩ := by
  obtain ⟨subs, h⟩ := subOps_apply (sub.run m s.state).ops s
  refine ⟨subs, ?_⟩
  simp only [Subscriber.call, bind_apply, getStore, emit]
  rw [h]
  cases hr : (sub.run m s.state).raised <;> simp [throwJs, resultOf]

theorem notify_run (subs : List Subscriber) (m : Mutation) (s : Store) :
    (∃ subs', (forEach subs (fun sub => sub.call m) s).store = s.setSubscribers subs') ∧
    (forEach subs (fun sub => sub.call m) s).trace =
      (untilRaise subs m s.state).map (fun sub => Event.subscriber sub.id m s.state) ∧
    (forEach subs (fun sub => sub.call m) s).result =
      resultOf (subs.findSome? (fun sub => (sub.run m s.state).raised)) := by
  induction subs generalizing s with
  | nil => exact ⟨⟨s._subscribers, rfl⟩, rfl, rfl⟩
  | cons sub rest ih =>
    obtain ⟨subs1, h1⟩ := subscriber_call_apply sub m s
    cases hr : (sub.run m s.state).raised with
    | some e =>
      rw [hr] at h1
      rw [forEach_cons_of_error rest h1]
      exact ⟨⟨subs1, rfl⟩, by simp [untilRaise, hr], by simp [List.findSome?, hr, resultOf]⟩
    | none =>
      rw [hr] at h1
      rw [forEach_cons_of_ok rest h1]
      obtain ⟨⟨subs2, h2⟩, h3, h4⟩ := ih (s.setSubscribers subs1)
      refine ⟨⟨subs2, ?_⟩, ?_, ?_⟩
      · simp only []
        rw [h2]
        rfl
      · simp only []
        rw [h3]
        simp [untilRaise, hr]
      · simp only []
        rw [h4]
        simp [List.findSome?, hr]

theorem untilRaise_of_none (subs : List Subscriber) (m : Mutation) (st : JVal)
    (h : subs.findSome? (fun sub => (sub.run m st).raised) = none) :
    untilRaise subs m st = subs := by
  induction subs with
  | nil => rfl
  | cons sub rest ih =>
    cases hr : (sub.run m st).raised with
    | some e => simp [List.findSome?, hr] at h
    | none =>
      simp only [List.findSome?, hr] at h
      simp [untilRaise, hr, ih h]

theorem bind_of_error {α β : Type} {x : M α} (f : α → M β) {s s1 : Store} {e : JsError}
    {t1 : List Event} (h : x s = ⟨.error e, s1, t1⟩) :
    (x >>= f) s = ⟨.error e, s1, t1⟩ := by
  rw [bind_apply, h]

theorem bind_of_ok {α β : Type} {x : M α} (f : α → M β) {s s1 : Store} {a : α}
    {t1 : List Event} (h : x s = ⟨.ok a, s1, t1⟩) :
    (x >>= f) s = ⟨(f a s1).result, (f a s1).store, t1 ++ (f a s1).trace⟩ := by
  rw [bind_apply, h]

theorem commit_of_some {s : Store} {t : Str} {entry : List WrappedMutation} (p : JVal)
    (o : Option Options) (h : objGet s._mutations t = some entry) :
    commit t p o s =
      ((_withCommit (forEach entry (fun handler => handler.call p)) >>= fun _ =>
        (getStore >>= fun st => forEach st._subscribers (fun sub => sub.call ⟨t, p⟩)) >>= fun _ =>
          (match o with
           | some o => if __DEV__ && o.silent then emit (.diag (.silentRemoved t)) else pure ()
           | none => pure ())) s) := by
  simp only [commit, bind_apply, getStore, h]
  rfl

theorem Res.eq_of_result {α : Type} {r : Res α} {x : Except JsError α} (h : r.result = x) :
    r = ⟨x, r.store, r.trace⟩ := by
  cases r
  simp only at h
  subst h
  rfl

theorem silent_apply (t : Str) (o : Option Options) (s : Store) :
    (match o with
     | some o => if __DEV__ && o.silent then emit (.diag (.silentRemoved t)) else pure ()
     | none => (pure () : M Unit)) s = ⟨.ok (), s, silentWarning t o⟩ := by
  cases o with
  | none => rfl
  | some o =>
    cases hs : o.silent <;> simp [silentWarning, hs, __DEV__, emit]

theorem resultOf_eq_ok {r : Option JsError} (h : resultOf r = .ok ()) : r = none := by
  cases r with
  | none => rfl
  | some e => simp [resultOf] at h

/-- C1 (as amended): for every store, every transition type `t` that has
a handler list `entry` and every payload `p`, a call `commit(t, p)` that
completes (no handler and no subscriber throws) has
invoked every handler of `entry` exactly once, in registration order,
all of them before the first subscriber is notified; the state is the
result of applying all of them, and every subscriber has received the
mutation `{ type: t, payload: p }` and that state. -/
theorem commit_registered (s : Store) (t : Str) (p : JVal) (o : Option Options)
    (entry : List WrappedMutation) (h : objGet s._mutations t = some entry)
    (hok : (commit t p o s).result = .ok ()) :
    (commit t p o s).store.state = applyHandlers entry p s.state ∧
    (commit t p o s).trace =
      entry.map (fun w => Event.mutationHandler w p) ++
      s._subscribers.map
        (fun sub => Event.subscriber sub.id ⟨t, p⟩ (applyHandlers entry p s.state)) ++
      silentWarning t o := by
  rw [commit_of_some p o h] at hok ⊢
  obtain ⟨hA1, hA2⟩ := handlers_run entry p (s.setCommitting true)
  cases hAr : (forEach entry (fun w => w.call p) (s.setCommitting true)).result with
  | error e =>
    rw [bind_of_error _ (withCommit_of_error (Res.eq_of_result hAr))] at hok
    simp at hok
  | ok u =>
    obtain ⟨hA3, hA4⟩ := hA2 hAr
    have hW := withCommit_of_ok (Res.eq_of_result hAr)
    rw [bind_of_ok _ hW] at hok ⊢
    rw [hA1] at hok ⊢
    simp only [setCommitting_state] at hA3
    rw [hA3, hA4] at hok ⊢
    have hs1 : ((s.setCommitting true).setState (applyHandlers entry p s.state)).setCommitting
        s._committing = s.setState (applyHandlers entry p s.state) := rfl
    rw [hs1] at hok ⊢
    obtain ⟨⟨subs', hB1⟩, hB2, hB3⟩ :=
      notify_run s._subscribers ⟨t, p⟩ (s.setState (applyHandlers entry p s.state))
    have hG : (getStore >>= fun st => forEach st._subscribers (fun sub => sub.call ⟨t, p⟩))
        (s.setState (applyHandlers entry p s.state)) =
        forEach s._subscribers (fun sub => sub.call ⟨t, p⟩)
          (s.setState (applyHandlers entry p s.state)) := by
      rw [bind_apply]
      simp [getStore]
      rfl
    cases hBr : (forEach s._subscribers (fun sub => sub.call ⟨t, p⟩)
        (s.setState (applyHandlers entry p s.state))).result with
    | error e =>
      have hB := Res.eq_of_result hBr
      rw [← hG] at hB
      rw [bind_of_error _ hB] at hok
      simp at hok
    | ok u2 =>
      have hB := Res.eq_of_result hBr
      rw [hBr] at hB3
      have hnone := resultOf_eq_ok hB3.symm
      rw [untilRaise_of_none _ _ _ hnone] at hB2
      rw [hB1, hB2] at hB
      rw [← hG] at hB
      rw [bind_of_ok _ hB, silent_apply]
      simp

theorem commit_registered_witness :
    objGet counterStoreSubscribed._mutations "inc".toList = some [⟨incCount, ⟨[], []⟩⟩] ∧
    (commit "inc".toList .undefined none counterStoreSubscribed).result = .ok () ∧
    (commit "inc".toList .undefined none counterStoreSubscribed).store.state =
      .obj [("count".toList, .num 1)] ∧
    (commit "inc".toList .undefined none counterStoreSubscribed).trace =
      [.mutationHandler ⟨incCount, ⟨[], []⟩⟩ .undefined,
       .subscriber 7 ⟨"inc".toList, .undefined⟩ (.obj [("count".toList, .num 1)])] :=
  ⟨rfl, rfl,
    (commit_registered counterStoreSubscribed "inc".toList .undefined none
      [⟨incCount, ⟨[], []⟩⟩] rfl rfl).1.trans rfl,
    rfl⟩

/-- C1 (as stated) fails.  In `sharedRaisingStore` two handlers are
registered under `boom` and one subscriber is subscribed; the first handler
throws, so `commit('boom')` throws, the second handler is never invoked
and the subscriber is never notified.  In `commitFailStore` the handler of
`inc` completes and the first of two subscribers throws, so the second
subscriber never receives the mutation. -/
theorem commit_incomplete_counterexample :
    objGet sharedRaisingStore._mutations "boom".toList =
      some [⟨raisingHandler, ⟨[], []⟩⟩, ⟨incCount, ⟨[], ["m".toList]⟩⟩] ∧
    sharedRaisingStore._subscribers.map (fun sub => sub.id) = [2] ∧
    (commit "boom".toList .undefined none sharedRaisingStore).result =
      .error (.thrown (.str "bad".toList)) ∧
    (commit "boom".toList .undefined none sharedRaisingStore).trace =
      [.mutationHandler ⟨raisingHandler, ⟨[], []⟩⟩ .undefined] ∧
    notifiedIds (commit "boom".toList .undefined none sharedRaisingStore).trace = [] ∧
    objGet commitFailStore._mutations "inc".toList = some [⟨incCount, ⟨[], []⟩⟩] ∧
    commitFailStore._subscribers.map (fun sub => sub.id) = [1, 2] ∧
    (commit "inc".toList .undefined none commitFailStore).result =
      .error (.thrown (.str "boom".toList)) ∧
    (commit "inc".toList .undefined none commitFailStore).trace =
      [.mutationHandler ⟨incCount, ⟨[], []⟩⟩ .undefined,
       .subscriber 1 ⟨"inc".toList, .undefined⟩ (.obj [("count".toList, .num 1)])] :=
  ⟨rfl, rfl, rfl, rfl, rfl, rfl, rfl, rfl, rfl⟩

/-- C2: for every store and every type `t` with no handler list in the
transition registry, `commit(t, p)` returns without raising, leaves the
whole store (state, registries, committing flag, subscriber lists) as it
was, and makes nothing observable but the diagnostic: no handler runs and
no subscriber is notified. -/
theorem commit_unregistered (s : Store) (t : Str) (p : JVal) (o : Option Options)
    (h : objGet s._mutations t = none) :
    commit t p o s = ⟨.ok (), s, [.diag (.unknownMutation t)]⟩ := by
  simp only [commit, bind_apply, getStore, h]
  rfl

theorem commit_unregistered_witness :
    objGet counterStoreSubscribed._mutations "nope".toList = none ∧
    commit "nope".toList .undefined none counterStoreSubscribed =
      ⟨.ok (), counterStoreSubscribed, [.diag (.unknownMutation "nope".toList)]⟩ :=
  ⟨rfl, commit_unregistered counterStoreSubscribed "nope".toList .undefined none rfl⟩

/-! ## Maps -/

theorem objGet_objSet_same {α : Type} (o : List (Str × α)) (k : Str) (v : α) :
    objGet (objSet o k v) k = some v := by
  induction o with
  | nil => simp [objSet, objGet]
  | cons kv rest ih =>
    obtain ⟨k', v'⟩ := kv
    by_cases hk : k' = k
    · simp [objSet, objGet, hk]
    · simp [objSet, objGet, hk, ih]

theorem objGet_objSet_ne {α : Type} (o : List (Str × α)) {k k' : Str} (v : α) (h : k ≠ k') :
    objGet (objSet o k v) k' = objGet o k' := by
  induction o with
  | nil => simp [objSet, objGet, h]
  | cons kv rest ih =>
    obtain ⟨k2, v2⟩ := kv
    by_cases hk : k2 = k
    · subst hk
      simp [objSet, objGet, h]
    · by_cases hk' : k2 = k'
      · subst hk'
        simp [objSet, objGet, hk]
      · simp [objSet, objGet, hk, hk', ih]

/-! ## Postconditions -/

theorem post_pure {α : Type} {a : α} {s : Store} {Q : α → Store → List Event → Prop}
    (h : Q a s []) : Post (pure a) s Q := by
  intro b hb
  simp only [pure_apply] at hb ⊢
  injection hb with hb
  subst hb
  exact h

theorem post_bind {α β : Type} {x : M α} {f : α → M β} {s : Store}
    {Q : β → Store → List Event → Prop}
    (h : Post x s (fun a s1 t1 => Post (f a) s1 (fun b s2 t2 => Q b s2 (t1 ++ t2)))) :
    Post (x >>= f) s Q := by
  intro b hb
  rw [bind_apply] at hb ⊢
  cases hx : (x s).result with
  | error e => simp [hx] at hb
  | ok a =>
    simp only [hx] at hb ⊢
    exact h a hx b hb

theorem post_mono {α : Type} {m : M α} {s : Store} {Q Q' : α → Store → List Event → Prop}
    (h : Post m s Q') (hq : ∀ a s' t, Q' a s' t → Q a s' t) : Post m s Q :=
  fun a ha => hq _ _ _ (h a ha)

theorem post_getStore {s : Store} {Q : Store → Store → List Event → Prop} (h : Q s s []) :
    Post getStore s Q := by
  intro b hb
  simp only [getStore] at hb ⊢
  injection hb with hb
  subst hb
  exact h

theorem post_modifyStore {f : Store → Store} {s : Store} {Q : Unit → Store → List Event → Prop}
    (h : Q () (f s) []) : Post (modifyStore f) s Q :=
  fun _ _ => h

theorem post_emit {e : Event} {s : Store} {Q : Unit → Store → List Event → Prop}
    (h : Q () s [e]) : Post (emit e) s Q :=
  fun _ _ => h

theorem post_warn {d : Diagnostic} {s : Store} {Q : Unit → Store → List Event → Prop}
    (h : Q () s [.diag d]) : Post (warn d) s Q :=
  fun _ _ => h

theorem post_throwJs {α : Type} {e : JsError} {s : Store} {Q : α → Store → List Event → Prop} :
    Post (throwJs e) s Q := by
  intro b hb
  simp [throwJs] at hb

theorem post_liftExcept {α : Type} {x : Except JsError α} {s : Store}
    {Q : α → Store → List Event → Prop} (h : ∀ a, x = .ok a → Q a s []) :
    Post (liftExcept x) s Q :=
  fun a ha => h a ha

theorem post_withCommit {fn : M Unit} {s : Store} {Q : Unit → Store → List Event → Prop}
    (h : Post fn (s.setCommitting true) (fun _ s1 t1 => Q () (s1.setCommitting s._committing) t1)) :
    Post (_withCommit fn) s Q := by
  intro b hb
  cases hx : (fn (s.setCommitting true)).result with
  | error e =>
    rw [withCommit_of_error (Res.eq_of_result hx)] at hb
    simp at hb
  | ok a =>
    rw [withCommit_of_ok (Res.eq_of_result hx)]
    exact h a hx

theorem post_forEach {α : Type} (l : List α) (f : α → M Unit)
    (R : Store → Store → List Event → Prop)
    (hrefl : ∀ s, R s s [])
    (hstep : ∀ a ∈ l, ∀ s0 s t, R s0 s t →
      Post (f a) s (fun _ s' t' => R s0 s' (t ++ t')))
    (s : Store) : Post (forEach l f) s (fun _ s' t => R s s' t) := by
  suffices h : ∀ s0 s t, R s0 s t → Post (forEach l f) s (fun _ s' t' => R s0 s' (t ++ t')) by
    have := h s s [] (hrefl s)
    simpa using this
  induction l with
  | nil =>
    intro s0 s t hR
    exact post_pure (by simpa using hR)
  | cons a rest ih =>
    intro s0 s t hR
    rw [forEach]
    refine post_bind (post_mono (hstep a (List.mem_cons_self _ _) s0 s t hR) ?_)
    intro _ s1 t1 h1
    refine post_mono (ih (fun b hb => hstep b (List.mem_cons_of_mem _ hb)) s0 s1 (t ++ t1) h1) ?_
    intro _ s2 t2 h2
    simpa [List.append_assoc] using h2

/-! ## Installation registers every handler under its qualified type -/

theorem Grows.refl (s : Store) : Grows s s :=
  ⟨rfl, fun _ _ h => h, fun _ _ h => h, fun _ _ h => h⟩

theorem Grows.trans {a b c : Store} (h1 : Grows a b) (h2 : Grows b c) : Grows a c :=
  ⟨h2.modules.trans h1.modules, fun t w h => h2.mutations t w (h1.mutations t w h),
    fun t w h => h2.actions t w (h1.actions t w h),
    fun t w h => h2.getters t w (h1.getters t w h)⟩

theorem Grows.of_eq {s s' : Store} (h1 : s'._modules = s._modules)
    (h2 : s'._mutations = s._mutations) (h3 : s'._actions = s._actions)
    (h4 : s'._wrappedGetters = s._wrappedGetters) : Grows s s' :=
  ⟨h1, fun t w h => by unfold MutRegistered at h ⊢; rw [h2]; exact h,
    fun t w h => by unfold ActRegistered at h ⊢; rw [h3]; exact h,
    fun t w h => by rw [h4]; exact h⟩

theorem Installed.mono {s s' : Store} {tr tr' : List Event} {ns : Str} {path : List Str}
    {m : Module} (h : Installed s tr ns path m) (hg : Grows s s') (ht : ∀ e ∈ tr, e ∈ tr') :
    Installed s' tr' ns path m := by
  obtain ⟨h1, h2, h3⟩ := h
  refine ⟨fun kv hkv => hg.mutations _ _ (h1 kv hkv), fun kv hkv => hg.actions _ _ (h2 kv hkv), ?_⟩
  intro kv hkv
  obtain ⟨w, hw, hor⟩ := h3 kv hkv
  refine ⟨w, hg.getters _ _ hw, ?_⟩
  cases hor with
  | inl h => exact Or.inl h
  | inr h => exact Or.inr (ht _ h)

theorem post_forEach_own {α : Type} (l : List α) (f : α → M Unit) (G : Store → Store → Prop)
    (Own : α → Store → List Event → Prop)
    (grefl : ∀ s, G s s) (gtrans : ∀ a b c, G a b → G b c → G a c)
    (hstep : ∀ a ∈ l, ∀ s, Post (f a) s (fun _ s' t => G s s' ∧ Own a s' t))
    (hmono : ∀ a s s' t t1 t2, Own a s t → G s s' → Own a s' (t1 ++ t ++ t2)) :
    ∀ s, Post (forEach l f) s (fun _ s' t => G s s' ∧ ∀ a ∈ l, Own a s' t) := by
  induction l with
  | nil =>
    intro s
    exact post_pure ⟨grefl s, fun a ha => by simp at ha⟩
  | cons a rest ih =>
    intro s
    rw [forEach]
    refine post_bind (post_mono (hstep a (List.mem_cons_self _ _) s) ?_)
    intro _ s1 t1 ⟨hg1, ho1⟩
    refine post_mono (ih (fun b hb => hstep b (List.mem_cons_of_mem _ hb)) s1) ?_
    intro _ s2 t2 ⟨hg2, ho2⟩
    refine ⟨gtrans _ _ _ hg1 hg2, ?_⟩
    intro b hb
    cases List.mem_cons.mp hb with
    | inl h =>
      subst h
      simpa using hmono b s1 s2 t1 [] t2 ho1 hg2
    | inr h =>
      simpa using hmono b s2 s2 t2 t1 [] (ho2 b h) (grefl s2)

theorem registerMutation_post (type : Str) (handler : MutationFn) (ctx : LocalContext)
    (s : Store) :
    Post (registerMutation type handler ctx) s
      (fun _ s' t => Grows s s' ∧ t = [] ∧ MutRegistered s' type ⟨handler, ctx⟩) := by
  intro _ _
  refine ⟨⟨rfl, ?_, fun _ _ h => h, fun _ _ h => h⟩, rfl, ?_⟩
  · intro t w ⟨entry, he, hw⟩
    by_cases ht : type = t
    · subst ht
      exact ⟨_, objGet_objSet_same _ _ _, by simp [he, hw]⟩
    · exact ⟨entry, (objGet_objSet_ne _ _ ht).trans he, hw⟩
  · exact ⟨_, objGet_objSet_same _ _ _, by simp⟩

theorem registerAction_post (type : Str) (handler : ActionFn) (ctx : LocalContext)
    (s : Store) :
    Post (registerAction type handler ctx) s
      (fun _ s' t => Grows s s' ∧ t = [] ∧ ActRegistered s' type ⟨handler, ctx⟩) := by
  intro _ _
  refine ⟨⟨rfl, fun _ _ h => h, ?_, fun _ _ h => h⟩, rfl, ?_⟩
  · intro t w ⟨entry, he, hw⟩
    by_cases ht : type = t
    · subst ht
      exact ⟨_, objGet_objSet_same _ _ _, by simp [he, hw]⟩
    · exact ⟨entry, (objGet_objSet_ne _ _ ht).trans he, hw⟩
  · exact ⟨_, objGet_objSet_same _ _ _, by simp⟩

theorem registerGetter_apply (type : Str) (rawGetter : GetterFn) (ctx : LocalContext)
    (s : Store) :
    registerGetter type rawGetter ctx s =
      if (objGet s._wrappedGetters type).isSome then
        ⟨.ok (), s, [.diag (.duplicateGetter type)]⟩
      else
        ⟨.ok (), { s with _wrappedGetters := objSet s._wrappedGetters type ⟨rawGetter, ctx⟩ }, []⟩ := by
  simp only [registerGetter, bind_apply, getStore]
  split <;> rfl

theorem registerGetter_post (type : Str) (rawGetter : GetterFn) (ctx : LocalContext)
    (s : Store) :
    Post (registerGetter type rawGetter ctx) s
      (fun _ s' t => Grows s s' ∧ ∃ w, objGet s'._wrappedGetters type = some w ∧
        (w = ⟨rawGetter, ctx⟩ ∨ Event.diag (.duplicateGetter type) ∈ t)) := by
  intro _ _
  rw [registerGetter_apply]
  cases hg : objGet s._wrappedGetters type with
  | some w =>
    simp only [Option.isSome_some, if_true]
    exact ⟨Grows.refl s, w, hg, Or.inr (by simp)⟩
  | none =>
    simp only [Option.isSome_none, Bool.false_eq_true, if_false]
    refine ⟨⟨rfl, fun _ _ h => h, fun _ _ h => h, ?_⟩, _, objGet_objSet_same _ _ _, Or.inl rfl⟩
    intro t w hw
    have ht : type ≠ t := by
      intro h
      subst h
      rw [hg] at hw
      cases hw
    exact (objGet_objSet_ne _ _ ht).trans hw

theorem post_doWhen {c : Bool} {body : M Unit} {s : Store}
    {Q : Unit → Store → List Event → Prop} (h1 : c = true → Post body s Q)
    (h2 : c = false → Q () s []) : Post (doWhen c body) s Q := by
  cases c with
  | true => exact h1 rfl
  | false => exact post_pure (h2 rfl)

theorem registerNamespace_post (ns : Str) (path : List Str) (s : Store) :
    Post (registerNamespace ns path) s (fun _ s' _ => Grows s s') := by
  rw [registerNamespace]
  refine post_bind (post_getStore ?_)
  refine post_bind (post_doWhen (fun _ => post_emit ?_) (fun _ => ?_))
  · exact post_modifyStore (Grows.of_eq rfl rfl rfl rfl)
  · exact post_modifyStore (Grows.of_eq rfl rfl rfl rfl)

theorem graftState_post (parentPath : List Str) (moduleName : Str) (path : List Str)
    (state : JVal) (s : Store) :
    Post (graftState parentPath moduleName path state) s
      (fun _ s' _ => s'._modules = s._modules ∧ s'._mutations = s._mutations ∧
        s'._actions = s._actions ∧ s'._wrappedGetters = s._wrappedGetters) := by
  rw [graftState]
  refine post_bind (post_getStore ?_)
  dsimp only
  split
  · refine post_bind (post_doWhen (fun _ => post_warn ?_) (fun _ => ?_))
    · exact post_modifyStore ⟨rfl, rfl, rfl, rfl⟩
    · exact post_modifyStore ⟨rfl, rfl, rfl, rfl⟩
  · exact post_throwJs

theorem setModuleState_post (path : List Str) (state : JVal) (s : Store) :
    Post (setModuleState path state) s (fun _ s' _ => Grows s s') := by
  rw [setModuleState]
  refine post_bind (post_getStore ?_)
  refine post_bind (post_liftExcept ?_)
  intro _ _
  refine post_withCommit (post_mono (graftState_post _ _ _ _ _) ?_)
  intro _ s' _ ⟨h1, h2, h3, h4⟩
  exact Grows.of_eq h1 h2 h3 h4

theorem getFrom_some_cons {m : Module} {key : Str} {q : List Str} {m' : Module}
    (h : getFrom (some m) (key :: q) = .ok (some m')) :
    ∃ child, objGet m._children key = some child ∧ getFrom (some child) q = .ok (some m') := by
  cases hc : m.getChild key with
  | none =>
    rw [getFrom, hc] at h
    cases q <;> simp [getFrom] at h
  | some child =>
    rw [getFrom, hc] at h
    exact ⟨child, hc, h⟩

mutual
theorem installModule_post : ∀ (module : Module) (path : List Str) (hot : Bool) (s : Store),
    Post (installModule path module hot) s (fun _ s' tr => Grows s s' ∧
      ∀ q m' ns', getFrom (some module) q = .ok (some m') →
        s._modules.getNamespace (path ++ q) = .ok ns' → Installed s' tr ns' (path ++ q) m')
  | .mk runtime children raw st, path, hot, s => by
    rw [installModule]
    refine post_bind (post_getStore ?_)
    refine post_bind (post_liftExcept ?_)
    intro ns hns
    refine post_bind (post_mono (post_doWhen (fun _ => registerNamespace_post ns path s)
      (fun _ => Grows.refl s)) ?_)
    intro _ s1 t1 g1
    refine post_bind (post_mono (post_doWhen (fun _ => setModuleState_post path st s1)
      (fun _ => Grows.refl s1)) ?_)
    intro _ s2 t2 g2
    refine post_bind (post_mono (post_forEach_own _ _ Grows
      (fun (kv : Str × MutationFn) s' (_ : List Event) =>
        MutRegistered s' (ns ++ kv.1) ⟨kv.2, makeLocalContext ns path⟩)
      Grows.refl (fun _ _ _ => Grows.trans)
      (fun kv _ s => post_mono (registerMutation_post _ _ _ s) (fun _ _ _ h => ⟨h.1, h.2.2⟩))
      (fun _ _ _ _ _ _ h g => g.mutations _ _ h) s2) ?_)
    intro _ s3 t3 ⟨g3, o3⟩
    refine post_bind (post_mono (post_forEach_own _ _ Grows
      (fun (kv : Str × ActionEntry) s' (_ : List Event) =>
        ActRegistered s' (if kv.2.root then kv.1 else ns ++ kv.1)
          ⟨kv.2.handler, makeLocalContext ns path⟩)
      Grows.refl (fun _ _ _ => Grows.trans)
      (fun kv _ s => post_mono (registerAction_post _ _ _ s) (fun _ _ _ h => ⟨h.1, h.2.2⟩))
      (fun _ _ _ _ _ _ h g => g.actions _ _ h) s3) ?_)
    intro _ s4 t4 ⟨g4, o4⟩
    refine post_bind (post_mono (post_forEach_own _ _ Grows
      (fun (kv : Str × GetterFn) s' (t : List Event) =>
        ∃ w, objGet s'._wrappedGetters (ns ++ kv.1) = some w ∧
          (w = ⟨kv.2, makeLocalContext ns path⟩ ∨
            Event.diag (.duplicateGetter (ns ++ kv.1)) ∈ t))
      Grows.refl (fun _ _ _ => Grows.trans)
      (fun kv _ s => registerGetter_post _ _ _ s)
      (fun _ _ _ _ _ _ ⟨w, hw, hor⟩ g => ⟨w, g.getters _ _ hw, by
        cases hor with
        | inl h => exact Or.inl h
        | inr h => exact Or.inr (by simp [h])⟩) s4) ?_)
    intro _ s5 t5 ⟨g5, o5⟩
    refine post_mono (installChildren_post children path hot s5) ?_
    intro _ s6 t6 ⟨g6, o6⟩
    have g05 : Grows s s5 := (((g1.trans g2).trans g3).trans g4).trans g5
    refine ⟨g05.trans g6, ?_⟩
    intro q m' ns' hq hns'
    cases q with
    | nil =>
      have hm : m' = Module.mk runtime children raw st := by
        simp only [getFrom] at hq
        injection hq with hq
        injection hq with hq
        exact hq.symm
      subst hm
      rw [List.append_nil] at hns' ⊢
      rw [hns] at hns'
      injection hns' with hns'
      subst hns'
      have own : Installed s5 (t3 ++ (t4 ++ t5)) ns path (Module.mk runtime children raw st) :=
        ⟨fun kv hkv => g5.mutations _ _ (g4.mutations _ _ (o3 kv hkv)),
          fun kv hkv => g5.actions _ _ (o4 kv hkv),
          fun kv hkv => by
            obtain ⟨w, hw, hor⟩ := o5 kv hkv
            refine ⟨w, hw, ?_⟩
            cases hor with
            | inl h => exact Or.inl h
            | inr h => exact Or.inr (by simp [h])⟩
      exact own.mono g6 (fun e he => by simp at he ⊢; tauto)
    | cons key q' =>
      obtain ⟨child, hc, hq'⟩ := getFrom_some_cons hq
      have h := o6 key child hc q' m' ns' hq' (by rw [g05.modules]; exact hns')
      exact h.mono (Grows.refl _) (fun e he => by simp at he ⊢; tauto)
theorem installChildren_post : ∀ (children : List (Str × Module)) (path : List Str) (hot : Bool)
    (s : Store),
    Post (installChildren path children hot) s (fun _ s' tr => Grows s s' ∧
      ∀ key child, objGet children key = some child →
        ∀ q m' ns', getFrom (some child) q = .ok (some m') →
          s._modules.getNamespace (path ++ key :: q) = .ok ns' →
          Installed s' tr ns' (path ++ key :: q) m')
  | [], path, hot, s => by
    rw [installChildren]
    exact post_pure ⟨Grows.refl s, fun key child h => by simp [objGet] at h⟩
  | (k, c) :: rest, path, hot, s => by
    rw [installChildren]
    refine post_bind (post_mono (installModule_post c (path ++ [k]) hot s) ?_)
    intro _ s1 t1 ⟨g1, o1⟩
    refine post_mono (installChildren_post rest path hot s1) ?_
    intro _ s2 t2 ⟨g2, o2⟩
    refine ⟨g1.trans g2, ?_⟩
    intro key child hkc q m' ns' hq hns'
    by_cases hk : k = key
    · subst hk
      have hcc : c = child := by simpa [objGet] using hkc
      subst hcc
      have h := o1 q m' ns' hq (by simpa using hns')
      have h2 := h.mono g2 (fun e he => List.mem_append_left t2 he)
      simpa using h2
    · have hkc' : objGet rest key = some child := by simpa [objGet, hk] using hkc
      have h := o2 key child hkc' q m' ns' hq (by rw [g1.modules]; exact hns')
      exact h.mono (Grows.refl _) (fun e he => List.mem_append_right t1 he)
end

theorem resetStoreVM_apply (state : JVal) (hot : Bool) (s : Store) :
    resetStoreVM state hot s =
      ⟨.ok (), { s with
          getters := objKeys s._wrappedGetters
          _makeLocalGettersCache := []
          _vm := ⟨state, s._wrappedGetters⟩ }, []⟩ := by
  cases hot <;> rfl

theorem storeNew_ok {options : RawModule} {strict : Bool} {s : Store} {tr : List Event}
    (h : Store.new options strict = .ok (s, tr)) :
    ∃ modules s1, ModuleCollection.new options = .ok modules ∧
      installModule [] modules.root false (Store.initial modules strict) = ⟨.ok (), s1, tr⟩ ∧
      s = { s1 with
          getters := objKeys s1._wrappedGetters
          _makeLocalGettersCache := []
          _vm := ⟨s1.state, s1._wrappedGetters⟩ } := by
  unfold Store.new at h
  cases hm : ModuleCollection.new options with
  | error e => simp [hm] at h
  | ok modules =>
    simp only [hm] at h
    refine ⟨modules, (installModule [] modules.root false (Store.initial modules strict)).store,
      rfl, ?_⟩
    cases hi : (installModule [] modules.root false (Store.initial modules strict)).result with
    | error e =>
      rw [bind_of_error _ (Res.eq_of_result hi)] at h
      simp at h
    | ok u =>
      rw [bind_of_ok _ (Res.eq_of_result hi)] at h
      simp only [bind_apply, getStore, resetStoreVM_apply] at h
      injection h with h
      injection h with h1 h2
      refine ⟨?_, h1.symm⟩
      rw [← h2]
      simpa using Res.eq_of_result hi

theorem installed_after_new {options : RawModule} {strict : Bool} {s : Store}
    {tr : List Event} (h : Store.new options strict = .ok (s, tr)) (p : List Str) (m : Module)
    (hm : s._modules.get p = .ok (some m)) :
    ∃ ns, s._modules.getNamespace p = .ok ns ∧ Installed s tr ns p m := by
  obtain ⟨modules, s1, _, hi, hs⟩ := storeNew_ok h
  have hpost := installModule_post modules.root [] false (Store.initial modules strict) ()
    (by rw [hi])
  rw [hi] at hpost
  obtain ⟨g, hall⟩ := hpost
  have hmod : s._modules = modules := by
    rw [hs]
    exact g.modules
  rw [hmod] at hm ⊢
  have hns := getNamespace_eq_spec modules p m hm
  refine ⟨_, hns, ?_⟩
  have hI := hall p m _ hm (by simpa using hns)
  rw [hs]
  simp only [List.nil_append] at hI
  exact hI.mono (Grows.of_eq rfl rfl rfl rfl) (fun _ he => he)

/-! ## Local context -/

theorem commit_root_option (t : Str) (p : JVal) (o : Options) (h : o.silent = false)
    (s : Store) : commit t p (some o) s = commit t p none s := by
  unfold commit
  simp only [bind_apply, getStore]
  cases hg : objGet s._mutations t with
  | none => rfl
  | some entry =>
    simp only [h, Bool.and_false, Bool.false_eq_true, if_false]

/-- C5: a local context with an empty namespace commits and dispatches
exactly as the root does.  With a non-empty namespace `ns`: a local
`commit(t, p, { root: true })` is the root `commit(t, p)`; a local
`commit(t, p)` without the root option is the root `commit(ns + t, p)`
when `ns + t` is a registered transition type, and otherwise changes
nothing and raises nothing (it only reports the diagnostic); the local
`dispatch` does the same against the action registry. -/
theorem local_routing (l : LocalContext) (t : Str) (p : JVal) (s : Store) :
    (l.ns = [] →
      (∀ o, l.commit t p o s = commit t p o s) ∧
      (∀ o, l.dispatch t p o s = dispatch t p s)) ∧
    (l.ns ≠ [] →
      (∀ o : Options, o.root = true →
        l.commit t p (some o) s = commit t p (some o) s ∧
        (o.silent = false → l.commit t p (some o) s = commit t p none s) ∧
        l.dispatch t p (some o) s = dispatch t p s) ∧
      (∀ o, Options.isRoot o = false →
        ((objGet s._mutations (l.ns ++ t)).isSome = true →
          l.commit t p o s = commit (l.ns ++ t) p o s) ∧
        (objGet s._mutations (l.ns ++ t) = none →
          l.commit t p o s = ⟨.ok (), s, [.diag (.unknownLocalMutation t (l.ns ++ t))]⟩) ∧
        ((objGet s._actions (l.ns ++ t)).isSome = true →
          l.dispatch t p o s = dispatch (l.ns ++ t) p s) ∧
        (objGet s._actions (l.ns ++ t) = none →
          l.dispatch t p o s =
            ⟨.ok none, s, [.diag (.unknownLocalAction t (l.ns ++ t))]⟩))) := by
  refine ⟨fun h => ⟨fun o => ?_, fun o => ?_⟩, fun h => ⟨fun o ho => ⟨?_, fun hs => ?_, ?_⟩,
    fun o ho => ⟨fun hr => ?_, fun hr => ?_, fun hr => ?_, fun hr => ?_⟩⟩⟩
  · simp [LocalContext.commit, h]
  · simp [LocalContext.dispatch, h]
  · simp [LocalContext.commit, h, Options.isRoot, ho]
  · rw [← commit_root_option t p o hs s]
    simp [LocalContext.commit, h, Options.isRoot, ho]
  · simp [LocalContext.dispatch, h, Options.isRoot, ho]
  · simp only [LocalContext.commit, h, if_false, ho, Bool.not_false, if_true, bind_apply,
      getStore, __DEV__, Bool.true_and]
    cases hg : objGet s._mutations (l.ns ++ t) with
    | none => simp [hg] at hr
    | some entry => simp
  · simp only [LocalContext.commit, h, if_false, ho, Bool.not_false, if_true, bind_apply,
      getStore, __DEV__, Bool.true_and, hr]
    simp [emit]
  · simp only [LocalContext.dispatch, h, if_false, ho, Bool.not_false, if_true, bind_apply,
      getStore, __DEV__, Bool.true_and]
    cases hg : objGet s._actions (l.ns ++ t) with
    | none => simp [hg] at hr
    | some entry => simp
  · simp only [LocalContext.dispatch, h, if_false, ho, Bool.not_false, if_true, bind_apply,
      getStore, __DEV__, Bool.true_and, hr]
    simp [emit, bind_apply]

theorem local_routing_witness :
    cartContext.ns ≠ [] ∧
    (objGet cartStore._mutations (cartContext.ns ++ "set".toList)).isSome = true ∧
    objGet cartStore._mutations (cartContext.ns ++ "nope".toList) = none ∧
    cartContext.commit "set".toList (.num 5) none cartStore =
      commit "cart/set".toList (.num 5) none cartStore ∧
    (cartContext.commit "set".toList (.num 5) none cartStore).store.state =
      .obj [("cart".toList, .obj [("items".toList, .num 5)])] ∧
    cartContext.commit "nope".toList (.num 5) none cartStore =
      ⟨.ok (), cartStore,
        [.diag (.unknownLocalMutation "nope".toList "cart/nope".toList)]⟩ :=
  ⟨by decide, rfl, rfl,
    ((local_routing cartContext "set".toList (.num 5) cartStore).2 (by decide)).2 none rfl
      |>.1 rfl,
    rfl,
    ((local_routing cartContext "nope".toList (.num 5) cartStore).2 (by decide)).2 none rfl
      |>.2.1 rfl⟩

/-! ## Properties kept by every step -/

theorem keeps_pure {α : Type} (a : α) (I : Store → Prop) : Keeps (pure a : M α) I :=
  fun _ h => h

theorem keeps_getStore (I : Store → Prop) : Keeps getStore I :=
  fun _ h => h

theorem keeps_emit (e : Event) (I : Store → Prop) : Keeps (emit e) I :=
  fun _ h => h

theorem keeps_warn (d : Diagnostic) (I : Store → Prop) : Keeps (warn d) I :=
  fun _ h => h

theorem keeps_throwJs {α : Type} (e : JsError) (I : Store → Prop) :
    Keeps (throwJs e : M α) I :=
  fun _ h => h

theorem keeps_liftExcept {α : Type} (x : Except JsError α) (I : Store → Prop) :
    Keeps (liftExcept x) I :=
  fun _ h => h

theorem keeps_modifyStore {f : Store → Store} {I : Store → Prop} (h : ∀ s, I s → I (f s)) :
    Keeps (modifyStore f) I :=
  fun s hs => h s hs

theorem keeps_bind {α β : Type} {x : M α} {f : α → M β} {I : Store → Prop}
    (hx : Keeps x I) (hf : ∀ a, Keeps (f a) I) : Keeps (x >>= f) I := by
  intro s hs
  rw [bind_apply]
  cases hr : (x s).result with
  | error e => exact hx s hs
  | ok a => exact hf a _ (hx s hs)

theorem keeps_doWhen {c : Bool} {body : M Unit} {I : Store → Prop} (h : Keeps body I) :
    Keeps (doWhen c body) I := by
  cases c with
  | true => exact h
  | false => exact keeps_pure _ I

theorem keeps_forEach {α : Type} (l : List α) {f : α → M Unit} {I : Store → Prop}
    (h : ∀ a, Keeps (f a) I) : Keeps (forEach l f) I := by
  induction l with
  | nil => exact keeps_pure _ I
  | cons a rest ih =>
    rw [forEach]
    exact keeps_bind (h a) (fun _ => ih)

theorem keeps_mapEach {α β : Type} (l : List α) {f : α → M β} {I : Store → Prop}
    (h : ∀ a, Keeps (f a) I) : Keeps (mapEach l f) I := by
  induction l with
  | nil => exact keeps_pure _ I
  | cons a rest ih =>
    rw [mapEach]
    exact keeps_bind (h a) (fun _ => keeps_bind ih (fun _ => keeps_pure _ I))

theorem keeps_tryCatch {body : M Unit} {handler : JsError → M Unit} {I : Store → Prop}
    (hb : Keeps body I) (hh : ∀ e, Keeps (handler e) I) : Keeps (tryCatch body handler) I := by
  intro s hs
  unfold tryCatch
  cases hr : (body s).result with
  | error e => simpa [hr] using hh e _ (hb s hs)
  | ok a => simpa [hr] using hb s hs

theorem keeps_withCommit {fn : M Unit} {I : Store → Prop}
    (hc : ∀ s b, I s → I (s.setCommitting b)) (h : Keeps fn I) : Keeps (_withCommit fn) I := by
  rw [_withCommit]
  refine keeps_bind (keeps_getStore I) (fun _ => ?_)
  refine keeps_bind (keeps_modifyStore (fun s hs => hc s _ hs)) (fun _ => ?_)
  exact keeps_bind h (fun _ => keeps_modifyStore (fun s hs => hc s _ hs))

theorem GettersOnly.setCommitting {I : Store → Prop} (hI : GettersOnly I) (s : Store) (b : Bool)
    (h : I s) : I (s.setCommitting b) :=
  hI s _ rfl rfl h

theorem keeps_subscriber_call {I : Store → Prop} (hI : GettersOnly I) (sub : Subscriber)
    (m : Mutation) : Keeps (sub.call m) I := by
  intro s hs
  obtain ⟨subs, h⟩ := subscriber_call_apply sub m s
  rw [h]
  exact hI s _ rfl rfl hs

theorem keeps_mutation_call {I : Store → Prop} (hI : GettersOnly I) (w : WrappedMutation)
    (p : JVal) : Keeps (w.call p) I := by
  intro s hs
  cases hl : getNestedState s.state w.localCtx.path with
  | error e =>
    rw [mutation_call_of_error p hl]
    exact hs
  | ok l =>
    rw [mutation_call_of_ok p hl]
    exact hI s _ rfl rfl hs

theorem keeps_commit {I : Store → Prop} (hI : GettersOnly I) (t : Str) (p : JVal)
    (o : Option Options) : Keeps (commit t p o) I := by
  unfold commit
  refine keeps_bind (keeps_getStore I) (fun st => ?_)
  split
  · exact keeps_warn _ I
  · refine keeps_bind (keeps_withCommit hI.setCommitting
      (keeps_forEach _ (fun w => keeps_mutation_call hI w p))) (fun _ => ?_)
    refine keeps_bind (keeps_getStore I) (fun st2 => ?_)
    refine keeps_bind (keeps_forEach _ (fun sub => keeps_subscriber_call hI sub _)) (fun _ => ?_)
    split
    · split
      · exact keeps_emit _ I
      · exact keeps_pure _ I
    · exact keeps_pure _ I

theorem keeps_registerGetter {I : Store → Prop} (hI : GettersOnly I) (type : Str)
    (g : GetterFn) (ctx : LocalContext) : Keeps (registerGetter type g ctx) I := by
  intro s hs
  rw [registerGetter_apply]
  split
  · exact hs
  · exact hI s _ rfl rfl hs

theorem keeps_graftState {I : Store → Prop} (hI : GettersOnly I) (parentPath : List Str)
    (moduleName : Str) (path : List Str) (state : JVal) :
    Keeps (graftState parentPath moduleName path state) I := by
  rw [graftState]
  refine keeps_bind (keeps_getStore I) (fun st => ?_)
  dsimp only
  split
  · exact keeps_bind (keeps_doWhen (keeps_warn _ I))
      (fun _ => keeps_modifyStore (fun s hs => hI s _ rfl rfl hs))
  · exact keeps_throwJs _ I

mutual
theorem keeps_installModule {I : Store → Prop} (hI : GettersOnly I) :
    ∀ (module : Module) (path : List Str) (hot : Bool), Keeps (installModule path module hot) I
  | .mk runtime children raw st, path, hot => by
    rw [installModule]
    refine keeps_bind (keeps_getStore I) (fun st0 => ?_)
    refine keeps_bind (keeps_liftExcept _ I) (fun ns => ?_)
    refine keeps_bind (keeps_doWhen ?_) (fun _ => ?_)
    · rw [registerNamespace]
      refine keeps_bind (keeps_getStore I) (fun _ => ?_)
      exact keeps_bind (keeps_doWhen (keeps_emit _ I))
        (fun _ => keeps_modifyStore (fun s hs => hI s _ rfl rfl hs))
    refine keeps_bind (keeps_doWhen ?_) (fun _ => ?_)
    · rw [setModuleState]
      refine keeps_bind (keeps_getStore I) (fun _ => ?_)
      refine keeps_bind (keeps_liftExcept _ I) (fun _ => ?_)
      exact keeps_withCommit hI.setCommitting (keeps_graftState hI _ _ _ _)
    refine keeps_bind (keeps_forEach _ (fun kv =>
      keeps_modifyStore (fun s hs => hI s _ rfl rfl hs))) (fun _ => ?_)
    refine keeps_bind (keeps_forEach _ (fun kv =>
      keeps_modifyStore (fun s hs => hI s _ rfl rfl hs))) (fun _ => ?_)
    refine keeps_bind (keeps_forEach _ (fun kv => keeps_registerGetter hI _ _ _)) (fun _ => ?_)
    exact keeps_installChildren hI children path hot
theorem keeps_installChildren {I : Store → Prop} (hI : GettersOnly I) :
    ∀ (children : List (Str × Module)) (path : List Str) (hot : Bool),
      Keeps (installChildren path children hot) I
  | [], path, hot => by
    rw [installChildren]
    exact keeps_pure _ I
  | (k, c) :: rest, path, hot => by
    rw [installChildren]
    exact keeps_bind (keeps_installModule hI c (path ++ [k]) hot)
      (fun _ => keeps_installChildren hI rest path hot)
end

/-! ## The cache of local getters -/

theorem gettersOnly_cacheFresh : GettersOnly CacheFresh := by
  intro s s' hc hg h ns proxy hp
  rw [hc] at hp
  rw [hg]
  exact h ns proxy hp

theorem keeps_resetStoreVM (state : JVal) (hot : Bool) :
    Keeps (resetStoreVM state hot) CacheFresh := by
  intro s _
  rw [resetStoreVM_apply]
  intro ns proxy hp
  simp [objGet] at hp

theorem makeLocalGetters_apply (ns : Str) (s : Store) :
    makeLocalGetters ns s =
      match objGet s._makeLocalGettersCache ns with
      | some cached => ⟨.ok cached, s, []⟩
      | none =>
        ⟨.ok (gettersProxy s.getters ns),
          { s with _makeLocalGettersCache :=
              objSet s._makeLocalGettersCache ns (gettersProxy s.getters ns) }, []⟩ := by
  simp only [makeLocalGetters, bind_apply, getStore]
  cases objGet s._makeLocalGettersCache ns <;> rfl

theorem keeps_makeLocalGetters (ns : Str) : Keeps (makeLocalGetters ns) CacheFresh := by
  intro s hs
  rw [makeLocalGetters_apply]
  cases hc : objGet s._makeLocalGettersCache ns with
  | some cached => exact hs
  | none =>
    intro ns' proxy hp
    by_cases hn : ns = ns'
    · subst hn
      simp only [objGet_objSet_same] at hp
      injection hp with hp
      exact hp.symm
    · simp only [objGet_objSet_ne _ _ hn] at hp
      exact hs ns' proxy hp

theorem keeps_localGetters (l : LocalContext) : Keeps l.getters CacheFresh := by
  unfold LocalContext.getters
  split
  · exact keeps_bind (keeps_getStore _) (fun _ => keeps_pure _ _)
  · refine keeps_bind (keeps_makeLocalGetters _) (fun _ => ?_)
    exact keeps_bind (keeps_getStore _) (fun _ => keeps_pure _ _)

theorem keeps_action_call (w : WrappedAction) (p : JVal) : Keeps (w.call p) CacheFresh := by
  unfold WrappedAction.call
  refine keeps_bind (keeps_localGetters _) (fun _ => ?_)
  refine keeps_bind (keeps_getStore _) (fun _ => ?_)
  refine keeps_bind (keeps_liftExcept _ _) (fun _ => ?_)
  refine keeps_bind (keeps_getStore _) (fun _ => ?_)
  exact keeps_bind (keeps_emit _ _) (fun _ => keeps_liftExcept _ _)

theorem keeps_callBefore (I : Store → Prop) (sub : ActionSubscriber) (a : Mutation) :
    Keeps (sub.callBefore a) I := by
  unfold ActionSubscriber.callBefore
  refine keeps_bind (keeps_getStore _) (fun _ => ?_)
  split
  · exact keeps_throwJs _ _
  · refine keeps_bind (keeps_emit _ _) (fun _ => ?_)
    split
    · exact keeps_pure _ _
    · exact keeps_throwJs _ _

theorem keeps_callAfter (I : Store → Prop) (sub : ActionSubscriber) (a : Mutation) :
    Keeps (sub.callAfter a) I := by
  unfold ActionSubscriber.callAfter
  refine keeps_bind (keeps_getStore _) (fun _ => ?_)
  split
  · exact keeps_throwJs _ _
  · refine keeps_bind (keeps_emit _ _) (fun _ => ?_)
    split
    · exact keeps_pure _ _
    · exact keeps_throwJs _ _

theorem keeps_callError (I : Store → Prop) (sub : ActionSubscriber) (a : Mutation)
    (e : JsError) : Keeps (sub.callError a e) I := by
  unfold ActionSubscriber.callError
  refine keeps_bind (keeps_getStore _) (fun _ => ?_)
  split
  · exact keeps_throwJs _ _
  · refine keeps_bind (keeps_emit _ _) (fun _ => ?_)
    split
    · exact keeps_pure _ _
    · exact keeps_throwJs _ _

theorem keeps_invokeHandlers (entry : List WrappedAction) (p : JVal) :
    Keeps (invokeHandlers entry p) CacheFresh := by
  unfold invokeHandlers
  split
  · exact keeps_bind (keeps_mapEach _ (fun w => keeps_action_call w p)) (fun _ => keeps_pure _ _)
  · split
    · exact keeps_throwJs _ _
    · exact keeps_bind (keeps_action_call _ p) (fun _ => keeps_pure _ _)

theorem keeps_dispatch (t : Str) (p : JVal) : Keeps (dispatch t p) CacheFresh := by
  unfold dispatch
  refine keeps_bind (keeps_getStore _) (fun _ => ?_)
  split
  · exact keeps_bind (keeps_warn _ _) (fun _ => keeps_pure _ _)
  · refine keeps_bind (keeps_tryCatch ?_ (fun e => keeps_warn _ _)) (fun _ => ?_)
    · exact keeps_bind (keeps_getStore _)
        (fun _ => keeps_forEach _ (fun sub => keeps_callBefore _ sub _))
    · exact keeps_bind (keeps_invokeHandlers _ p) (fun _ => keeps_pure _ _)

theorem keeps_settle (d : Dispatched) : Keeps d.settle CacheFresh := by
  unfold Dispatched.settle
  split
  · exact keeps_pure _ _
  · refine keeps_bind (keeps_tryCatch ?_ (fun e => keeps_warn _ _)) (fun _ => keeps_pure _ _)
    exact keeps_bind (keeps_getStore _)
      (fun _ => keeps_forEach _ (fun sub => keeps_callAfter _ sub _))
  · refine keeps_bind (keeps_tryCatch ?_ (fun e => keeps_warn _ _)) (fun _ => keeps_pure _ _)
    exact keeps_bind (keeps_getStore _)
      (fun _ => keeps_forEach _ (fun sub => keeps_callError _ sub _ _))

theorem keeps_resetStore (hot : Bool) : Keeps (resetStore hot) CacheFresh := by
  unfold resetStore
  refine keeps_bind (keeps_modifyStore (fun s hs => gettersOnly_cacheFresh s _ rfl rfl hs))
    (fun _ => ?_)
  refine keeps_bind (keeps_getStore _) (fun _ => ?_)
  refine keeps_bind (keeps_installModule gettersOnly_cacheFresh _ _ _) (fun _ => ?_)
  exact keeps_bind (keeps_getStore _) (fun _ => keeps_resetStoreVM _ _)

theorem keeps_registerModule (path : List Str) (raw : RawModule) (preserveState : Bool) :
    Keeps (registerModule path raw preserveState) CacheFresh := by
  unfold registerModule
  refine keeps_bind (keeps_doWhen (keeps_throwJs _ _)) (fun _ => ?_)
  refine keeps_bind (keeps_getStore _) (fun _ => ?_)
  refine keeps_bind (keeps_liftExcept _ _) (fun _ => ?_)
  refine keeps_bind (keeps_modifyStore (fun s hs => gettersOnly_cacheFresh s _ rfl rfl hs))
    (fun _ => ?_)
  refine keeps_bind (keeps_liftExcept _ _) (fun found => ?_)
  refine keeps_bind ?_ (fun _ => ?_)
  · unfold installFound
    split
    · exact keeps_throwJs _ _
    · exact keeps_installModule gettersOnly_cacheFresh _ _ _
  · exact keeps_bind (keeps_getStore _) (fun _ => keeps_resetStoreVM _ _)

theorem keeps_deleteState {I : Store → Prop} (hI : GettersOnly I) (parentPath : List Str)
    (key : Str) : Keeps (deleteState parentPath key) I := by
  unfold deleteState
  refine keeps_bind (keeps_getStore _) (fun _ => ?_)
  refine keeps_bind (keeps_liftExcept _ _) (fun _ => ?_)
  split
  · exact keeps_modifyStore (fun s hs => hI s _ rfl rfl hs)
  · exact keeps_throwJs _ _
  · exact keeps_throwJs _ _
  · exact keeps_pure _ _

theorem keeps_unregisterModule (path : List Str) :
    Keeps (unregisterModule path) CacheFresh := by
  unfold unregisterModule
  refine keeps_bind (keeps_getStore _) (fun _ => ?_)
  refine keeps_bind (keeps_liftExcept _ _) (fun _ => ?_)
  refine keeps_bind (keeps_modifyStore (fun s hs => gettersOnly_cacheFresh s _ rfl rfl hs))
    (fun _ => ?_)
  refine keeps_bind (keeps_forEach _ (fun d => keeps_emit _ _)) (fun _ => ?_)
  refine keeps_bind (keeps_withCommit gettersOnly_cacheFresh.setCommitting
    (keeps_deleteState gettersOnly_cacheFresh _ _)) (fun _ => ?_)
  exact keeps_resetStore _

theorem keeps_hotUpdate (newOptions : RawModule) : Keeps (hotUpdate newOptions) CacheFresh := by
  unfold hotUpdate
  refine keeps_bind (keeps_getStore _) (fun _ => ?_)
  refine keeps_bind (keeps_modifyStore (fun s hs => gettersOnly_cacheFresh s _ rfl rfl hs))
    (fun _ => ?_)
  refine keeps_bind (keeps_forEach _ (fun d => keeps_emit _ _)) (fun _ => ?_)
  exact keeps_resetStore _

theorem keeps_localCommit (l : LocalContext) (t : Str) (p : JVal) (o : Option Options) :
    Keeps (l.commit t p o) CacheFresh := by
  unfold LocalContext.commit
  split
  · exact keeps_commit gettersOnly_cacheFresh _ _ _
  · split
    · refine keeps_bind (keeps_getStore _) (fun _ => ?_)
      split
      · exact keeps_emit _ _
      · exact keeps_commit gettersOnly_cacheFresh _ _ _
    · exact keeps_commit gettersOnly_cacheFresh _ _ _

theorem keeps_localDispatch (l : LocalContext) (t : Str) (p : JVal) (o : Option Options) :
    Keeps (l.dispatch t p o) CacheFresh := by
  unfold LocalContext.dispatch
  split
  · exact keeps_dispatch _ _
  · split
    · refine keeps_bind (keeps_getStore _) (fun _ => ?_)
      split
      · exact keeps_bind (keeps_emit _ _) (fun _ => keeps_pure _ _)
      · exact keeps_dispatch _ _
    · exact keeps_dispatch _ _

theorem cacheFresh_of_new {options : RawModule} {strict : Bool} {s : Store} {tr : List Event}
    (h : Store.new options strict = .ok (s, tr)) : CacheFresh s := by
  obtain ⟨_, s1, _, _, hs⟩ := storeNew_ok h
  rw [hs]
  intro ns proxy hp
  simp [objGet] at hp

theorem keeps_call (c : Call) (s : Store) (h : CacheFresh s) : CacheFresh (c.run s) := by
  cases c with
  | commit t p o => exact keeps_commit gettersOnly_cacheFresh t p o s h
  | dispatch t p => exact keeps_dispatch t p s h
  | settle d => exact keeps_settle d s h
  | subscribe fn pre => exact gettersOnly_cacheFresh s _ rfl rfl h
  | unsubscribe id => exact gettersOnly_cacheFresh s _ rfl rfl h
  | subscribeAction subs pre => exact gettersOnly_cacheFresh s _ rfl rfl h
  | unsubscribeAction id => exact gettersOnly_cacheFresh s _ rfl rfl h
  | replaceState st =>
    exact keeps_withCommit gettersOnly_cacheFresh.setCommitting
      (keeps_modifyStore (fun s hs => gettersOnly_cacheFresh s _ rfl rfl hs)) s h
  | registerModule path raw ps => exact keeps_registerModule path raw ps s h
  | unregisterModule path => exact keeps_unregisterModule path s h
  | hotUpdate o => exact keeps_hotUpdate o s h
  | localCommit l t p o => exact keeps_localCommit l t p o s h
  | localDispatch l t p o => exact keeps_localDispatch l t p o s h
  | localGetters l => exact keeps_localGetters l s h

theorem cacheFresh_of_reachable {s : Store} (h : Reachable s) : CacheFresh s := by
  induction h with
  | new h => exact cacheFresh_of_new h
  | call c _ ih => exact keeps_call c _ ih

theorem objGet_mem {α : Type} {o : List (Str × α)} {k : Str} {v : α}
    (h : objGet o k = some v) : (k, v) ∈ o := by
  induction o with
  | nil => simp [objGet] at h
  | cons kv rest ih =>
    obtain ⟨k', v'⟩ := kv
    by_cases hk : k' = k
    · subst hk
      simp only [objGet, if_true] at h
      injection h with h
      subst h
      exact List.mem_cons_self _ _
    · simp only [objGet, hk, if_false] at h
      exact List.mem_cons_of_mem _ (ih h)

theorem objGet_of_mem_keys {α : Type} {o : List (Str × α)} {k : Str}
    (h : k ∈ objKeys o) : ∃ v, objGet o k = some v := by
  induction o with
  | nil => simp [objKeys] at h
  | cons kv rest ih =>
    obtain ⟨k', v'⟩ := kv
    by_cases hk : k' = k
    · exact ⟨v', by simp [objGet, hk]⟩
    · have h' : k ∈ objKeys rest := by
        simp only [objKeys, List.map_cons, List.mem_cons] at h
        cases h with
        | inl h => exact absurd h.symm hk
        | inr h => exact h
      obtain ⟨v, hv⟩ := ih h'
      exact ⟨v, by simp [objGet, hk, hv]⟩

theorem mem_keys_of_objGet {α : Type} {o : List (Str × α)} {k : Str} {v : α}
    (h : objGet o k = some v) : k ∈ objKeys o :=
  List.mem_map.mpr ⟨(k, v), objGet_mem h, rfl⟩

theorem mem_gettersProxy {keys : List Str} {ns k t : Str} :
    (k, t) ∈ gettersProxy keys ns ↔ t ∈ keys ∧ t = ns ++ k := by
  unfold gettersProxy
  rw [List.mem_filterMap]
  constructor
  · rintro ⟨a, ha, h⟩
    by_cases hp : a.take ns.length = ns
    · simp only [hp, ne_eq, not_true_eq_false, if_false, Option.some.injEq,
        Prod.mk.injEq] at h
      obtain ⟨h1, h2⟩ := h
      subst h2
      refine ⟨ha, ?_⟩
      rw [← h1]
      conv_lhs => rw [← List.take_append_drop ns.length a]
      rw [hp]
    · simp [hp] at h
  · rintro ⟨ht, he⟩
    refine ⟨t, ht, ?_⟩
    subst he
    simp

theorem mem_keys_gettersProxy {keys : List Str} {ns k : Str} :
    k ∈ objKeys (gettersProxy keys ns) ↔ ns ++ k ∈ keys := by
  unfold objKeys
  rw [List.mem_map]
  constructor
  · rintro ⟨⟨k', t⟩, hm, hk⟩
    simp only at hk
    subst hk
    obtain ⟨ht, he⟩ := mem_gettersProxy.mp hm
    rw [← he]
    exact ht
  · intro h
    exact ⟨(k, ns ++ k), mem_gettersProxy.mpr ⟨h, rfl⟩, rfl⟩

theorem readProxy_gettersProxy (fuel : Nat) (s2 : Store) (keys : List Str) (ns k : Str)
    (h : k ∈ objKeys (gettersProxy keys ns)) :
    readProxy fuel s2 (gettersProxy keys ns) k = readGetter fuel s2 (ns ++ k) := by
  obtain ⟨t, ht⟩ := objGet_of_mem_keys h
  have he := (mem_gettersProxy.mp (objGet_mem ht)).2
  subst he
  simp [readProxy, ht]

theorem makeLocalGetters_result {s : Store} (hs : CacheFresh s) (ns : Str) :
    (makeLocalGetters ns s).result = .ok (gettersProxy s.getters ns) ∧
    (makeLocalGetters ns s).store.getters = s.getters := by
  rw [makeLocalGetters_apply]
  cases hc : objGet s._makeLocalGettersCache ns with
  | some cached => exact ⟨by rw [hs ns cached hc], rfl⟩
  | none => exact ⟨rfl, rfl⟩

/-- C6: for every store that exists and every namespace `ns`, the local
getters object that `makeLocalGetters` returns for `ns` has exactly the
keys obtained by removing the prefix `ns` from the keys of the root
getters object that start with `ns`, and reading a key `k` of it yields
what reading `ns + k` of the root getters yields; the accessor
`local.getters` of a namespaced module is that object. -/
theorem localGetters_keys_and_reads (s : Store) (hs : Reachable s) (ns : Str) :
    ∃ proxy, (makeLocalGetters ns s).result = .ok proxy ∧
      (∀ k, k ∈ objKeys proxy ↔ ns ++ k ∈ s.getters) ∧
      (∀ fuel s2 k, k ∈ objKeys proxy →
        readProxy fuel s2 proxy k = readGetter fuel s2 (ns ++ k)) ∧
      (ns ≠ [] → ∀ path, ∃ view,
        ((⟨ns, path⟩ : LocalContext).getters s).result = .ok view ∧
        view.keys = objKeys proxy ∧
        ∀ fuel k, k ∈ objKeys proxy →
          view.read fuel k =
            readGetter fuel ((⟨ns, path⟩ : LocalContext).getters s).store (ns ++ k)) := by
  have hf := cacheFresh_of_reachable hs
  obtain ⟨hr, _⟩ := makeLocalGetters_result hf ns
  refine ⟨gettersProxy s.getters ns, hr, fun k => mem_keys_gettersProxy,
    fun fuel s2 k hk => readProxy_gettersProxy fuel s2 _ ns k hk, ?_⟩
  intro hns path
  have hm := Res.eq_of_result hr
  have hg : (⟨ns, path⟩ : LocalContext).getters s =
      ⟨.ok ⟨objKeys (gettersProxy s.getters ns),
          fun fuel k => readProxy fuel (makeLocalGetters ns s).store
            (gettersProxy s.getters ns) k⟩,
        (makeLocalGetters ns s).store, (makeLocalGetters ns s).trace⟩ := by
    unfold LocalContext.getters
    simp only [hns, if_false]
    rw [bind_of_ok _ hm]
    simp [bind_apply, getStore]
  rw [hg]
  exact ⟨_, rfl, rfl, fun fuel k hk => readProxy_gettersProxy fuel _ _ ns k hk⟩

theorem localGetters_keys_and_reads_witness :
    Reachable cartStore ∧
    (∃ proxy, (makeLocalGetters "cart/".toList cartStore).result = .ok proxy ∧
      (∀ k, k ∈ objKeys proxy ↔ "cart/".toList ++ k ∈ cartStore.getters) ∧
      (∀ fuel s2 k, k ∈ objKeys proxy →
        readProxy fuel s2 proxy k = readGetter fuel s2 ("cart/".toList ++ k)) ∧
      ("cart/".toList ≠ [] → ∀ path, ∃ view,
        ((⟨"cart/".toList, path⟩ : LocalContext).getters cartStore).result = .ok view ∧
        view.keys = objKeys proxy ∧
        ∀ fuel k, k ∈ objKeys proxy →
          view.read fuel k =
            readGetter fuel ((⟨"cart/".toList, path⟩ : LocalContext).getters cartStore).store
              ("cart/".toList ++ k))) ∧
    (dispatch "cart/checkout".toList .undefined cartStore).result =
      .ok (some ⟨⟨"cart/checkout".toList, .undefined⟩, .fulfilled 0 (.one (.num 3))⟩) ∧
    readGetter 2 cartStore "cart/total".toList = some (.ok (.num 3)) :=
  ⟨@Reachable.new cartSpec false cartStore [] rfl,
    localGetters_keys_and_reads cartStore
      (@Reachable.new cartSpec false cartStore [] rfl) "cart/".toList,
    rfl, rfl⟩

theorem post_bind_last {α β : Type} {x : M α} {f : α → M β} {s : Store}
    {Q : β → Store → Prop} (h : ∀ a s1, Post (f a) s1 (fun b s2 _ => Q b s2)) :
    Post (x >>= f) s (fun b s2 _ => Q b s2) :=
  post_bind (fun a _ => h a _)

theorem resetStoreVM_post (state : JVal) (hot : Bool) (s : Store) :
    Post (resetStoreVM state hot) s
      (fun _ s' _ => s'._makeLocalGettersCache = [] ∧ VMSynced s') := by
  intro _ _
  rw [resetStoreVM_apply]
  exact ⟨rfl, rfl, rfl⟩

theorem resetStore_post (hot : Bool) (s : Store) :
    Post (resetStore hot) s (fun _ s' _ => s'._makeLocalGettersCache = [] ∧ VMSynced s') := by
  unfold resetStore
  refine post_bind_last (fun _ _ => ?_)
  refine post_bind_last (fun _ _ => ?_)
  refine post_bind_last (fun _ _ => ?_)
  exact post_bind_last (fun _ _ => resetStoreVM_post _ _ _)

theorem registerModule_post (path : List Str) (raw : RawModule) (preserveState : Bool)
    (s : Store) :
    Post (registerModule path raw preserveState) s
      (fun _ s' _ => s'._makeLocalGettersCache = [] ∧ VMSynced s') := by
  unfold registerModule
  refine post_bind_last (fun _ _ => ?_)
  refine post_bind_last (fun _ _ => ?_)
  refine post_bind_last (fun _ _ => ?_)
  refine post_bind_last (fun _ _ => ?_)
  refine post_bind_last (fun _ _ => ?_)
  refine post_bind_last (fun _ _ => ?_)
  exact post_bind_last (fun _ _ => resetStoreVM_post _ _ _)

theorem unregisterModule_post (path : List Str) (s : Store) :
    Post (unregisterModule path) s
      (fun _ s' _ => s'._makeLocalGettersCache = [] ∧ VMSynced s') := by
  unfold unregisterModule
  refine post_bind_last (fun _ _ => ?_)
  refine post_bind_last (fun _ _ => ?_)
  refine post_bind_last (fun _ _ => ?_)
  refine post_bind_last (fun _ _ => ?_)
  exact post_bind_last (fun _ _ => resetStore_post _ _)

theorem hotUpdate_post (newOptions : RawModule) (s : Store) :
    Post (hotUpdate newOptions) s
      (fun _ s' _ => s'._makeLocalGettersCache = [] ∧ VMSynced s') := by
  unfold hotUpdate
  refine post_bind_last (fun _ _ => ?_)
  refine post_bind_last (fun _ _ => ?_)
  exact post_bind_last (fun _ _ => resetStore_post _ _)

theorem read_after_reset {s : Store} (hc : s._makeLocalGettersCache = []) (hv : VMSynced s)
    (ns x : Str) (w : WrappedGetter) (hw : objGet s._wrappedGetters (ns ++ x) = some w)
    (fuel : Nat) :
    ∃ proxy, (makeLocalGetters ns s).result = .ok proxy ∧
      readProxy (fuel + 1) (makeLocalGetters ns s).store proxy x =
        w.call fuel (makeLocalGetters ns s).store := by
  have hf : CacheFresh s := by
    intro ns' proxy hp
    rw [hc] at hp
    simp [objGet] at hp
  obtain ⟨hr, hg⟩ := makeLocalGetters_result hf ns
  refine ⟨_, hr, ?_⟩
  have hk : ns ++ x ∈ s.getters := by
    rw [hv.1]
    exact mem_keys_of_objGet hw
  rw [readProxy_gettersProxy _ _ _ _ _ (mem_keys_gettersProxy.mpr hk)]
  have hvm : (makeLocalGetters ns s).store._vm = s._vm := by
    rw [makeLocalGetters_apply]
    cases objGet s._makeLocalGettersCache ns <;> rfl
  rw [readGetter, hg, hvm, hv.2]
  simp only [hk, if_true, hw]
  rfl

/-- C7: each of `registerModule`, `unregisterModule` and `hotUpdate`, when
it completes, leaves the cache of local getters empty; in every store
that exists (after any sequence of calls, completed or not, and of reads
of local getters) every cached proxy is the one computed from the current
keys of the root getters; and after `hotUpdate` the next read of key `x`
through the local getters of namespace `ns` yields the output of the
handler now registered under `ns + x`. -/
theorem local_getters_cache_fresh :
    (∀ s path raw preserveState, (registerModule path raw preserveState s).result = .ok () →
      (registerModule path raw preserveState s).store._makeLocalGettersCache = []) ∧
    (∀ s path, (unregisterModule path s).result = .ok () →
      (unregisterModule path s).store._makeLocalGettersCache = []) ∧
    (∀ s newOptions, (hotUpdate newOptions s).result = .ok () →
      (hotUpdate newOptions s).store._makeLocalGettersCache = []) ∧
    (∀ s, Reachable s → ∀ ns proxy, objGet s._makeLocalGettersCache ns = some proxy →
      proxy = gettersProxy s.getters ns) ∧
    (∀ s newOptions, (hotUpdate newOptions s).result = .ok () →
      ∀ ns x w, objGet (hotUpdate newOptions s).store._wrappedGetters (ns ++ x) = some w →
        ∀ fuel, ∃ proxy,
          (makeLocalGetters ns (hotUpdate newOptions s).store).result = .ok proxy ∧
          readProxy (fuel + 1) (makeLocalGetters ns (hotUpdate newOptions s).store).store
              proxy x =
            w.call fuel (makeLocalGetters ns (hotUpdate newOptions s).store).store) := by
  refine ⟨fun s path raw ps h => (registerModule_post path raw ps s () h).1,
    fun s path h => (unregisterModule_post path s () h).1,
    fun s o h => (hotUpdate_post o s () h).1,
    fun s hs => cacheFresh_of_reachable hs, ?_⟩
  intro s o h ns x w hw fuel
  obtain ⟨hc, hv⟩ := hotUpdate_post o s () h
  exact read_after_reset hc hv ns x w hw fuel

theorem local_getters_cache_fresh_witness :
    objKeys cartStoreCached._makeLocalGettersCache = ["cart/".toList] ∧
    (hotUpdate cartUpdate cartStoreCached).result = .ok () ∧
    (hotUpdate cartUpdate cartStoreCached).store._makeLocalGettersCache = [] ∧
    objGet (hotUpdate cartUpdate cartStoreCached).store._wrappedGetters
        ("cart/".toList ++ "total".toList) =
      some ⟨constGetter 7, ⟨"cart/".toList, ["cart".toList]⟩⟩ ∧
    (∃ proxy,
      (makeLocalGetters "cart/".toList (hotUpdate cartUpdate cartStoreCached).store).result =
        .ok proxy ∧
      readProxy (1 + 1)
          (makeLocalGetters "cart/".toList (hotUpdate cartUpdate cartStoreCached).store).store
          proxy "total".toList =
        WrappedGetter.call ⟨constGetter 7, ⟨"cart/".toList, ["cart".toList]⟩⟩ 1
          (makeLocalGetters "cart/".toList
            (hotUpdate cartUpdate cartStoreCached).store).store) ∧
    readProxy 2 cartStoreCached (cartStoreCached.localGettersProxy "cart/".toList)
      "total".toList = some (.ok (.num 3)) ∧
    WrappedGetter.call ⟨constGetter 7, ⟨"cart/".toList, ["cart".toList]⟩⟩ 1
        (makeLocalGetters "cart/".toList (hotUpdate cartUpdate cartStoreCached).store).store =
      some (.ok (.num 7)) :=
  ⟨by decide, rfl, local_getters_cache_fresh.2.2.1 cartStoreCached cartUpdate rfl, rfl,
    local_getters_cache_fresh.2.2.2.2 cartStoreCached cartUpdate rfl "cart/".toList
      "total".toList ⟨constGetter 7, ⟨"cart/".toList, ["cart".toList]⟩⟩ rfl 1,
    rfl, rfl⟩

/-! ## Derived values: the first registration wins -/

theorem objGet_append {α : Type} (a b : List (Str × α)) (k : Str) :
    objGet (a ++ b) k = firstOf (objGet a k) (objGet b k) := by
  induction a with
  | nil => rfl
  | cons kv rest ih =>
    obtain ⟨k', v'⟩ := kv
    by_cases hk : k' = k
    · simp [objGet, hk, firstOf]
    · simp [objGet, hk, ih]

theorem firstOf_assoc {α : Type} (a b c : Option α) :
    firstOf (firstOf a b) c = firstOf a (firstOf b c) := by
  cases a <;> rfl

theorem firstOf_none_right {α : Type} (a : Option α) : firstOf a none = a := by
  cases a <;> rfl

theorem GettersExtend.same {s s' : Store} (h1 : s'._modules = s._modules)
    (h2 : s'._wrappedGetters = s._wrappedGetters) : GettersExtend s s' [] :=
  ⟨h1, fun t => by rw [h2]; exact (firstOf_none_right _).symm⟩

theorem GettersExtend.chain {a b c : Store} {d1 d2 : List (Str × WrappedGetter)}
    (h1 : GettersExtend a b d1) (h2 : GettersExtend b c d2) : GettersExtend a c (d1 ++ d2) :=
  ⟨h2.1.trans h1.1, fun t => by rw [h2.2 t, h1.2 t, objGet_append, firstOf_assoc]⟩

theorem registerGetter_extend (type : Str) (g : GetterFn) (ctx : LocalContext) (s : Store) :
    Post (registerGetter type g ctx) s
      (fun _ s' _ => GettersExtend s s' [(type, ⟨g, ctx⟩)]) := by
  intro _ _
  rw [registerGetter_apply]
  cases hg : objGet s._wrappedGetters type with
  | some w =>
    simp only [Option.isSome_some, if_true]
    refine ⟨rfl, fun t => ?_⟩
    by_cases ht : type = t
    · subst ht
      rw [hg]
      rfl
    · simp [objGet, ht, firstOf_none_right]
  | none =>
    simp only [Option.isSome_none, Bool.false_eq_true, if_false]
    refine ⟨rfl, fun t => ?_⟩
    by_cases ht : type = t
    · subst ht
      simp [objGet_objSet_same, hg, firstOf, objGet]
    · simp [objGet_objSet_ne _ _ ht, objGet, ht, firstOf_none_right]

theorem registerGetters_extend (ns : Str) (ctx : LocalContext) (gs : List (Str × GetterFn)) :
    ∀ s, Post (forEach gs (fun kv => registerGetter (ns ++ kv.1) kv.2 ctx)) s
      (fun _ s' _ => GettersExtend s s' (gs.map (fun kv => (ns ++ kv.1, ⟨kv.2, ctx⟩)))) := by
  induction gs with
  | nil =>
    intro s
    exact post_pure (GettersExtend.same rfl rfl)
  | cons kv rest ih =>
    intro s
    rw [forEach]
    refine post_bind (post_mono (registerGetter_extend _ _ _ s) ?_)
    intro _ s1 _ h1
    refine post_mono (ih s1) ?_
    intro _ s2 _ h2
    exact h1.chain h2

theorem post_unchanged_forEach {α : Type} (l : List α) (f : α → M Unit)
    (hf : ∀ a s, Post (f a) s (fun _ s' _ =>
      s'._modules = s._modules ∧ s'._wrappedGetters = s._wrappedGetters)) (s : Store) :
    Post (forEach l f) s (fun _ s' _ => GettersExtend s s' []) := by
  refine post_mono (post_forEach l f
    (fun s0 s' _ => s'._modules = s0._modules ∧ s'._wrappedGetters = s0._wrappedGetters)
    (fun _ => ⟨rfl, rfl⟩) ?_ s) (fun _ _ _ h => GettersExtend.same h.1 h.2)
  intro a _ s0 s1 t h
  refine post_mono (hf a s1) ?_
  intro _ s2 _ h2
  exact ⟨h2.1.trans h.1, h2.2.trans h.2⟩

theorem registerMutation_unchanged (type : Str) (h : MutationFn) (ctx : LocalContext)
    (s : Store) :
    Post (registerMutation type h ctx) s (fun _ s' _ =>
      s'._modules = s._modules ∧ s'._wrappedGetters = s._wrappedGetters) :=
  fun _ _ => ⟨rfl, rfl⟩

theorem registerAction_unchanged (type : Str) (h : ActionFn) (ctx : LocalContext)
    (s : Store) :
    Post (registerAction type h ctx) s (fun _ s' _ =>
      s'._modules = s._modules ∧ s'._wrappedGetters = s._wrappedGetters) :=
  fun _ _ => ⟨rfl, rfl⟩

theorem grows_extend {s s' : Store} (h : Grows s s')
    (hw : s'._wrappedGetters = s._wrappedGetters) : GettersExtend s s' [] :=
  GettersExtend.same h.modules hw

theorem registerNamespace_extend (ns : Str) (path : List Str) (s : Store) :
    Post (registerNamespace ns path) s (fun _ s' _ => GettersExtend s s' []) := by
  rw [registerNamespace]
  refine post_bind (post_getStore ?_)
  refine post_bind (post_doWhen (fun _ => post_emit ?_) (fun _ => ?_))
  · exact post_modifyStore (GettersExtend.same rfl rfl)
  · exact post_modifyStore (GettersExtend.same rfl rfl)

theorem setModuleState_extend (path : List Str) (state : JVal) (s : Store) :
    Post (setModuleState path state) s (fun _ s' _ => GettersExtend s s' []) := by
  rw [setModuleState]
  refine post_bind (post_getStore ?_)
  refine post_bind (post_liftExcept ?_)
  intro _ _
  refine post_withCommit (post_mono (graftState_post _ _ _ _ _) ?_)
  intro _ s' _ ⟨h1, _, _, h4⟩
  exact GettersExtend.same h1 h4

mutual
theorem installModule_extend : ∀ (module : Module) (path : List Str) (hot : Bool) (s : Store),
    Post (installModule path module hot) s
      (fun _ s' _ => GettersExtend s s' (declaredGetters s._modules path module))
  | .mk runtime children raw st, path, hot, s => by
    rw [installModule]
    refine post_bind (post_getStore ?_)
    refine post_bind (post_liftExcept ?_)
    intro ns hns
    refine post_bind (post_mono (post_doWhen (fun _ => registerNamespace_extend ns path s)
      (fun _ => GettersExtend.same rfl rfl)) ?_)
    intro _ s1 _ g1
    refine post_bind (post_mono (post_doWhen (fun _ => setModuleState_extend path st s1)
      (fun _ => GettersExtend.same rfl rfl)) ?_)
    intro _ s2 _ g2
    refine post_bind (post_mono (post_unchanged_forEach _ _
      (fun kv s => registerMutation_unchanged _ _ _ s) s2) ?_)
    intro _ s3 _ g3
    refine post_bind (post_mono (post_unchanged_forEach _ _
      (fun kv s => registerAction_unchanged _ _ _ s) s3) ?_)
    intro _ s4 _ g4
    refine post_bind (post_mono (registerGetters_extend ns (makeLocalContext ns path) _ s4) ?_)
    intro _ s5 _ g5
    refine post_mono (installChildren_extend children path hot s5) ?_
    intro _ s6 _ g6
    have g04 := ((g1.chain g2).chain g3).chain g4
    have hm5 : s5._modules = s._modules := g5.1.trans g04.1
    rw [hm5] at g6
    have h := (g04.chain g5).chain g6
    rw [declaredGetters, hns]
    simpa [makeLocalContext] using h
theorem installChildren_extend : ∀ (children : List (Str × Module)) (path : List Str)
    (hot : Bool) (s : Store),
    Post (installChildren path children hot) s
      (fun _ s' _ => GettersExtend s s' (declaredGettersOfChildren s._modules path children))
  | [], path, hot, s => by
    rw [installChildren]
    exact post_pure (GettersExtend.same rfl rfl)
  | (k, c) :: rest, path, hot, s => by
    rw [installChildren]
    refine post_bind (post_mono (installModule_extend c (path ++ [k]) hot s) ?_)
    intro _ s1 _ g1
    refine post_mono (installChildren_extend rest path hot s1) ?_
    intro _ s2 _ g2
    rw [g1.1] at g2
    rw [declaredGettersOfChildren]
    exact g1.chain g2
end

theorem getters_after_new {options : RawModule} {strict : Bool} {s : Store}
    {tr : List Event} (h : Store.new options strict = .ok (s, tr)) (t : Str) :
    objGet s._wrappedGetters t = objGet (declaredGetters s._modules [] s._modules.root) t := by
  obtain ⟨modules, s1, _, hi, hs⟩ := storeNew_ok h
  have hpost := installModule_extend modules.root [] false (Store.initial modules strict) ()
    (by rw [hi])
  rw [hi] at hpost
  obtain ⟨hm, hg⟩ := hpost
  have hmod : s._modules = modules := by
    rw [hs]
    exact hm
  have hwg : s._wrappedGetters = s1._wrappedGetters := by
    rw [hs]
  rw [hmod, hwg, hg t]
  rfl

/-- C8: after a store has been constructed, the derived-value registry
holds for every type the first handler declared for it in installation
order (a parent before its children, children in their order), so of two
modules that declare handlers qualifying to the same type the one
installed first wins and every other type keeps its own handler;
registering a type that is already taken changes nothing and does not
raise. -/
theorem getter_first_wins (options : RawModule) (strict : Bool) (s : Store) (tr : List Event)
    (h : Store.new options strict = .ok (s, tr)) :
    (∀ t, objGet s._wrappedGetters t =
      objGet (declaredGetters s._modules [] s._modules.root) t) ∧
    (∀ type g ctx (s0 : Store), (objGet s0._wrappedGetters type).isSome = true →
      registerGetter type g ctx s0 = ⟨.ok (), s0, [.diag (.duplicateGetter type)]⟩) := by
  refine ⟨fun t => getters_after_new h t, ?_⟩
  intro type g ctx s0 hs
  rw [registerGetter_apply]
  simp [hs]

theorem getter_first_wins_witness :
    Store.new dupSpec false = .ok (dupStore, [.diag (.duplicateGetter "x".toList)]) ∧
    declaredGetters dupStore._modules [] dupStore._modules.root =
      [("x".toList, ⟨constGetter 1, ⟨[], []⟩⟩),
       ("x".toList, ⟨constGetter 2, ⟨[], ["c".toList]⟩⟩)] ∧
    objGet dupStore._wrappedGetters "x".toList = some ⟨constGetter 1, ⟨[], []⟩⟩ ∧
    readGetter 1 dupStore "x".toList = some (.ok (.num 1)) :=
  ⟨rfl, rfl,
    ((getter_first_wins dupSpec false dupStore [.diag (.duplicateGetter "x".toList)] rfl).1
      "x".toList).trans rfl,
    rfl⟩

mutual
theorem mem_declaredGetters (mc : ModuleCollection) : ∀ (x : Module) (b q : List Str)
    (m : Module) (ns : Str), getFrom (some x) q = .ok (some m) →
    mc.getNamespace (b ++ q) = .ok ns → ∀ kv ∈ m.getters,
      (ns ++ kv.1, (⟨kv.2, ⟨ns, b ++ q⟩⟩ : WrappedGetter)) ∈ declaredGetters mc b x
  | .mk r ch raw st, b, q, m, ns, hq, hns, kv, hkv => by
    rw [declaredGetters]
    cases q with
    | nil =>
      have hm : Module.mk r ch raw st = m := by
        simpa [getFrom] using hq
      subst hm
      rw [List.append_nil] at hns ⊢
      rw [hns]
      exact List.mem_append_left _ (List.mem_map.mpr ⟨kv, hkv, rfl⟩)
    | cons k q' =>
      obtain ⟨child, hc, hr⟩ := getFrom_some_cons hq
      exact List.mem_append_right _
        (mem_declaredGettersOfChildren mc ch b k child q' m ns hc hr hns kv hkv)
theorem mem_declaredGettersOfChildren (mc : ModuleCollection) :
    ∀ (children : List (Str × Module)) (b : List Str) (k : Str) (child : Module)
    (q : List Str) (m : Module) (ns : Str), objGet children k = some child →
    getFrom (some child) q = .ok (some m) → mc.getNamespace (b ++ k :: q) = .ok ns →
    ∀ kv ∈ m.getters,
      (ns ++ kv.1, (⟨kv.2, ⟨ns, b ++ k :: q⟩⟩ : WrappedGetter)) ∈
        declaredGettersOfChildren mc b children
  | [], b, k, child, q, m, ns, hc, hq, hns, kv, hkv => by
    cases hc
  | (k', c) :: rest, b, k, child, q, m, ns, hc, hq, hns, kv, hkv => by
    rw [declaredGettersOfChildren]
    by_cases hk : k' = k
    · subst hk
      have hcc : c = child := by
        simpa [objGet] using hc
      subst hcc
      have hns' : mc.getNamespace ((b ++ [k']) ++ q) = .ok ns := by
        rw [List.append_assoc]
        exact hns
      have h := mem_declaredGetters mc c (b ++ [k']) q m ns hq hns' kv hkv
      rw [List.append_assoc] at h
      exact List.mem_append_left _ h
    · have hc' : objGet rest k = some child := by
        simpa [objGet, hk] using hc
      exact List.mem_append_right _
        (mem_declaredGettersOfChildren mc rest b k child q m ns hc' hq hns kv hkv)
end

theorem objGet_cons_self {α : Type} (k : Str) (v : α) (o : List (Str × α)) :
    objGet ((k, v) :: o) k = some v := by
  simp [objGet]

/-- C4 (as amended): after a store has been constructed from a module
tree, for every module at a path `p` with namespace `ns = getNamespace(p)`,
every transition handler keyed `k` is in the transition registry under
`ns + k`; every action handler keyed `k` is in the action registry under
`k` when declared with `root: true` and under `ns + k` otherwise; and for
every derived-value handler keyed `k` the type `ns + k` is registered:
the declarations of the tree in installation order being `pre`, then this
one, then `post`, the handler registered under `ns + k` is this handler
unless a declaration of `pre` (a module installed earlier) has the same
type, in which case the registry keeps the first such declaration, this
one is dropped and the duplicate is reported. -/
theorem install_qualifies (options : RawModule) (strict : Bool) (s : Store) (tr : List Event)
    (h : Store.new options strict = .ok (s, tr)) (p : List Str) (m : Module)
    (hm : s._modules.get p = .ok (some m)) :
    ∃ ns, s._modules.getNamespace p = .ok ns ∧
      (∀ kv ∈ m.mutations, MutRegistered s (ns ++ kv.1) ⟨kv.2, ⟨ns, p⟩⟩) ∧
      (∀ kv ∈ m.actions,
        ActRegistered s (if kv.2.root then kv.1 else ns ++ kv.1) ⟨kv.2.handler, ⟨ns, p⟩⟩) ∧
      (∀ kv ∈ m.getters, ∃ w pre post,
        objGet s._wrappedGetters (ns ++ kv.1) = some w ∧
        declaredGetters s._modules [] s._modules.root =
          pre ++ (ns ++ kv.1, (⟨kv.2, ⟨ns, p⟩⟩ : WrappedGetter)) :: post ∧
        some w = firstOf (objGet pre (ns ++ kv.1)) (some ⟨kv.2, ⟨ns, p⟩⟩) ∧
        (w = ⟨kv.2, ⟨ns, p⟩⟩ ∨ Event.diag (.duplicateGetter (ns ++ kv.1)) ∈ tr)) := by
  obtain ⟨ns, hns, hI⟩ := installed_after_new h p m hm
  refine ⟨ns, hns, hI.1, hI.2.1, fun kv hkv => ?_⟩
  obtain ⟨w, hw, hor⟩ := hI.2.2 kv hkv
  have hmem := mem_declaredGetters s._modules s._modules.root [] p m ns hm hns kv hkv
  rw [List.nil_append] at hmem
  obtain ⟨pre, post, hsplit⟩ := List.append_of_mem hmem
  refine ⟨w, pre, post, hw, hsplit, ?_, hor⟩
  rw [← hw, getters_after_new h (ns ++ kv.1), hsplit, objGet_append, objGet_cons_self]

theorem install_qualifies_witness :
    Store.new nestedSpec false = .ok (nestedStore, []) ∧
    nestedStore._modules.get ["A".toList, "c".toList, "B".toList] =
      .ok (some (Module.mk false [] specB (.obj []))) ∧
    (∃ ns, nestedStore._modules.getNamespace ["A".toList, "c".toList, "B".toList] = .ok ns ∧
      (∀ kv ∈ (Module.mk false [] specB (.obj [])).mutations,
        MutRegistered nestedStore (ns ++ kv.1)
          ⟨kv.2, ⟨ns, ["A".toList, "c".toList, "B".toList]⟩⟩) ∧
      (∀ kv ∈ (Module.mk false [] specB (.obj [])).actions,
        ActRegistered nestedStore (if kv.2.root then kv.1 else ns ++ kv.1)
          ⟨kv.2.handler, ⟨ns, ["A".toList, "c".toList, "B".toList]⟩⟩)) ∧
    objKeys nestedStore._mutations = ["A/ma".toList, "A/mc".toList, "A/B/mb".toList] ∧
    Store.new dupSpec false = .ok (dupStore, [.diag (.duplicateGetter "x".toList)]) ∧
    dupStore._modules.get ["c".toList] = .ok (some (Module.mk false [] dupChildSpec (.obj []))) ∧
    (∀ kv ∈ (Module.mk false [] dupChildSpec (.obj [])).getters, ∃ w pre post,
      objGet dupStore._wrappedGetters kv.1 = some w ∧
      declaredGetters dupStore._modules [] dupStore._modules.root =
        pre ++ (kv.1, (⟨kv.2, ⟨[], ["c".toList]⟩⟩ : WrappedGetter)) :: post ∧
      some w = firstOf (objGet pre kv.1) (some ⟨kv.2, ⟨[], ["c".toList]⟩⟩) ∧
      (w = ⟨kv.2, ⟨[], ["c".toList]⟩⟩ ∨
        Event.diag (.duplicateGetter kv.1) ∈ [Event.diag (.duplicateGetter "x".toList)])) ∧
    declaredGetters dupStore._modules [] dupStore._modules.root =
      [("x".toList, ⟨constGetter 1, ⟨[], []⟩⟩),
       ("x".toList, ⟨constGetter 2, ⟨[], ["c".toList]⟩⟩)] := by
  refine ⟨rfl, rfl, ?_, by decide, rfl, rfl, ?_, rfl⟩
  · obtain ⟨ns, h1, h2, h3, _⟩ := install_qualifies nestedSpec false nestedStore [] rfl
      ["A".toList, "c".toList, "B".toList] (Module.mk false [] specB (.obj [])) rfl
    exact ⟨ns, h1, h2, h3⟩
  · obtain ⟨ns, h1, _, _, h4⟩ := install_qualifies dupSpec false dupStore
      [.diag (.duplicateGetter "x".toList)] rfl ["c".toList]
      (Module.mk false [] dupChildSpec (.obj [])) rfl
    have hns : ns = [] := by
      have h0 : dupStore._modules.getNamespace ["c".toList] = .ok [] := rfl
      rw [h0] at h1
      injection h1 with h1
      exact h1.symm
    subst hns
    exact h4

/-- C4 (as stated) fails: the module at path `c` of `dupSpec` declares the
derived-value handler `x`, its namespace is empty, and the handler
registered under `x` is the root's, not the module's. -/
theorem install_getter_counterexample :
    Store.new dupSpec false = .ok (dupStore, [.diag (.duplicateGetter "x".toList)]) ∧
    dupStore._modules.get ["c".toList] = .ok (some (Module.mk false [] dupChildSpec (.obj []))) ∧
    dupStore._modules.getNamespace ["c".toList] = .ok [] ∧
    ("x".toList, constGetter 2) ∈ (Module.mk false [] dupChildSpec (.obj [])).getters ∧
    objGet dupStore._wrappedGetters ([] ++ "x".toList) ≠
      some ⟨constGetter 2, ⟨[], ["c".toList]⟩⟩ ∧
    readGetter 1 dupStore "x".toList = some (.ok (.num 1)) := by
  refine ⟨rfl, rfl, rfl, by simp [Module.getters, Module._rawModule, dupChildSpec,
    RawModule.getters], ?_, rfl⟩
  intro h
  have h2 := congrArg (Option.map (fun w => w.localCtx.path)) h
  revert h2
  decide

/-! ## Notification rounds of action subscribers -/

theorem loop_run {α : Type} (l : List α) (call : α → M Unit) (raises : α → Option JsError)
    (ev : α → Event) (s : Store)
    (hcall : ∀ a ∈ l, call a s = ⟨resultOf (raises a), s, [ev a]⟩) :
    forEach l call s =
      ⟨resultOf (l.findSome? raises), s, (takeUntilRaise raises l).map ev⟩ := by
  induction l with
  | nil => rfl
  | cons a rest ih =>
    have ha := hcall a (List.mem_cons_self _ _)
    have hrest := ih (fun b hb => hcall b (List.mem_cons_of_mem _ hb))
    cases hr : raises a with
    | some e =>
      rw [hr] at ha
      rw [forEach_cons_of_error rest ha]
      simp [List.findSome?, hr, takeUntilRaise, resultOf]
    | none =>
      rw [hr] at ha
      rw [forEach_cons_of_ok rest ha, hrest]
      simp [List.findSome?, hr, takeUntilRaise]

theorem callBefore_apply (sub : ActionSubscriber) (action : Mutation) (s : Store)
    (h : sub.before.isSome = true) :
    sub.callBefore action s =
      ⟨resultOf (beforeRaises action s.state sub), s,
        [.actionSubscriber .before sub.id action s.state none]⟩ := by
  cases hb : sub.before with
  | none => simp [hb] at h
  | some f =>
    simp only [ActionSubscriber.callBefore, bind_apply, getStore, hb, emit, beforeRaises]
    cases hf : f action s.state <;> simp [resultOf, throwJs]

theorem callAfter_apply (sub : ActionSubscriber) (action : Mutation) (s : Store)
    (h : sub.after.isSome = true) :
    sub.callAfter action s =
      ⟨resultOf (afterRaises action s.state sub), s,
        [.actionSubscriber .after sub.id action s.state none]⟩ := by
  cases hb : sub.after with
  | none => simp [hb] at h
  | some f =>
    simp only [ActionSubscriber.callAfter, bind_apply, getStore, hb, emit, afterRaises]
    cases hf : f action s.state <;> simp [resultOf, throwJs]

theorem callError_apply (sub : ActionSubscriber) (action : Mutation) (error : JsError)
    (s : Store) (h : sub.error.isSome = true) :
    sub.callError action error s =
      ⟨resultOf (errorRaises action s.state error sub), s,
        [.actionSubscriber .error sub.id action s.state (some error)]⟩ := by
  cases hb : sub.error with
  | none => simp [hb] at h
  | some f =>
    simp only [ActionSubscriber.callError, bind_apply, getStore, hb, emit, errorRaises]
    cases hf : f action s.state error <;> simp [resultOf, throwJs]

theorem tryCatch_round (hook : Hook) (call : ActionSubscriber → M Unit)
    (raises : ActionSubscriber → Option JsError) (subs : List ActionSubscriber)
    (action : Mutation) (error : Option JsError) (s : Store)
    (hcall : ∀ sub ∈ subs, call sub s =
      ⟨resultOf (raises sub), s, [.actionSubscriber hook sub.id action s.state error]⟩) :
    tryCatch (forEach subs call) (fun e => warn (.subscriberError hook e)) s =
      ⟨.ok (), s, hookTrace hook raises subs action s.state error⟩ := by
  unfold tryCatch
  rw [loop_run subs call raises _ s hcall]
  cases hr : subs.findSome? raises with
  | none => simp [resultOf, hookTrace, hr]
  | some e => simp [resultOf, hookTrace, hr, warn, __DEV__, emit]

theorem before_round (action : Mutation) (s : Store) :
    tryCatch
        (do
          let subs := (← getStore)._actionSubscribers.filter (fun sub => sub.before.isSome)
          forEach subs (fun sub => sub.callBefore action))
        (fun e => warn (.subscriberError .before e)) s =
      ⟨.ok (), s,
        hookTrace .before (beforeRaises action s.state) s.beforeSubscribers action s.state
          none⟩ := by
  have h := tryCatch_round .before (fun sub => sub.callBefore action)
    (beforeRaises action s.state) s.beforeSubscribers action none s
    (fun sub hs => callBefore_apply sub action s (List.mem_filter.mp hs).2)
  rw [← h]
  unfold tryCatch
  simp only [bind_apply, getStore, List.nil_append]
  rfl

theorem after_round (action : Mutation) (s : Store) :
    tryCatch
        (do
          let subs := (← getStore)._actionSubscribers.filter (fun sub => sub.after.isSome)
          forEach subs (fun sub => sub.callAfter action))
        (fun e => warn (.subscriberError .after e)) s =
      ⟨.ok (), s,
        hookTrace .after (afterRaises action s.state) s.afterSubscribers action s.state
          none⟩ := by
  have h := tryCatch_round .after (fun sub => sub.callAfter action)
    (afterRaises action s.state) s.afterSubscribers action none s
    (fun sub hs => callAfter_apply sub action s (List.mem_filter.mp hs).2)
  rw [← h]
  unfold tryCatch
  simp only [bind_apply, getStore, List.nil_append]
  rfl

theorem error_round (action : Mutation) (error : JsError) (s : Store) :
    tryCatch
        (do
          let subs := (← getStore)._actionSubscribers.filter (fun sub => sub.error.isSome)
          forEach subs (fun sub => sub.callError action error))
        (fun e => warn (.subscriberError .error e)) s =
      ⟨.ok (), s,
        hookTrace .error (errorRaises action s.state error) s.errorSubscribers action s.state
          (some error)⟩ := by
  have h := tryCatch_round .error (fun sub => sub.callError action error)
    (errorRaises action s.state error) s.errorSubscribers action (some error) s
    (fun sub hs => callError_apply sub action error s (List.mem_filter.mp hs).2)
  rw [← h]
  unfold tryCatch
  simp only [bind_apply, getStore, List.nil_append]
  rfl

theorem dispatch_of_some {s : Store} {t : Str} {entry : List WrappedAction} (p : JVal)
    (h : objGet s._actions t = some entry) :
    dispatch t p s =
      ⟨dispatched ⟨t, p⟩ (invokeHandlers entry p s).result, (invokeHandlers entry p s).store,
        hookTrace .before (beforeRaises ⟨t, p⟩ s.state) s.beforeSubscribers ⟨t, p⟩ s.state
            none ++
          (invokeHandlers entry p s).trace⟩ := by
  unfold dispatch
  simp only [bind_apply, getStore, h]
  rw [before_round]
  cases hr : (invokeHandlers entry p s).result <;> simp [hr, dispatched]

theorem dispatch_of_none {s : Store} {t : Str} (p : JVal) (h : objGet s._actions t = none) :
    dispatch t p s = ⟨.ok none, s, [.diag (.unknownAction t)]⟩ := by
  unfold dispatch
  simp only [bind_apply, getStore, h]
  rfl

theorem settle_apply (d : Dispatched) (s : Store) :
    d.settle s =
      match d.result with
      | .pending => ⟨.ok .pending, s, []⟩
      | .fulfilled t res =>
        ⟨.ok (.fulfilled t res), s,
          hookTrace .after (afterRaises d.action s.state) s.afterSubscribers d.action s.state
            none⟩
      | .rejected t error =>
        ⟨.ok (.rejected t error), s,
          hookTrace .error (errorRaises d.action s.state error) s.errorSubscribers d.action
            s.state (some error)⟩ := by
  unfold Dispatched.settle
  cases hd : d.result with
  | pending => rfl
  | fulfilled t res =>
    simp only []
    rw [bind_apply, after_round]
    simp
  | rejected t error =>
    simp only []
    rw [bind_apply, error_round]
    simp

/-! ## Dispatch with two handlers -/

theorem mapEach_two {α β : Type} (a b : α) (f : α → M β) (s : Store) (r : List β)
    (h : (mapEach [a, b] f s).result = .ok r) :
    ∃ x y, (f a s).result = .ok x ∧ (f b (f a s).store).result = .ok y ∧ r = [x, y] := by
  simp only [mapEach, bind_apply] at h
  cases ha : (f a s).result with
  | error e => simp [ha] at h
  | ok x =>
    simp only [ha] at h
    cases hb : (f b (f a s).store).result with
    | error e => simp [hb] at h
    | ok y =>
      simp only [hb, pure_apply] at h
      injection h with h
      exact ⟨x, y, rfl, rfl, h.symm⟩

theorem invokeHandlers_two (h1 h2 : WrappedAction) (p : JVal) (s : Store)
    (r : Promise ActionValue) (h : (invokeHandlers [h1, h2] p s).result = .ok r) :
    ∃ p1 p2, (h1.call p s).result = .ok p1 ∧ (h2.call p (h1.call p s).store).result = .ok p2 ∧
      r = Promise.all [p1, p2] := by
  unfold invokeHandlers at h
  simp only [List.length_cons, List.length_nil, Nat.reduceAdd, Nat.one_lt_ofNat, if_true,
    bind_apply] at h
  cases hm : (mapEach [h1, h2] (fun handler => handler.call p) s).result with
  | error e => simp [hm] at h
  | ok ps =>
    simp only [hm, pure_apply] at h
    injection h with h
    obtain ⟨x, y, hx, hy, hps⟩ := mapEach_two h1 h2 _ s ps hm
    exact ⟨x, y, hx, hy, by rw [← h, hps]⟩

theorem all_fulfilled {ps : List (Promise JVal)} {t : Nat} {v : ActionValue}
    (h : Promise.all ps = .fulfilled t v) :
    ∃ vs, allFulfilled ps = some (t, vs) ∧ v = .all vs := by
  unfold Promise.all at h
  cases hf : firstRejection ps with
  | some te => simp [hf] at h
  | none =>
    simp only [hf] at h
    cases ha : allFulfilled ps with
    | none => simp [ha] at h
    | some tv =>
      obtain ⟨t', vs⟩ := tv
      simp only [ha] at h
      injection h with h1 h2
      subst h1
      exact ⟨vs, rfl, h2.symm⟩

theorem all_two_fulfilled {p1 p2 : Promise JVal} {t : Nat} {v : ActionValue}
    (h : Promise.all [p1, p2] = .fulfilled t v) :
    ∃ t1 v1 t2 v2, p1 = .fulfilled t1 v1 ∧ p2 = .fulfilled t2 v2 ∧ t = max t1 t2 ∧
      v = .all [v1, v2] := by
  obtain ⟨vs, ha, hv⟩ := all_fulfilled h
  cases p1 with
  | pending => simp [allFulfilled] at ha
  | rejected t1 e1 => simp [allFulfilled] at ha
  | fulfilled t1 v1 =>
    cases p2 with
    | pending => simp [allFulfilled] at ha
    | rejected t2 e2 => simp [allFulfilled] at ha
    | fulfilled t2 v2 =>
      simp only [allFulfilled, Option.some.injEq, Prod.mk.injEq] at ha
      obtain ⟨h1, h2⟩ := ha
      subst h2
      exact ⟨t1, v1, t2, v2, rfl, rfl, by simpa using h1.symm, hv⟩

theorem all_two_rejected {p1 p2 : Promise JVal}
    (h : (∃ t e, p1 = .rejected t e) ∨ (∃ t e, p2 = .rejected t e)) :
    ∃ t e, Promise.all [p1, p2] = .rejected t e ∧ (p1 = .rejected t e ∨ p2 = .rejected t e) := by
  cases p1 with
  | rejected t1 e1 =>
    cases p2 with
    | rejected t2 e2 =>
      by_cases ht : t1 ≤ t2
      · exact ⟨t1, e1, by simp [Promise.all, firstRejection, ht], Or.inl rfl⟩
      · exact ⟨t2, e2, by simp [Promise.all, firstRejection, ht], Or.inr rfl⟩
    | pending => exact ⟨t1, e1, by simp [Promise.all, firstRejection], Or.inl rfl⟩
    | fulfilled t2 v2 => exact ⟨t1, e1, by simp [Promise.all, firstRejection], Or.inl rfl⟩
  | pending =>
    cases h with
    | inl h => obtain ⟨_, _, h⟩ := h; cases h
    | inr h =>
      obtain ⟨t2, e2, h⟩ := h
      subst h
      exact ⟨t2, e2, by simp [Promise.all, firstRejection], Or.inr rfl⟩
  | fulfilled t1 v1 =>
    cases h with
    | inl h => obtain ⟨_, _, h⟩ := h; cases h
    | inr h =>
      obtain ⟨t2, e2, h⟩ := h
      subst h
      exact ⟨t2, e2, by simp [Promise.all, firstRejection], Or.inr rfl⟩

theorem all_two_first_rejected {p1 p2 : Promise JVal}
    (h : (∃ t e, p1 = .rejected t e) ∨ (∃ t e, p2 = .rejected t e)) :
    ∃ t e, Promise.all [p1, p2] = .rejected t e ∧
      ((p1 = .rejected t e ∧ ∀ t2 e2, p2 = .rejected t2 e2 → t ≤ t2) ∨
        (p2 = .rejected t e ∧ ∀ t1 e1, p1 = .rejected t1 e1 → t < t1)) := by
  cases p1 with
  | rejected t1 e1 =>
    cases p2 with
    | rejected t2 e2 =>
      by_cases ht : t1 ≤ t2
      · refine ⟨t1, e1, by simp [Promise.all, firstRejection, ht], Or.inl ⟨rfl, ?_⟩⟩
        intro t2' e2' h2
        injection h2 with h2 _
        exact h2 ▸ ht
      · refine ⟨t2, e2, by simp [Promise.all, firstRejection, ht], Or.inr ⟨rfl, ?_⟩⟩
        intro t1' e1' h1
        injection h1 with h1 _
        exact h1 ▸ Nat.lt_of_not_le ht
    | pending =>
      exact ⟨t1, e1, by simp [Promise.all, firstRejection],
        Or.inl ⟨rfl, fun _ _ h2 => by cases h2⟩⟩
    | fulfilled t2 v2 =>
      exact ⟨t1, e1, by simp [Promise.all, firstRejection],
        Or.inl ⟨rfl, fun _ _ h2 => by cases h2⟩⟩
  | pending =>
    cases h with
    | inl h => obtain ⟨_, _, h⟩ := h; cases h
    | inr h =>
      obtain ⟨t2, e2, h⟩ := h
      subst h
      exact ⟨t2, e2, by simp [Promise.all, firstRejection],
        Or.inr ⟨rfl, fun _ _ h1 => by cases h1⟩⟩
  | fulfilled t1 v1 =>
    cases h with
    | inl h => obtain ⟨_, _, h⟩ := h; cases h
    | inr h =>
      obtain ⟨t2, e2, h⟩ := h
      subst h
      exact ⟨t2, e2, by simp [Promise.all, firstRejection],
        Or.inr ⟨rfl, fun _ _ h1 => by cases h1⟩⟩

theorem takeUntilRaise_of_none {α : Type} (raises : α → Option JsError) (l : List α)
    (h : ∀ a ∈ l, raises a = none) : takeUntilRaise raises l = l := by
  induction l with
  | nil => rfl
  | cons a rest ih =>
    simp [takeUntilRaise, h a (List.mem_cons_self _ _),
      ih (fun b hb => h b (List.mem_cons_of_mem _ hb))]

theorem findSome_of_none {α : Type} (raises : α → Option JsError) (l : List α)
    (h : ∀ a ∈ l, raises a = none) : l.findSome? raises = none := by
  induction l with
  | nil => rfl
  | cons a rest ih =>
    simp [List.findSome?, h a (List.mem_cons_self _ _),
      ih (fun b hb => h b (List.mem_cons_of_mem _ hb))]

theorem hookIds_map (hook : Hook) (subs : List ActionSubscriber) (action : Mutation)
    (state : JVal) (error : Option JsError) :
    hookIds hook (subs.map (fun sub => Event.actionSubscriber hook sub.id action state error)) =
      subs.map (fun sub => sub.id) := by
  induction subs with
  | nil => rfl
  | cons a rest ih => simp [hookIds, ih]

theorem hookIds_hookTrace_of_none (hook : Hook) (raises : ActionSubscriber → Option JsError)
    (subs : List ActionSubscriber) (action : Mutation) (state : JVal) (error : Option JsError)
    (h : ∀ sub ∈ subs, raises sub = none) :
    hookIds hook (hookTrace hook raises subs action state error) =
      subs.map (fun sub => sub.id) := by
  unfold hookTrace
  rw [takeUntilRaise_of_none raises subs h, findSome_of_none raises subs h]
  simp [hookIds_map]

/-- C9 (as amended): when exactly two handlers are registered for the
action type and `dispatch` returns an awaitable, that awaitable is
fulfilled only if both handlers' awaitables are, at the later of their
times and with both values; if either handler rejects, it is rejected
with the error of the handler that rejected first (the handler whose
rejection is the earlier one, the first handler when both reject at the
same time), and the reaction to the rejection notifies the error
subscribers once per dispatch with that one error (each of them exactly
once when none of them throws), however many handlers failed. -/
theorem dispatch_two_handlers (s : Store) (t : Str) (p : JVal) (h1 h2 : WrappedAction)
    (h : objGet s._actions t = some [h1, h2]) (d : Dispatched)
    (hd : (dispatch t p s).result = .ok (some d)) :
    ∃ p1 p2, (h1.call p s).result = .ok p1 ∧
      (h2.call p (h1.call p s).store).result = .ok p2 ∧
      d.action = ⟨t, p⟩ ∧ d.result = Promise.all [p1, p2] ∧
      (∀ s' tm v, (d.settle s').result = .ok (.fulfilled tm v) →
        ∃ t1 v1 t2 v2, p1 = .fulfilled t1 v1 ∧ p2 = .fulfilled t2 v2 ∧
          tm = max t1 t2 ∧ v = .all [v1, v2]) ∧
      (((∃ t1 e1, p1 = .rejected t1 e1) ∨ (∃ t2 e2, p2 = .rejected t2 e2)) →
        ∃ tm e,
          ((p1 = .rejected tm e ∧ ∀ t2 e2, p2 = .rejected t2 e2 → tm ≤ t2) ∨
            (p2 = .rejected tm e ∧ ∀ t1 e1, p1 = .rejected t1 e1 → tm < t1)) ∧
          ∀ s', d.settle s' =
              ⟨.ok (.rejected tm e), s',
                hookTrace .error (errorRaises d.action s'.state e) s'.errorSubscribers
                  d.action s'.state (some e)⟩ ∧
            ((∀ sub ∈ s'.errorSubscribers, errorRaises d.action s'.state e sub = none) →
              hookIds .error (d.settle s').trace =
                s'.errorSubscribers.map (fun sub => sub.id))) := by
  rw [dispatch_of_some p h] at hd
  simp only at hd
  cases hr : (invokeHandlers [h1, h2] p s).result with
  | error e => simp [hr, dispatched] at hd
  | ok r =>
    simp only [hr, dispatched] at hd
    injection hd with hd
    injection hd with hd
    obtain ⟨p1, p2, hp1, hp2, hall⟩ := invokeHandlers_two h1 h2 p s r hr
    subst hd
    refine ⟨p1, p2, hp1, hp2, rfl, hall, ?_, ?_⟩
    · intro s' tm v hs
      rw [settle_apply] at hs
      simp only at hs
      rw [hall] at hs
      cases hpa : Promise.all [p1, p2] with
      | pending => simp [hpa] at hs
      | rejected t2 e2 => simp [hpa] at hs
      | fulfilled t2 v2 =>
        simp only [hpa] at hs
        injection hs with hs
        injection hs with ht hv
        subst ht
        subst hv
        exact all_two_fulfilled hpa
    · intro hrej
      obtain ⟨tm, e, hpa, hor⟩ := all_two_first_rejected hrej
      refine ⟨tm, e, hor, fun s' => ?_⟩
      have hs : Dispatched.settle ⟨⟨t, p⟩, r⟩ s' =
          ⟨.ok (.rejected tm e), s',
            hookTrace .error (errorRaises ⟨t, p⟩ s'.state e) s'.errorSubscribers ⟨t, p⟩
              s'.state (some e)⟩ := by
        rw [settle_apply]
        simp only
        rw [hall, hpa]
      refine ⟨hs, fun hnone => ?_⟩
      rw [hs]
      exact hookIds_hookTrace_of_none _ _ _ _ _ _ hnone

theorem dispatch_two_handlers_witness :
    objGet bothFailStore._actions "a".toList =
      some [⟨rejectWith 1 10, ⟨[], []⟩⟩, ⟨rejectWith 2 20, ⟨[], ["m".toList]⟩⟩] ∧
    (dispatch "a".toList .undefined bothFailStore).result =
      .ok (some ⟨⟨"a".toList, .undefined⟩, .rejected 1 (.thrown (.num 10))⟩) ∧
    (∃ p1 p2,
      (WrappedAction.call ⟨rejectWith 1 10, ⟨[], []⟩⟩ .undefined bothFailStore).result =
        .ok p1 ∧
      (WrappedAction.call ⟨rejectWith 2 20, ⟨[], ["m".toList]⟩⟩ .undefined
        (WrappedAction.call ⟨rejectWith 1 10, ⟨[], []⟩⟩ .undefined bothFailStore).store).result =
        .ok p2 ∧
      (⟨⟨"a".toList, .undefined⟩, .rejected 1 (.thrown (.num 10))⟩ : Dispatched).action =
        ⟨"a".toList, .undefined⟩ ∧
      (⟨⟨"a".toList, .undefined⟩, .rejected 1 (.thrown (.num 10))⟩ : Dispatched).result =
        Promise.all [p1, p2]) :=
  ⟨rfl, rfl, by
    obtain ⟨p1, p2, h1, h2, h3, h4, _⟩ := dispatch_two_handlers bothFailStore "a".toList
      .undefined ⟨rejectWith 1 10, ⟨[], []⟩⟩ ⟨rejectWith 2 20, ⟨[], ["m".toList]⟩⟩ rfl
      ⟨⟨"a".toList, .undefined⟩, .rejected 1 (.thrown (.num 10))⟩ rfl
    exact ⟨p1, p2, h1, h2, h3, h4⟩⟩

/-- C9 (as stated) fails: in `bothFailStore` two handlers are registered
for the action `a` and both reject, yet the error subscriber is notified
once, with the error of the handler that rejected first, not twice. -/
theorem dispatch_both_fail_counterexample :
    objGet bothFailStore._actions "a".toList =
      some [⟨rejectWith 1 10, ⟨[], []⟩⟩, ⟨rejectWith 2 20, ⟨[], ["m".toList]⟩⟩] ∧
    (WrappedAction.call ⟨rejectWith 1 10, ⟨[], []⟩⟩ .undefined bothFailStore).result =
      .ok (.rejected 1 (.thrown (.num 10))) ∧
    (WrappedAction.call ⟨rejectWith 2 20, ⟨[], ["m".toList]⟩⟩ .undefined bothFailStore).result =
      .ok (.rejected 2 (.thrown (.num 20))) ∧
    (dispatch "a".toList .undefined bothFailStore).result =
      .ok (some ⟨⟨"a".toList, .undefined⟩, .rejected 1 (.thrown (.num 10))⟩) ∧
    (dispatch "a".toList .undefined bothFailStore).store = bothFailStore ∧
    Dispatched.settle ⟨⟨"a".toList, .undefined⟩, .rejected 1 (.thrown (.num 10))⟩
        bothFailStore =
      ⟨.ok (.rejected 1 (.thrown (.num 10))), bothFailStore,
        [.actionSubscriber .error 9 ⟨"a".toList, .undefined⟩ (.obj [("m".toList, .obj [])])
          (some (.thrown (.num 10)))]⟩ ∧
    hookIds .error
        (Dispatched.settle ⟨⟨"a".toList, .undefined⟩, .rejected 1 (.thrown (.num 10))⟩
          bothFailStore).trace ≠ [9, 9] :=
  ⟨rfl, rfl, rfl, rfl, rfl, rfl, by decide⟩

/-! ## The handlers do not depend on the action subscribers -/

theorem readGetter_setActionSubscribers (subs : List ActionSubscriber) (s : Store) :
    ∀ fuel, readGetter fuel (s.setActionSubscribers subs) = readGetter fuel s := by
  intro fuel
  induction fuel with
  | zero => rfl
  | succ n ih =>
    funext t
    show (if t ∈ s.getters then
        match objGet s._vm.computed t with
        | none => some (.ok .undefined)
        | some w => w.callWith s (readGetter n (s.setActionSubscribers subs))
      else some (.ok .undefined)) = readGetter (n + 1) s t
    rw [ih]
    rfl

theorem gettersView_setActionSubscribers (subs : List ActionSubscriber) (s : Store) :
    (s.setActionSubscribers subs).gettersView = s.gettersView := by
  unfold Store.gettersView
  congr 1
  funext fuel k
  rw [readGetter_setActionSubscribers]

theorem readProxy_setActionSubscribers (subs : List ActionSubscriber) (s : Store)
    (proxy : List (Str × Str)) :
    (fun fuel k => readProxy fuel (s.setActionSubscribers subs) proxy k) =
      (fun fuel k => readProxy fuel s proxy k) := by
  funext fuel k
  unfold readProxy
  rw [readGetter_setActionSubscribers]

theorem commutes_bind {α β : Type} {x : M α} {f : α → M β}
    (hx : ∀ s subs, x (s.setActionSubscribers subs) =
      ⟨(x s).result, (x s).store.setActionSubscribers subs, (x s).trace⟩)
    (hf : ∀ a s subs, f a (s.setActionSubscribers subs) =
      ⟨(f a s).result, (f a s).store.setActionSubscribers subs, (f a s).trace⟩)
    (s : Store) (subs : List ActionSubscriber) :
    (x >>= f) (s.setActionSubscribers subs) =
      ⟨((x >>= f) s).result, ((x >>= f) s).store.setActionSubscribers subs,
        ((x >>= f) s).trace⟩ := by
  rw [bind_apply, bind_apply, hx]
  cases hr : (x s).result with
  | error e => rfl
  | ok a =>
    simp only []
    rw [hf]

theorem localGetters_commutes (l : LocalContext) (s : Store) (subs : List ActionSubscriber) :
    l.getters (s.setActionSubscribers subs) =
      ⟨(l.getters s).result, (l.getters s).store.setActionSubscribers subs,
        (l.getters s).trace⟩ := by
  unfold LocalContext.getters
  by_cases hns : l.ns = []
  · simp only [hns, if_true, bind_apply, getStore, pure_apply]
    rw [gettersView_setActionSubscribers]
  · simp only [hns, if_false, bind_apply, getStore, pure_apply, makeLocalGetters_apply]
    cases hc : objGet s._makeLocalGettersCache l.ns with
    | some cached =>
      have hc' : objGet (s.setActionSubscribers subs)._makeLocalGettersCache l.ns =
          some cached := hc
      simp only [hc']
      rw [readProxy_setActionSubscribers]
    | none =>
      have hc' : objGet (s.setActionSubscribers subs)._makeLocalGettersCache l.ns = none := hc
      simp only [hc']
      have hst : ({ s.setActionSubscribers subs with
          _makeLocalGettersCache :=
            objSet (s.setActionSubscribers subs)._makeLocalGettersCache l.ns
              (gettersProxy (s.setActionSubscribers subs).getters l.ns) } : Store) =
          Store.setActionSubscribers { s with
            _makeLocalGettersCache :=
              objSet s._makeLocalGettersCache l.ns (gettersProxy s.getters l.ns) } subs := rfl
      rw [hst, readProxy_setActionSubscribers]
      rfl

theorem action_call_commutes (w : WrappedAction) (p : JVal) (s : Store)
    (subs : List ActionSubscriber) :
    w.call p (s.setActionSubscribers subs) =
      ⟨(w.call p s).result, (w.call p s).store.setActionSubscribers subs,
        (w.call p s).trace⟩ := by
  unfold WrappedAction.call
  refine commutes_bind (localGetters_commutes _) (fun g s1 subs1 => ?_) s subs
  simp only [bind_apply, getStore, liftExcept, emit]
  have hst : (s1.setActionSubscribers subs1).state = s1.state := rfl
  rw [hst, gettersView_setActionSubscribers]
  cases hl : getNestedState s1.state w.localCtx.path <;> rfl

theorem mapEach_commutes (entry : List WrappedAction) (p : JVal) (s : Store)
    (subs : List ActionSubscriber) :
    mapEach entry (fun handler => handler.call p) (s.setActionSubscribers subs) =
      ⟨(mapEach entry (fun handler => handler.call p) s).result,
        (mapEach entry (fun handler => handler.call p) s).store.setActionSubscribers subs,
        (mapEach entry (fun handler => handler.call p) s).trace⟩ := by
  induction entry generalizing s subs with
  | nil => rfl
  | cons a rest ih =>
    rw [mapEach]
    refine commutes_bind (action_call_commutes a p) (fun b s1 subs1 => ?_) s subs
    refine commutes_bind (fun s2 subs2 => ih s2 subs2) (fun bs s2 subs2 => rfl) s1 subs1

theorem invokeHandlers_commutes (entry : List WrappedAction) (p : JVal) (s : Store)
    (subs : List ActionSubscriber) :
    invokeHandlers entry p (s.setActionSubscribers subs) =
      ⟨(invokeHandlers entry p s).result,
        (invokeHandlers entry p s).store.setActionSubscribers subs,
        (invokeHandlers entry p s).trace⟩ := by
  unfold invokeHandlers
  split
  · exact commutes_bind (mapEach_commutes entry p) (fun ps s1 subs1 => rfl) s subs
  · cases hh : entry.head? with
    | none => rfl
    | some handler =>
      exact commutes_bind (action_call_commutes _ p) (fun ps s1 subs1 => rfl) s subs

theorem commit_notify_prefix (s : Store) (t : Str) (p : JVal) (o : Option Options)
    (entry : List WrappedMutation) (h : objGet s._mutations t = some entry)
    (hok : (forEach entry (fun w => w.call p) (s.setCommitting true)).result = .ok ()) :
    (commit t p o s).store.state = applyHandlers entry p s.state ∧
    ∃ tail, (∀ e ∈ tail, ∃ d, e = Event.diag d) ∧
      (commit t p o s).trace =
        entry.map (fun w => Event.mutationHandler w p) ++
        (untilRaise s._subscribers ⟨t, p⟩ (applyHandlers entry p s.state)).map
          (fun sub => Event.subscriber sub.id ⟨t, p⟩ (applyHandlers entry p s.state)) ++
        tail := by
  rw [commit_of_some p o h]
  obtain ⟨hA1, hA2⟩ := handlers_run entry p (s.setCommitting true)
  obtain ⟨hA3, hA4⟩ := hA2 hok
  have hW := withCommit_of_ok (Res.eq_of_result hok)
  rw [bind_of_ok _ hW]
  rw [hA1]
  simp only [setCommitting_state] at hA3
  rw [hA3, hA4]
  have hs1 : ((s.setCommitting true).setState (applyHandlers entry p s.state)).setCommitting
      s._committing = s.setState (applyHandlers entry p s.state) := rfl
  rw [hs1]
  obtain ⟨⟨subs', hB1⟩, hB2, hB3⟩ :=
    notify_run s._subscribers ⟨t, p⟩ (s.setState (applyHandlers entry p s.state))
  have hG : (getStore >>= fun st => forEach st._subscribers (fun sub => sub.call ⟨t, p⟩))
      (s.setState (applyHandlers entry p s.state)) =
      forEach s._subscribers (fun sub => sub.call ⟨t, p⟩)
        (s.setState (applyHandlers entry p s.state)) := by
    rw [bind_apply]
    simp [getStore]
    rfl
  simp only [setState_state] at hB2
  cases hBr : (forEach s._subscribers (fun sub => sub.call ⟨t, p⟩)
      (s.setState (applyHandlers entry p s.state))).result with
  | error e =>
    have hB := Res.eq_of_result hBr
    rw [hB1, hB2] at hB
    rw [← hG] at hB
    rw [bind_of_error _ hB]
    exact ⟨rfl, [], fun e he => by simp at he, by simp⟩
  | ok u =>
    have hB := Res.eq_of_result hBr
    rw [hB1, hB2] at hB
    rw [← hG] at hB
    rw [bind_of_ok _ hB, silent_apply]
    refine ⟨rfl, silentWarning t o, ?_, by simp⟩
    intro e he
    cases o with
    | none => simp [silentWarning] at he
    | some o =>
      simp only [silentWarning] at he
      split at he
      · simp only [List.mem_singleton] at he
        exact ⟨_, he⟩
      · simp at he

/-- C10 (as amended): a `dispatch` on a registered type notifies the
before-subscribers in order up to and including the first that throws,
each of them once, reports the error, and then completes with the outcome
of its handlers, which is the same whatever the list of action
subscribers is and whichever of them throw.  A `commit` on a registered type
whose handlers complete has applied all handlers, the state being the
same as if no subscriber had thrown, and has notified the subscribers in
order up to and including the first that throws, each of them once. -/
theorem subscriber_failure_contained (s : Store) (t : Str) (p : JVal) :
    (∀ entry, objGet s._actions t = some entry →
      dispatch t p s =
        ⟨dispatched ⟨t, p⟩ (invokeHandlers entry p s).result, (invokeHandlers entry p s).store,
          hookTrace .before (beforeRaises ⟨t, p⟩ s.state) s.beforeSubscribers ⟨t, p⟩ s.state
              none ++
            (invokeHandlers entry p s).trace⟩ ∧
      ∀ subs, (dispatch t p (s.setActionSubscribers subs)).result = (dispatch t p s).result ∧
        (dispatch t p (s.setActionSubscribers subs)).store =
          (dispatch t p s).store.setActionSubscribers subs) ∧
    (∀ o entry, objGet s._mutations t = some entry →
      (forEach entry (fun w => w.call p) (s.setCommitting true)).result = .ok () →
      (commit t p o s).store.state = applyHandlers entry p s.state ∧
      ∃ tail, (∀ e ∈ tail, ∃ d, e = Event.diag d) ∧
        (commit t p o s).trace =
          entry.map (fun w => Event.mutationHandler w p) ++
          (untilRaise s._subscribers ⟨t, p⟩ (applyHandlers entry p s.state)).map
            (fun sub => Event.subscriber sub.id ⟨t, p⟩ (applyHandlers entry p s.state)) ++
          tail) := by
  refine ⟨fun entry h => ⟨dispatch_of_some p h, fun subs => ?_⟩,
    fun o entry h hok => commit_notify_prefix s t p o entry h hok⟩
  have h' : objGet (s.setActionSubscribers subs)._actions t = some entry := h
  rw [dispatch_of_some p h', dispatch_of_some p h, invokeHandlers_commutes]
  exact ⟨rfl, rfl⟩

theorem subscriber_failure_contained_witness :
    objGet beforeFailStore._actions "a".toList =
      some [⟨resolveWith 1 10, ⟨[], []⟩⟩, ⟨resolveWith 2 20, ⟨[], ["m".toList]⟩⟩] ∧
    (dispatch "a".toList .undefined
        (beforeFailStore.setActionSubscribers [quietActionSubscriber 1,
          quietActionSubscriber 2])).result =
      (dispatch "a".toList .undefined beforeFailStore).result ∧
    (dispatch "a".toList .undefined beforeFailStore).result =
      .ok (some ⟨⟨"a".toList, .undefined⟩, .fulfilled 2 (.all [.num 10, .num 20])⟩) ∧
    objGet commitFailStore._mutations "inc".toList = some [⟨incCount, ⟨[], []⟩⟩] ∧
    (commit "inc".toList .undefined none commitFailStore).store.state =
      .obj [("count".toList, .num 1)] :=
  ⟨rfl,
    (((subscriber_failure_contained beforeFailStore "a".toList .undefined).1 _ rfl).2
      [quietActionSubscriber 1, quietActionSubscriber 2]).1,
    rfl, rfl,
    (((subscriber_failure_contained commitFailStore "inc".toList .undefined).2 none
      [⟨incCount, ⟨[], []⟩⟩] rfl rfl).1).trans rfl⟩

/-- C10 (as stated) fails: in `beforeFailStore` the first of two
before-subscribers throws and the second is never notified, although the
dispatch completes; in `commitFailStore` the first of two subscribers
throws, the second is never notified and the error escapes `commit`. -/
theorem subscriber_isolation_counterexample :
    beforeFailStore.beforeSubscribers.map (fun sub => sub.id) = [1, 2] ∧
    beforeRaises ⟨"a".toList, .undefined⟩ beforeFailStore.state (failingActionSubscriber 1) =
      some (.thrown (.str "boom".toList)) ∧
    hookIds .before (dispatch "a".toList .undefined beforeFailStore).trace = [1] ∧
    commitFailStore._subscribers.map (fun sub => sub.id) = [1, 2] ∧
    notifiedIds (commit "inc".toList .undefined none commitFailStore).trace = [1] ∧
    (commit "inc".toList .undefined none commitFailStore).result =
      .error (.thrown (.str "boom".toList)) ∧
    (commit "inc".toList .undefined none
        (commitFailStore.setSubscribers [quietSubscriber 1, quietSubscriber 2])).result =
      .ok () := by
  refine ⟨by decide, rfl, by decide, by decide, by decide, rfl, rfl⟩

/-! ## Commit iterates over a copy of the subscriber list -/

theorem notified_append (a b : List Event) : notified (a ++ b) = notified a ++ notified b := by
  induction a with
  | nil => rfl
  | cons e rest ih =>
    cases e <;> simp [notified, ih]

theorem notified_handlers (entry : List WrappedMutation) (p : JVal) :
    notified (entry.map (fun w => Event.mutationHandler w p)) = [] := by
  induction entry with
  | nil => rfl
  | cons w rest ih => simpa [notified] using ih

theorem notified_subscribers (subs : List Subscriber) (m : Mutation) (st : JVal) :
    notified (subs.map (fun sub => Event.subscriber sub.id m st)) =
      subs.map (fun sub => (sub.id, m, st)) := by
  induction subs with
  | nil => rfl
  | cons sub rest ih => simp [notified, ih]

theorem notified_silentWarning (t : Str) (o : Option Options) :
    notified (silentWarning t o) = [] := by
  cases o with
  | none => rfl
  | some o =>
    simp only [silentWarning]
    split <;> rfl

theorem commit_run_of_ok (s : Store) (t : Str) (p : JVal) (o : Option Options)
    (entry : List WrappedMutation) (h : objGet s._mutations t = some entry)
    (hok : (commit t p o s).result = .ok ()) :
    _withCommit (forEach entry (fun handler => handler.call p)) s =
      ⟨.ok (), s.setState (applyHandlers entry p s.state),
        entry.map (fun w => Event.mutationHandler w p)⟩ ∧
    (commit t p o s).trace =
      entry.map (fun w => Event.mutationHandler w p) ++
      s._subscribers.map
        (fun sub => Event.subscriber sub.id ⟨t, p⟩ (applyHandlers entry p s.state)) ++
      silentWarning t o := by
  rw [commit_of_some p o h] at hok ⊢
  obtain ⟨hA1, hA2⟩ := handlers_run entry p (s.setCommitting true)
  cases hAr : (forEach entry (fun w => w.call p) (s.setCommitting true)).result with
  | error e =>
    rw [bind_of_error _ (withCommit_of_error (Res.eq_of_result hAr))] at hok
    simp at hok
  | ok u =>
    obtain ⟨hA3, hA4⟩ := hA2 hAr
    have hW := withCommit_of_ok (Res.eq_of_result hAr)
    rw [bind_of_ok _ hW] at hok ⊢
    rw [hW]
    rw [hA1] at hok ⊢
    simp only [setCommitting_state] at hA3
    rw [hA3, hA4] at hok ⊢
    have hs1 : ((s.setCommitting true).setState (applyHandlers entry p s.state)).setCommitting
        s._committing = s.setState (applyHandlers entry p s.state) := rfl
    rw [hs1] at hok ⊢
    refine ⟨rfl, ?_⟩
    obtain ⟨⟨subs', hB1⟩, hB2, hB3⟩ :=
      notify_run s._subscribers ⟨t, p⟩ (s.setState (applyHandlers entry p s.state))
    have hG : (getStore >>= fun st => forEach st._subscribers (fun sub => sub.call ⟨t, p⟩))
        (s.setState (applyHandlers entry p s.state)) =
        forEach s._subscribers (fun sub => sub.call ⟨t, p⟩)
          (s.setState (applyHandlers entry p s.state)) := by
      rw [bind_apply]
      simp [getStore]
      rfl
    cases hBr : (forEach s._subscribers (fun sub => sub.call ⟨t, p⟩)
        (s.setState (applyHandlers entry p s.state))).result with
    | error e =>
      have hB := Res.eq_of_result hBr
      rw [← hG] at hB
      rw [bind_of_error _ hB] at hok
      simp at hok
    | ok u2 =>
      have hB := Res.eq_of_result hBr
      rw [hBr] at hB3
      have hnone := resultOf_eq_ok hB3.symm
      rw [untilRaise_of_none _ _ _ hnone] at hB2
      rw [hB1, hB2] at hB
      rw [← hG] at hB
      rw [bind_of_ok _ hB, silent_apply]
      simp

/-- C11 (as amended): a `commit` on a registered type that completes (no
handler and no subscriber throws) has notified
exactly the elements of the subscriber list as it was when the handlers
had finished, each once and in list order, with the mutation and the state
the handlers left, whatever changes of the subscriber list (calls of
unsubscribe functions, new subscriptions) the subscribers make while they
are notified. -/
theorem commit_notifies_snapshot (s : Store) (t : Str) (p : JVal) (o : Option Options)
    (entry : List WrappedMutation) (h : objGet s._mutations t = some entry)
    (hok : (commit t p o s).result = .ok ()) :
    notified (commit t p o s).trace =
      (_withCommit (forEach entry (fun handler => handler.call p)) s).store._subscribers.map
        (fun sub => (sub.id, (⟨t, p⟩ : Mutation),
          (_withCommit (forEach entry (fun handler => handler.call p)) s).store.state)) := by
  obtain ⟨h1, h2⟩ := commit_run_of_ok s t p o entry h hok
  rw [h1, h2, notified_append, notified_append, notified_handlers, notified_subscribers,
    notified_silentWarning]
  simp
  rfl

theorem commit_notifies_snapshot_witness :
    snapshotStore._subscribers.map (fun sub => sub.id) = [1, 2, 3] ∧
    notified (commit "inc".toList .undefined none snapshotStore).trace =
      [(1, ⟨"inc".toList, .undefined⟩, .obj [("count".toList, .num 1)]),
       (2, ⟨"inc".toList, .undefined⟩, .obj [("count".toList, .num 1)]),
       (3, ⟨"inc".toList, .undefined⟩, .obj [("count".toList, .num 1)])] ∧
    (commit "inc".toList .undefined none snapshotStore).store._subscribers.map
      (fun sub => sub.id) = [3, 5] :=
  ⟨rfl,
    (commit_notifies_snapshot snapshotStore "inc".toList .undefined none
      [⟨incCount, ⟨[], []⟩⟩] rfl rfl).trans rfl,
    rfl⟩

/-- C11 (as stated) fails.  In `commitFailStore` the subscriber list is
`[1, 2]` when the handler of `inc` has finished; the first subscriber
throws, and the subscribers notified are `[1]` only.  In
`sharedRaisingStore` the first handler of `boom` throws and the one
subscriber of the list is not notified at all. -/
theorem commit_snapshot_counterexample :
    objGet commitFailStore._mutations "inc".toList = some [⟨incCount, ⟨[], []⟩⟩] ∧
    (_withCommit (forEach [(⟨incCount, ⟨[], []⟩⟩ : WrappedMutation)]
      (fun handler => handler.call .undefined)) commitFailStore).result = .ok () ∧
    (_withCommit (forEach [(⟨incCount, ⟨[], []⟩⟩ : WrappedMutation)]
      (fun handler => handler.call .undefined)) commitFailStore).store._subscribers.map
        (fun sub => sub.id) = [1, 2] ∧
    (notified (commit "inc".toList .undefined none commitFailStore).trace).map
      (fun n => n.1) = [1] ∧
    sharedRaisingStore._subscribers.map (fun sub => sub.id) = [2] ∧
    (objGet sharedRaisingStore._mutations "boom".toList).map List.length = some 2 ∧
    notified (commit "boom".toList .undefined none sharedRaisingStore).trace = [] :=
  ⟨rfl, rfl, rfl, rfl, rfl, rfl, rfl⟩

/-! ## Unregistering: declared modules, missing parents -/

/-- C12 (the code at the failing input): in `cartStore` the module `cart`
is declared in the construction tree (`runtime` is false).  The call
`unregisterModule(['cart'])` returns, the module tree is unchanged,
`hasModule(['cart'])` is still true and the registered types are the same,
but the state slice `cart` has been deleted from the root state, so that a
later `commit('cart/set')`, which worked before, throws. -/
theorem unregisterModule_declared_deletes_state :
    (cartStore._modules.get ["cart".toList]).map (Option.map Module.runtime) =
      .ok (some false) ∧
    cartStore.state = .obj [("cart".toList, .obj [("items".toList, .num 3)])] ∧
    (unregisterModule ["cart".toList] cartStore).result = .ok () ∧
    (unregisterModule ["cart".toList] cartStore).store._modules = cartStore._modules ∧
    (hasModule ["cart".toList] (unregisterModule ["cart".toList] cartStore).store).result =
      .ok true ∧
    objKeys (unregisterModule ["cart".toList] cartStore).store._mutations =
      objKeys cartStore._mutations ∧
    (unregisterModule ["cart".toList] cartStore).store.getters = cartStore.getters ∧
    (unregisterModule ["cart".toList] cartStore).store.state = .obj [] ∧
    (commit "cart/set".toList (.num 1) none cartStore).result = .ok () ∧
    (commit "cart/set".toList (.num 1) none
      (unregisterModule ["cart".toList] cartStore).store).result = .error .typeError :=
  ⟨rfl, rfl, rfl, rfl, rfl, rfl, rfl, rfl, rfl, rfl⟩

/-- C13 (the code at the failing input): in the tree of `nestedStore`
there is no module `x`.  The call `unregister(['x', 'y'])`, whose parent
is absent, throws a `TypeError`, and so does `unregister(['x', 'y', 'z'])`;
`unregister(['x'])`, whose parent is the root, returns with the tree
unchanged and a warning, and `isRegistered(['x', 'y'])` returns false. -/
theorem unregister_raises_without_parent :
    nestedStore._modules.get ["x".toList] = .ok none ∧
    nestedStore._modules.unregister ["x".toList, "y".toList] = .error .typeError ∧
    nestedStore._modules.unregister ["x".toList, "y".toList, "z".toList] = .error .typeError ∧
    nestedStore._modules.unregister ["x".toList] =
      .ok (nestedStore._modules, [.unregisterMissing "x".toList]) ∧
    nestedStore._modules.isRegistered ["x".toList, "y".toList] = .ok false ∧
    (unregisterModule ["x".toList, "y".toList] nestedStore).result = .error .typeError :=
  ⟨rfl, rfl, rfl, rfl, rfl, rfl⟩

/-- C14 (the code at the failing input): in the tree of `nestedStore`
there is no module `x`.  The call `isRegistered(['x', 'y', 'z'])`, in which
an ancestor above the parent is absent, throws a `TypeError`, whereas
`isRegistered(['x', 'y'])`, in which the parent itself is absent, returns
false, and `isRegistered(['A', 'c'])` returns true. -/
theorem isRegistered_raises_without_ancestor :
    nestedStore._modules.get ["x".toList] = .ok none ∧
    nestedStore._modules.isRegistered ["x".toList, "y".toList, "z".toList] =
      .error .typeError ∧
    (hasModule ["x".toList, "y".toList, "z".toList] nestedStore).result = .error .typeError ∧
    nestedStore._modules.isRegistered ["x".toList, "y".toList] = .ok false ∧
    nestedStore._modules.isRegistered ["A".toList, "c".toList] = .ok true :=
  ⟨rfl, rfl, rfl, rfl, rfl⟩

/-! ## Validation of a specification on registration -/

/-- C15 (the code at the failing input): registering at `['m']` a
specification whose action `a` is `null` fails with a `TypeError`, not
with the error of the validation, because `objectAssert` reads the field
`handler` of `null`.  An entry `null` of `getters`, a number as action and
an invalid entry in a nested module fail with the error of the validation,
and an action given as an object with a callable `handler` is accepted. -/
theorem register_null_action_typeError :
    counterStore._modules.registerChecked ["m".toList] (actionSpec .null) true =
      .error .typeError ∧
    counterStore._modules.registerChecked ["m".toList] (getterSpec .null) true =
      .error (.assertion
        "getters should be function but \"getters.x\" in module \"m\" is null.".toList) ∧
    counterStore._modules.registerChecked ["m".toList] (actionSpec (.number 3)) true =
      .error (.assertion
        ("actions should be function or object with \"handler\" function but ".toList ++
          "\"actions.a\" in module \"m\" is 3.".toList)) ∧
    counterStore._modules.registerChecked ["m".toList]
        (nestingSpec (actionSpec (.object true .null))) true =
      .error (.assertion
        ("actions should be function or object with \"handler\" function but ".toList ++
          "\"actions.a\" in module \"m.n\" is \x7b\"root\":true,\"handler\":null\x7d.".toList)) ∧
    counterStore._modules.registerChecked ["m".toList]
        (nestingSpec (actionSpec .null)) true = .error .typeError ∧
    (counterStore._modules.registerChecked ["m".toList]
        (actionSpec (.object true (.function readTotal))) true).toOption.isSome = true :=
  ⟨rfl, rfl, rfl, rfl, rfl, rfl⟩

/-! ## Registration builds the subtree of the specification -/

theorem objSet_objSet_same {α : Type} (o : List (Str × α)) (k : Str) (v w : α) :
    objSet (objSet o k v) k w = objSet o k w := by
  induction o with
  | nil => simp [objSet]
  | cons kv rest ih =>
    obtain ⟨k', v'⟩ := kv
    by_cases hk : k' = k
    · simp [objSet, hk]
    · simp [objSet, hk, ih]

theorem dropLast_append_lastKey {path : List Str} (h : path ≠ []) :
    path.dropLast ++ [lastKey path] = path := by
  rcases List.eq_nil_or_concat path with h0 | ⟨p, k, rfl⟩
  · exact absurd h0 h
  · simp [lastKey]

theorem dropLast_concat_key (p : List Str) (k : Str) :
    (p ++ [k]).dropLast = p ∧ lastKey (p ++ [k]) = k := by
  simp [lastKey]

theorem getFrom_modifyAt (f : Module → Module) (q : List Str) :
    ∀ (p : List Str) (m x : Module), getFrom (some m) p = .ok (some x) →
      getFrom (some (m.modifyAt p f)) (p ++ q) = getFrom (some (f x)) q := by
  intro p
  induction p with
  | nil =>
    intro m x h
    have hx : m = x := by
      simpa [getFrom] using h
    subst hx
    rfl
  | cons k rest ih =>
    intro m x h
    obtain ⟨child, hc, hr⟩ := getFrom_some_cons h
    have hc' : m.getChild k = some child := hc
    have h1 : m.modifyAt (k :: rest) f =
        .mk m.runtime (objSet m._children k (child.modifyAt rest f)) m._rawModule m.state := by
      simp [Module.modifyAt, hc']
    rw [h1]
    have h2 : (Module.mk m.runtime (objSet m._children k (child.modifyAt rest f)) m._rawModule
        m.state).getChild k = some (child.modifyAt rest f) := objGet_objSet_same _ _ _
    show getFrom (some _) (k :: (rest ++ q)) = _
    rw [getFrom, h2]
    exact ih child x hr

theorem modifyAt_modifyAt (f g : Module → Module) (q : List Str) :
    ∀ (p : List Str) (m x : Module), getFrom (some m) p = .ok (some x) →
      (m.modifyAt p f).modifyAt (p ++ q) g = m.modifyAt p (fun y => (f y).modifyAt q g) := by
  intro p
  induction p with
  | nil =>
    intro m x _
    rfl
  | cons k rest ih =>
    intro m x h
    obtain ⟨child, hc, hr⟩ := getFrom_some_cons h
    have hc' : m.getChild k = some child := hc
    have h1 : ∀ f' : Module → Module, m.modifyAt (k :: rest) f' =
        .mk m.runtime (objSet m._children k (child.modifyAt rest f')) m._rawModule m.state := by
      intro f'
      simp [Module.modifyAt, hc']
    rw [h1 f, h1]
    have h2 : (Module.mk m.runtime (objSet m._children k (child.modifyAt rest f)) m._rawModule
        m.state).getChild k = some (child.modifyAt rest f) := objGet_objSet_same _ _ _
    show Module.modifyAt _ (k :: (rest ++ q)) g = _
    rw [Module.modifyAt, h2]
    simp only [Module.runtime, Module._children, Module._rawModule, Module.state]
    rw [objSet_objSet_same, ih child x hr]

theorem addChild_modifyAt_key (m : Module) (k : Str) (b : Module) (g : Module → Module) :
    (m.addChild k b).modifyAt [k] g = m.addChild k (g b) := by
  have h : (m.addChild k b).getChild k = some b := objGet_objSet_same _ _ _
  rw [Module.modifyAt, h]
  simp only [Module.modifyAt, Module.addChild, Module.runtime, Module._children,
    Module._rawModule, Module.state]
  rw [objSet_objSet_same]

theorem getFrom_attach {mc : ModuleCollection} {path : List Str} {parent : Module}
    (hne : path ≠ []) (hp : mc.get path.dropLast = .ok (some parent)) (b : Module)
    (q : List Str) :
    (mc.attach path b).get (path ++ q) = getFrom (some b) q := by
  have h1 := getFrom_modifyAt (fun y => y.addChild (lastKey path) b) (lastKey path :: q)
    path.dropLast mc.root parent hp
  have h2 : path.dropLast ++ lastKey path :: q = path ++ q := by
    rw [← List.singleton_append, ← List.append_assoc, dropLast_append_lastKey hne]
  rw [h2] at h1
  have h3 : (parent.addChild (lastKey path) b).getChild (lastKey path) = some b :=
    objGet_objSet_same _ _ _
  simp only [ModuleCollection.attach, hne, if_false, ModuleCollection.get]
  rw [h1, getFrom, h3]

theorem objSet_self {α : Type} (o : List (Str × α)) (k : Str) (v : α)
    (h : objGet o k = some v) : objSet o k v = o := by
  induction o with
  | nil => simp [objGet] at h
  | cons kv rest ih =>
    obtain ⟨k', v'⟩ := kv
    by_cases hk : k' = k
    · subst hk
      simp only [objGet, if_true] at h
      injection h with h
      subst h
      simp [objSet]
    · simp only [objGet, hk, if_false] at h
      simp [objSet, hk, ih h]

theorem modifyAt_self : ∀ (p : List Str) (m x : Module), getFrom (some m) p = .ok (some x) →
    m.modifyAt p (fun y => y) = m := by
  intro p
  induction p with
  | nil =>
    intro m x _
    rfl
  | cons k rest ih =>
    intro m x h
    obtain ⟨child, hc, hr⟩ := getFrom_some_cons h
    have hc' : m.getChild k = some child := hc
    rw [Module.modifyAt, hc']
    simp only []
    rw [ih child x hr, objSet_self _ _ _ hc]
    cases m
    rfl

mutual
theorem register_eq_attach : ∀ (raw : RawModule) (mc : ModuleCollection) (path : List Str)
    (runtime : Bool),
    (path ≠ [] → ∃ parent, mc.get path.dropLast = .ok (some parent)) →
    mc.register path raw runtime = .ok (mc.attach path (buildModule runtime raw))
  | .mk st ns ms as gs modules, mc, path, runtime, hp => by
    rw [ModuleCollection.register]
    by_cases hne : path = []
    · subst hne
      simp only [List.length_nil, if_true]
      have h := registerNested_eq_grow modules ⟨Module.new (.mk st ns ms as gs modules) runtime⟩
        [] runtime (Module.new (.mk st ns ms as gs modules) runtime) rfl
      rw [h]
      rfl
    · obtain ⟨parent, hparent⟩ := hp hne
      have hlen : ¬ path.length = 0 := by
        intro h0
        exact hne (List.length_eq_zero.mp h0)
      simp only [hlen, if_false, hparent]
      have hget := getFrom_attach hne hparent (Module.new (.mk st ns ms as gs modules) runtime) []
      simp only [List.append_nil, getFrom] at hget
      have hget' : ModuleCollection.get
          ⟨mc.root.modifyAt path.dropLast
            (fun parent => parent.addChild (lastKey path)
              (Module.new (.mk st ns ms as gs modules) runtime))⟩ path =
          .ok (some (Module.new (.mk st ns ms as gs modules) runtime)) := by
        simpa [ModuleCollection.attach, hne] using hget
      have h := registerNested_eq_grow modules _ path runtime _ hget'
      rw [h]
      simp only [ModuleCollection.attach, hne, if_false]
      have hcomp := modifyAt_modifyAt
        (fun y => y.addChild (lastKey path) (Module.new (.mk st ns ms as gs modules) runtime))
        (fun x => x.withChildren (buildChildren runtime modules x._children)) [lastKey path]
        path.dropLast mc.root parent hparent
      rw [dropLast_append_lastKey hne] at hcomp
      rw [hcomp]
      have hfun : (fun y : Module =>
          ((fun y : Module => y.addChild (lastKey path)
            (Module.new (.mk st ns ms as gs modules) runtime)) y).modifyAt [lastKey path]
            (fun x => x.withChildren (buildChildren runtime modules x._children))) =
          (fun parent : Module => parent.addChild (lastKey path)
            (buildModule runtime (.mk st ns ms as gs modules))) := by
        funext y
        simp only []
        rw [addChild_modifyAt_key]
        rfl
      rw [hfun]
theorem registerNested_eq_grow : ∀ (modules : List (Str × RawModule)) (mc : ModuleCollection)
    (path : List Str) (runtime : Bool) (x : Module), mc.get path = .ok (some x) →
    ModuleCollection.registerNested mc path modules runtime =
      .ok ⟨mc.root.modifyAt path
        (fun y => y.withChildren (buildChildren runtime modules y._children))⟩
  | [], mc, path, runtime, x, hx => by
    rw [ModuleCollection.registerNested]
    have h : (fun y : Module => y.withChildren (buildChildren runtime [] y._children)) =
        (fun y => y) := by
      funext y
      cases y
      rfl
    rw [h, modifyAt_self path mc.root x hx]
  | (key, child) :: rest, mc, path, runtime, x, hx => by
    rw [ModuleCollection.registerNested]
    have h1 := register_eq_attach child mc (path ++ [key]) runtime
      (fun _ => ⟨x, by rw [(dropLast_concat_key path key).1]; exact hx⟩)
    rw [h1]
    simp only []
    have hne : path ++ [key] ≠ [] := by simp
    have hat : mc.attach (path ++ [key]) (buildModule runtime child) =
        ⟨mc.root.modifyAt path (fun y => y.addChild key (buildModule runtime child))⟩ := by
      simp only [ModuleCollection.attach, hne, if_false]
      rw [(dropLast_concat_key path key).1, (dropLast_concat_key path key).2]
    rw [hat]
    have hx2 : ModuleCollection.get
        ⟨mc.root.modifyAt path (fun y => y.addChild key (buildModule runtime child))⟩ path =
        .ok (some (x.addChild key (buildModule runtime child))) := by
      have := getFrom_modifyAt (fun y => y.addChild key (buildModule runtime child)) []
        path mc.root x hx
      simpa [getFrom, ModuleCollection.get] using this
    rw [registerNested_eq_grow rest _ path runtime _ hx2]
    have hcomp := modifyAt_modifyAt (fun y => y.addChild key (buildModule runtime child))
      (fun y => y.withChildren (buildChildren runtime rest y._children)) [] path mc.root x hx
    simp only [List.append_nil] at hcomp
    simp only []
    rw [hcomp]
    rfl
end

theorem objGet_eq_none_of_not_mem {α : Type} (o : List (Str × α)) (k : Str)
    (h : k ∉ objKeys o) : objGet o k = none := by
  cases hg : objGet o k with
  | none => rfl
  | some v => exact absurd (mem_keys_of_objGet hg) h

theorem buildChildren_get_of_none (runtime : Bool) (k : Str) :
    ∀ (modules : List (Str × RawModule)) (acc : List (Str × Module)),
      objGet modules k = none → objGet (buildChildren runtime modules acc) k = objGet acc k := by
  intro modules
  induction modules with
  | nil =>
    intro acc _
    rfl
  | cons kv rest ih =>
    intro acc h
    obtain ⟨k', c'⟩ := kv
    by_cases hk : k' = k
    · simp [objGet, hk] at h
    · simp only [objGet, hk, if_false] at h
      rw [buildChildren, ih _ h, objGet_objSet_ne _ _ hk]

theorem buildChildren_get_of_some (runtime : Bool) (k : Str) (c : RawModule) :
    ∀ (modules : List (Str × RawModule)) (acc : List (Str × Module)),
      (objKeys modules).Nodup → objGet modules k = some c →
      objGet (buildChildren runtime modules acc) k = some (buildModule runtime c) := by
  intro modules
  induction modules with
  | nil =>
    intro acc _ h
    simp [objGet] at h
  | cons kv rest ih =>
    intro acc hn h
    obtain ⟨k', c'⟩ := kv
    have hn' : k' ∉ objKeys rest ∧ (objKeys rest).Nodup := List.nodup_cons.mp hn
    by_cases hk : k' = k
    · subst hk
      simp only [objGet, if_true] at h
      injection h with h
      subst h
      rw [buildChildren, buildChildren_get_of_none runtime k' rest _
        (objGet_eq_none_of_not_mem rest k' hn'.1), objGet_objSet_same]
    · simp only [objGet, hk, if_false] at h
      rw [buildChildren]
      exact ih _ hn'.2 h

theorem keysDistinctIn_get : ∀ (modules : List (Str × RawModule)) (k : Str) (c : RawModule),
    RawModule.keysDistinctIn modules = true → objGet modules k = some c →
    c.keysDistinct = true := by
  intro modules
  induction modules with
  | nil =>
    intro k c _ h
    simp [objGet] at h
  | cons kv rest ih =>
    intro k c hd h
    obtain ⟨k', c'⟩ := kv
    rw [RawModule.keysDistinctIn, Bool.and_eq_true] at hd
    by_cases hk : k' = k
    · simp only [objGet, hk, if_true] at h
      injection h with h
      subst h
      exact hd.1
    · simp only [objGet, hk, if_false] at h
      exact ih k c hd.2 h

theorem keysDistinct_modules (raw : RawModule) (h : raw.keysDistinct = true) :
    (objKeys raw.modules).Nodup ∧ RawModule.keysDistinctIn raw.modules = true := by
  cases raw with
  | mk st ns ms as gs modules =>
    rw [RawModule.keysDistinct, Bool.and_eq_true] at h
    exact ⟨of_decide_eq_true h.1, h.2⟩

theorem buildModule_children (runtime : Bool) (raw : RawModule) :
    (buildModule runtime raw)._children = buildChildren runtime raw.modules [] := by
  cases raw
  rfl

theorem buildModule_runtime (runtime : Bool) (raw : RawModule) :
    (buildModule runtime raw).runtime = runtime := by
  cases raw
  rfl

theorem buildModule_rawModule (runtime : Bool) (raw : RawModule) :
    (buildModule runtime raw)._rawModule = raw := by
  cases raw
  rfl

theorem buildModule_state (runtime : Bool) (raw : RawModule) :
    (buildModule runtime raw).state =
      if raw.supplied.truthy then raw.supplied else .obj [] := by
  cases raw with
  | mk st ns ms as gs modules =>
    cases st <;> rfl

theorem getFrom_buildModule (runtime : Bool) : ∀ (c : List Str) (raw node : RawModule),
    raw.keysDistinct = true → raw.nodeAt c = some node →
    getFrom (some (buildModule runtime raw)) c = .ok (some (buildModule runtime node)) := by
  intro c
  induction c with
  | nil =>
    intro raw node _ h
    simp only [RawModule.nodeAt] at h
    injection h with h
    subst h
    rfl
  | cons k rest ih =>
    intro raw node hd h
    obtain ⟨hn, hin⟩ := keysDistinct_modules raw hd
    cases hc : objGet raw.modules k with
    | none => simp [RawModule.nodeAt, hc] at h
    | some child =>
      simp only [RawModule.nodeAt, hc] at h
      have hg : (buildModule runtime raw).getChild k = some (buildModule runtime child) := by
        show objGet (buildModule runtime raw)._children k = _
        rw [buildModule_children]
        exact buildChildren_get_of_some runtime k child _ _ hn hc
      rw [getFrom, hg]
      exact ih child node (keysDistinctIn_get _ k child hin hc) h

mutual
theorem buildModule_all_runtime (runtime : Bool) : ∀ (raw : RawModule) (p : List Str)
    (m : Module), getFrom (some (buildModule runtime raw)) p = .ok (some m) →
    m.runtime = runtime
  | .mk st ns ms as gs modules, [], m, h => by
    have hm : buildModule runtime (.mk st ns ms as gs modules) = m := by
      simpa [getFrom] using h
    rw [← hm]
    rfl
  | .mk st ns ms as gs modules, k :: rest, m, h => by
    obtain ⟨child, hc, hr⟩ := getFrom_some_cons h
    rw [buildModule_children] at hc
    exact buildChildren_all_runtime runtime modules [] (fun k c hk => by simp [objGet] at hk)
      k child hc rest m hr
theorem buildChildren_all_runtime (runtime : Bool) : ∀ (modules : List (Str × RawModule))
    (acc : List (Str × Module)),
    (∀ k c, objGet acc k = some c →
      ∀ p m, getFrom (some c) p = .ok (some m) → m.runtime = runtime) →
    ∀ k c, objGet (buildChildren runtime modules acc) k = some c →
      ∀ p m, getFrom (some c) p = .ok (some m) → m.runtime = runtime
  | [], acc, hacc => by
    intro k c hk
    exact hacc k c hk
  | (k', c') :: rest, acc, hacc => by
    rw [buildChildren]
    refine buildChildren_all_runtime runtime rest _ ?_
    intro k c hk
    by_cases hkk : k' = k
    · subst hkk
      rw [objGet_objSet_same] at hk
      injection hk with hk
      subst hk
      exact fun p m h => buildModule_all_runtime runtime c' p m h
    · rw [objGet_objSet_ne _ _ hkk] at hk
      exact hacc k c hk
end

theorem register_ok_parent {mc mc' : ModuleCollection} {path : List Str} {raw : RawModule}
    {runtime : Bool} (h : mc.register path raw runtime = .ok mc') :
    path ≠ [] → ∃ parent, mc.get path.dropLast = .ok (some parent) := by
  intro hne
  have hlen : ¬ path.length = 0 := fun h0 => hne (List.length_eq_zero.mp h0)
  cases raw with
  | mk st ns ms as gs modules =>
    rw [ModuleCollection.register] at h
    simp only [hlen, if_false] at h
    cases hg : mc.get path.dropLast with
    | error e => simp [hg] at h
    | ok o =>
      cases o with
      | none => simp [hg] at h
      | some parent => exact ⟨parent, rfl⟩

theorem registerModule_of_ok {path : List Str} {raw : RawModule} {ps : Bool} {s : Store}
    (h : (registerModule path raw ps s).result = .ok ()) :
    ∃ mc' module, path ≠ [] ∧ s._modules.register path raw true = .ok mc' ∧
      mc'.get path = .ok (some module) ∧
      (installModule path module ps (s.setModules mc')).result = .ok () ∧
      registerModule path raw ps s =
        ⟨.ok (), (installModule path module ps (s.setModules mc')).store.resetVM,
          (installModule path module ps (s.setModules mc')).trace⟩ := by
  have hne : path ≠ [] := by
    intro h0
    subst h0
    simp [registerModule, bind_apply, doWhen, __DEV__, throwJs] at h
  have hlen : (path.length == 0) = false := by
    cases path with
    | nil => exact absurd rfl hne
    | cons a b => rfl
  cases hreg : s._modules.register path raw true with
  | error e =>
    simp [registerModule, bind_apply, doWhen, __DEV__, hlen, getStore, liftExcept, hreg,
      pure_apply] at h
  | ok mc' =>
    cases hget : mc'.get path with
    | error e =>
      simp [registerModule, bind_apply, doWhen, __DEV__, hlen, getStore, liftExcept, hreg,
        pure_apply, modifyStore, hget] at h
    | ok o =>
      cases o with
      | none =>
        simp [registerModule, bind_apply, doWhen, __DEV__, hlen, getStore, liftExcept, hreg,
          pure_apply, modifyStore, hget, installFound, throwJs] at h
      | some module =>
        refine ⟨mc', module, hne, rfl, hget, ?_⟩
        cases hi : (installModule path module ps (s.setModules mc')).result with
        | error e =>
          exfalso
          simp [registerModule, bind_apply, doWhen, __DEV__, hlen, getStore, liftExcept, hreg,
            pure_apply, modifyStore, hget, installFound, Store.setModules] at h
          simp [Store.setModules] at hi
          simp [hi] at h
        | ok u =>
          refine ⟨rfl, ?_⟩
          simp [Store.setModules] at hi
          simp [registerModule, bind_apply, doWhen, __DEV__, hlen, getStore, liftExcept, hreg,
            pure_apply, modifyStore, hget, installFound, Store.setModules, hi,
            resetStoreVM_apply, Store.resetVM]

theorem get_attach {mc : ModuleCollection} {path : List Str}
    (hp : path ≠ [] → ∃ parent, mc.get path.dropLast = .ok (some parent)) (b : Module)
    (q : List Str) :
    (mc.attach path b).get (path ++ q) = getFrom (some b) q := by
  by_cases hne : path = []
  · subst hne
    rfl
  · obtain ⟨parent, hparent⟩ := hp hne
    exact getFrom_attach hne hparent b q

theorem installModule_modules (path : List Str) (module : Module) (hot : Bool) (s : Store)
    (h : (installModule path module hot s).result = .ok ()) :
    (installModule path module hot s).store._modules = s._modules :=
  (installModule_post module path hot s () h).1.modules

/-- C16 (as amended): a `register(path, spec, runtime)` whose parent
exists (or whose path is empty) succeeds; every module then found at or
below `path` has the flag `runtime`; and when the keys of every nested
`modules` map are distinct, for every chain of keys that follows nested
`modules` entries of `spec` to a node, a module is registered at
`path ++ chain`, with the flag `runtime`, with that node as its
specification, and with the state the node supplies (the result of its
factory) when that value is truthy and an empty object otherwise.  Every
module of a tree built by the constructor has `runtime` false, and after
a `registerModule` that completes every module at or below the path has
`runtime` true. -/
theorem register_builds_subtree :
    (∀ (mc : ModuleCollection) (path : List Str) (spec : RawModule) (runtime : Bool),
      (path ≠ [] → ∃ parent, mc.get path.dropLast = .ok (some parent)) →
      ∃ mc', mc.register path spec runtime = .ok mc' ∧
        (∀ chain m, mc'.get (path ++ chain) = .ok (some m) → m.runtime = runtime) ∧
        (spec.keysDistinct = true → ∀ chain node, spec.nodeAt chain = some node →
          ∃ m, mc'.get (path ++ chain) = .ok (some m) ∧ m.runtime = runtime ∧
            m._rawModule = node ∧
            m.state = if node.supplied.truthy then node.supplied else .obj [])) ∧
    (∀ spec : RawModule, ∃ mc', ModuleCollection.new spec = .ok mc' ∧
      ∀ p m, mc'.get p = .ok (some m) → m.runtime = false) ∧
    (∀ (s : Store) (path : List Str) (spec : RawModule) (preserveState : Bool),
      (registerModule path spec preserveState s).result = .ok () →
      ∀ chain m,
        (registerModule path spec preserveState s).store._modules.get (path ++ chain) =
          .ok (some m) → m.runtime = true) := by
  refine ⟨?_, ?_, ?_⟩
  · intro mc path spec runtime hp
    refine ⟨_, register_eq_attach spec mc path runtime hp, ?_, ?_⟩
    · intro chain m hm
      rw [get_attach hp] at hm
      exact buildModule_all_runtime runtime spec chain m hm
    · intro hd chain node hn
      refine ⟨buildModule runtime node, ?_, buildModule_runtime _ _, buildModule_rawModule _ _,
        buildModule_state _ _⟩
      rw [get_attach hp]
      exact getFrom_buildModule runtime chain spec node hd hn
  · intro spec
    have h := register_eq_attach spec ⟨Module.new spec false⟩ [] false (fun h => absurd rfl h)
    refine ⟨_, h, ?_⟩
    intro p m hm
    exact buildModule_all_runtime false spec p m hm
  · intro s path spec ps hok chain m hm
    obtain ⟨mc', module, hne, hreg, hget, hinst, heq⟩ := registerModule_of_ok hok
    rw [heq] at hm
    have hmod : (installModule path module ps (s.setModules mc')).store.resetVM._modules = mc' :=
      installModule_modules path module ps _ hinst
    simp only [] at hm
    rw [hmod] at hm
    have hp := register_ok_parent hreg
    rw [register_eq_attach spec s._modules path true hp] at hreg
    injection hreg with hreg
    rw [← hreg, get_attach hp] at hm
    exact buildModule_all_runtime true spec chain m hm

theorem register_builds_subtree_witness :
    (["m".toList] ≠ [] → ∃ parent, counterStore._modules.get [] = .ok (some parent)) ∧
    factorySpec.keysDistinct = true ∧
    factorySpec.nodeAt ["v".toList] = some (.mk (.value (.str "on".toList)) true none none none []) ∧
    stateAfterRegister counterStore._modules ["m".toList] factorySpec true [] =
      .ok (some (.obj [("n".toList, .num 1)])) ∧
    stateAfterRegister counterStore._modules ["m".toList] factorySpec true ["u".toList] =
      .ok (some (.obj [])) ∧
    stateAfterRegister counterStore._modules ["m".toList] factorySpec true ["v".toList] =
      .ok (some (.str "on".toList)) ∧
    ∃ mc', counterStore._modules.register ["m".toList] factorySpec true = .ok mc' ∧
      ∃ m, mc'.get (["m".toList] ++ ["v".toList]) = .ok (some m) ∧ m.runtime = true ∧
        m.state = .str "on".toList := by
  refine ⟨fun _ => ⟨_, rfl⟩, rfl, rfl, rfl, rfl, rfl, ?_⟩
  obtain ⟨mc', h1, _, h3⟩ := register_builds_subtree.1 counterStore._modules ["m".toList]
    factorySpec true (fun _ => ⟨_, rfl⟩)
  obtain ⟨m, h4, h5, _, h7⟩ := h3 rfl ["v".toList] _ rfl
  exact ⟨mc', h1, m, h4, h5, h7⟩

/-- C16 (as stated) fails: the specification `zeroStateSpec` supplies the
state 0, and the module registered from it has an empty object as its
state. -/
theorem register_falsy_state_counterexample :
    zeroStateSpec.supplied = .num 0 ∧
    stateAfterRegister counterStore._modules ["z".toList] zeroStateSpec true [] =
      .ok (some (.obj [])) ∧
    stateAfterRegister counterStore._modules ["z".toList] zeroStateSpec true [] ≠
      .ok (some zeroStateSpec.supplied) := by
  refine ⟨rfl, rfl, ?_⟩
  intro h
  have h2 : (Except.ok (some (JVal.obj [])) : Except JsError (Option JVal)) =
      .ok (some (.num 0)) := h
  injection h2 with h2
  injection h2 with h2
  cases h2

/-! ## Hot update keeps states and the shape of the tree -/

theorem getFrom_cons_some (m : Module) (k : Str) (rest : List Str) :
    getFrom (some m) (k :: rest) = getFrom (m.getChild k) rest := rfl

theorem getChild_addChild_same (m : Module) (k : Str) (c : Module) :
    (m.addChild k c).getChild k = some c :=
  objGet_objSet_same _ _ _

theorem getChild_addChild_ne (m : Module) {k k' : Str} (c : Module) (h : k ≠ k') :
    (m.addChild k c).getChild k' = m.getChild k' :=
  objGet_objSet_ne _ _ h

theorem getChild_update (m : Module) (raw : RawModule) (k : Str) :
    (m.update raw).getChild k = m.getChild k := by
  cases m
  rfl

theorem updateNested_cons_none {p : List Str} {t : Module} {k : Str} {c : RawModule}
    (rest : List (Str × RawModule)) (h : t.getChild k = none) :
    updateNested p t ((k, c) :: rest) = (t, [.hotReloadNewModule k]) := by
  rw [updateNested]
  simp [h]

theorem updateNested_cons_some {p : List Str} {t child : Module} {k : Str} {c : RawModule}
    (rest : List (Str × RawModule)) (h : t.getChild k = some child) :
    (updateNested p t ((k, c) :: rest)).1 =
      (updateNested p (t.addChild k (update (p ++ [k]) child c).1) rest).1 := by
  rw [updateNested]
  simp [h]

mutual
theorem update_view {β : Type} (g : Module → β) (hu : ∀ m raw, g (m.update raw) = g m)
    (ha : ∀ m k c, g (m.addChild k c) = g m) :
    ∀ (raw : RawModule) (p : List Str) (m : Module) (path : List Str),
      (getFrom (some (update p m raw).1) path).map (Option.map g) =
        (getFrom (some m) path).map (Option.map g)
  | .mk st ns ms as gs modules, p, m, [] => by
    rw [update]
    have h := (updateNested_view g hu ha modules p (m.update (.mk st ns ms as gs modules))).2
    simp only [getFrom, Except.map, Option.map]
    rw [h, hu]
  | .mk st ns ms as gs modules, p, m, k :: rest => by
    rw [update, getFrom_cons_some, getFrom_cons_some]
    rw [(updateNested_view g hu ha modules p (m.update (.mk st ns ms as gs modules))).1 k rest,
      getChild_update]
theorem updateNested_view {β : Type} (g : Module → β) (hu : ∀ m raw, g (m.update raw) = g m)
    (ha : ∀ m k c, g (m.addChild k c) = g m) :
    ∀ (modules : List (Str × RawModule)) (p : List Str) (t : Module),
      (∀ k rest, (getFrom ((updateNested p t modules).1.getChild k) rest).map (Option.map g) =
        (getFrom (t.getChild k) rest).map (Option.map g)) ∧
      g (updateNested p t modules).1 = g t
  | [], p, t => by
    rw [updateNested]
    exact ⟨fun _ _ => rfl, rfl⟩
  | (k', c) :: others, p, t => by
    cases hc : t.getChild k' with
    | none =>
      rw [updateNested_cons_none others hc]
      exact ⟨fun _ _ => rfl, rfl⟩
    | some child =>
      rw [updateNested_cons_some others hc]
      obtain ⟨h1, h2⟩ := updateNested_view g hu ha others p
        (t.addChild k' (update (p ++ [k']) child c).1)
      refine ⟨fun k rest => ?_, by rw [h2, ha]⟩
      rw [h1]
      by_cases hk : k' = k
      · subst hk
        rw [getChild_addChild_same, hc]
        exact update_view g hu ha c (p ++ [k']) child rest
      · rw [getChild_addChild_ne _ _ hk]
end

theorem keeps_doWhen_false {body : M Unit} (I : Store → Prop) : Keeps (doWhen false body) I :=
  keeps_pure _ I

theorem keeps_registerGetter_tree {I : Store → Prop} (hI : TreeAndState I) (type : Str)
    (g : GetterFn) (ctx : LocalContext) : Keeps (registerGetter type g ctx) I := by
  intro s hs
  rw [registerGetter_apply]
  split
  · exact hs
  · exact hI s _ rfl rfl hs

mutual
theorem keeps_installModule_hot {I : Store → Prop} (hI : TreeAndState I) :
    ∀ (module : Module) (path : List Str), Keeps (installModule path module true) I
  | .mk runtime children raw st, path => by
    rw [installModule]
    refine keeps_bind (keeps_getStore I) (fun st0 => ?_)
    refine keeps_bind (keeps_liftExcept _ I) (fun ns => ?_)
    refine keeps_bind (keeps_doWhen ?_) (fun _ => ?_)
    · rw [registerNamespace]
      refine keeps_bind (keeps_getStore I) (fun _ => ?_)
      exact keeps_bind (keeps_doWhen (keeps_emit _ I))
        (fun _ => keeps_modifyStore (fun s hs => hI s _ rfl rfl hs))
    have hc : (!(path.length == 0) && !true) = false := by simp
    rw [hc]
    refine keeps_bind (keeps_doWhen_false I) (fun _ => ?_)
    refine keeps_bind (keeps_forEach _ (fun kv =>
      keeps_modifyStore (fun s hs => hI s _ rfl rfl hs))) (fun _ => ?_)
    refine keeps_bind (keeps_forEach _ (fun kv =>
      keeps_modifyStore (fun s hs => hI s _ rfl rfl hs))) (fun _ => ?_)
    refine keeps_bind (keeps_forEach _ (fun kv => keeps_registerGetter_tree hI _ _ _))
      (fun _ => ?_)
    exact keeps_installChildren_hot hI children path
theorem keeps_installChildren_hot {I : Store → Prop} (hI : TreeAndState I) :
    ∀ (children : List (Str × Module)) (path : List Str),
      Keeps (installChildren path children true) I
  | [], path => by
    rw [installChildren]
    exact keeps_pure _ I
  | (k, c) :: rest, path => by
    rw [installChildren]
    exact keeps_bind (keeps_installModule_hot hI c (path ++ [k]))
      (fun _ => keeps_installChildren_hot hI rest path)
end

theorem keeps_resetStore_hot {I : Store → Prop} (hI : TreeAndState I) :
    Keeps (resetStore true) I := by
  unfold resetStore
  refine keeps_bind (keeps_modifyStore (fun s hs => hI s _ rfl rfl hs)) (fun _ => ?_)
  refine keeps_bind (keeps_getStore _) (fun st => ?_)
  refine keeps_bind (keeps_installModule_hot hI _ _) (fun _ => ?_)
  intro s hs
  rw [bind_apply]
  simp only [getStore, resetStoreVM_apply]
  exact hI s _ rfl rfl hs

theorem hotUpdate_tree_and_state (spec : RawModule) (s : Store) :
    (hotUpdate spec s).store._modules = (s._modules.update spec).1 ∧
    (hotUpdate spec s).store.state = s.state := by
  have hI : TreeAndState
      (fun s' => s'._modules = (s._modules.update spec).1 ∧ s'.state = s.state) := by
    intro a b h1 h2 h
    exact ⟨h1.trans h.1, h2.trans h.2⟩
  have hk : Keeps (forEach (s._modules.update spec).2 (fun d => emit (.diag d)) >>=
      fun _ => resetStore true) _ :=
    keeps_bind (keeps_forEach _ (fun d => keeps_emit _ _))
      (fun _ => keeps_resetStore_hot hI)
  have h := hk (s.setModules (s._modules.update spec).1) ⟨rfl, rfl⟩
  have he : (hotUpdate spec s).store =
      ((forEach (s._modules.update spec).2 (fun d => emit (.diag d)) >>=
        fun _ => resetStore true) (s.setModules (s._modules.update spec).1)).store := by
    unfold hotUpdate
    simp only [bind_apply, getStore, modifyStore, Store.setModules]
  rw [he]
  exact h

/-- C17: `hotUpdate(spec)` leaves the root state as it was, whatever
`state` fields the new specification carries and whether or not the call
completes; at every path the module tree holds a module after the call
exactly when it did before, with the same state and the same `runtime`
flag; and `Module.update(spec)` leaves the state, the children and the
`runtime` flag of the module unchanged.  On `cartStore`, a hot update
whose specification carries other states completes, replaces the handler
of `cart/total` and leaves the state as it was. -/
theorem hotUpdate_keeps_state :
    (∀ (s : Store) (spec : RawModule),
      (hotUpdate spec s).store.state = s.state ∧
      ∀ path, ((hotUpdate spec s).store._modules.get path).map (Option.map Module.kept) =
        (s._modules.get path).map (Option.map Module.kept)) ∧
    (∀ (m : Module) (spec : RawModule),
      (m.update spec).state = m.state ∧ (m.update spec)._children = m._children ∧
        (m.update spec).runtime = m.runtime) ∧
    ((hotUpdate cartUpdateWithState cartStore).result = .ok () ∧
      readGetter 1 cartStore "cart/total".toList = some (.ok (.num 3)) ∧
      readGetter 1 (hotUpdate cartUpdateWithState cartStore).store "cart/total".toList =
        some (.ok (.num 7)) ∧
      (hotUpdate cartUpdateWithState cartStore).store.state =
        .obj [("cart".toList, .obj [("items".toList, .num 3)])]) := by
  refine ⟨fun s spec => ?_, fun m spec => ?_, rfl, rfl, rfl, rfl⟩
  · obtain ⟨h1, h2⟩ := hotUpdate_tree_and_state spec s
    refine ⟨h2, fun path => ?_⟩
    rw [h1]
    exact update_view Module.kept (fun m raw => by cases m; rfl) (fun m k c => by cases m; rfl)
      spec [] s._modules.root path
  · cases m
    exact ⟨rfl, rfl, rfl⟩

/-! ## Update of the tree is partial and adds or removes nothing -/

theorem names_nil (raw : RawModule) : raw.names [] = true := by
  cases raw
  rfl

mutual
theorem update_frame : ∀ (raw : RawModule) (p : List Str) (m : Module) (path : List Str),
    raw.names path = false →
    getFrom (some (update p m raw).1) path = getFrom (some m) path
  | .mk st ns ms as gs modules, p, m, [], h => by
    simp [RawModule.names] at h
  | .mk st ns ms as gs modules, p, m, k :: rest, h => by
    rw [RawModule.names] at h
    rw [update, getFrom_cons_some, getFrom_cons_some,
      updateNested_frame modules p (m.update (.mk st ns ms as gs modules)) k rest h,
      getChild_update]
theorem updateNested_frame : ∀ (modules : List (Str × RawModule)) (p : List Str) (t : Module)
    (k : Str) (rest : List Str), RawModule.namesIn modules k rest = false →
    getFrom ((updateNested p t modules).1.getChild k) rest = getFrom (t.getChild k) rest
  | [], p, t, k, rest, _ => by
    rw [updateNested]
  | (k', c) :: others, p, t, k, rest, h => by
    rw [RawModule.namesIn, Bool.or_eq_false_iff, Bool.and_eq_false_iff] at h
    cases hc : t.getChild k' with
    | none =>
      rw [updateNested_cons_none others hc]
    | some child =>
      rw [updateNested_cons_some others hc,
        updateNested_frame others p _ k rest h.2]
      by_cases hk : k' = k
      · subst hk
        rw [getChild_addChild_same, hc]
        cases h.1 with
        | inl h1 => simp at h1
        | inr h1 => exact update_frame c (p ++ [k']) child rest h1
      · rw [getChild_addChild_ne _ _ hk]
end

theorem exists_iff_of_map_eq {β : Type} {x y : Except JsError (Option Module)}
    {g : Module → β} (h : x.map (Option.map g) = y.map (Option.map g)) :
    (∃ m, x = .ok (some m)) ↔ ∃ m, y = .ok (some m) := by
  cases x with
  | error e =>
    cases y with
    | error e' => simp
    | ok b => simp [Except.map] at h
  | ok a =>
    cases y with
    | error e' => simp [Except.map] at h
    | ok b =>
      cases a with
      | none =>
        cases b with
        | none => simp
        | some m => simp [Except.map] at h
      | some m =>
        cases b with
        | none => simp [Except.map] at h
        | some m' => simp

/-! ## Update of the tree redefines the modules it reaches -/

theorem updateNested_rawModule : ∀ (modules : List (Str × RawModule)) (p : List Str)
    (t : Module), (updateNested p t modules).1._rawModule = t._rawModule := by
  intro modules
  induction modules with
  | nil =>
    intro p t
    rw [updateNested]
  | cons kv others ih =>
    intro p t
    obtain ⟨k, c⟩ := kv
    cases hc : t.getChild k with
    | none => rw [updateNested_cons_none others hc]
    | some child =>
      rw [updateNested_cons_some others hc, ih]
      cases t
      rfl

theorem updateNested_getChild_of_not_mem : ∀ (modules : List (Str × RawModule))
    (p : List Str) (t : Module) (k : Str), k ∉ objKeys modules →
    (updateNested p t modules).1.getChild k = t.getChild k := by
  intro modules
  induction modules with
  | nil =>
    intro p t k _
    rw [updateNested]
  | cons kv others ih =>
    intro p t k hk
    obtain ⟨k', c⟩ := kv
    have hk' : k ≠ k' ∧ k ∉ objKeys others :=
      ⟨fun h => hk (h ▸ List.mem_cons_self _ _), fun h => hk (List.mem_cons_of_mem _ h)⟩
    cases hc : t.getChild k' with
    | none => rw [updateNested_cons_none others hc]
    | some child =>
      rw [updateNested_cons_some others hc, ih p _ k hk'.2,
        getChild_addChild_ne _ _ (Ne.symm hk'.1)]

theorem visitedIn_congr {t t' : Module}
    (h : ∀ k, (t'.getChild k).isNone = (t.getChild k).isNone) :
    ∀ (modules : List (Str × RawModule)) (k : Str),
      visitedIn t' modules k = visitedIn t modules k := by
  intro modules
  induction modules with
  | nil =>
    intro k
    rfl
  | cons kv others ih =>
    intro k
    obtain ⟨k', c⟩ := kv
    simp only [visitedIn, h, ih]

theorem isNone_getChild_addChild {t child : Module} {k' : Str} (b : Module)
    (hc : t.getChild k' = some child) (k : Str) :
    ((t.addChild k' b).getChild k).isNone = (t.getChild k).isNone := by
  by_cases hk : k' = k
  · subst hk
    rw [getChild_addChild_same, hc]
    rfl
  · rw [getChild_addChild_ne _ _ hk]

theorem updateNested_getChild_visited (k : Str) (c : RawModule) :
    ∀ (modules : List (Str × RawModule)) (p : List Str) (t child : Module),
      (objKeys modules).Nodup → visitedIn t modules k = some c → t.getChild k = some child →
      (updateNested p t modules).1.getChild k = some (update (p ++ [k]) child c).1 := by
  intro modules
  induction modules with
  | nil =>
    intro p t child _ hv _
    simp [visitedIn] at hv
  | cons kv others ih =>
    intro p t child hn hv hch
    obtain ⟨k', c'⟩ := kv
    have hn' : k' ∉ objKeys others ∧ (objKeys others).Nodup := List.nodup_cons.mp hn
    cases hc : t.getChild k' with
    | none => simp [visitedIn, hc] at hv
    | some child' =>
      rw [updateNested_cons_some others hc]
      by_cases hk : k' = k
      · subst hk
        simp only [visitedIn, hc, Option.isNone_some, Bool.false_eq_true, if_false,
          if_true] at hv
        injection hv with hv
        subst hv
        rw [hch] at hc
        injection hc with hc
        subst hc
        rw [updateNested_getChild_of_not_mem others p _ k' hn'.1, getChild_addChild_same]
      · simp only [visitedIn, hc, Option.isNone_some, Bool.false_eq_true, if_false, hk] at hv
        rw [← visitedIn_congr (isNone_getChild_addChild (update (p ++ [k']) child' c').1 hc)
          others k] at hv
        exact ih p _ child hn'.2 hv
          (by rw [getChild_addChild_ne _ _ hk]; exact hch)

theorem visitedIn_get : ∀ (modules : List (Str × RawModule)) (t : Module) (k : Str)
    (c : RawModule), visitedIn t modules k = some c → objGet modules k = some c := by
  intro modules
  induction modules with
  | nil =>
    intro t k c hv
    simp [visitedIn] at hv
  | cons kv others ih =>
    intro t k c hv
    obtain ⟨k', c'⟩ := kv
    simp only [visitedIn] at hv
    split at hv
    · simp at hv
    · by_cases hk : k' = k
      · simp only [hk, if_true] at hv
        simp [objGet, hk, hv]
      · simp only [hk, if_false] at hv
        simp [objGet, hk, ih t k c hv]

theorem redefined_update (t : Module) (raw : RawModule) (p : List Str) :
    Redefined t (update p t raw).1 raw := by
  cases raw with
  | mk st ns ms as gs modules =>
    have hr : (update p t (.mk st ns ms as gs modules)).1._rawModule =
        (t.update (.mk st ns ms as gs modules))._rawModule := by
      rw [update, updateNested_rawModule]
    cases t with
    | mk r ch old s0 =>
      refine ⟨?_, ?_, ?_, ?_, ?_, ?_, ?_⟩
      · show (update p _ _).1._rawModule.namespaced = _
        rw [hr]
        rfl
      · intro ms' h
        rw [hr]
        simp only [RawModule.mutations] at h
        subst h
        rfl
      · intro as' h
        rw [hr]
        simp only [RawModule.actions] at h
        subst h
        rfl
      · intro gs' h
        rw [hr]
        simp only [RawModule.getters] at h
        subst h
        rfl
      · intro h
        rw [hr]
        simp only [RawModule.mutations] at h
        subst h
        rfl
      · intro h
        rw [hr]
        simp only [RawModule.actions] at h
        subst h
        rfl
      · intro h
        rw [hr]
        simp only [RawModule.getters] at h
        subst h
        rfl

theorem update_visited : ∀ (path : List Str) (raw : RawModule) (t : Module) (p : List Str)
    (node : RawModule), raw.keysDistinct = true → visited t raw path = some node →
    ∃ old new, getFrom (some t) path = .ok (some old) ∧
      getFrom (some (update p t raw).1) path = .ok (some new) ∧ Redefined old new node := by
  intro path
  induction path with
  | nil =>
    intro raw t p node _ hv
    simp only [visited] at hv
    injection hv with hv
    subst hv
    exact ⟨t, _, rfl, rfl, redefined_update t raw p⟩
  | cons k rest ih =>
    intro raw t p node hd hv
    obtain ⟨hn, hin⟩ := keysDistinct_modules raw hd
    cases hvi : visitedIn t raw.modules k with
    | none => simp [visited, hvi] at hv
    | some c =>
      cases hch : t.getChild k with
      | none => simp [visited, hvi, hch] at hv
      | some child =>
        simp only [visited, hvi, hch] at hv
        have hcd := keysDistinctIn_get _ k c hin (visitedIn_get _ t k c hvi)
        obtain ⟨old, new, h1, h2, h3⟩ := ih c child (p ++ [k]) node hcd hv
        refine ⟨old, new, ?_, ?_, h3⟩
        · rw [getFrom_cons_some, hch]
          exact h1
        · rw [getFrom_cons_some]
          cases raw with
          | mk st ns ms as gs modules =>
            have hvi' : visitedIn (t.update (.mk st ns ms as gs modules)) modules k =
                some c := by
              rw [@visitedIn_congr t (t.update (.mk st ns ms as gs modules))
                (fun k => by rw [getChild_update]) modules k]
              exact hvi
            rw [update, updateNested_getChild_visited k c modules p
              (t.update (.mk st ns ms as gs modules)) child hn hvi'
              (by rw [getChild_update]; exact hch)]
            exact h2

theorem visited_nodeAt : ∀ (path : List Str) (t : Module) (raw node : RawModule),
    visited t raw path = some node → raw.nodeAt path = some node := by
  intro path
  induction path with
  | nil =>
    intro t raw node hv
    simpa [visited, RawModule.nodeAt] using hv
  | cons k rest ih =>
    intro t raw node hv
    cases hvi : visitedIn t raw.modules k with
    | none => simp [visited, hvi] at hv
    | some c =>
      cases hch : t.getChild k with
      | none => simp [visited, hvi, hch] at hv
      | some child =>
        simp only [visited, hvi, hch] at hv
        simp only [RawModule.nodeAt, visitedIn_get _ t k c hvi]
        exact ih child c node hv

/-! ## Registering a module installs its subtree -/

theorem getNestedState_cons_obj (fields : List (Str × JVal)) (k : Str) (rest : List Str) :
    getNestedState (.obj fields) (k :: rest) =
      getNestedState ((objGet fields k).getD .undefined) rest := rfl

theorem getNestedState_obj_present : ∀ (p : List Str) (root : JVal) (k : Str)
    (f : List (Str × JVal)), getNestedState root (k :: p) = .ok (.obj f) →
    ∃ fields sub, root = .obj fields ∧ objGet fields k = some sub ∧
      getNestedState sub p = .ok (.obj f) := by
  intro p root k f h
  cases root with
  | obj fields =>
    rw [getNestedState_cons_obj] at h
    cases hs : objGet fields k with
    | some sub =>
      rw [hs] at h
      exact ⟨fields, sub, rfl, hs, h⟩
    | none =>
      rw [hs] at h
      cases p <;> simp [getNestedState, JVal.getProp] at h
  | undefined => simp [getNestedState, JVal.getProp] at h
  | null => simp [getNestedState, JVal.getProp] at h
  | bool b => cases p <;> simp [getNestedState, JVal.getProp] at h
  | num n => cases p <;> simp [getNestedState, JVal.getProp] at h
  | str s => cases p <;> simp [getNestedState, JVal.getProp] at h

theorem setNestedState_nil (root v : JVal) : setNestedState root [] v = v := by
  cases root <;> rfl

theorem getNestedState_set (v : JVal) (q : List Str) : ∀ (p : List Str) (root : JVal)
    (f : List (Str × JVal)), getNestedState root p = .ok (.obj f) →
    getNestedState (setNestedState root p v) (p ++ q) = getNestedState v q := by
  intro p
  induction p with
  | nil =>
    intro root f _
    rw [setNestedState_nil]
    rfl
  | cons k rest ih =>
    intro root f h
    obtain ⟨fields, sub, hr, hs, hsub⟩ := getNestedState_obj_present rest root k f h
    subst hr
    simp only [setNestedState, hs, List.cons_append]
    rw [getNestedState_cons_obj, objGet_objSet_same]
    exact ih sub f hsub

theorem setNestedState_set (v w : JVal) (q : List Str) : ∀ (p : List Str) (root : JVal)
    (f : List (Str × JVal)), getNestedState root p = .ok (.obj f) →
    setNestedState (setNestedState root p v) (p ++ q) w =
      setNestedState root p (setNestedState v q w) := by
  intro p
  induction p with
  | nil =>
    intro root f _
    rw [setNestedState_nil, setNestedState_nil]
    rfl
  | cons k rest ih =>
    intro root f h
    obtain ⟨fields, sub, hr, hs, hsub⟩ := getNestedState_obj_present rest root k f h
    subst hr
    simp only [setNestedState, hs, List.cons_append, objGet_objSet_same, objSet_objSet_same]
    rw [ih sub f hsub]

theorem setNestedState_self : ∀ (p : List Str) (root x : JVal),
    getNestedState root p = .ok x → setNestedState root p x = root := by
  intro p
  induction p with
  | nil =>
    intro root x h
    simp only [getNestedState] at h
    injection h with h
    subst h
    exact setNestedState_nil _ _
  | cons k rest ih =>
    intro root x h
    cases root with
    | obj fields =>
      rw [getNestedState_cons_obj] at h
      cases hs : objGet fields k with
      | some sub =>
        rw [hs] at h
        simp only [setNestedState, hs]
        rw [ih sub x h, objSet_self _ _ _ hs]
      | none => simp only [setNestedState, hs]
    | undefined => rfl
    | null => rfl
    | bool b => rfl
    | num n => rfl
    | str s => rfl

theorem setNestedState_key (fields : List (Str × JVal)) (k : Str) (st w : JVal) :
    setNestedState (.obj (objSet fields k st)) [k] w = .obj (objSet fields k w) := by
  simp only [setNestedState, objGet_objSet_same, objSet_objSet_same, setNestedState_nil]

theorem post_of_keeps {α : Type} {m : M α} {I : Store → Prop} (hk : Keeps m I) {s : Store}
    (hs : I s) : Post m s (fun _ s' _ => I s') :=
  fun _ _ => hk s hs

theorem treeAndState_state (v : JVal) : TreeAndState (fun s => s.state = v) :=
  fun _ _ _ h2 h => h2.trans h

theorem keeps_registerNamespace_tree {I : Store → Prop} (hI : TreeAndState I) (ns : Str)
    (path : List Str) : Keeps (registerNamespace ns path) I := by
  rw [registerNamespace]
  refine keeps_bind (keeps_getStore I) (fun _ => ?_)
  exact keeps_bind (keeps_doWhen (keeps_emit _ I))
    (fun _ => keeps_modifyStore (fun s hs => hI s _ rfl rfl hs))

theorem keeps_registerMutation_tree {I : Store → Prop} (hI : TreeAndState I) (type : Str)
    (h : MutationFn) (ctx : LocalContext) : Keeps (registerMutation type h ctx) I :=
  fun s hs => hI s _ rfl rfl hs

theorem keeps_registerAction_tree {I : Store → Prop} (hI : TreeAndState I) (type : Str)
    (h : ActionFn) (ctx : LocalContext) : Keeps (registerAction type h ctx) I :=
  fun s hs => hI s _ rfl rfl hs

theorem graftState_state (parentPath : List Str) (moduleName : Str) (path : List Str)
    (state : JVal) (s : Store) :
    Post (graftState parentPath moduleName path state) s
      (fun _ s' _ => ∃ fields, getNestedState s.state parentPath = .ok (.obj fields) ∧
        s'.state = setNestedState s.state parentPath (.obj (objSet fields moduleName state))) := by
  rw [graftState]
  refine post_bind (post_getStore ?_)
  dsimp only
  split
  · next fields heq =>
    refine post_bind (post_doWhen (fun _ => post_warn ?_) (fun _ => ?_))
    · exact post_modifyStore ⟨fields, heq, rfl⟩
    · exact post_modifyStore ⟨fields, heq, rfl⟩
  · exact post_throwJs

theorem setModuleState_state (path : List Str) (state : JVal) (s : Store) :
    Post (setModuleState path state) s
      (fun _ s' _ => ∃ fields, getNestedState s.state path.dropLast = .ok (.obj fields) ∧
        s'.state = setNestedState s.state path.dropLast
          (.obj (objSet fields (lastKey path) state))) := by
  rw [setModuleState]
  refine post_bind (post_getStore ?_)
  refine post_bind (post_liftExcept ?_)
  intro _ _
  refine post_withCommit (post_mono (graftState_state _ _ _ _ _) ?_)
  intro _ s' _ ⟨fields, h1, h2⟩
  exact ⟨fields, h1, h2⟩

theorem fullState_mk (runtime : Bool) (children : List (Str × Module)) (raw : RawModule)
    (st : JVal) : (Module.mk runtime children raw st).fullState = graftChildren children st := by
  rw [Module.fullState]

mutual
theorem installModule_state : ∀ (module : Module) (path : List Str) (s : Store), path ≠ [] →
    Post (installModule path module false) s
      (fun _ s' _ => ∃ fields, getNestedState s.state path.dropLast = .ok (.obj fields) ∧
        s'.state = setNestedState s.state path.dropLast
          (.obj (objSet fields (lastKey path) module.fullState)))
  | .mk runtime children raw st, path, s, hne => by
    rw [installModule]
    refine post_bind (post_getStore ?_)
    refine post_bind (post_liftExcept ?_)
    intro ns _
    refine post_bind (post_mono (post_doWhen
      (fun _ => post_of_keeps (keeps_registerNamespace_tree (treeAndState_state s.state) ns path)
        rfl)
      (fun _ => rfl)) ?_)
    intro _ s1 _ e1
    have hc : (!(path.length == 0) && !false) = true := by
      cases path with
      | nil => exact absurd rfl hne
      | cons a b => rfl
    rw [hc]
    refine post_bind (post_mono (post_doWhen (fun _ => setModuleState_state path st s1)
      (fun h => by cases h)) ?_)
    intro _ s2 _ ⟨fields, hf, e2⟩
    refine post_bind (post_mono (post_of_keeps (keeps_forEach _ (fun kv =>
      keeps_registerMutation_tree (treeAndState_state s2.state) _ _ _)) rfl) ?_)
    intro _ s3 _ e3
    refine post_bind (post_mono (post_of_keeps (keeps_forEach _ (fun kv =>
      keeps_registerAction_tree (treeAndState_state s2.state) _ _ _)) e3) ?_)
    intro _ s4 _ e4
    refine post_bind (post_mono (post_of_keeps (keeps_forEach _ (fun kv =>
      keeps_registerGetter_tree (treeAndState_state s2.state) _ _ _)) e4) ?_)
    intro _ s5 _ e5
    rw [e1] at hf e2
    have hpath := dropLast_append_lastKey hne
    have hget : getNestedState s5.state path = .ok st := by
      have h := getNestedState_set (.obj (objSet fields (lastKey path) st)) [lastKey path]
        path.dropLast s.state fields hf
      rw [hpath] at h
      rw [e5, e2, h, getNestedState_cons_obj, objGet_objSet_same]
      rfl
    refine post_mono (installChildren_state children path s5 st hget) ?_
    intro _ s6 _ e6
    refine ⟨fields, hf, ?_⟩
    have hss := setNestedState_set (.obj (objSet fields (lastKey path) st))
      (graftChildren children st) [lastKey path] path.dropLast s.state fields hf
    rw [hpath] at hss
    rw [e6, e5, e2, hss, setNestedState_key, fullState_mk]
theorem installChildren_state : ∀ (children : List (Str × Module)) (path : List Str)
    (s : Store) (st0 : JVal), getNestedState s.state path = .ok st0 →
    Post (installChildren path children false) s
      (fun _ s' _ => s'.state = setNestedState s.state path (graftChildren children st0))
  | [], path, s, st0, h0 => by
    rw [installChildren]
    refine post_pure ?_
    rw [graftChildren, setNestedState_self path s.state st0 h0]
  | (k, c) :: rest, path, s, st0, h0 => by
    rw [installChildren]
    refine post_bind (post_mono (installModule_state c (path ++ [k]) s (by simp)) ?_)
    intro _ s1 _ ⟨fields, hf, e1⟩
    rw [(dropLast_concat_key path k).1] at hf e1
    rw [(dropLast_concat_key path k).2] at e1
    rw [h0] at hf
    injection hf with hf
    subst hf
    have hget : getNestedState s1.state path =
        .ok (.obj (objSet fields k c.fullState)) := by
      have h := getNestedState_set (.obj (objSet fields k c.fullState)) [] path s.state fields h0
      rw [List.append_nil] at h
      rw [e1, h]
      rfl
    refine post_mono (installChildren_state rest path s1 _ hget) ?_
    intro _ s2 _ e2
    have hss := setNestedState_set (.obj (objSet fields k c.fullState))
      (graftChildren rest (.obj (objSet fields k c.fullState))) [] path s.state fields h0
    rw [List.append_nil, setNestedState_nil] at hss
    rw [e2, e1, hss, graftChildren]
end

theorem hasChild_attach {mc : ModuleCollection} {path : List Str} {parent : Module}
    (hne : path ≠ []) (hp : mc.get path.dropLast = .ok (some parent)) (b : Module) :
    (mc.attach path b).isRegistered path = .ok true := by
  have h := getFrom_modifyAt (fun y => y.addChild (lastKey path) b) [] path.dropLast mc.root
    parent hp
  rw [List.append_nil] at h
  have h2 : (mc.attach path b).get path.dropLast =
      .ok (some (parent.addChild (lastKey path) b)) := by
    simp only [ModuleCollection.attach, hne, if_false, ModuleCollection.get]
    rw [h]
    rfl
  rw [ModuleCollection.isRegistered, h2]
  simp only [Module.hasChild, objHas]
  have h3 : (parent.addChild (lastKey path) b).getChild (lastKey path) = some b :=
    getChild_addChild_same _ _ _
  rw [Module.getChild] at h3
  rw [h3]
  rfl

/-- C20 (as amended): after a `registerModule(path, spec, opts)` that
completes, `hasModule(path)` is true; the tree holds at `path` the module
built from `spec`; for the new module and every module nested in it, the
transitions, actions and derived values are registered under their
qualified types; a derived value whose type was already taken is reported
and dropped: under every type the derived-value registry keeps the handler
it had before the call, and otherwise holds the first handler that the new
subtree declares for the type in installation order; the root getters
object exposes exactly the derived-value types registered in the store;
and when `preserveState` is not set, the
state of the parent holds, under the last key of the path, the state of
the new module with the states of its nested modules grafted onto it, so
that the root state has that value at `path`. -/
theorem registerModule_installs (s : Store) (path : List Str) (spec : RawModule)
    (preserveState : Bool)
    (hok : (registerModule path spec preserveState s).result = .ok ()) :
    (hasModule path (registerModule path spec preserveState s).store).result = .ok true ∧
    (registerModule path spec preserveState s).store._modules.get path =
      .ok (some (buildModule true spec)) ∧
    (∀ chain m, getFrom (some (buildModule true spec)) chain = .ok (some m) →
      ∃ ns, (registerModule path spec preserveState s).store._modules.getNamespace
          (path ++ chain) = .ok ns ∧
        Installed (registerModule path spec preserveState s).store
          (registerModule path spec preserveState s).trace ns (path ++ chain) m) ∧
    (∀ t, objGet (registerModule path spec preserveState s).store._wrappedGetters t =
      firstOf (objGet s._wrappedGetters t)
        (objGet (declaredGetters (registerModule path spec preserveState s).store._modules path
          (buildModule true spec)) t)) ∧
    (∀ chain m ns, getFrom (some (buildModule true spec)) chain = .ok (some m) →
      (registerModule path spec preserveState s).store._modules.getNamespace (path ++ chain) =
        .ok ns →
      ∀ kv ∈ m.getters, (ns ++ kv.1, (⟨kv.2, ⟨ns, path ++ chain⟩⟩ : WrappedGetter)) ∈
        declaredGetters (registerModule path spec preserveState s).store._modules path
          (buildModule true spec)) ∧
    (registerModule path spec preserveState s).store.getters =
      objKeys (registerModule path spec preserveState s).store._wrappedGetters ∧
    (preserveState = false →
      ∃ fields, getNestedState s.state path.dropLast = .ok (.obj fields) ∧
        getNestedState (registerModule path spec preserveState s).store.state path.dropLast =
          .ok (.obj (objSet fields (lastKey path) (buildModule true spec).fullState)) ∧
        getNestedState (registerModule path spec preserveState s).store.state path =
          .ok (buildModule true spec).fullState) := by
  obtain ⟨mc', module, hne, hreg, hget, hinst, heq⟩ := registerModule_of_ok hok
  have hp := register_ok_parent hreg
  obtain ⟨parent, hparent⟩ := hp hne
  rw [register_eq_attach spec s._modules path true hp] at hreg
  injection hreg with hreg
  subst hreg
  have hmodule : module = buildModule true spec := by
    have h := get_attach hp (buildModule true spec) []
    rw [List.append_nil, hget] at h
    simp only [getFrom] at h
    injection h with h
    injection h with h
  subst hmodule
  have hmod := installModule_modules path (buildModule true spec) preserveState _ hinst
  have hpost := installModule_post (buildModule true spec) path preserveState
    (s.setModules (s._modules.attach path (buildModule true spec))) () hinst
  have hext := installModule_extend (buildModule true spec) path preserveState
    (s.setModules (s._modules.attach path (buildModule true spec))) () hinst
  rw [heq]
  refine ⟨?_, ?_, ?_, ?_, ?_, rfl, ?_⟩
  · simp only [hasModule, bind_apply, getStore, liftExcept]
    show ModuleCollection.isRegistered
      (installModule path (buildModule true spec) preserveState
        (s.setModules (s._modules.attach path (buildModule true spec)))).store._modules path = _
    rw [hmod]
    exact hasChild_attach hne hparent _
  · show ModuleCollection.get
      (installModule path (buildModule true spec) preserveState
        (s.setModules (s._modules.attach path (buildModule true spec)))).store._modules path = _
    rw [hmod]
    exact hget
  · intro chain m hm
    have hgm : (s._modules.attach path (buildModule true spec)).get (path ++ chain) =
        .ok (some m) := by
      rw [get_attach hp]
      exact hm
    have hns := getNamespace_eq_spec _ (path ++ chain) m hgm
    refine ⟨_, ?_, hpost.2 chain m _ hm hns⟩
    show ModuleCollection.getNamespace
      (installModule path (buildModule true spec) preserveState
        (s.setModules (s._modules.attach path (buildModule true spec)))).store._modules _ = _
    rw [hmod]
    exact hns
  · intro t
    show objGet (installModule path (buildModule true spec) preserveState
      (s.setModules (s._modules.attach path (buildModule true spec)))).store._wrappedGetters t =
      firstOf (objGet s._wrappedGetters t)
        (objGet (declaredGetters (installModule path (buildModule true spec) preserveState
          (s.setModules (s._modules.attach path (buildModule true spec)))).store._modules path
          (buildModule true spec)) t)
    rw [hmod]
    exact hext.2 t
  · intro chain m ns hm hns kv hkv
    exact mem_declaredGetters _ (buildModule true spec) path chain m ns hm hns kv hkv
  · intro hps
    subst hps
    obtain ⟨fields, hf, e⟩ := installModule_state (buildModule true spec) path
      (s.setModules (s._modules.attach path (buildModule true spec))) hne () hinst
    have hf' : getNestedState s.state path.dropLast = .ok (.obj fields) := hf
    refine ⟨fields, hf', ?_, ?_⟩
    · show getNestedState (installModule path (buildModule true spec) false
        (s.setModules (s._modules.attach path (buildModule true spec)))).store.state _ = _
      rw [e]
      have h := getNestedState_set
        (.obj (objSet fields (lastKey path) (buildModule true spec).fullState)) []
        path.dropLast s.state fields hf'
      rw [List.append_nil] at h
      exact h
    · show getNestedState (installModule path (buildModule true spec) false
        (s.setModules (s._modules.attach path (buildModule true spec)))).store.state _ = _
      rw [e]
      have h := getNestedState_set
        (.obj (objSet fields (lastKey path) (buildModule true spec).fullState)) [lastKey path]
        path.dropLast s.state fields hf'
      rw [dropLast_append_lastKey hne] at h
      have h2 : getNestedState (setNestedState (s.setModules
          (s._modules.attach path (buildModule true spec))).state path.dropLast
          (.obj (objSet fields (lastKey path) (buildModule true spec).fullState))) path =
          getNestedState (.obj (objSet fields (lastKey path)
            (buildModule true spec).fullState)) [lastKey path] := h
      rw [h2, getNestedState_cons_obj, objGet_objSet_same]
      rfl

theorem registerModule_installs_witness :
    (registerModule ["m".toList] factorySpec false counterStore).result = .ok () ∧
    (hasModule ["m".toList]
      (registerModule ["m".toList] factorySpec false counterStore).store).result = .ok true ∧
    (buildModule true factorySpec).fullState =
      .obj [("n".toList, .num 1), ("u".toList, .obj []), ("v".toList, .str "on".toList)] ∧
    getNestedState (registerModule ["m".toList] factorySpec false counterStore).store.state
        ["m".toList] =
      .ok (.obj [("n".toList, .num 1), ("u".toList, .obj []),
        ("v".toList, .str "on".toList)]) ∧
    (registerModule ["m".toList] factorySpec false counterStore).store.state =
      .obj [("count".toList, .num 0),
        ("m".toList, .obj [("n".toList, .num 1), ("u".toList, .obj []),
          ("v".toList, .str "on".toList)])] ∧
    (registerModule ["d".toList] dupChildSpec false dupStore).result = .ok () ∧
    objGet dupStore._wrappedGetters "x".toList = some ⟨constGetter 1, ⟨[], []⟩⟩ ∧
    objGet (registerModule ["d".toList] dupChildSpec false dupStore).store._wrappedGetters
      "x".toList = some ⟨constGetter 1, ⟨[], []⟩⟩ := by
  have h := registerModule_installs counterStore ["m".toList] factorySpec false rfl
  obtain ⟨_, _, h3⟩ := h.2.2.2.2.2.2 rfl
  exact ⟨rfl, h.1, rfl, h3.2.trans rfl, rfl, rfl, rfl,
    ((registerModule_installs dupStore ["d".toList] dupChildSpec false rfl).2.2.2.1
      "x".toList).trans rfl⟩

/-- C20 (as stated) fails: with `preserveState` set, `registerModule`
completes and `hasModule` is true, but the state of the new module is not
grafted: the root state is unchanged and has no value at the path. -/
theorem registerModule_preserveState_counterexample :
    (registerModule ["m".toList] plainSpec true counterStore).result = .ok () ∧
    (hasModule ["m".toList]
      (registerModule ["m".toList] plainSpec true counterStore).store).result = .ok true ∧
    ((registerModule ["m".toList] plainSpec true counterStore).store._modules.get
      ["m".toList]).map (Option.map Module.state) = .ok (some (.obj [("n".toList, .num 1)])) ∧
    (registerModule ["m".toList] plainSpec true counterStore).store.state =
      .obj [("count".toList, .num 0)] ∧
    getNestedState (registerModule ["m".toList] plainSpec true counterStore).store.state
        ["m".toList] = .ok .undefined ∧
    getNestedState (registerModule ["m".toList] plainSpec true counterStore).store.state
        ["m".toList] ≠ .ok (.obj [("n".toList, .num 1)]) := by
  refine ⟨rfl, rfl, rfl, rfl, rfl, ?_⟩
  intro h
  have h2 : (Except.ok JVal.undefined : Except JsError JVal) =
      .ok (.obj [("n".toList, .num 1)]) := h
  injection h2 with h2
  cases h2

/-! ## The committing flag -/

theorem setCommitting_true_idem (s : Store) :
    (s.setCommitting true).setCommitting true = s.setCommitting true := rfl

/-- C22: for every store and every `fn` that completes, `_withCommit(fn)`
runs `fn` against the store with the committing flag set, completes, and
leaves the flag with the value it had before the call, the rest of the
store being as `fn` left it.  When an inner `_withCommit(inner)` completes
inside an outer one, what follows it inside the outer call (`rest`) runs
against a store whose flag is still set, and the flag gets the value from
before the outer call only when the outer call returns. -/
theorem withCommit_save_restore :
    (∀ (fn : M Unit) (s : Store), (fn (s.setCommitting true)).result = .ok () →
      (s.setCommitting true)._committing = true ∧
      _withCommit fn s =
        ⟨.ok (), (fn (s.setCommitting true)).store.setCommitting s._committing,
          (fn (s.setCommitting true)).trace⟩ ∧
      (_withCommit fn s).store._committing = s._committing) ∧
    (∀ (inner rest : M Unit) (s : Store), (inner (s.setCommitting true)).result = .ok () →
      ((inner (s.setCommitting true)).store.setCommitting true)._committing = true ∧
      (_withCommit inner >>= fun _ => rest) (s.setCommitting true) =
        ⟨(rest ((inner (s.setCommitting true)).store.setCommitting true)).result,
          (rest ((inner (s.setCommitting true)).store.setCommitting true)).store,
          (inner (s.setCommitting true)).trace ++
            (rest ((inner (s.setCommitting true)).store.setCommitting true)).trace⟩ ∧
      ((rest ((inner (s.setCommitting true)).store.setCommitting true)).result = .ok () →
        (_withCommit (_withCommit inner >>= fun _ => rest) s).result = .ok () ∧
        (_withCommit (_withCommit inner >>= fun _ => rest) s).store._committing =
          s._committing)) := by
  refine ⟨fun fn s h => ?_, fun inner rest s h => ?_⟩
  · have hw := withCommit_of_ok (Res.eq_of_result h)
    refine ⟨rfl, hw, ?_⟩
    rw [hw]
    rfl
  · have hi : inner ((s.setCommitting true).setCommitting true) =
        ⟨.ok (), (inner (s.setCommitting true)).store, (inner (s.setCommitting true)).trace⟩ :=
      Res.eq_of_result h
    have hw := withCommit_of_ok hi
    have hb := bind_of_ok (fun _ => rest) hw
    refine ⟨rfl, hb, fun hr => ?_⟩
    have hb' : (_withCommit inner >>= fun _ => rest) (s.setCommitting true) =
        ⟨.ok (), (rest ((inner (s.setCommitting true)).store.setCommitting true)).store,
          (inner (s.setCommitting true)).trace ++
            (rest ((inner (s.setCommitting true)).store.setCommitting true)).trace⟩ := by
      rw [hb]
      show (⟨(rest ((inner (s.setCommitting true)).store.setCommitting true)).result,
        (rest ((inner (s.setCommitting true)).store.setCommitting true)).store,
        (inner (s.setCommitting true)).trace ++
          (rest ((inner (s.setCommitting true)).store.setCommitting true)).trace⟩ :
        Res Unit) = _
      rw [hr]
    have ho := withCommit_of_ok hb'
    rw [ho]
    exact ⟨rfl, rfl⟩

theorem withCommit_save_restore_witness :
    (modifyStore (fun st => st.setState (.num 1)) (counterStore.setCommitting true)).result =
      .ok () ∧
    counterStore._committing = false ∧
    (_withCommit (modifyStore (fun st => st.setState (.num 1))) counterStore).store._committing =
      false ∧
    (_withCommit (modifyStore (fun st => st.setState (.num 1)))
      (counterStore.setCommitting true)).store._committing = true ∧
    (_withCommit (modifyStore (fun st => st.setState (.num 1))) counterStore).store.state =
      .num 1 :=
  ⟨rfl, rfl,
    (withCommit_save_restore.1 (modifyStore (fun st => st.setState (.num 1))) counterStore
      rfl).2.2,
    (withCommit_save_restore.1 (modifyStore (fun st => st.setState (.num 1)))
      (counterStore.setCommitting true) rfl).2.2,
    rfl⟩

/-- C23 (the code at the failing input): in `raisingStore`, as
constructed, the committing flag is false.  The call `commit('boom')`,
whose handler throws, throws, and afterwards, with no call in progress,
the flag is true: `_withCommit` does not restore the flag when `fn`
throws.  It stays true across a later `commit` that completes. -/
theorem committing_leaks_on_throw :
    Store.new raisingSpec false = .ok (raisingStore, []) ∧
    raisingStore._committing = false ∧
    (commit "boom".toList .undefined none raisingStore).result =
      .error (.thrown (.str "bad".toList)) ∧
    (commit "boom".toList .undefined none raisingStore).store._committing = true ∧
    (commit "inc".toList .undefined none
      (commit "boom".toList .undefined none raisingStore).store).result = .ok () ∧
    (commit "inc".toList .undefined none
      (commit "boom".toList .undefined none raisingStore).store).store._committing = true :=
  ⟨rfl, rfl, rfl, rfl, rfl, rfl⟩

/-! ## Subscribing and unsubscribing -/

theorem indexOfId_isNone {α : Type} (ident : α → Nat) (id : Nat) :
    ∀ l : List α, (indexOfId ident l id).isNone = true ↔ id ∉ l.map ident := by
  intro l
  induction l with
  | nil => simp [indexOfId]
  | cons a rest ih =>
    by_cases h : ident a = id
    · simp [indexOfId, h]
    · have h' : ¬ id = ident a := fun e => h e.symm
      simp only [indexOfId, h, if_false, Option.isNone_map', List.map_cons, List.mem_cons, h',
        false_or]
      exact ih

theorem indexOfId_eq_none {α : Type} (ident : α → Nat) (id : Nat) (l : List α)
    (h : id ∉ l.map ident) : indexOfId ident l id = none := by
  have := (indexOfId_isNone ident id l).mpr h
  cases hi : indexOfId ident l id with
  | none => rfl
  | some i => simp [hi] at this

theorem genericUnsubscribe_of_not_mem {α : Type} (ident : α → Nat) (id : Nat) (l : List α)
    (h : id ∉ l.map ident) : genericUnsubscribe ident id l = l := by
  rw [genericUnsubscribe, indexOfId_eq_none ident id l h]

theorem genericUnsubscribe_append_self {α : Type} (ident : α → Nat) (fn : α) :
    ∀ l : List α, ident fn ∉ l.map ident →
      genericUnsubscribe ident (ident fn) (l ++ [fn]) = l := by
  intro l
  induction l with
  | nil =>
    intro _
    simp [genericUnsubscribe, indexOfId]
  | cons a rest ih =>
    intro h
    have h1 : ident a ≠ ident fn := by
      intro e
      exact h (by simp [e])
    have h2 : ident fn ∉ rest.map ident := by
      intro e
      exact h (by simp [e])
    have ih' := ih h2
    unfold genericUnsubscribe at ih' ⊢
    simp only [List.cons_append, indexOfId, h1, if_false]
    cases hi : indexOfId ident (rest ++ [fn]) (ident fn) with
    | none =>
      rw [hi] at ih'
      simp only [] at ih'
      exact absurd (congrArg List.length ih') (by simp)
    | some i =>
      rw [hi] at ih'
      simp only [] at ih'
      simp only [Option.map_some', List.eraseIdx_cons_succ]
      rw [ih']

theorem genericUnsubscribe_cons_self {α : Type} (ident : α → Nat) (fn : α) (l : List α) :
    genericUnsubscribe ident (ident fn) (fn :: l) = l := by
  simp [genericUnsubscribe, indexOfId]

theorem genericUnsubscribe_ids {α : Type} (ident : α → Nat) (id : Nat) :
    ∀ l : List α, (l.map ident).Nodup →
      ((genericUnsubscribe ident id l).map ident).Nodup ∧
      id ∉ (genericUnsubscribe ident id l).map ident := by
  intro l
  induction l with
  | nil =>
    intro _
    simp [genericUnsubscribe, indexOfId]
  | cons a rest ih =>
    intro hn
    have hn' : ident a ∉ rest.map ident ∧ (rest.map ident).Nodup := List.nodup_cons.mp hn
    obtain ⟨ih1, ih2⟩ := ih hn'.2
    by_cases h : ident a = id
    · have he : genericUnsubscribe ident id (a :: rest) = rest := by
        simp [genericUnsubscribe, indexOfId, h]
      rw [he]
      exact ⟨hn'.2, h ▸ hn'.1⟩
    · unfold genericUnsubscribe at ih1 ih2 ⊢
      simp only [indexOfId, h, if_false]
      cases hi : indexOfId ident rest id with
      | none =>
        rw [hi] at ih2
        simp only [Option.map_none']
        refine ⟨hn, ?_⟩
        simp only [List.map_cons, List.mem_cons, not_or]
        exact ⟨fun e => h e.symm, ih2⟩
      | some i =>
        rw [hi] at ih1 ih2
        simp only [Option.map_some', List.eraseIdx_cons_succ, List.map_cons, List.nodup_cons,
          List.mem_cons, not_or]
        refine ⟨⟨?_, ih1⟩, fun e => h e.symm, ih2⟩
        intro hm
        obtain ⟨b, hb, hbe⟩ := List.mem_map.mp hm
        exact hn'.1 (List.mem_map.mpr ⟨b, (List.eraseIdx_sublist rest i).subset hb, hbe⟩)

theorem genericSubscribe_of_not_mem {α : Type} (ident : α → Nat) (fn : α) (l : List α)
    (prepend : Bool) (h : ident fn ∉ l.map ident) :
    genericSubscribe ident fn l prepend = if prepend then fn :: l else l ++ [fn] := by
  rw [genericSubscribe, (indexOfId_isNone ident (ident fn) l).mpr h]
  rfl

theorem genericSubscribe_of_mem {α : Type} (ident : α → Nat) (fn : α) (l : List α)
    (prepend : Bool) (h : ident fn ∈ l.map ident) :
    genericSubscribe ident fn l prepend = l := by
  have hi : (indexOfId ident l (ident fn)).isNone = false := by
    cases hx : (indexOfId ident l (ident fn)).isNone with
    | false => rfl
    | true => exact absurd h ((indexOfId_isNone ident (ident fn) l).mp hx)
  rw [genericSubscribe, hi]
  rfl

/-- C25: for every list `subs` and every `fn` that is not in it (no
element has its identity), subscribing puts `fn` at the end of the list,
or at the front with the option `prepend`, and the returned unsubscribe
function restores the list exactly; subscribing an `fn` that is in the
list leaves the list unchanged; a list without repetition stays without
repetition under subscribing and unsubscribing; and on such a list a
second call of an unsubscribe function changes nothing.  The methods
`subscribe` and `subscribeAction` of the store, and the functions they
return, act in this way on the two subscriber lists of the store. -/
theorem subscribe_unsubscribe_round_trip :
    (∀ {α : Type} (ident : α → Nat) (fn : α) (subs : List α) (prepend : Bool),
      ident fn ∉ subs.map ident →
      genericSubscribe ident fn subs prepend = (if prepend then fn :: subs else subs ++ [fn]) ∧
      genericUnsubscribe ident (ident fn) (genericSubscribe ident fn subs prepend) = subs) ∧
    (∀ {α : Type} (ident : α → Nat) (fn : α) (subs : List α) (prepend : Bool),
      ident fn ∈ subs.map ident → genericSubscribe ident fn subs prepend = subs) ∧
    (∀ {α : Type} (ident : α → Nat) (fn : α) (subs : List α) (prepend : Bool),
      (subs.map ident).Nodup → ((genericSubscribe ident fn subs prepend).map ident).Nodup) ∧
    (∀ {α : Type} (ident : α → Nat) (id : Nat) (subs : List α), (subs.map ident).Nodup →
      ((genericUnsubscribe ident id subs).map ident).Nodup ∧
      genericUnsubscribe ident id (genericUnsubscribe ident id subs) =
        genericUnsubscribe ident id subs) ∧
    (∀ (s : Store) (fn : Subscriber) (prepend : Bool),
      subscribe fn prepend s =
        ⟨.ok (), s.setSubscribers (genericSubscribe Subscriber.id fn s._subscribers prepend),
          []⟩) ∧
    (∀ (s : Store) (id : Nat),
      unsubscribe id s =
        ⟨.ok (), s.setSubscribers (genericUnsubscribe Subscriber.id id s._subscribers), []⟩) ∧
    (∀ (s : Store) (subs : ActionSubscriber) (prepend : Bool),
      subscribeAction subs prepend s =
        ⟨.ok (), s.setActionSubscribers
          (genericSubscribe ActionSubscriber.id subs s._actionSubscribers prepend), []⟩) ∧
    (∀ (s : Store) (wrapper : Nat) (fn : Mutation → JVal → Option JsError) (prepend : Bool),
      subscribeActionFn wrapper fn prepend s =
        ⟨.ok (), s.setActionSubscribers
          (genericSubscribe ActionSubscriber.id ⟨wrapper, some fn, none, none⟩
            s._actionSubscribers prepend), []⟩) ∧
    (∀ (s : Store) (id : Nat),
      unsubscribeAction id s =
        ⟨.ok (), s.setActionSubscribers
          (genericUnsubscribe ActionSubscriber.id id s._actionSubscribers), []⟩) := by
  refine ⟨?_, ?_, ?_, ?_, fun _ _ _ => rfl, fun _ _ => rfl, fun _ _ _ => rfl,
    fun _ _ _ _ => rfl, fun _ _ => rfl⟩
  · intro α ident fn subs prepend h
    refine ⟨genericSubscribe_of_not_mem ident fn subs prepend h, ?_⟩
    rw [genericSubscribe_of_not_mem ident fn subs prepend h]
    cases prepend with
    | true => exact genericUnsubscribe_cons_self ident fn subs
    | false => exact genericUnsubscribe_append_self ident fn subs h
  · intro α ident fn subs prepend h
    exact genericSubscribe_of_mem ident fn subs prepend h
  · intro α ident fn subs prepend hn
    by_cases h : ident fn ∈ subs.map ident
    · rw [genericSubscribe_of_mem ident fn subs prepend h]
      exact hn
    · rw [genericSubscribe_of_not_mem ident fn subs prepend h]
      cases prepend with
      | true =>
        simp only [if_true, List.map_cons]
        exact List.nodup_cons.mpr ⟨h, hn⟩
      | false =>
        simp only [Bool.false_eq_true, if_false, List.map_append, List.map_cons, List.map_nil]
        rw [List.nodup_append]
        refine ⟨hn, List.nodup_singleton _, ?_⟩
        intro a ha hb
        rw [List.mem_singleton] at hb
        exact h (hb ▸ ha)
  · intro α ident id subs hn
    obtain ⟨h1, h2⟩ := genericUnsubscribe_ids ident id subs hn
    exact ⟨h1, genericUnsubscribe_of_not_mem ident id _ h2⟩

theorem subscribe_unsubscribe_round_trip_witness :
    (quietSubscriber 9).id ∉ snapshotStore._subscribers.map Subscriber.id ∧
    (subscribe (quietSubscriber 9) false snapshotStore).store._subscribers.map Subscriber.id =
      [1, 2, 3, 9] ∧
    (subscribe (quietSubscriber 9) true snapshotStore).store._subscribers.map Subscriber.id =
      [9, 1, 2, 3] ∧
    genericUnsubscribe Subscriber.id (quietSubscriber 9).id
        (genericSubscribe Subscriber.id (quietSubscriber 9) snapshotStore._subscribers false) =
      snapshotStore._subscribers ∧
    (subscribe (quietSubscriber 2) false snapshotStore).store._subscribers.map Subscriber.id =
      [1, 2, 3] :=
  ⟨by decide, by decide, by decide,
    (subscribe_unsubscribe_round_trip.1 Subscriber.id (quietSubscriber 9)
      snapshotStore._subscribers false (by decide)).2,
    by decide⟩

/-! ## A full reset is a fresh installation -/

theorem comm_pure {α : Type} (T : Store → Store) (a : α) : Commutes T (pure a : M α) :=
  fun _ => rfl

theorem comm_emit (T : Store → Store) (e : Event) : Commutes T (emit e) :=
  fun _ => rfl

theorem comm_liftExcept {α : Type} (T : Store → Store) (x : Except JsError α) :
    Commutes T (liftExcept x) :=
  fun _ => rfl

theorem comm_modifyStore {T f : Store → Store} (h : ∀ s, f (T s) = T (f s)) :
    Commutes T (modifyStore f) := by
  intro s
  simp only [modifyStore, h]

theorem comm_bind {α β : Type} {T : Store → Store} {x : M α} {f : α → M β}
    (hx : Commutes T x) (hf : ∀ a, Commutes T (f a)) : Commutes T (x >>= f) := by
  intro s
  rw [bind_apply, bind_apply, hx s]
  cases hr : (x s).result with
  | error e => rfl
  | ok a =>
    simp only []
    rw [hf a]

theorem comm_getStore_bind {β : Type} {T : Store → Store} {f : Store → M β}
    (he : ∀ s0, f (T s0) = f s0) (hf : ∀ s0, Commutes T (f s0)) :
    Commutes T (getStore >>= f) := by
  intro s
  rw [bind_apply, bind_apply]
  simp only [getStore, List.nil_append]
  rw [he s, hf s s]

theorem comm_doWhen {T : Store → Store} {c : Bool} {body : M Unit} (h : Commutes T body) :
    Commutes T (doWhen c body) := by
  cases c with
  | true => exact h
  | false => exact comm_pure T ()

theorem comm_forEach {α : Type} {T : Store → Store} (l : List α) {f : α → M Unit}
    (h : ∀ a, Commutes T (f a)) : Commutes T (forEach l f) := by
  induction l with
  | nil => exact comm_pure T ()
  | cons a rest ih =>
    rw [forEach]
    exact comm_bind (h a) (fun _ => ih)

theorem comm_registerNamespace (r : Store) (ns : Str) (path : List Str) :
    Commutes r.withInstalled (registerNamespace ns path) := by
  rw [registerNamespace]
  refine comm_getStore_bind (fun _ => rfl) (fun st => ?_)
  exact comm_bind (comm_doWhen (comm_emit _ _))
    (fun _ => comm_modifyStore (fun _ => rfl))

theorem comm_registerGetter (r : Store) (type : Str) (g : GetterFn) (ctx : LocalContext) :
    Commutes r.withInstalled (registerGetter type g ctx) := by
  intro s
  rw [registerGetter_apply, registerGetter_apply]
  have h : (r.withInstalled s)._wrappedGetters = s._wrappedGetters := rfl
  rw [h]
  split <;> rfl

mutual
theorem comm_installModule (r : Store) : ∀ (module : Module) (path : List Str),
    Commutes r.withInstalled (installModule path module true)
  | .mk runtime children raw st, path => by
    rw [installModule]
    refine comm_getStore_bind (fun _ => rfl) (fun st0 => ?_)
    refine comm_bind (comm_liftExcept _ _) (fun ns => ?_)
    refine comm_bind (comm_doWhen (comm_registerNamespace r ns path)) (fun _ => ?_)
    have hc : (!(path.length == 0) && !true) = false := by simp
    rw [hc]
    refine comm_bind (comm_pure _ ()) (fun _ => ?_)
    refine comm_bind (comm_forEach _ (fun kv => comm_modifyStore (fun _ => rfl))) (fun _ => ?_)
    refine comm_bind (comm_forEach _ (fun kv => comm_modifyStore (fun _ => rfl))) (fun _ => ?_)
    refine comm_bind (comm_forEach _ (fun kv => comm_registerGetter r _ _ _)) (fun _ => ?_)
    exact comm_installChildren r children path
theorem comm_installChildren (r : Store) : ∀ (children : List (Str × Module))
    (path : List Str), Commutes r.withInstalled (installChildren path children true)
  | [], path => by
    rw [installChildren]
    exact comm_pure _ ()
  | (k, c) :: rest, path => by
    rw [installChildren]
    exact comm_bind (comm_installModule r c (path ++ [k]))
      (fun _ => comm_installChildren r rest path)
end

theorem freshInstall_eq (s : Store) :
    freshInstall s._modules =
      ⟨(installModule [] s._modules.root true s.cleared).result,
        (Store.initial s._modules false).withInstalled
          (installModule [] s._modules.root true s.cleared).store,
        (installModule [] s._modules.root true s.cleared).trace⟩ :=
  comm_installModule (Store.initial s._modules false) s._modules.root [] s.cleared

theorem resetStore_of_ok {hot : Bool} {s : Store} (h : (resetStore hot s).result = .ok ()) :
    (installModule [] s._modules.root true s.cleared).result = .ok () ∧
    (resetStore hot s).store =
      (installModule [] s._modules.root true s.cleared).store.resetVM := by
  cases hi : (installModule [] s._modules.root true s.cleared).result with
  | error e =>
    exfalso
    simp only [resetStore, bind_apply, modifyStore, getStore, Store.cleared] at h
    simp only [Store.cleared] at hi
    simp [hi] at h
  | ok u =>
    refine ⟨rfl, ?_⟩
    simp only [Store.cleared] at hi
    simp [resetStore, bind_apply, modifyStore, getStore, Store.cleared, hi, resetStoreVM_apply,
      Store.resetVM]

theorem resetStore_fresh (hot : Bool) (s : Store) :
    Post (resetStore hot) s (fun _ s' _ =>
      s'._modules = s._modules ∧ (freshInstall s'._modules).result = .ok () ∧
        s'.registries = (freshInstall s'._modules).store.registries) := by
  intro _ h
  obtain ⟨h1, h2⟩ := resetStore_of_ok h
  have hm : (resetStore hot s).store._modules = s._modules := by
    rw [h2]
    exact installModule_modules [] s._modules.root true s.cleared h1
  refine ⟨hm, ?_, ?_⟩
  · rw [hm, freshInstall_eq]
    exact h1
  · rw [hm, freshInstall_eq, h2]
    rfl

theorem hotUpdate_fresh (spec : RawModule) (s : Store) :
    Post (hotUpdate spec) s (fun _ s' _ =>
      (freshInstall s'._modules).result = .ok () ∧
        s'.registries = (freshInstall s'._modules).store.registries) := by
  unfold hotUpdate
  refine post_bind_last (fun _ _ => ?_)
  refine post_bind_last (fun _ _ => ?_)
  refine post_bind_last (fun _ s1 => ?_)
  exact post_mono (resetStore_fresh true s1) (fun _ _ _ h => h.2)

theorem unregisterModule_fresh (path : List Str) (s : Store) :
    Post (unregisterModule path) s (fun _ s' _ =>
      (freshInstall s'._modules).result = .ok () ∧
        s'.registries = (freshInstall s'._modules).store.registries) := by
  unfold unregisterModule
  refine post_bind_last (fun _ _ => ?_)
  refine post_bind_last (fun _ _ => ?_)
  refine post_bind_last (fun _ _ => ?_)
  refine post_bind_last (fun _ _ => ?_)
  refine post_bind_last (fun _ s1 => ?_)
  exact post_mono (resetStore_fresh false s1) (fun _ _ _ h => h.2)

theorem handlersFor_append {α : Type} (t : Str) (a b : List (Str × α)) :
    handlersFor t (a ++ b) = handlersFor t a ++ handlersFor t b := by
  simp [handlersFor]

theorem handlersExtend_refl {α : Type} (m : List (Str × List α)) : HandlersExtend m m [] := by
  intro t
  simp [handlersFor]

theorem handlersExtend_of_eq {α : Type} {m m' : List (Str × List α)} (h : m' = m) :
    HandlersExtend m m' [] := by
  rw [h]
  exact handlersExtend_refl m

theorem handlersExtend_trans {α : Type} {a b c : List (Str × List α)}
    {d1 d2 : List (Str × α)} (h1 : HandlersExtend a b d1) (h2 : HandlersExtend b c d2) :
    HandlersExtend a c (d1 ++ d2) := by
  intro t
  obtain ⟨h1a, h1b⟩ := h1 t
  obtain ⟨h2a, h2b⟩ := h2 t
  rw [handlersFor_append]
  refine ⟨?_, ?_⟩
  · rw [h2a, h1a, List.append_assoc]
  · rw [h2b, h1b]
    cases (objGet a t).isSome <;> cases hx : handlersFor t d1 <;>
      cases hy : handlersFor t d2 <;> simp

theorem handlersExtend_push {α : Type} (m : List (Str × List α)) (type : Str) (w : α) :
    HandlersExtend m (objSet m type ((objGet m type).getD [] ++ [w])) [(type, w)] := by
  intro t
  by_cases ht : type = t
  · subst ht
    rw [objGet_objSet_same]
    simp [handlersFor]
  · rw [objGet_objSet_ne _ _ ht]
    simp [handlersFor, ht]

theorem objGet_eq_entryOf {α : Type} {m : List (Str × List α)} {d : List (Str × α)}
    (h : HandlersExtend [] m d) (t : Str) : objGet m t = entryOf (handlersFor t d) := by
  obtain ⟨h1, h2⟩ := h t
  simp only [objGet, Option.getD_none, List.nil_append, Option.isSome_none,
    Bool.false_or] at h1 h2
  cases hg : objGet m t with
  | none =>
    rw [hg] at h1 h2
    simp only [Option.getD_none] at h1
    rw [← h1]
    rfl
  | some l =>
    rw [hg] at h1 h2
    simp only [Option.getD_some] at h1
    simp only [Option.isSome_some] at h2
    rw [← h1] at h2 ⊢
    cases l with
    | nil => simp at h2
    | cons x xs => rfl

theorem registerMutations_extend (ns : Str) (ctx : LocalContext)
    (ms : List (Str × MutationFn)) :
    ∀ s, Post (forEach ms (fun kv => registerMutation (ns ++ kv.1) kv.2 ctx)) s
      (fun _ s' _ => s'._modules = s._modules ∧ s'._actions = s._actions ∧
        HandlersExtend s._mutations s'._mutations
          (ms.map (fun kv => (ns ++ kv.1, (⟨kv.2, ctx⟩ : WrappedMutation))))) := by
  induction ms with
  | nil =>
    intro s
    exact post_pure ⟨rfl, rfl, handlersExtend_refl _⟩
  | cons kv rest ih =>
    intro s
    rw [forEach]
    refine post_bind (post_modifyStore ?_)
    refine post_mono (ih _) ?_
    intro _ s2 _ ⟨h1, h2, h3⟩
    exact ⟨h1, h2, handlersExtend_trans (handlersExtend_push s._mutations _ _) h3⟩

theorem registerActions_extend (ns : Str) (ctx : LocalContext)
    (acts : List (Str × ActionEntry)) :
    ∀ s, Post (forEach acts (fun kv =>
        registerAction (if kv.2.root then kv.1 else ns ++ kv.1) kv.2.handler ctx)) s
      (fun _ s' _ => s'._modules = s._modules ∧ s'._mutations = s._mutations ∧
        HandlersExtend s._actions s'._actions
          (acts.map (fun kv => (if kv.2.root then kv.1 else ns ++ kv.1,
            (⟨kv.2.handler, ctx⟩ : WrappedAction))))) := by
  induction acts with
  | nil =>
    intro s
    exact post_pure ⟨rfl, rfl, handlersExtend_refl _⟩
  | cons kv rest ih =>
    intro s
    rw [forEach]
    refine post_bind (post_modifyStore ?_)
    refine post_mono (ih _) ?_
    intro _ s2 _ ⟨h1, h2, h3⟩
    exact ⟨h1, h2, handlersExtend_trans (handlersExtend_push s._actions _ _) h3⟩

theorem handlersOnly_eq (s0 : Store) : HandlersOnly (fun s' =>
    s'._modules = s0._modules ∧ s'._mutations = s0._mutations ∧ s'._actions = s0._actions) :=
  fun _ _ h1 h2 h3 h => ⟨h1.trans h.1, h2.trans h.2.1, h3.trans h.2.2⟩

theorem keeps_registerNamespace_handlers {I : Store → Prop} (hI : HandlersOnly I) (ns : Str)
    (path : List Str) : Keeps (registerNamespace ns path) I := by
  rw [registerNamespace]
  refine keeps_bind (keeps_getStore I) (fun _ => ?_)
  exact keeps_bind (keeps_doWhen (keeps_emit _ I))
    (fun _ => keeps_modifyStore (fun s hs => hI s _ rfl rfl rfl hs))

theorem keeps_registerGetter_handlers {I : Store → Prop} (hI : HandlersOnly I) (type : Str)
    (g : GetterFn) (ctx : LocalContext) : Keeps (registerGetter type g ctx) I := by
  intro s hs
  rw [registerGetter_apply]
  split
  · exact hs
  · exact hI s _ rfl rfl rfl hs

mutual
theorem installModule_handlers : ∀ (module : Module) (path : List Str) (s : Store),
    Post (installModule path module true) s
      (fun _ s' _ => s'._modules = s._modules ∧
        HandlersExtend s._mutations s'._mutations (declaredMutations s._modules path module) ∧
        HandlersExtend s._actions s'._actions (declaredActions s._modules path module))
  | .mk runtime children raw st, path, s => by
    rw [installModule]
    refine post_bind (post_getStore ?_)
    refine post_bind (post_liftExcept ?_)
    intro ns hns
    refine post_bind (post_mono (post_doWhen
      (fun _ => post_of_keeps (keeps_registerNamespace_handlers (handlersOnly_eq s) ns path)
        ⟨rfl, rfl, rfl⟩)
      (fun _ => ⟨rfl, rfl, rfl⟩)) ?_)
    intro _ s1 _ ⟨m1, u1, a1⟩
    have hc : (!(path.length == 0) && !true) = false := by simp
    rw [hc]
    refine post_bind (post_doWhen (fun h => by cases h) (fun _ => ?_))
    refine post_bind (post_mono (registerMutations_extend ns (makeLocalContext ns path) _ s1) ?_)
    intro _ s3 _ ⟨m3, a3, e3⟩
    refine post_bind (post_mono (registerActions_extend ns (makeLocalContext ns path) _ s3) ?_)
    intro _ s4 _ ⟨m4, u4, e4⟩
    refine post_bind (post_mono (post_of_keeps (keeps_forEach _ (fun kv =>
      keeps_registerGetter_handlers (handlersOnly_eq s4) _ _ _)) ⟨rfl, rfl, rfl⟩) ?_)
    intro _ s5 _ ⟨m5, u5, a5⟩
    refine post_mono (installChildren_handlers children path s5) ?_
    intro _ s6 _ ⟨m6, e6, f6⟩
    have hm5 : s5._modules = s._modules := m5.trans (m4.trans (m3.trans m1))
    rw [hm5] at e6 f6
    refine ⟨m6.trans hm5, ?_, ?_⟩
    · rw [declaredMutations, hns]
      rw [u5, u4] at e6
      rw [u1] at e3
      exact handlersExtend_trans e3 e6
    · rw [declaredActions, hns]
      rw [a5] at f6
      rw [a3, a1] at e4
      exact handlersExtend_trans e4 f6
theorem installChildren_handlers : ∀ (children : List (Str × Module)) (path : List Str)
    (s : Store),
    Post (installChildren path children true) s
      (fun _ s' _ => s'._modules = s._modules ∧
        HandlersExtend s._mutations s'._mutations
          (declaredMutationsOfChildren s._modules path children) ∧
        HandlersExtend s._actions s'._actions
          (declaredActionsOfChildren s._modules path children))
  | [], path, s => by
    rw [installChildren]
    exact post_pure ⟨rfl, handlersExtend_refl _, handlersExtend_refl _⟩
  | (k, c) :: rest, path, s => by
    rw [installChildren]
    refine post_bind (post_mono (installModule_handlers c (path ++ [k]) s) ?_)
    intro _ s1 _ ⟨m1, e1, f1⟩
    refine post_mono (installChildren_handlers rest path s1) ?_
    intro _ s2 _ ⟨m2, e2, f2⟩
    rw [m1] at e2 f2
    rw [declaredMutationsOfChildren, declaredActionsOfChildren]
    exact ⟨m2.trans m1, handlersExtend_trans e1 e2, handlersExtend_trans f1 f2⟩
end

theorem freshInstall_spec (mc : ModuleCollection) (h : (freshInstall mc).result = .ok ()) :
    (∀ t, objGet (freshInstall mc).store._mutations t =
      entryOf (handlersFor t (declaredMutations mc [] mc.root))) ∧
    (∀ t, objGet (freshInstall mc).store._actions t =
      entryOf (handlersFor t (declaredActions mc [] mc.root))) ∧
    (∀ t, objGet (freshInstall mc).store._wrappedGetters t =
      objGet (declaredGetters mc [] mc.root) t) := by
  obtain ⟨_, h2, h3⟩ := installModule_handlers mc.root [] (Store.initial mc false) () h
  obtain ⟨_, h5⟩ := installModule_extend mc.root [] true (Store.initial mc false) () h
  exact ⟨fun t => objGet_eq_entryOf h2 t, fun t => objGet_eq_entryOf h3 t, fun t => h5 t⟩

theorem freshlyInstalled_of {s : Store} (h1 : (freshInstall s._modules).result = .ok ())
    (h2 : s.registries = (freshInstall s._modules).store.registries) : FreshlyInstalled s := by
  obtain ⟨hm, ha, hg⟩ := freshInstall_spec s._modules h1
  have e1 : s._mutations = (freshInstall s._modules).store._mutations :=
    congrArg Registries.mutations h2
  have e2 : s._actions = (freshInstall s._modules).store._actions :=
    congrArg Registries.actions h2
  have e3 : s._wrappedGetters = (freshInstall s._modules).store._wrappedGetters :=
    congrArg Registries.wrappedGetters h2
  refine ⟨h1, h2, fun t => ?_, fun t => ?_, fun t => ?_⟩
  · rw [e1]
    exact hm t
  · rw [e2]
    exact ha t
  · rw [e3]
    exact hg t

/-- C24 (as amended): after a `hotUpdate` that completes, and after an
`unregisterModule` that completes, the transition registry, the action
registry, the derived-value registry and the namespace index are exactly
those obtained by installing the current module tree from the root into
empty registries, an installation which completes; so the transition and
action registries hold for every type exactly the handlers that the
modules of the current tree declare for it, each once, in root-to-leaves
installation order, and no entry for a type that no module of the tree
declares; and the derived-value registry holds for every type the handler
of the module installed first. -/
theorem reset_is_fresh_install :
    (∀ (s : Store) (spec : RawModule), (hotUpdate spec s).result = .ok () →
      FreshlyInstalled (hotUpdate spec s).store) ∧
    (∀ (s : Store) (path : List Str), (unregisterModule path s).result = .ok () →
      FreshlyInstalled (unregisterModule path s).store) := by
  refine ⟨fun s spec h => ?_, fun s path h => ?_⟩
  · obtain ⟨h1, h2⟩ := hotUpdate_fresh spec s () h
    exact freshlyInstalled_of h1 h2
  · obtain ⟨h1, h2⟩ := unregisterModule_fresh path s () h
    exact freshlyInstalled_of h1 h2

theorem reset_is_fresh_install_witness :
    (extendedStore._modules.get ["x".toList]).map (Option.map Module.runtime) =
      .ok (some true) ∧
    (objGet extendedStore._mutations "inc".toList).map List.length = some 2 ∧
    (unregisterModule ["x".toList] extendedStore).result = .ok () ∧
    (unregisterModule ["x".toList] extendedStore).store._modules.get ["x".toList] =
      .ok none ∧
    (objGet (unregisterModule ["x".toList] extendedStore).store._mutations "inc".toList).map
      (List.map (fun w => w.localCtx.path)) = some [[]] ∧
    (unregisterModule ["x".toList] extendedStore).store.registries =
      (freshInstall (unregisterModule ["x".toList] extendedStore).store._modules).store.registries :=
  ⟨rfl, rfl, rfl, rfl, rfl,
    (reset_is_fresh_install.2 extendedStore ["x".toList] rfl).registries⟩

/-- C24 (as stated) fails: in the tree of `dupStore` the root and the
module `c` both declare the derived value `x`; after `hotUpdate` both
modules remain, but the registry holds one handler for `x`, that of the
root, and the handler of `c` is not registered. -/
theorem reset_drops_duplicate_getter_counterexample :
    (hotUpdate dupSpec dupStore).result = .ok () ∧
    (declaredGetters (hotUpdate dupSpec dupStore).store._modules []
      (hotUpdate dupSpec dupStore).store._modules.root).map
        (fun d => (d.1, d.2.localCtx.path)) =
      [("x".toList, []), ("x".toList, ["c".toList])] ∧
    (hotUpdate dupSpec dupStore).store._wrappedGetters.map
        (fun d => (d.1, d.2.localCtx.path)) = [("x".toList, [])] ∧
    readGetter 1 (hotUpdate dupSpec dupStore).store "x".toList = some (.ok (.num 1)) :=
  ⟨rfl, rfl, rfl, rfl⟩

/-! ## The root state has a value at every registered path -/

theorem hasPath_nil (v : JVal) : hasPath v [] = true := by
  cases v <;> rfl

theorem hasPath_cons_obj (fields : List (Str × JVal)) (k : Str) (rest : List Str) :
    hasPath (.obj fields) (k :: rest) =
      match objGet fields k with
      | some sub => hasPath sub rest
      | none => false := rfl

theorem hasPath_cons {root : JVal} {k : Str} {rest : List Str}
    (h : hasPath root (k :: rest) = true) :
    ∃ fields sub, root = .obj fields ∧ objGet fields k = some sub ∧ hasPath sub rest = true := by
  cases root with
  | obj fields =>
    rw [hasPath_cons_obj] at h
    cases hs : objGet fields k with
    | some sub =>
      rw [hs] at h
      exact ⟨fields, sub, rfl, hs, h⟩
    | none =>
      rw [hs] at h
      cases h
  | undefined => cases h
  | null => cases h
  | bool b => cases h
  | num n => cases h
  | str s => cases h

theorem getNestedState_of_hasPath : ∀ (p : List Str) (root : JVal), hasPath root p = true →
    ∃ v, getNestedState root p = .ok v := by
  intro p
  induction p with
  | nil =>
    intro root _
    exact ⟨root, rfl⟩
  | cons k rest ih =>
    intro root h
    obtain ⟨fields, sub, hr, hs, hsub⟩ := hasPath_cons h
    subst hr
    obtain ⟨v, hv⟩ := ih sub hsub
    refine ⟨v, ?_⟩
    rw [getNestedState_cons_obj, hs]
    exact hv

theorem hasPath_of_obj : ∀ (p : List Str) (root : JVal) (f : List (Str × JVal)),
    getNestedState root p = .ok (.obj f) → hasPath root p = true := by
  intro p
  induction p with
  | nil =>
    intro root f _
    exact hasPath_nil root
  | cons k rest ih =>
    intro root f h
    obtain ⟨fields, sub, hr, hs, hsub⟩ := getNestedState_obj_present rest root k f h
    subst hr
    rw [hasPath_cons_obj, hs]
    exact ih sub f hsub

theorem hasPath_append : ∀ (p : List Str) (root v : JVal) (q : List Str),
    hasPath root p = true → getNestedState root p = .ok v → hasPath v q = true →
    hasPath root (p ++ q) = true := by
  intro p
  induction p with
  | nil =>
    intro root v q _ hg hq
    simp only [getNestedState] at hg
    injection hg with hg
    subst hg
    exact hq
  | cons k rest ih =>
    intro root v q h hg hq
    obtain ⟨fields, sub, hr, hs, hsub⟩ := hasPath_cons h
    subst hr
    rw [getNestedState_cons_obj, hs] at hg
    show hasPath (.obj fields) (k :: (rest ++ q)) = true
    rw [hasPath_cons_obj, hs]
    exact ih sub v q hsub hg hq

/-- Replacing the value at `p` keeps a value at `q`, when the new value
has one wherever `q` runs through `p`. -/
theorem hasPath_setNestedState (v : JVal) : ∀ (p : List Str) (root : JVal) (q : List Str),
    hasPath root q = true → (∀ c, q = p ++ c → hasPath v c = true) →
    hasPath (setNestedState root p v) q = true := by
  intro p
  induction p with
  | nil =>
    intro root q _ hc
    rw [setNestedState_nil]
    exact hc q rfl
  | cons b rest ih =>
    intro root q h hc
    cases q with
    | nil => exact hasPath_nil _
    | cons a q' =>
      obtain ⟨fields, sub, hr, hs, hsub⟩ := hasPath_cons h
      subst hr
      cases hb : objGet fields b with
      | none =>
        simp only [setNestedState, hb]
        exact h
      | some subb =>
        simp only [setNestedState, hb]
        rw [hasPath_cons_obj]
        by_cases hab : b = a
        · subst hab
          rw [objGet_objSet_same]
          rw [hs] at hb
          injection hb with hb
          subst hb
          exact ih sub q' hsub (fun c hq => hc c (by rw [hq]; rfl))
        · rw [objGet_objSet_ne _ _ hab, hs]
          exact hsub

theorem hasPath_of_append : ∀ (p : List Str) (root v : JVal) (q : List Str),
    hasPath root (p ++ q) = true → getNestedState root p = .ok v → hasPath v q = true := by
  intro p
  induction p with
  | nil =>
    intro root v q h hg
    simp only [getNestedState] at hg
    injection hg with hg
    subst hg
    exact h
  | cons k rest ih =>
    intro root v q h hg
    obtain ⟨fields, sub, hr, hs, hsub⟩ := hasPath_cons h
    subst hr
    rw [getNestedState_cons_obj, hs] at hg
    exact ih sub v q hsub hg

theorem objKeys_cons {α : Type} (k : Str) (v : α) (o : List (Str × α)) :
    objKeys ((k, v) :: o) = k :: objKeys o := rfl

theorem mem_objKeys_objSet {α : Type} (k : Str) (v : α) (a : Str) :
    ∀ o : List (Str × α), a ∈ objKeys (objSet o k v) → a = k ∨ a ∈ objKeys o := by
  intro o
  induction o with
  | nil =>
    intro h
    left
    simpa [objSet, objKeys] using h
  | cons x rest ih =>
    obtain ⟨k', v'⟩ := x
    intro h
    by_cases hk : k' = k
    · simp only [objSet, hk, if_true, objKeys_cons, List.mem_cons] at h ⊢
      rcases h with h | h
      · exact Or.inl h
      · exact Or.inr (Or.inr h)
    · simp only [objSet, hk, if_false, objKeys_cons, List.mem_cons] at h ⊢
      rcases h with h | h
      · exact Or.inr (Or.inl h)
      · rcases ih h with h | h
        · exact Or.inl h
        · exact Or.inr (Or.inr h)

theorem objKeys_objSet_nodup {α : Type} (k : Str) (v : α) :
    ∀ o : List (Str × α), (objKeys o).Nodup → (objKeys (objSet o k v)).Nodup := by
  intro o
  induction o with
  | nil =>
    intro _
    exact List.nodup_singleton k
  | cons x rest ih =>
    obtain ⟨k', v'⟩ := x
    intro h
    rw [objKeys_cons] at h
    have h' := List.nodup_cons.mp h
    by_cases hk : k' = k
    · simp only [objSet, hk, if_true, objKeys_cons]
      subst hk
      exact h
    · simp only [objSet, hk, if_false, objKeys_cons]
      refine List.nodup_cons.mpr ⟨fun hm => ?_, ih h'.2⟩
      rcases mem_objKeys_objSet k v k' rest hm with e | e
      · exact hk e
      · exact h'.1 e

theorem mem_objKeys_objDelete {α : Type} (k : Str) (a : Str) :
    ∀ o : List (Str × α), a ∈ objKeys (objDelete o k) → a ∈ objKeys o := by
  intro o
  induction o with
  | nil =>
    intro h
    exact h
  | cons x rest ih =>
    obtain ⟨k', v'⟩ := x
    intro h
    by_cases hk : k' = k
    · simp only [objDelete, hk, if_true] at h
      exact List.mem_cons_of_mem _ h
    · simp only [objDelete, hk, if_false, objKeys_cons, List.mem_cons] at h
      rcases h with h | h
      · exact h ▸ List.mem_cons_self _ _
      · exact List.mem_cons_of_mem _ (ih h)

theorem objKeys_objDelete_nodup {α : Type} (k : Str) :
    ∀ o : List (Str × α), (objKeys o).Nodup → (objKeys (objDelete o k)).Nodup := by
  intro o
  induction o with
  | nil =>
    intro h
    exact h
  | cons x rest ih =>
    obtain ⟨k', v'⟩ := x
    intro h
    rw [objKeys_cons] at h
    have h' := List.nodup_cons.mp h
    by_cases hk : k' = k
    · simp only [objDelete, hk, if_true]
      exact h'.2
    · simp only [objDelete, hk, if_false, objKeys_cons]
      exact List.nodup_cons.mpr ⟨fun hm => h'.1 (mem_objKeys_objDelete k k' rest hm), ih h'.2⟩

theorem objGet_objDelete_ne {α : Type} {k a : Str} (h : k ≠ a) :
    ∀ o : List (Str × α), objGet (objDelete o k) a = objGet o a := by
  intro o
  induction o with
  | nil => rfl
  | cons x rest ih =>
    obtain ⟨k', v'⟩ := x
    by_cases hk : k' = k
    · have hka : ¬ k' = a := fun e => h (hk ▸ e)
      simp only [objDelete, hk, if_true, objGet]
      rw [← hk]
      simp only [hka, if_false]
    · simp only [objDelete, hk, if_false, objGet]
      rw [ih]

theorem objGet_objDelete_same {α : Type} (k : Str) :
    ∀ o : List (Str × α), (objKeys o).Nodup → objGet (objDelete o k) k = none := by
  intro o
  induction o with
  | nil =>
    intro _
    rfl
  | cons x rest ih =>
    obtain ⟨k', v'⟩ := x
    intro h
    rw [objKeys_cons] at h
    have h' := List.nodup_cons.mp h
    by_cases hk : k' = k
    · simp only [objDelete, hk, if_true]
      subst hk
      exact objGet_eq_none_of_not_mem rest k' h'.1
    · simp only [objDelete, hk, if_false, objGet]
      exact ih h'.2

theorem treeNodup_mk (r : Bool) (children : List (Str × Module)) (raw : RawModule) (st : JVal) :
    (Module.mk r children raw st).treeNodup = true ↔
      (objKeys children).Nodup ∧ Module.treeNodupIn children = true := by
  simp [Module.treeNodup]

theorem treeNodup_iff (m : Module) :
    m.treeNodup = true ↔ (objKeys m._children).Nodup ∧ Module.treeNodupIn m._children = true := by
  cases m with
  | mk r children raw st => exact treeNodup_mk r children raw st

theorem treeNodupIn_cons (k : Str) (c : Module) (rest : List (Str × Module)) :
    Module.treeNodupIn ((k, c) :: rest) = true ↔
      c.treeNodup = true ∧ Module.treeNodupIn rest = true := by
  simp [Module.treeNodupIn]

theorem treeNodupIn_get {k : Str} {c : Module} :
    ∀ o : List (Str × Module), Module.treeNodupIn o = true → objGet o k = some c →
      c.treeNodup = true := by
  intro o
  induction o with
  | nil =>
    intro _ h
    cases h
  | cons x rest ih =>
    obtain ⟨k', c'⟩ := x
    intro h hg
    have h' := (treeNodupIn_cons k' c' rest).mp h
    by_cases hk : k' = k
    · simp only [objGet, hk, if_true] at hg
      injection hg with hg
      exact hg ▸ h'.1
    · simp only [objGet, hk, if_false] at hg
      exact ih h'.2 hg

theorem treeNodupIn_objSet (k : Str) (c : Module) (hc : c.treeNodup = true) :
    ∀ o : List (Str × Module), Module.treeNodupIn o = true →
      Module.treeNodupIn (objSet o k c) = true := by
  intro o
  induction o with
  | nil =>
    intro _
    exact (treeNodupIn_cons k c []).mpr ⟨hc, rfl⟩
  | cons x rest ih =>
    obtain ⟨k', c'⟩ := x
    intro h
    have h' := (treeNodupIn_cons k' c' rest).mp h
    by_cases hk : k' = k
    · simp only [objSet, hk, if_true]
      exact (treeNodupIn_cons k c rest).mpr ⟨hc, h'.2⟩
    · simp only [objSet, hk, if_false]
      exact (treeNodupIn_cons k' c' _).mpr ⟨h'.1, ih h'.2⟩

theorem treeNodupIn_objDelete (k : Str) :
    ∀ o : List (Str × Module), Module.treeNodupIn o = true →
      Module.treeNodupIn (objDelete o k) = true := by
  intro o
  induction o with
  | nil =>
    intro h
    exact h
  | cons x rest ih =>
    obtain ⟨k', c'⟩ := x
    intro h
    have h' := (treeNodupIn_cons k' c' rest).mp h
    by_cases hk : k' = k
    · simp only [objDelete, hk, if_true]
      exact h'.2
    · simp only [objDelete, hk, if_false]
      exact (treeNodupIn_cons k' c' _).mpr ⟨h'.1, ih h'.2⟩

theorem treeNodup_getChild {m c : Module} {k : Str} (h : m.treeNodup = true)
    (hc : m.getChild k = some c) : c.treeNodup = true :=
  treeNodupIn_get m._children ((treeNodup_iff m).mp h).2 hc

theorem treeNodup_addChild {m c : Module} (k : Str) (h : m.treeNodup = true)
    (hc : c.treeNodup = true) : (m.addChild k c).treeNodup = true := by
  have h' := (treeNodup_iff m).mp h
  exact (treeNodup_mk _ _ _ _).mpr
    ⟨objKeys_objSet_nodup k c _ h'.1, treeNodupIn_objSet k c hc _ h'.2⟩

theorem treeNodup_removeChild {m : Module} (k : Str) (h : m.treeNodup = true) :
    (m.removeChild k).treeNodup = true := by
  have h' := (treeNodup_iff m).mp h
  exact (treeNodup_mk _ _ _ _).mpr
    ⟨objKeys_objDelete_nodup k _ h'.1, treeNodupIn_objDelete k _ h'.2⟩

theorem treeNodup_update {m : Module} (raw : RawModule) (h : m.treeNodup = true) :
    (m.update raw).treeNodup = true := by
  have h' := (treeNodup_iff m).mp h
  exact (treeNodup_mk _ _ _ _).mpr h'

theorem treeNodup_modifyAt (f : Module → Module)
    (hf : ∀ x : Module, x.treeNodup = true → (f x).treeNodup = true) :
    ∀ (p : List Str) (m : Module), m.treeNodup = true → (m.modifyAt p f).treeNodup = true := by
  intro p
  induction p with
  | nil =>
    intro m h
    exact hf m h
  | cons k rest ih =>
    intro m h
    cases hc : m.getChild k with
    | none =>
      simp only [Module.modifyAt, hc]
      exact h
    | some child =>
      simp only [Module.modifyAt, hc]
      have h' := (treeNodup_iff m).mp h
      exact (treeNodup_mk _ _ _ _).mpr
        ⟨objKeys_objSet_nodup k _ _ h'.1,
          treeNodupIn_objSet k _ (ih child (treeNodup_getChild h hc)) _ h'.2⟩

mutual
theorem buildModule_treeNodup (runtime : Bool) : ∀ raw : RawModule,
    (buildModule runtime raw).treeNodup = true
  | .mk st ns ms as gs modules => by
    rw [buildModule]
    exact (treeNodup_mk _ _ _ _).mpr
      (buildChildren_treeNodup runtime modules [] List.nodup_nil rfl)
theorem buildChildren_treeNodup (runtime : Bool) : ∀ (modules : List (Str × RawModule))
    (acc : List (Str × Module)), (objKeys acc).Nodup → Module.treeNodupIn acc = true →
    (objKeys (buildChildren runtime modules acc)).Nodup ∧
      Module.treeNodupIn (buildChildren runtime modules acc) = true
  | [], acc => by
    intro h1 h2
    rw [buildChildren]
    exact ⟨h1, h2⟩
  | (key, child) :: rest, acc => by
    intro h1 h2
    rw [buildChildren]
    exact buildChildren_treeNodup runtime rest _ (objKeys_objSet_nodup key _ _ h1)
      (treeNodupIn_objSet key _ (buildModule_treeNodup runtime child) _ h2)
end

mutual
theorem update_treeNodup : ∀ (raw : RawModule) (p : List Str) (m : Module),
    m.treeNodup = true → (update p m raw).1.treeNodup = true
  | .mk st ns ms as gs modules => by
    intro p m h
    rw [update]
    exact updateNested_treeNodup modules p _ (treeNodup_update _ h)
theorem updateNested_treeNodup : ∀ (modules : List (Str × RawModule)) (p : List Str)
    (m : Module), m.treeNodup = true → (updateNested p m modules).1.treeNodup = true
  | [] => by
    intro p m h
    rw [updateNested]
    exact h
  | (key, rawChild) :: rest => by
    intro p m h
    rw [updateNested]
    cases hc : m.getChild key with
    | none => exact h
    | some child =>
      exact updateNested_treeNodup rest p _
        (treeNodup_addChild key h (update_treeNodup rawChild _ child (treeNodup_getChild h hc)))
end

theorem hasPath_graft_frame {root : JVal} {pp : List Str} {fields : List (Str × JVal)}
    (k : Str) (v : JVal) (hf : getNestedState root pp = .ok (.obj fields)) {q : List Str}
    (hq : hasPath root q = true) (hne : ∀ c, q ≠ pp ++ k :: c) :
    hasPath (setNestedState root pp (.obj (objSet fields k v))) q = true := by
  refine hasPath_setNestedState _ pp root q hq (fun c hc => ?_)
  subst hc
  have h := hasPath_of_append pp root _ c hq hf
  cases c with
  | nil => rfl
  | cons a c' =>
    have hka : k ≠ a := fun e => hne c' (by rw [e])
    rw [hasPath_cons_obj, objGet_objSet_ne _ _ hka]
    exact h

theorem hasPath_delete_frame {root : JVal} {pp : List Str} {fields : List (Str × JVal)}
    (k : Str) (hf : getNestedState root pp = .ok (.obj fields)) {q : List Str}
    (hq : hasPath root q = true) (hne : ∀ c, q ≠ pp ++ k :: c) :
    hasPath (setNestedState root pp (.obj (objDelete fields k))) q = true := by
  refine hasPath_setNestedState _ pp root q hq (fun c hc => ?_)
  subst hc
  have h := hasPath_of_append pp root _ c hq hf
  cases c with
  | nil => rfl
  | cons a c' =>
    have hka : k ≠ a := fun e => hne c' (by rw [e])
    rw [hasPath_cons_obj, objGet_objDelete_ne hka]
    exact h

theorem hasPath_graft_self {root : JVal} {pp : List Str} {fields : List (Str × JVal)}
    (k : Str) (v : JVal) (hf : getNestedState root pp = .ok (.obj fields)) :
    hasPath (setNestedState root pp (.obj (objSet fields k v))) (pp ++ [k]) = true := by
  have h1 : hasPath (setNestedState root pp (.obj (objSet fields k v))) pp = true := by
    refine hasPath_setNestedState _ pp root pp (hasPath_of_obj pp root fields hf) (fun c hc => ?_)
    have hc' : c = [] := by
      have := congrArg List.length hc
      simp at this
      exact this
    rw [hc']
    rfl
  have h2 := getNestedState_set (.obj (objSet fields k v)) [] pp root fields hf
  rw [List.append_nil] at h2
  refine hasPath_append pp _ _ [k] h1 h2 ?_
  rw [hasPath_cons_obj, objGet_objSet_same]
  exact hasPath_nil v

theorem post_and {α : Type} {m : M α} {s : Store} {Q Q' : α → Store → List Event → Prop}
    (h : Post m s Q) (h' : Post m s Q') : Post m s (fun a s' t => Q a s' t ∧ Q' a s' t) :=
  fun a ha => ⟨h a ha, h' a ha⟩

theorem treeAndState_hasPath (q : List Str) : TreeAndState (fun s => hasPath s.state q = true) :=
  fun _ _ _ h2 h => by
    show hasPath _ q = true
    rw [h2]
    exact h

mutual
theorem installModule_mirror : ∀ (module : Module) (path : List Str) (s : Store),
    module.treeNodup = true →
    Post (installModule path module false) s
      (fun _ s' _ => ∀ c x, getFrom (some module) c = .ok (some x) →
        hasPath s'.state (path ++ c) = true)
  | .mk runtime children raw st, path, s, hn => by
    rw [installModule]
    refine post_bind (post_getStore ?_)
    refine post_bind (post_liftExcept ?_)
    intro ns _
    refine post_bind (post_mono (post_doWhen
      (fun _ => post_of_keeps (keeps_registerNamespace_tree (treeAndState_state s.state) ns path)
        rfl)
      (fun _ => rfl)) ?_)
    intro _ s1 _ e1
    refine post_bind (@post_mono _ _ _ _ (fun _ s2 _ => hasPath s2.state path = true) (post_doWhen
      (fun hc => post_mono (setModuleState_state path st s1) ?_) (fun hc => ?_)) ?_)
    · intro _ s2 _ ⟨fields, hf, e2⟩
      have hne : path ≠ [] := by
        intro hp
        subst hp
        cases hc
      have h := hasPath_graft_self (lastKey path) st hf
      rw [dropLast_append_lastKey hne] at h
      show hasPath s2.state path = true
      rw [e2]
      exact h
    · cases path with
      | nil => exact hasPath_nil _
      | cons a b => cases hc
    intro _ s2 _ e2
    refine post_bind (post_mono (post_of_keeps (keeps_forEach _ (fun kv =>
      keeps_registerMutation_tree (treeAndState_hasPath path) _ _ _)) e2) ?_)
    intro _ s3 _ e3
    refine post_bind (post_mono (post_of_keeps (keeps_forEach _ (fun kv =>
      keeps_registerAction_tree (treeAndState_hasPath path) _ _ _)) e3) ?_)
    intro _ s4 _ e4
    refine post_bind (post_mono (post_of_keeps (keeps_forEach _ (fun kv =>
      keeps_registerGetter_tree (treeAndState_hasPath path) _ _ _)) e4) ?_)
    intro _ s5 _ e5
    have hn' := (treeNodup_mk runtime children raw st).mp hn
    refine post_mono (installChildren_mirror children path s5 hn'.1 hn'.2) ?_
    intro _ s6 _ ⟨hframe, hsub⟩ c x hx
    cases c with
    | nil =>
      rw [List.append_nil]
      refine hframe path e5 (fun k _ c hc => ?_)
      have := congrArg List.length hc
      simp at this
    | cons k c' =>
      obtain ⟨child, hchild, hrest⟩ := getFrom_some_cons hx
      exact hsub k child c' x hchild hrest
theorem installChildren_mirror : ∀ (children : List (Str × Module)) (path : List Str)
    (s : Store), (objKeys children).Nodup → Module.treeNodupIn children = true →
    Post (installChildren path children false) s
      (fun _ s' _ =>
        (∀ q, hasPath s.state q = true → (∀ k ∈ objKeys children, ∀ c, q ≠ path ++ k :: c) →
          hasPath s'.state q = true) ∧
        (∀ k child c x, objGet children k = some child → getFrom (some child) c = .ok (some x) →
          hasPath s'.state (path ++ k :: c) = true))
  | [], path, s, _, _ => by
    rw [installChildren]
    refine post_pure ⟨fun q hq _ => hq, fun k child c x h => ?_⟩
    cases h
  | (k, c) :: rest, path, s, hk, hn => by
    rw [installChildren]
    have hk' : k ∉ objKeys rest ∧ (objKeys rest).Nodup := List.nodup_cons.mp hk
    have hn' := (treeNodupIn_cons k c rest).mp hn
    refine post_bind (post_mono (post_and (installModule_state c (path ++ [k]) s (by simp))
      (installModule_mirror c (path ++ [k]) s hn'.1)) ?_)
    intro _ s1 _ ⟨⟨fields, hf, e1⟩, hm⟩
    rw [(dropLast_concat_key path k).1] at hf e1
    rw [(dropLast_concat_key path k).2] at e1
    refine post_mono (installChildren_mirror rest path s1 hk'.2 hn'.2) ?_
    intro _ s2 _ ⟨hframe, hsub⟩
    refine ⟨fun q hq hne => ?_, fun k' child c' x hchild hx => ?_⟩
    · refine hframe q ?_ (fun k' hk'' c' => hne k' (List.mem_cons_of_mem _ hk'') c')
      rw [e1]
      exact hasPath_graft_frame k _ hf hq (fun c' => hne k (List.mem_cons_self _ _) c')
    · by_cases hkk : k = k'
      · subst hkk
        have hchild' : some c = some child := by
          simpa [objGet] using hchild
        injection hchild' with hchild'
        subst hchild'
        refine hframe _ ?_ (fun k' hk'' c'' he => ?_)
        · have := hm c' x hx
          rw [List.append_assoc] at this
          exact this
        · have he' := List.append_cancel_left he
          injection he' with he1 he2
          exact hk'.1 (he1 ▸ hk'')
      · have hchild' : objGet rest k' = some child := by
          simpa [objGet, hkk] using hchild
        exact hsub k' child c' x hchild' hx
end

theorem getFrom_modifyAt_frame (f : Module → Module) (k : Str)
    (hf : ∀ (y : Module) (a : Str), k ≠ a → (f y).getChild a = y.getChild a) :
    ∀ (p : List Str) (m : Module) (q : List Str), (∀ c, q ≠ p ++ k :: c) →
      (∃ x, getFrom (some (m.modifyAt p f)) q = .ok (some x)) →
      ∃ x, getFrom (some m) q = .ok (some x) := by
  intro p
  induction p with
  | nil =>
    intro m q hq ⟨x, hx⟩
    cases q with
    | nil => exact ⟨m, rfl⟩
    | cons a q' =>
      have hka : k ≠ a := fun e => hq q' (by rw [e]; rfl)
      have h1 : getFrom (some (f m)) (a :: q') = getFrom ((f m).getChild a) q' := rfl
      have h2 : getFrom (some m) (a :: q') = getFrom (m.getChild a) q' := rfl
      have hx' : getFrom (some (f m)) (a :: q') = .ok (some x) := hx
      rw [h1, hf m a hka] at hx'
      exact ⟨x, h2.trans hx'⟩
  | cons b rest ih =>
    intro m q hq ⟨x, hx⟩
    cases hc : m.getChild b with
    | none =>
      simp only [Module.modifyAt, hc] at hx
      exact ⟨x, hx⟩
    | some child =>
      simp only [Module.modifyAt, hc] at hx
      cases q with
      | nil => exact ⟨m, rfl⟩
      | cons a q' =>
        have h2 : getFrom (some m) (a :: q') = getFrom (m.getChild a) q' := rfl
        have h1 : getFrom (some (Module.mk m.runtime
            (objSet m._children b (child.modifyAt rest f)) m._rawModule m.state)) (a :: q') =
            getFrom (objGet (objSet m._children b (child.modifyAt rest f)) a) q' := rfl
        rw [h1] at hx
        by_cases hab : b = a
        · subst hab
          rw [objGet_objSet_same] at hx
          obtain ⟨x', hx'⟩ := ih child q' (fun c hc' => hq c (by rw [hc']; rfl)) ⟨x, hx⟩
          refine ⟨x', ?_⟩
          rw [h2, hc]
          exact hx'
        · rw [objGet_objSet_ne _ _ hab] at hx
          exact ⟨x, h2.trans hx⟩

theorem treeNodup_getFrom : ∀ (p : List Str) (m x : Module), m.treeNodup = true →
    getFrom (some m) p = .ok (some x) → x.treeNodup = true := by
  intro p
  induction p with
  | nil =>
    intro m x h hx
    have hmx : m = x := by
      simpa [getFrom] using hx
    exact hmx ▸ h
  | cons k rest ih =>
    intro m x h hx
    obtain ⟨child, hc, hr⟩ := getFrom_some_cons hx
    exact ih child x (treeNodup_getChild h hc) hr

theorem getFrom_removed {m parent : Module} {pp : List Str} (k : Str)
    (hn : m.treeNodup = true) (hp : getFrom (some m) pp = .ok (some parent)) (c : List Str)
    (x : Module) :
    getFrom (some (m.modifyAt pp (fun y => y.removeChild k))) (pp ++ k :: c) ≠ .ok (some x) := by
  rw [getFrom_modifyAt (fun y => y.removeChild k) (k :: c) pp m parent hp]
  have hpn := (treeNodup_iff parent).mp (treeNodup_getFrom pp m parent hn hp)
  have h1 : getFrom (some (parent.removeChild k)) (k :: c) =
      getFrom (objGet (objDelete parent._children k) k) c := rfl
  rw [h1, objGet_objDelete_same k _ hpn.1]
  cases c with
  | nil =>
    intro h
    simp [getFrom] at h
  | cons a c' =>
    intro h
    simp [getFrom] at h

theorem storeNew_mirrored {options : RawModule} {strict : Bool} {s : Store} {tr : List Event}
    (h : Store.new options strict = .ok (s, tr)) : Mirrored s := by
  obtain ⟨modules, s1, hm, hi, hs⟩ := storeNew_ok h
  have hroot : modules = ⟨buildModule false options⟩ := by
    rw [ModuleCollection.new, register_eq_attach options _ [] false
      (fun hne => absurd rfl hne)] at hm
    injection hm with hm
    rw [← hm]
    rfl
  have hn : modules.root.treeNodup = true := by
    rw [hroot]
    exact buildModule_treeNodup false options
  have hres : (installModule [] modules.root false (Store.initial modules strict)).result =
      .ok () := by
    rw [hi]
  have hmir := installModule_mirror modules.root [] (Store.initial modules strict) hn () hres
  have hmod := installModule_modules [] modules.root false (Store.initial modules strict) hres
  rw [hi] at hmir hmod
  have hmod' : s1._modules = modules := hmod
  subst hs
  refine ⟨fun path m hp => ?_, ?_⟩
  · have hp' : modules.get path = .ok (some m) := by
      rw [← hmod']
      exact hp
    exact hmir path m hp'
  · show s1._modules.root.treeNodup = true
    rw [hmod']
    exact hn

theorem hotUpdate_mirrored (spec : RawModule) (s : Store) (h : Mirrored s) :
    Mirrored (hotUpdate spec s).store := by
  obtain ⟨ht, hst⟩ := hotUpdate_tree_and_state spec s
  refine ⟨fun path m hp => ?_, ?_⟩
  · rw [ht] at hp
    rw [hst]
    have hv := update_view (fun _ => ()) (fun _ _ => rfl) (fun _ _ _ => rfl) spec []
      s._modules.root path
    obtain ⟨m', hm'⟩ := (exists_iff_of_map_eq hv).mp ⟨m, hp⟩
    exact h.1 path m' hm'
  · rw [ht]
    exact update_treeNodup spec [] s._modules.root h.2

theorem treeAndState_mirrored : TreeAndState Mirrored := by
  intro s s' ht hs h
  refine ⟨fun path m hp => ?_, ?_⟩
  · rw [ht] at hp
    rw [hs]
    exact h.1 path m hp
  · rw [ht]
    exact h.2

theorem keeps_resetStore_tree {I : Store → Prop} (hI : TreeAndState I) (hot : Bool) :
    Keeps (resetStore hot) I := by
  unfold resetStore
  refine keeps_bind (keeps_modifyStore (fun s hs => hI s _ rfl rfl hs)) (fun _ => ?_)
  refine keeps_bind (keeps_getStore _) (fun st => ?_)
  refine keeps_bind (keeps_installModule_hot hI _ _) (fun _ => ?_)
  intro s hs
  rw [bind_apply]
  simp only [getStore, resetStoreVM_apply]
  exact hI s _ rfl rfl hs

theorem registerModule_mirrored (s : Store) (hM : Mirrored s) (path : List Str)
    (raw : RawModule) (hok : (registerModule path raw false s).result = .ok ()) :
    Mirrored (registerModule path raw false s).store := by
  obtain ⟨mc', module, hne, hreg, hget, hinst, heq⟩ := registerModule_of_ok hok
  have hp := register_ok_parent hreg
  obtain ⟨parent, hparent⟩ := hp hne
  rw [register_eq_attach raw s._modules path true hp] at hreg
  injection hreg with hreg
  subst hreg
  have hmodule : module = buildModule true raw := by
    have h := get_attach hp (buildModule true raw) []
    rw [List.append_nil, hget] at h
    simp only [getFrom] at h
    injection h with h
    injection h with h
  subst hmodule
  have hmod := installModule_modules path (buildModule true raw) false _ hinst
  obtain ⟨fields, hf, e⟩ := installModule_state (buildModule true raw) path
    (s.setModules (s._modules.attach path (buildModule true raw))) hne () hinst
  have hf' : getNestedState s.state path.dropLast = .ok (.obj fields) := hf
  have hmir := installModule_mirror (buildModule true raw) path
    (s.setModules (s._modules.attach path (buildModule true raw)))
    (buildModule_treeNodup true raw) () hinst
  have hpath := dropLast_append_lastKey hne
  rw [heq]
  refine ⟨fun q m hq => ?_, ?_⟩
  · have hq' : (s._modules.attach path (buildModule true raw)).get q = .ok (some m) := by
      have hq0 : ModuleCollection.get (installModule path (buildModule true raw) false
          (s.setModules (s._modules.attach path (buildModule true raw)))).store._modules q =
          .ok (some m) := hq
      rw [hmod] at hq0
      exact hq0
    show hasPath (installModule path (buildModule true raw) false
      (s.setModules (s._modules.attach path (buildModule true raw)))).store.state q = true
    by_cases hex : ∃ c, q = path ++ c
    · obtain ⟨c, hc⟩ := hex
      subst hc
      rw [get_attach hp] at hq'
      exact hmir c m hq'
    · have hneq : ∀ c, q ≠ path.dropLast ++ lastKey path :: c := by
        intro c hc
        refine hex ⟨c, ?_⟩
        rw [hc, ← hpath, List.append_assoc, List.singleton_append, hpath]
      have hq2 : getFrom (some (s._modules.root.modifyAt path.dropLast
          (fun y => y.addChild (lastKey path) (buildModule true raw)))) q = .ok (some m) := by
        simpa only [ModuleCollection.attach, hne, if_false, ModuleCollection.get] using hq'
      obtain ⟨m', hm'⟩ := getFrom_modifyAt_frame
        (fun y => y.addChild (lastKey path) (buildModule true raw)) (lastKey path)
        (fun y a hka => getChild_addChild_ne y _ hka) path.dropLast s._modules.root q hneq
        ⟨m, hq2⟩
      rw [e]
      exact hasPath_graft_frame (lastKey path) _ hf' (hM.1 q m' hm') hneq
  · show (installModule path (buildModule true raw) false
      (s.setModules (s._modules.attach path (buildModule true raw)))).store._modules.root.treeNodup
        = true
    rw [hmod]
    show (s._modules.attach path (buildModule true raw)).root.treeNodup = true
    simp only [ModuleCollection.attach, hne, if_false]
    exact treeNodup_modifyAt _
      (fun x hx => treeNodup_addChild _ hx (buildModule_treeNodup true raw)) _ _ hM.2

theorem deleteState_state {s : Store} {parentPath : List Str} {fields : List (Str × JVal)}
    (key : Str) (hf : getNestedState s.state parentPath = .ok (.obj fields)) :
    Post (deleteState parentPath key) s (fun _ s' _ =>
      s' = s.setState (setNestedState s.state parentPath (.obj (objDelete fields key)))) := by
  rw [deleteState]
  refine post_bind (post_getStore ?_)
  refine post_bind (post_liftExcept ?_)
  intro v hv
  rw [hf] at hv
  injection hv with hv
  subst hv
  exact post_modifyStore rfl

theorem unregister_runtime {mc : ModuleCollection} {path : List Str} {m : Module}
    (hne : path ≠ []) (hget : mc.get path = .ok (some m)) (hrt : m.runtime = true) :
    ∃ parent, mc.get path.dropLast = .ok (some parent) ∧
      mc.unregister path =
        .ok (⟨mc.root.modifyAt path.dropLast (fun y => y.removeChild (lastKey path))⟩, []) := by
  have hpath := dropLast_append_lastKey hne
  rw [← hpath] at hget
  obtain ⟨parent, hparent, hchild⟩ := getFrom_concat_some hget
  refine ⟨parent, hparent, ?_⟩
  have hparent' : mc.get path.dropLast = .ok (some parent) := hparent
  simp only [ModuleCollection.unregister, hparent', hchild, hrt]
  rfl

theorem unregisterModule_mirrored (s : Store) (hM : Mirrored s) (path : List Str) (m : Module)
    (hget : s._modules.get path = .ok (some m)) (hrt : m.runtime = true) (hne : path ≠ []) :
    Post (unregisterModule path) s (fun _ s' _ => Mirrored s') := by
  obtain ⟨parent, hparent, hu⟩ := unregister_runtime hne hget hrt
  have hpath := dropLast_append_lastKey hne
  obtain ⟨fields, sub, hf⟩ : ∃ fields, ∃ sub : JVal,
      getNestedState s.state path.dropLast = .ok (.obj fields) := by
    have h := hM.1 path m hget
    rw [← hpath] at h
    obtain ⟨v, hv⟩ := getNestedState_of_hasPath _ _ (hM.1 path.dropLast parent hparent)
    have h2 := hasPath_of_append path.dropLast s.state v [lastKey path] h hv
    obtain ⟨fields, sub, hr, _, _⟩ := hasPath_cons h2
    subst hr
    exact ⟨fields, sub, hv⟩
  have hnew : ∀ s' : Store,
      s'._modules = ⟨s._modules.root.modifyAt path.dropLast
        (fun y => y.removeChild (lastKey path))⟩ →
      s'.state = setNestedState s.state path.dropLast (.obj (objDelete fields (lastKey path))) →
      Mirrored s' := by
    intro s' ht hs
    refine ⟨fun q x hq => ?_, ?_⟩
    · rw [ht] at hq
      have hq' : getFrom (some (s._modules.root.modifyAt path.dropLast
          (fun y => y.removeChild (lastKey path)))) q = .ok (some x) := hq
      have hneq : ∀ c, q ≠ path.dropLast ++ lastKey path :: c := by
        intro c hc
        rw [hc] at hq'
        exact getFrom_removed (lastKey path) hM.2 hparent c x hq'
      obtain ⟨m', hm'⟩ := getFrom_modifyAt_frame (fun y => y.removeChild (lastKey path))
        (lastKey path) (fun y a hka => objGet_objDelete_ne hka _) path.dropLast s._modules.root
        q hneq ⟨x, hq'⟩
      rw [hs]
      exact hasPath_delete_frame (lastKey path) hf (hM.1 q m' hm') hneq
    · rw [ht]
      exact treeNodup_modifyAt _ (fun x hx => treeNodup_removeChild _ hx) _ _ hM.2
  unfold unregisterModule
  refine post_bind (post_getStore ?_)
  refine post_bind (post_liftExcept ?_)
  intro r hr
  rw [hu] at hr
  injection hr with hr
  subst hr
  refine post_bind (post_modifyStore ?_)
  refine post_bind (post_pure ?_)
  refine post_bind (post_withCommit (post_mono (deleteState_state (lastKey path) hf) ?_))
  · intro _ s3 _ e3
    exact post_of_keeps (keeps_resetStore_tree treeAndState_mirrored false)
      (hnew _ (by rw [e3]; rfl) (by rw [e3]; rfl))

theorem keeps_forEach_mem {α : Type} (l : List α) {f : α → M Unit} {I : Store → Prop}
    (h : ∀ a ∈ l, Keeps (f a) I) : Keeps (forEach l f) I := by
  induction l with
  | nil => exact keeps_pure _ I
  | cons a rest ih =>
    rw [forEach]
    exact keeps_bind (h a (List.mem_cons_self _ _))
      (fun _ => ih (fun b hb => h b (List.mem_cons_of_mem _ hb)))

theorem keeps_mutation_call_mirror (mc : ModuleCollection) (w : WrappedMutation) (p : JVal)
    (hk : KeepsSlots mc w p) :
    Keeps (w.call p) (fun s => Mirrored s ∧ s._modules = mc) := by
  intro s ⟨hM, ht⟩
  cases hl : getNestedState s.state w.localCtx.path with
  | error e =>
    rw [mutation_call_of_error p hl]
    exact ⟨hM, ht⟩
  | ok l =>
    rw [mutation_call_of_ok p hl]
    refine ⟨⟨fun q x hq => ?_, hM.2⟩, ht⟩
    have hq' : s._modules.get q = .ok (some x) := hq
    refine hasPath_setNestedState _ _ _ q (hM.1 q x hq') (fun c hc => ?_)
    subst hc
    rw [ht] at hq'
    exact hk l c x hq' (hasPath_of_append _ _ l c (hM.1 _ x hq) hl)

theorem commit_mirrored (s : Store) (hM : Mirrored s) (t : Str) (p : JVal)
    (o : Option Options)
    (hk : ∀ entry, objGet s._mutations t = some entry →
      ∀ w ∈ entry, KeepsSlots s._modules w p) :
    Mirrored (commit t p o s).store := by
  have hI : TreeAndState (fun s' => Mirrored s' ∧ s'._modules = s._modules) := by
    intro a b h1 h2 h
    exact ⟨treeAndState_mirrored a b h1 h2 h.1, h1.trans h.2⟩
  cases he : objGet s._mutations t with
  | none =>
    have hs : (commit t p o s).store = s := by
      simp only [commit, bind_apply, getStore, he, warn]
      rfl
    rw [hs]
    exact hM
  | some entry =>
    rw [commit_of_some p o he]
    have hkeeps : Keeps (_withCommit (forEach entry (fun handler => handler.call p)) >>= fun _ =>
        (getStore >>= fun st => forEach st._subscribers (fun sub => sub.call ⟨t, p⟩)) >>=
          fun _ =>
          (match o with
           | some o => if __DEV__ && o.silent then emit (.diag (.silentRemoved t)) else pure ()
           | none => pure ())) (fun s' => Mirrored s' ∧ s'._modules = s._modules) := by
      refine keeps_bind (keeps_withCommit (fun a b h => hI a _ rfl rfl h)
        (keeps_forEach_mem entry (fun w hw =>
          keeps_mutation_call_mirror s._modules w p (hk entry he w hw)))) (fun _ => ?_)
      refine keeps_bind (keeps_bind (keeps_getStore _) (fun st => keeps_forEach _ (fun sub => ?_)))
        (fun _ => ?_)
      · intro a ha
        obtain ⟨subs, h⟩ := subscriber_call_apply sub ⟨t, p⟩ a
        rw [h]
        exact hI a _ rfl rfl ha
      · split
        · split
          · exact keeps_emit _ _
          · exact keeps_pure _ _
        · exact keeps_pure _ _
    exact (hkeeps s ⟨hM, rfl⟩).1

theorem replaceState_mirrored (s : Store) (hM : Mirrored s) (state : JVal)
    (hs : ∀ path m, s._modules.get path = .ok (some m) → hasPath state path = true) :
    Mirrored (replaceState state s).store := by
  have h : replaceState state s =
      ⟨.ok (), ((s.setCommitting true).setState state).setCommitting s._committing, []⟩ :=
    withCommit_of_ok rfl
  rw [h]
  exact ⟨fun path m hp => hs path m hp, hM.2⟩

theorem mirrorReachable_mirrored {s : Store} (h : MirrorReachable s) : Mirrored s := by
  induction h with
  | new hnew => exact storeNew_mirrored hnew
  | commit type payload options _ hk ih => exact commit_mirrored _ ih type payload options hk
  | registerModule path rawModule _ hok ih => exact registerModule_mirrored _ ih path rawModule hok
  | unregisterModule path m _ hget hrt hne hok ih =>
    exact unregisterModule_mirrored _ ih path m hget hrt hne () hok
  | hotUpdate newOptions _ ih => exact hotUpdate_mirrored newOptions _ ih
  | replaceState state _ hs ih => exact replaceState_mirrored _ ih state hs

/-! ## Update with specification objects held by reference -/

theorem objGet_viewChildren (specs : Nat → RawModule) (k : Str) :
    ∀ ch : List (Str × ByRef.Module),
      objGet (ByRef.viewChildren specs ch) k = (objGet ch k).map (fun c => c.view specs) := by
  intro ch
  induction ch with
  | nil => rfl
  | cons x rest ih =>
    obtain ⟨k', c⟩ := x
    rw [ByRef.viewChildren]
    by_cases hk : k' = k
    · simp [objGet, hk]
    · simp only [objGet, hk, if_false]
      exact ih

theorem view_mk (specs : Nat → RawModule) (r : Bool) (ch : List (Str × ByRef.Module))
    (a : Nat) (st : JVal) :
    (ByRef.Module.mk r ch a st).view specs =
      Module.mk r (ByRef.viewChildren specs ch) (specs a) st := by
  rw [ByRef.Module.view]

theorem view_getChild (specs : Nat → RawModule) (t : ByRef.Module) (k : Str) :
    (t.view specs).getChild k = (t.getChild k).map (fun c => c.view specs) := by
  cases t with
  | mk r ch a st =>
    rw [view_mk]
    exact objGet_viewChildren specs k ch

theorem addresses_mk (r : Bool) (ch : List (Str × ByRef.Module)) (a : Nat) (st : JVal) :
    (ByRef.Module.mk r ch a st).addresses = a :: ByRef.addressesIn ch := by
  rw [ByRef.Module.addresses]

theorem addressesIn_cons (k : Str) (c : ByRef.Module) (rest : List (Str × ByRef.Module)) :
    ByRef.addressesIn ((k, c) :: rest) = c.addresses ++ ByRef.addressesIn rest := by
  rw [ByRef.addressesIn]

theorem addressesIn_of_objGet {k : Str} {c : ByRef.Module} :
    ∀ ch : List (Str × ByRef.Module), objGet ch k = some c →
      ∀ a ∈ c.addresses, a ∈ ByRef.addressesIn ch := by
  intro ch
  induction ch with
  | nil =>
    intro h
    cases h
  | cons x rest ih =>
    obtain ⟨k', c'⟩ := x
    intro h a ha
    rw [addressesIn_cons]
    by_cases hk : k' = k
    · have hc : c' = c := by
        simpa [objGet, hk] using h
      exact List.mem_append_left _ (hc ▸ ha)
    · have h' : objGet rest k = some c := by
        simpa [objGet, hk] using h
      exact List.mem_append_right _ (ih h' a ha)

theorem addresses_of_getChild {t c : ByRef.Module} {k : Str} (h : t.getChild k = some c) :
    ∀ a ∈ c.addresses, a ∈ t.addresses := by
  cases t with
  | mk r ch x st =>
    intro a ha
    rw [addresses_mk]
    exact List.mem_cons_of_mem _ (addressesIn_of_objGet ch h a ha)

theorem nodup_of_objGet {k : Str} {c : ByRef.Module} :
    ∀ ch : List (Str × ByRef.Module), (ByRef.addressesIn ch).Nodup → objGet ch k = some c →
      c.addresses.Nodup := by
  intro ch
  induction ch with
  | nil =>
    intro _ h
    cases h
  | cons x rest ih =>
    obtain ⟨k', c'⟩ := x
    intro hn h
    rw [addressesIn_cons] at hn
    by_cases hk : k' = k
    · have hc : c' = c := by
        simpa [objGet, hk] using h
      exact hc ▸ (List.nodup_append.mp hn).1
    · have h' : objGet rest k = some c := by
        simpa [objGet, hk] using h
      exact ih (List.nodup_append.mp hn).2.1 h'

theorem nodup_of_getChild {t c : ByRef.Module} {k : Str} (hn : t.addresses.Nodup)
    (h : t.getChild k = some c) : c.addresses.Nodup := by
  cases t with
  | mk r ch x st =>
    rw [addresses_mk] at hn
    exact nodup_of_objGet ch (List.nodup_cons.mp hn).2 h

mutual
theorem view_congr (s1 s2 : Nat → RawModule) : ∀ t : ByRef.Module,
    (∀ a ∈ t.addresses, s1 a = s2 a) → t.view s1 = t.view s2
  | .mk r ch a st => by
    intro h
    rw [view_mk, view_mk, h a (by rw [addresses_mk]; exact List.mem_cons_self _ _),
      viewChildren_congr s1 s2 ch
        (fun b hb => h b (by rw [addresses_mk]; exact List.mem_cons_of_mem _ hb))]
theorem viewChildren_congr (s1 s2 : Nat → RawModule) : ∀ ch : List (Str × ByRef.Module),
    (∀ a ∈ ByRef.addressesIn ch, s1 a = s2 a) →
    ByRef.viewChildren s1 ch = ByRef.viewChildren s2 ch
  | [] => by
    intro _
    rfl
  | (k, c) :: rest => by
    intro h
    rw [ByRef.viewChildren, ByRef.viewChildren,
      view_congr s1 s2 c
        (fun a ha => h a (by rw [addressesIn_cons]; exact List.mem_append_left _ ha)),
      viewChildren_congr s1 s2 rest
        (fun a ha => h a (by rw [addressesIn_cons]; exact List.mem_append_right _ ha))]
end

theorem byRef_update_apply (m : ByRef.Module) (raw : RawModule) (specs : Nat → RawModule)
    (a : Nat) (h : a ≠ m._rawModule) : m.update raw specs a = specs a := by
  simp [ByRef.Module.update, h]

mutual
theorem byRef_update_frame : ∀ (raw : RawModule) (p : List Str) (t : ByRef.Module)
    (specs : Nat → RawModule) (a : Nat), a ∉ t.addresses →
    (ByRef.update p t raw specs).1 a = specs a
  | .mk st ns ms as gs modules, p, t, specs, a, ha => by
    rw [ByRef.update, byRef_updateNested_frame modules p t _ a ha]
    refine byRef_update_apply t _ specs a ?_
    intro e
    apply ha
    cases t with
    | mk r ch x st =>
      rw [addresses_mk]
      exact e ▸ List.mem_cons_self _ _
theorem byRef_updateNested_frame : ∀ (modules : List (Str × RawModule)) (p : List Str)
    (t : ByRef.Module) (specs : Nat → RawModule) (a : Nat), a ∉ t.addresses →
    (ByRef.updateNested p t modules specs).1 a = specs a
  | [], p, t, specs, a, ha => by
    rw [ByRef.updateNested]
  | (key, rawChild) :: rest, p, t, specs, a, ha => by
    rw [ByRef.updateNested]
    cases hc : t.getChild key with
    | none => rfl
    | some child =>
      show (ByRef.updateNested p t rest (ByRef.update (p ++ [key]) child rawChild specs).1).1 a =
        specs a
      rw [byRef_updateNested_frame rest p t _ a ha]
      exact byRef_update_frame rawChild _ child specs a
        (fun hm => ha (addresses_of_getChild hc a hm))
end

theorem viewChildren_objSet (s1 s2 : Nat → RawModule) (k : Str) (child : ByRef.Module)
    (hs : ∀ a, a ∉ child.addresses → s2 a = s1 a) :
    ∀ ch : List (Str × ByRef.Module), (ByRef.addressesIn ch).Nodup → objGet ch k = some child →
      ByRef.viewChildren s2 ch = objSet (ByRef.viewChildren s1 ch) k (child.view s2) := by
  intro ch
  induction ch with
  | nil =>
    intro _ h
    cases h
  | cons x rest ih =>
    obtain ⟨k', c'⟩ := x
    intro hn h
    rw [addressesIn_cons] at hn
    have hn' := List.nodup_append.mp hn
    rw [ByRef.viewChildren, ByRef.viewChildren]
    by_cases hk : k' = k
    · have hc : c' = child := by
        simpa [objGet, hk] using h
      subst hc
      subst hk
      simp only [objSet, if_true]
      rw [viewChildren_congr s2 s1 rest (fun a ha => hs a (fun hm => hn'.2.2 hm ha))]
    · have h' : objGet rest k = some child := by
        simpa [objGet, hk] using h
      simp only [objSet, hk, if_false]
      rw [ih hn'.2.1 h', view_congr s2 s1 c'
        (fun a ha => hs a (fun hm => hn'.2.2 ha (addressesIn_of_objGet rest h' a hm)))]

theorem view_addChild (s1 s2 : Nat → RawModule) (t child : ByRef.Module) (k : Str)
    (hn : t.addresses.Nodup) (hc : t.getChild k = some child)
    (hs : ∀ a, a ∉ child.addresses → s2 a = s1 a) :
    t.view s2 = (t.view s1).addChild k (child.view s2) := by
  cases t with
  | mk r ch x st =>
    rw [addresses_mk] at hn
    have hn' := List.nodup_cons.mp hn
    have hx : s2 x = s1 x :=
      hs x (fun hm => hn'.1 (addressesIn_of_objGet ch hc x hm))
    rw [view_mk, view_mk, hx, viewChildren_objSet s1 s2 k child hs ch hn'.2 hc]
    rfl

theorem view_update (specs : Nat → RawModule) (t : ByRef.Module) (raw : RawModule)
    (hn : t.addresses.Nodup) :
    t.view (t.update raw specs) = (t.view specs).update raw := by
  cases t with
  | mk r ch x st =>
    rw [addresses_mk] at hn
    have hn' := List.nodup_cons.mp hn
    have hch : ByRef.viewChildren ((ByRef.Module.mk r ch x st).update raw specs) ch =
        ByRef.viewChildren specs ch :=
      viewChildren_congr _ _ ch (fun a ha =>
        byRef_update_apply _ raw specs a (fun e => hn'.1 (by
          have e' : a = x := e
          exact e' ▸ ha)))
    rw [view_mk, view_mk, hch]
    simp [ByRef.Module.update, Module.update, ByRef.Module._rawModule, Module.runtime,
      Module._children, Module._rawModule, Module.state]

mutual
/-- On a tree in which no two modules hold the same specification
object, the update by reference reads as the update of the modules'
own copies. -/
theorem byRef_update_view : ∀ (raw : RawModule) (p : List Str) (t : ByRef.Module)
    (specs : Nat → RawModule), t.addresses.Nodup →
    t.view (ByRef.update p t raw specs).1 = (update p (t.view specs) raw).1
  | .mk st ns ms as gs modules, p, t, specs, hn => by
    rw [ByRef.update, update, byRef_updateNested_view modules p t _ hn, view_update specs t _ hn]
theorem byRef_updateNested_view : ∀ (modules : List (Str × RawModule)) (p : List Str)
    (t : ByRef.Module) (specs : Nat → RawModule), t.addresses.Nodup →
    t.view (ByRef.updateNested p t modules specs).1 = (updateNested p (t.view specs) modules).1
  | [], p, t, specs, hn => by
    rw [ByRef.updateNested, updateNested]
  | (key, rawChild) :: rest, p, t, specs, hn => by
    rw [ByRef.updateNested]
    cases hc : t.getChild key with
    | none =>
      have hv : (t.view specs).getChild key = none := by
        rw [view_getChild, hc]
        rfl
      rw [updateNested_cons_none rest hv]
    | some child =>
      have hv : (t.view specs).getChild key = some (child.view specs) := by
        rw [view_getChild, hc]
        rfl
      rw [updateNested_cons_some rest hv]
      show t.view (ByRef.updateNested p t rest
        (ByRef.update (p ++ [key]) child rawChild specs).1).1 = _
      rw [byRef_updateNested_view rest p t _ hn,
        view_addChild specs (ByRef.update (p ++ [key]) child rawChild specs).1 t child key hn hc
          (fun a ha => byRef_update_frame rawChild _ child specs a ha),
        byRef_update_view rawChild _ child specs (nodup_of_getChild hn hc)]
end

theorem byRef_update_eq (m : ByRef.Module) (raw : RawModule) (specs : Nat → RawModule)
    (a : Nat) :
    m.update raw specs a = if a = m._rawModule then (specs a).assigned raw else specs a := rfl

theorem filter_foldl_cons (specs : Nat → RawModule) (a : Nat) (w : Nat × RawModule)
    (ws : List (Nat × RawModule)) :
    ((w :: ws).filter (fun x => decide (x.1 = a))).foldl
        (fun r x => r.assigned x.2) (specs a) =
      (ws.filter (fun x => decide (x.1 = a))).foldl (fun r x => r.assigned x.2)
        (if a = w.1 then (specs a).assigned w.2 else specs a) := by
  obtain ⟨x, y⟩ := w
  by_cases h : x = a
  · subst h
    simp only [List.filter_cons, decide_True, if_true, List.foldl_cons]
  · have h' : ¬ a = x := fun e => h e.symm
    simp only [List.filter_cons, h, h', decide_False, if_false, Bool.false_eq_true]

mutual
/-- After the walk every specification object is what the calls of
`Module.update` on the modules holding it made of it, in walk order. -/
theorem byRef_update_writes : ∀ (raw : RawModule) (p : List Str) (t : ByRef.Module)
    (specs : Nat → RawModule) (a : Nat),
    (ByRef.update p t raw specs).1 a =
      ((ByRef.writes t raw).filter (fun x => decide (x.1 = a))).foldl
        (fun r x => r.assigned x.2) (specs a)
  | .mk st ns ms as gs modules, p, t, specs, a => by
    rw [ByRef.update, ByRef.writes, byRef_updateNested_writes modules p t _ a,
      filter_foldl_cons specs a _ _, byRef_update_eq]
theorem byRef_updateNested_writes : ∀ (modules : List (Str × RawModule)) (p : List Str)
    (t : ByRef.Module) (specs : Nat → RawModule) (a : Nat),
    (ByRef.updateNested p t modules specs).1 a =
      ((ByRef.writesNested t modules).filter (fun x => decide (x.1 = a))).foldl
        (fun r x => r.assigned x.2) (specs a)
  | [], p, t, specs, a => by
    rw [ByRef.updateNested, ByRef.writesNested]
    rfl
  | (key, rawChild) :: rest, p, t, specs, a => by
    rw [ByRef.updateNested, ByRef.writesNested]
    cases hc : t.getChild key with
    | none => rfl
    | some child =>
      show (ByRef.updateNested p t rest (ByRef.update (p ++ [key]) child rawChild specs).1).1 a =
        _
      rw [byRef_updateNested_writes rest p t _ a, byRef_update_writes rawChild _ child specs a]
      simp only [List.filter_append, List.foldl_append]
end

theorem byRef_update_unwritten (raw : RawModule) (p : List Str) (t : ByRef.Module)
    (specs : Nat → RawModule) (a : Nat) (h : a ∉ (ByRef.writes t raw).map (fun x => x.1)) :
    (ByRef.update p t raw specs).1 a = specs a := by
  rw [byRef_update_writes]
  have hf : (ByRef.writes t raw).filter (fun x => decide (x.1 = a)) = [] := by
    rw [List.filter_eq_nil_iff]
    intro x hx hd
    exact h (List.mem_map.mpr ⟨x, hx, of_decide_eq_true hd⟩)
  rw [hf]
  rfl

theorem byRef_getFrom_cons (m : ByRef.Module) (k : Str) (rest : List Str) :
    ByRef.getFrom (some m) (k :: rest) = ByRef.getFrom (m.getChild k) rest := rfl

theorem names_nil_true (raw : RawModule) : raw.names [] = true := by
  cases raw
  rfl

mutual
theorem writes_named : ∀ (raw : RawModule) (t : ByRef.Module) (w : Nat × RawModule),
    w ∈ ByRef.writes t raw →
    ∃ q m, raw.names q = true ∧ ByRef.getFrom (some t) q = .ok (some m) ∧ m._rawModule = w.1
  | .mk st ns ms as gs modules, t, w, hw => by
    rw [ByRef.writes] at hw
    rcases List.mem_cons.mp hw with h | h
    · exact ⟨[], t, rfl, rfl, by rw [h]⟩
    · obtain ⟨k, q, m, h1, h2, h3⟩ := writesNested_named modules t w h
      refine ⟨k :: q, m, ?_, ?_, h3⟩
      · rw [RawModule.names]
        exact h1
      · exact h2
theorem writesNested_named : ∀ (modules : List (Str × RawModule)) (t : ByRef.Module)
    (w : Nat × RawModule), w ∈ ByRef.writesNested t modules →
    ∃ k q m, RawModule.namesIn modules k q = true ∧
      ByRef.getFrom (t.getChild k) q = .ok (some m) ∧ m._rawModule = w.1
  | [], t, w, hw => by
    rw [ByRef.writesNested] at hw
    cases hw
  | (key, rawChild) :: rest, t, w, hw => by
    rw [ByRef.writesNested] at hw
    cases hc : t.getChild key with
    | none =>
      rw [hc] at hw
      cases hw
    | some child =>
      rw [hc] at hw
      rcases List.mem_append.mp hw with h | h
      · obtain ⟨q, m, h1, h2, h3⟩ := writes_named rawChild child w h
        refine ⟨key, q, m, ?_, ?_, h3⟩
        · rw [RawModule.namesIn]
          simp [h1]
        · rw [hc]
          exact h2
      · obtain ⟨k, q, m, h1, h2, h3⟩ := writesNested_named rest t w h
        refine ⟨k, q, m, ?_, h2, h3⟩
        rw [RawModule.namesIn]
        simp [h1]
end

theorem view_shape {β : Type} (g : Module → β) (s1 s2 : Nat → RawModule)
    (hg : ∀ t : ByRef.Module, g (t.view s1) = g (t.view s2)) :
    ∀ (path : List Str) (t : ByRef.Module),
      (getFrom (some (t.view s1)) path).map (Option.map g) =
        (getFrom (some (t.view s2)) path).map (Option.map g) := by
  intro path
  induction path with
  | nil =>
    intro t
    simp [getFrom, Except.map, hg t]
  | cons k rest ih =>
    intro t
    rw [getFrom_cons_some, getFrom_cons_some, view_getChild, view_getChild]
    cases hc : t.getChild k with
    | none =>
      cases rest <;> rfl
    | some child => exact ih child

theorem view_get (specs : Nat → RawModule) : ∀ (path : List Str) (t : ByRef.Module),
    getFrom (some (t.view specs)) path =
      (ByRef.getFrom (some t) path).map (Option.map (fun m => m.view specs)) := by
  intro path
  induction path with
  | nil =>
    intro t
    rfl
  | cons k rest ih =>
    intro t
    rw [getFrom_cons_some, byRef_getFrom_cons, view_getChild]
    cases hc : t.getChild k with
    | none =>
      cases rest <;> rfl
    | some child => exact ih child

theorem view_rawModule (specs : Nat → RawModule) (t : ByRef.Module) :
    (t.view specs)._rawModule = specs t._rawModule := by
  cases t
  rw [view_mk]
  rfl

theorem view_kept (s1 s2 : Nat → RawModule) (t : ByRef.Module) :
    (t.view s1).kept = (t.view s2).kept := by
  cases t
  rw [view_mk, view_mk]
  rfl

theorem byRef_view_get (mc : ByRef.ModuleCollection) (specs : Nat → RawModule)
    (path : List Str) :
    (mc.view specs).get path = (mc.get path).map (Option.map (fun m => m.view specs)) :=
  view_get specs path mc.root

theorem byRef_collection_view (mc : ByRef.ModuleCollection) (spec : RawModule)
    (specs : Nat → RawModule) (h : mc.Unshared) :
    mc.view (mc.update spec specs).1 = ((mc.view specs).update spec).1 := by
  show (⟨mc.root.view (ByRef.update [] mc.root spec specs).1⟩ : ModuleCollection) = _
  rw [byRef_update_view spec [] mc.root specs h]
  rfl

theorem unsharedTree_unshared : unsharedTree.Unshared := by
  have h : unsharedTree.root.addresses = [0, 1, 2] := rfl
  show unsharedTree.root.addresses.Nodup
  rw [h]
  decide

/-- C18 (as amended): `update(spec)` adds no module and removes none: the
tree is not changed, at every path it holds a module after the update
exactly when it did before, with the same `runtime` flag and the same
state, also when `spec` names a child key that is not registered.  The
assignments go into the specification objects that the modules at paths
named by `spec` hold: a module whose specification object is held by no
module at a path that `spec` names keeps its handler maps and its
`namespaced` flag; and in a tree in which no two modules hold the same
specification object, at every path that `spec` does not name the tree
reads after the update exactly as it did before. -/
theorem update_by_reference_nondestructive (mc : ByRef.ModuleCollection) (spec : RawModule)
    (specs : Nat → RawModule) :
    (∀ path, ((mc.view (mc.update spec specs).1).get path).map (Option.map Module.kept) =
      ((mc.view specs).get path).map (Option.map Module.kept)) ∧
    (∀ path, (∃ m, (mc.view (mc.update spec specs).1).get path = .ok (some m)) ↔
      ∃ m, (mc.view specs).get path = .ok (some m)) ∧
    (∀ path m, mc.get path = .ok (some m) →
      (∀ q m', spec.names q = true → mc.get q = .ok (some m') →
        m'._rawModule ≠ m._rawModule) →
      (mc.view (mc.update spec specs).1).get path =
        .ok (some (m.view (mc.update spec specs).1)) ∧
      (mc.view specs).get path = .ok (some (m.view specs)) ∧
      (m.view (mc.update spec specs).1)._rawModule = (m.view specs)._rawModule ∧
      (m.view (mc.update spec specs).1).namespaced = (m.view specs).namespaced) ∧
    (mc.Unshared → ∀ path, spec.names path = false →
      (mc.view (mc.update spec specs).1).get path = (mc.view specs).get path) := by
  refine ⟨fun path => ?_, fun path => ?_, fun path m hm hq => ?_, fun hu path hn => ?_⟩
  · exact view_shape Module.kept _ _ (fun t => view_kept _ _ t) path mc.root
  · exact exists_iff_of_map_eq
      (view_shape (fun _ => ()) _ _ (fun _ => rfl) path mc.root)
  · have hw : m._rawModule ∉ (ByRef.writes mc.root spec).map (fun x => x.1) := by
      intro hmem
      obtain ⟨w, hw1, hw2⟩ := List.mem_map.mp hmem
      obtain ⟨q, m', h1, h2, h3⟩ := writes_named spec mc.root w hw1
      exact hq q m' h1 h2 (h3.trans hw2)
    have hs : (mc.update spec specs).1 m._rawModule = specs m._rawModule :=
      byRef_update_unwritten spec [] mc.root specs _ hw
    have hr : (m.view (mc.update spec specs).1)._rawModule = (m.view specs)._rawModule := by
      rw [view_rawModule, view_rawModule, hs]
    refine ⟨?_, ?_, hr, ?_⟩
    · rw [byRef_view_get, hm]
      rfl
    · rw [byRef_view_get, hm]
      rfl
    · rw [Module.namespaced, Module.namespaced, hr]
  · rw [byRef_collection_view mc spec specs hu]
    exact update_frame spec [] (mc.root.view specs) path hn

theorem update_by_reference_nondestructive_witness :
    unsharedTree.Unshared ∧
    updateOfA.names ["b".toList] = false ∧
    ((unsharedTree.view exampleSpecs).get ["b".toList]).map
      (Option.map (fun m => (m.namespaced, m._rawModule.mutations.map objKeys))) =
        .ok (some (true, some ["m".toList])) ∧
    (unsharedTree.view (unsharedTree.update updateOfA exampleSpecs).1).get ["b".toList] =
      (unsharedTree.view exampleSpecs).get ["b".toList] ∧
    ((unsharedTree.view (unsharedTree.update updateOfA exampleSpecs).1).get ["a".toList]).map
      (Option.map (fun m => (m.namespaced, m._rawModule.mutations.map objKeys))) =
        .ok (some (false, some ["m2".toList])) :=
  ⟨unsharedTree_unshared, rfl, rfl,
    (update_by_reference_nondestructive unsharedTree updateOfA exampleSpecs).2.2.2
      unsharedTree_unshared ["b".toList] rfl,
    rfl⟩

/-- C18 (as stated) fails: in `sharedTree` the modules `a` and `b` hold
the same specification object; `updateOfA` names `a` and does not name
`b`, and after the update `b` is not namespaced any more and its
transitions are those of the new specification of `a`. -/
theorem update_shared_spec_counterexample :
    (sharedTree.get ["a".toList]).map (Option.map ByRef.Module._rawModule) = .ok (some 1) ∧
    (sharedTree.get ["b".toList]).map (Option.map ByRef.Module._rawModule) = .ok (some 1) ∧
    updateOfA.names ["a".toList] = true ∧
    updateOfA.names ["b".toList] = false ∧
    ((sharedTree.view exampleSpecs).get ["b".toList]).map
      (Option.map (fun m => (m.namespaced, m._rawModule.mutations.map objKeys))) =
        .ok (some (true, some ["m".toList])) ∧
    ((sharedTree.view (sharedTree.update updateOfA exampleSpecs).1).get ["b".toList]).map
      (Option.map (fun m => (m.namespaced, m._rawModule.mutations.map objKeys))) =
        .ok (some (false, some ["m2".toList])) ∧
    (sharedTree.update updateOfA exampleSpecs).2 = [] :=
  ⟨rfl, rfl, rfl, rfl, rfl, rfl, rfl⟩

/-- C19 (as amended): after `update(spec)` every specification object is
what the calls of `Module.update` on the modules that hold it made of it,
in the order of the walk, each call assigning the flag of its node and the
handler maps the node supplies.  So in a tree in which no two modules hold
the same specification object, when the keys of every nested `modules` map
of `spec` are distinct and the walk reaches `path` with the specification
node `node` (no key enumerated before the keys of the path, at any level
along it, names a module that is not registered), then `node` is the node
of `spec` at `path`, a module is registered at `path` before and after the
update, and afterwards its `namespaced` flag is that of `node`, each
handler map that `node` supplies is the module's map, and each handler map
that `node` does not supply is the map the module had. -/
theorem update_by_reference_redefines (mc : ByRef.ModuleCollection) (spec : RawModule)
    (specs : Nat → RawModule) :
    (∀ a, (mc.update spec specs).1 a =
      ((ByRef.writes mc.root spec).filter (fun x => decide (x.1 = a))).foldl
        (fun r x => r.assigned x.2) (specs a)) ∧
    (mc.Unshared → spec.keysDistinct = true → ∀ path node,
      visited (mc.view specs).root spec path = some node →
      spec.nodeAt path = some node ∧
      ∃ old new, (mc.view specs).get path = .ok (some old) ∧
        (mc.view (mc.update spec specs).1).get path = .ok (some new) ∧
        Redefined old new node) := by
  refine ⟨fun a => byRef_update_writes spec [] mc.root specs a, fun hu hd path node hv => ?_⟩
  refine ⟨visited_nodeAt path _ spec node hv, ?_⟩
  rw [byRef_collection_view mc spec specs hu]
  exact update_visited path spec (mc.view specs).root [] node hd hv

theorem update_by_reference_redefines_witness :
    unsharedTree.Unshared ∧
    updateOfBoth.keysDistinct = true ∧
    visited (unsharedTree.view exampleSpecs).root updateOfBoth ["a".toList] =
      some (.mk .absent false (some [("m2".toList, keepState)]) none none []) ∧
    ((unsharedTree.view exampleSpecs).get ["a".toList]).map (Option.map Module.namespaced) =
      .ok (some true) ∧
    (∃ old new, (unsharedTree.view exampleSpecs).get ["a".toList] = .ok (some old) ∧
      (unsharedTree.view (unsharedTree.update updateOfBoth exampleSpecs).1).get ["a".toList] =
        .ok (some new) ∧
      new.namespaced = false ∧
      new._rawModule.mutations = some [("m2".toList, keepState)] ∧
      new._rawModule.actions = old._rawModule.actions) ∧
    ((unsharedTree.view (unsharedTree.update updateOfBoth exampleSpecs).1).get
      ["b".toList]).map
      (Option.map (fun m => (m.namespaced, m._rawModule.mutations.map objKeys))) =
        .ok (some (true, some ["m".toList])) := by
  refine ⟨unsharedTree_unshared, rfl, rfl, rfl, ?_, rfl⟩
  obtain ⟨_, old, new, h1, h2, h3⟩ :=
    (update_by_reference_redefines unsharedTree updateOfBoth exampleSpecs).2
      unsharedTree_unshared rfl
      ["a".toList] _ rfl
  exact ⟨old, new, h1, h2, h3.namespaced, h3.mutations _ rfl, h3.actionsKept rfl⟩

/-- C19 (as stated) fails.  `updateAfterUnknown` names the module `a`,
which is registered, after a key that is not; the loop of `update` returns
at that key, and `a` keeps its flag and its transitions.  Where the walk
arrives, a handler map that the node does not supply is not replaced:
after `update(updateOfBoth)` on `unsharedTree` the module `b` still has its
transition `m`.  And in `sharedTree`, where `a` and `b` hold the same
specification object, `update(updateOfBoth)` reaches both: `a` ends
namespaced although its node says it is not, and `b` ends with the
transitions of the node of `a` although its own node supplies none. -/
theorem update_by_reference_counterexample :
    (updateAfterUnknown.nodeAt ["a".toList]).map
      (fun n => (n.namespaced, n.mutations.map objKeys)) = some (false, some ["m2".toList]) ∧
    ((unsharedTree.view exampleSpecs).get ["a".toList]).map (Option.map (fun _ => ())) =
      .ok (some ()) ∧
    ((unsharedTree.view (unsharedTree.update updateAfterUnknown exampleSpecs).1).get
      ["a".toList]).map
      (Option.map (fun m => (m.namespaced, m._rawModule.mutations.map objKeys))) =
        .ok (some (true, some ["m".toList])) ∧
    (unsharedTree.update updateAfterUnknown exampleSpecs).2 =
      [.hotReloadNewModule "zz".toList] ∧
    (updateOfBoth.nodeAt ["b".toList]).map (fun n => n.mutations.map objKeys) = some none ∧
    ((unsharedTree.view (unsharedTree.update updateOfBoth exampleSpecs).1).get
      ["b".toList]).map (Option.map (fun m => m._rawModule.mutations.map objKeys)) =
        .ok (some (some ["m".toList])) ∧
    (updateOfBoth.nodeAt ["a".toList]).map RawModule.namespaced = some false ∧
    ((sharedTree.view (sharedTree.update updateOfBoth exampleSpecs).1).get ["a".toList]).map
      (Option.map Module.namespaced) = .ok (some true) ∧
    ((sharedTree.view exampleSpecs).get ["b".toList]).map
      (Option.map (fun m => m._rawModule.mutations.map objKeys)) =
        .ok (some (some ["m".toList])) ∧
    ((sharedTree.view (sharedTree.update updateOfBoth exampleSpecs).1).get ["b".toList]).map
      (Option.map (fun m => m._rawModule.mutations.map objKeys)) =
        .ok (some (some ["m2".toList])) :=
  ⟨rfl, rfl, rfl, rfl, rfl, rfl, rfl, rfl, rfl, rfl⟩

/-! ## State objects with identity: the state of a module sits at its path -/

theorem live_setNestedState_nil (root v : SVal) : Live.setNestedState root [] v = v := by
  cases root <;> rfl

theorem live_slotAt_nil (v : SVal) : Live.slotAt v [] = some v.slot := by
  cases v <;> rfl

theorem live_slotAt_cons_obj (id : Option Nat) (fields : List (Str × SVal)) (k : Str)
    (rest : List Str) :
    Live.slotAt (.obj id fields) (k :: rest) =
      match objGet fields k with
      | some sub => Live.slotAt sub rest
      | none => none := rfl

theorem live_slotAt_cons {root : SVal} {k : Str} {rest : List Str} {x : Slot}
    (h : Live.slotAt root (k :: rest) = some x) :
    ∃ id fields sub, root = .obj id fields ∧ objGet fields k = some sub ∧
      Live.slotAt sub rest = some x := by
  cases root with
  | obj id fields =>
    rw [live_slotAt_cons_obj] at h
    cases hs : objGet fields k with
    | some sub =>
      rw [hs] at h
      exact ⟨id, fields, sub, rfl, hs, h⟩
    | none =>
      rw [hs] at h
      cases h
  | undefined => cases h
  | null => cases h
  | bool b => cases h
  | num n => cases h
  | str s => cases h

theorem live_getNestedState_cons_obj (id : Option Nat) (fields : List (Str × SVal)) (k : Str)
    (rest : List Str) :
    Live.getNestedState (.obj id fields) (k :: rest) =
      Live.getNestedState ((objGet fields k).getD .undefined) rest := rfl

theorem live_slot_obj (id : Option Nat) (f g : List (Str × SVal)) :
    (SVal.obj id f).slot = (SVal.obj id g).slot := by
  cases id <;> rfl

theorem live_slot_set (root : SVal) (b : Str) (rest : List Str) (v : SVal) :
    (Live.setNestedState root (b :: rest) v).slot = root.slot := by
  cases root with
  | obj id fields =>
    cases hb : objGet fields b with
    | none => simp only [Live.setNestedState, hb]
    | some sub =>
      simp only [Live.setNestedState, hb]
      exact live_slot_obj id _ _
  | undefined => rfl
  | null => rfl
  | bool b => rfl
  | num n => rfl
  | str s => rfl

/-- Mutating in place the value at `p` keeps what the state holds at `q`,
when the new value holds the same wherever `q` runs through `p`. -/
theorem live_slotAt_set (v : SVal) (x : Slot) : ∀ (p : List Str) (root : SVal) (q : List Str),
    Live.slotAt root q = some x → (∀ c, q = p ++ c → Live.slotAt v c = some x) →
    Live.slotAt (Live.setNestedState root p v) q = some x := by
  intro p
  induction p with
  | nil =>
    intro root q _ hc
    rw [live_setNestedState_nil]
    exact hc q rfl
  | cons b rest ih =>
    intro root q h hc
    cases q with
    | nil =>
      rw [live_slotAt_nil] at h ⊢
      rw [live_slot_set]
      exact h
    | cons a q' =>
      obtain ⟨id, fields, sub, hr, hs, hsub⟩ := live_slotAt_cons h
      subst hr
      cases hb : objGet fields b with
      | none =>
        simp only [Live.setNestedState, hb]
        exact h
      | some subb =>
        simp only [Live.setNestedState, hb]
        rw [live_slotAt_cons_obj]
        by_cases hab : b = a
        · subst hab
          rw [objGet_objSet_same]
          rw [hs] at hb
          injection hb with hb
          subst hb
          exact ih sub q' hsub (fun c hq => hc c (by rw [hq]; rfl))
        · rw [objGet_objSet_ne _ _ hab, hs]
          exact hsub

theorem live_slotAt_of_append : ∀ (p : List Str) (root v : SVal) (c : List Str) (x : Slot),
    Live.slotAt root (p ++ c) = some x → Live.getNestedState root p = .ok v →
    Live.slotAt v c = some x := by
  intro p
  induction p with
  | nil =>
    intro root v c x h hg
    simp only [Live.getNestedState] at hg
    injection hg with hg
    subst hg
    exact h
  | cons k rest ih =>
    intro root v c x h hg
    obtain ⟨id, fields, sub, hr, hs, hsub⟩ := live_slotAt_cons h
    subst hr
    rw [live_getNestedState_cons_obj, hs] at hg
    exact ih sub v c x hsub hg

theorem live_slotAt_append : ∀ (p : List Str) (root v : SVal) (y : Slot),
    Live.slotAt root p = some y → Live.getNestedState root p = .ok v →
    ∀ c, Live.slotAt root (p ++ c) = Live.slotAt v c := by
  intro p
  induction p with
  | nil =>
    intro root v y _ hg c
    simp only [Live.getNestedState] at hg
    injection hg with hg
    subst hg
    rfl
  | cons k rest ih =>
    intro root v y h hg c
    obtain ⟨id, fields, sub, hr, hs, hsub⟩ := live_slotAt_cons h
    subst hr
    rw [live_getNestedState_cons_obj, hs] at hg
    show Live.slotAt (.obj id fields) (k :: (rest ++ c)) = _
    rw [live_slotAt_cons_obj, hs]
    exact ih sub v y hsub hg c

theorem live_getNestedState_obj_present : ∀ (p : List Str) (root : SVal) (k : Str)
    (id : Option Nat) (f : List (Str × SVal)),
    Live.getNestedState root (k :: p) = .ok (.obj id f) →
    ∃ rid fields sub, root = .obj rid fields ∧ objGet fields k = some sub ∧
      Live.getNestedState sub p = .ok (.obj id f) := by
  intro p root k id f h
  cases root with
  | obj rid fields =>
    rw [live_getNestedState_cons_obj] at h
    cases hs : objGet fields k with
    | some sub =>
      rw [hs] at h
      exact ⟨rid, fields, sub, rfl, hs, h⟩
    | none =>
      rw [hs] at h
      cases p <;> simp [Live.getNestedState, SVal.getProp] at h
  | undefined => simp [Live.getNestedState, SVal.getProp] at h
  | null => simp [Live.getNestedState, SVal.getProp] at h
  | bool b => cases p <;> simp [Live.getNestedState, SVal.getProp] at h
  | num n => cases p <;> simp [Live.getNestedState, SVal.getProp] at h
  | str s => cases p <;> simp [Live.getNestedState, SVal.getProp] at h

theorem live_slotAt_of_obj : ∀ (p : List Str) (root : SVal) (id : Option Nat)
    (f : List (Str × SVal)), Live.getNestedState root p = .ok (.obj id f) →
    Live.slotAt root p = some (SVal.obj id f).slot := by
  intro p
  induction p with
  | nil =>
    intro root id f h
    simp only [Live.getNestedState] at h
    injection h with h
    subst h
    exact live_slotAt_nil _
  | cons k rest ih =>
    intro root id f h
    obtain ⟨rid, fields, sub, hr, hs, hsub⟩ := live_getNestedState_obj_present rest root k id f h
    subst hr
    rw [live_slotAt_cons_obj, hs]
    exact ih sub id f hsub

theorem live_getNestedState_of_slotAt : ∀ (p : List Str) (root : SVal) (x : Slot),
    Live.slotAt root p = some x → ∃ v, Live.getNestedState root p = .ok v ∧ v.slot = x := by
  intro p
  induction p with
  | nil =>
    intro root x h
    rw [live_slotAt_nil] at h
    injection h with h
    exact ⟨root, rfl, h⟩
  | cons k rest ih =>
    intro root x h
    obtain ⟨id, fields, sub, hr, hs, hsub⟩ := live_slotAt_cons h
    subst hr
    obtain ⟨v, hv, hx⟩ := ih sub x hsub
    refine ⟨v, ?_, hx⟩
    rw [live_getNestedState_cons_obj, hs]
    exact hv

theorem live_getNestedState_set (v : SVal) (q : List Str) : ∀ (p : List Str) (root : SVal)
    (id : Option Nat) (f : List (Str × SVal)), Live.getNestedState root p = .ok (.obj id f) →
    Live.getNestedState (Live.setNestedState root p v) (p ++ q) = Live.getNestedState v q := by
  intro p
  induction p with
  | nil =>
    intro root id f _
    rw [live_setNestedState_nil]
    rfl
  | cons k rest ih =>
    intro root id f h
    obtain ⟨rid, fields, sub, hr, hs, hsub⟩ := live_getNestedState_obj_present rest root k id f h
    subst hr
    simp only [Live.setNestedState, hs, List.cons_append]
    rw [live_getNestedState_cons_obj, objGet_objSet_same]
    exact ih sub id f hsub

theorem live_graft_frame {root : SVal} {pp : List Str} {id : Option Nat}
    {fields : List (Str × SVal)} (k : Str) (v : SVal)
    (hf : Live.getNestedState root pp = .ok (.obj id fields)) {q : List Str} {x : Slot}
    (hq : Live.slotAt root q = some x) (hne : ∀ c, q ≠ pp ++ k :: c) :
    Live.slotAt (Live.setNestedState root pp (.obj id (objSet fields k v))) q = some x := by
  refine live_slotAt_set _ x pp root q hq (fun c hc => ?_)
  subst hc
  have h := live_slotAt_of_append pp root _ c x hq hf
  cases c with
  | nil =>
    rw [live_slotAt_nil] at h ⊢
    rw [← h]
    exact congrArg some (live_slot_obj id _ _)
  | cons a c' =>
    have hka : k ≠ a := fun e => hne c' (by rw [e])
    rw [live_slotAt_cons_obj, objGet_objSet_ne _ _ hka]
    exact h

theorem live_delete_frame {root : SVal} {pp : List Str} {id : Option Nat}
    {fields : List (Str × SVal)} (k : Str)
    (hf : Live.getNestedState root pp = .ok (.obj id fields)) {q : List Str} {x : Slot}
    (hq : Live.slotAt root q = some x) (hne : ∀ c, q ≠ pp ++ k :: c) :
    Live.slotAt (Live.setNestedState root pp (.obj id (objDelete fields k))) q = some x := by
  refine live_slotAt_set _ x pp root q hq (fun c hc => ?_)
  subst hc
  have h := live_slotAt_of_append pp root _ c x hq hf
  cases c with
  | nil =>
    rw [live_slotAt_nil] at h ⊢
    rw [← h]
    exact congrArg some (live_slot_obj id _ _)
  | cons a c' =>
    have hka : k ≠ a := fun e => hne c' (by rw [e])
    rw [live_slotAt_cons_obj, objGet_objDelete_ne hka]
    exact h

theorem live_graft_self {root : SVal} {pp : List Str} {id : Option Nat}
    {fields : List (Str × SVal)} (k : Str) (v : SVal)
    (hf : Live.getNestedState root pp = .ok (.obj id fields)) (c : List Str) :
    Live.slotAt (Live.setNestedState root pp (.obj id (objSet fields k v))) (pp ++ k :: c) =
      Live.slotAt v c := by
  have h1 : Live.slotAt (Live.setNestedState root pp (.obj id (objSet fields k v))) pp =
      some (SVal.obj id fields).slot := by
    refine live_slotAt_set _ _ pp root pp (live_slotAt_of_obj pp root id fields hf)
      (fun c hc => ?_)
    have hc' : c = [] := by
      have := congrArg List.length hc
      simp at this
      exact this
    rw [hc', live_slotAt_nil]
    exact congrArg some (live_slot_obj id _ _)
  have h2 := live_getNestedState_set (.obj id (objSet fields k v)) [] pp root id fields hf
  rw [List.append_nil] at h2
  rw [live_slotAt_append pp _ _ _ h1 h2 (k :: c), live_slotAt_cons_obj, objGet_objSet_same]

mutual
theorem live_stamp_frame : ∀ (module : Module) (path : List Str)
    (x : (List Str → Slot) × Nat) (q : List Str), (∀ c, q ≠ path ++ c) →
    (Live.stamp path module x).1 q = x.1 q
  | .mk r children raw st, path, x, q, h => by
    rw [Live.stamp, live_stampChildren_frame children path _ q (fun k c => h (k :: c))]
    have hq : q ≠ path := fun e => h [] (by rw [List.append_nil]; exact e)
    simp only [hq, if_false]
theorem live_stampChildren_frame : ∀ (children : List (Str × Module)) (path : List Str)
    (x : (List Str → Slot) × Nat) (q : List Str), (∀ k c, q ≠ path ++ k :: c) →
    (Live.stampChildren path children x).1 q = x.1 q
  | [], path, x, q, h => by
    rw [Live.stampChildren]
  | (k, c) :: rest, path, x, q, h => by
    rw [Live.stampChildren, live_stampChildren_frame rest path _ q h]
    refine live_stamp_frame c (path ++ [k]) x q (fun c' e => h k c' ?_)
    rw [e, List.append_assoc]
    rfl
end

theorem live_stampChildren_other : ∀ (children : List (Str × Module)) (path : List Str)
    (x : (List Str → Slot) × Nat) (q : List Str),
    (∀ k, k ∈ objKeys children → ∀ c, q ≠ path ++ k :: c) →
    (Live.stampChildren path children x).1 q = x.1 q := by
  intro children
  induction children with
  | nil =>
    intro path x q _
    rw [Live.stampChildren]
  | cons kc rest ih =>
    obtain ⟨k, c⟩ := kc
    intro path x q h
    rw [Live.stampChildren, ih path _ q (fun k' hk' => h k' (List.mem_cons_of_mem _ hk'))]
    refine live_stamp_frame c (path ++ [k]) x q (fun c' e => h k (List.mem_cons_self _ _) c' ?_)
    rw [e, List.append_assoc]
    rfl

mutual
theorem live_stamp_registered : ∀ (module : Module) (path : List Str)
    (x : (List Str → Slot) × Nat), module.treeNodup = true →
    ∀ c m', getFrom (some module) c = .ok (some m') →
      ∃ id, (Live.stamp path module x).1 (path ++ c) = Live.stateSlot m'.state id
  | .mk r children raw st, path, x, hn, c, m', hm => by
    have hn' := (treeNodup_mk r children raw st).mp hn
    rw [Live.stamp]
    cases c with
    | nil =>
      have hmm : Module.mk r children raw st = m' := by
        simpa [getFrom] using hm
      subst hmm
      rw [List.append_nil, live_stampChildren_frame children path _ path
        (fun k c e => by
          have := congrArg List.length e
          simp at this)]
      exact ⟨x.2, by simp [Module.state]⟩
    | cons k c' =>
      obtain ⟨child, hc, hr⟩ := getFrom_some_cons hm
      exact live_stampChildren_registered children path _ hn'.1 hn'.2 k child c' m' hc hr
theorem live_stampChildren_registered : ∀ (children : List (Str × Module)) (path : List Str)
    (x : (List Str → Slot) × Nat), (objKeys children).Nodup →
    Module.treeNodupIn children = true →
    ∀ k child c m', objGet children k = some child → getFrom (some child) c = .ok (some m') →
      ∃ id, (Live.stampChildren path children x).1 (path ++ k :: c) = Live.stateSlot m'.state id
  | [], path, x, _, _, k, child, c, m', hc, _ => by
    cases hc
  | (k1, c1) :: rest, path, x, hk, hn, k, child, c, m', hc, hm => by
    have hk' : k1 ∉ objKeys rest ∧ (objKeys rest).Nodup := List.nodup_cons.mp hk
    have hn' := (treeNodupIn_cons k1 c1 rest).mp hn
    rw [Live.stampChildren]
    by_cases hkk : k1 = k
    · subst hkk
      have hcc : c1 = child := by
        simpa [objGet] using hc
      subst hcc
      obtain ⟨id, hid⟩ := live_stamp_registered c1 (path ++ [k1]) x hn'.1 c m' hm
      refine ⟨id, ?_⟩
      rw [live_stampChildren_other rest path _ (path ++ k1 :: c) (fun k' hk'' c'' e => ?_)]
      · rw [← hid, List.append_assoc]
        rfl
      · have e' := List.append_cancel_left e
        injection e' with e1 _
        exact hk'.1 (e1 ▸ hk'')
    · have hc' : objGet rest k = some child := by
        simpa [objGet, hkk] using hc
      exact live_stampChildren_registered rest path _ hk'.2 hn'.2 k child c m' hc' hm
end

theorem live_moduleState_slot (st : JVal) (id : Nat) :
    (Live.moduleState (Live.stateSlot st id) st).slot = Live.stateSlot st id := by
  cases st <;> rfl

theorem live_graftState_ok {parentPath : List Str} {k : Str} {v : SVal} {s s1 : Live.Store}
    (h : Live.graftState parentPath k v s = .ok s1) :
    ∃ id fields, Live.getNestedState s.state parentPath = .ok (.obj id fields) ∧
      s1 = { s with
        state := Live.setNestedState s.state parentPath (.obj id (objSet fields k v)) } := by
  unfold Live.graftState at h
  split at h
  · next id fields heq =>
    injection h with h
    exact ⟨id, fields, heq, h.symm⟩
  · cases h

mutual
theorem live_install_keeps : ∀ (module : Module) (path : List Str) (hot : Bool)
    (s s' : Live.Store), Live.installModule path module hot s = .ok s' →
    s'.stateOf = s.stateOf ∧ s'._modules = s._modules ∧ s'.next = s.next ∧
      (hot = true → s'.state = s.state)
  | .mk r children raw st, path, hot, s, s', h => by
    rw [Live.installModule] at h
    cases hns : s._modules.getNamespace path with
    | error e =>
      rw [hns] at h
      cases h
    | ok ns =>
      rw [hns] at h
      simp only at h
      by_cases hc : (!(path.length == 0) && !hot) = true
      · rw [if_pos hc] at h
        cases hg : Live.graftState path.dropLast (lastKey path)
            (Live.moduleState (s.stateOf path) st) s with
        | error e =>
          rw [hg] at h
          cases h
        | ok s1 =>
          rw [hg] at h
          simp only at h
          obtain ⟨id, fields, _, e1⟩ := live_graftState_ok hg
          obtain ⟨h1, h2, h3, h4⟩ := live_installChildren_keeps children path hot _ s' h
          subst e1
          refine ⟨h1, h2, h3, fun hh => ?_⟩
          subst hh
          simp at hc
      · rw [if_neg hc] at h
        simp only at h
        have hk := live_installChildren_keeps children path hot _ s' h
        exact hk
theorem live_installChildren_keeps : ∀ (children : List (Str × Module)) (path : List Str)
    (hot : Bool) (s s' : Live.Store), Live.installChildren path children hot s = .ok s' →
    s'.stateOf = s.stateOf ∧ s'._modules = s._modules ∧ s'.next = s.next ∧
      (hot = true → s'.state = s.state)
  | [], path, hot, s, s', h => by
    rw [Live.installChildren] at h
    injection h with h
    subst h
    exact ⟨rfl, rfl, rfl, fun _ => rfl⟩
  | (k, c) :: rest, path, hot, s, s', h => by
    rw [Live.installChildren] at h
    cases hi : Live.installModule (path ++ [k]) c hot s with
    | error e =>
      rw [hi] at h
      cases h
    | ok s1 =>
      rw [hi] at h
      simp only at h
      obtain ⟨a1, a2, a3, a4⟩ := live_install_keeps c (path ++ [k]) hot s s1 hi
      obtain ⟨b1, b2, b3, b4⟩ := live_installChildren_keeps rest path hot s1 s' h
      exact ⟨b1.trans a1, b2.trans a2, b3.trans a3, fun hh => (b4 hh).trans (a4 hh)⟩
end

mutual
theorem live_installModule_mirror : ∀ (module : Module) (path : List Str)
    (s s' : Live.Store), module.treeNodup = true →
    (∀ c m', getFrom (some module) c = .ok (some m') →
      ∃ id, s.stateOf (path ++ c) = Live.stateSlot m'.state id) →
    (path = [] → Live.slotAt s.state [] = some (s.stateOf [])) →
    Live.installModule path module false s = .ok s' →
    (∀ q x, Live.slotAt s.state q = some x → (∀ c, q ≠ path ++ c) →
      Live.slotAt s'.state q = some x) ∧
    (∀ c m', getFrom (some module) c = .ok (some m') →
      Live.slotAt s'.state (path ++ c) = some (s.stateOf (path ++ c)))
  | .mk r children raw st, path, s, s', hn, hcompat, hroot, h => by
    have hn' := (treeNodup_mk r children raw st).mp hn
    rw [Live.installModule] at h
    cases hns : s._modules.getNamespace path with
    | error e =>
      rw [hns] at h
      cases h
    | ok ns =>
      rw [hns] at h
      simp only at h
      have hchildren : ∀ (s2 : Live.Store), s2.stateOf = s.stateOf →
          ∀ k child c m', objGet children k = some child →
          getFrom (some child) c = .ok (some m') →
          ∃ id, s2.stateOf (path ++ k :: c) = Live.stateSlot m'.state id := by
        intro s2 e2 k child c m' hc hm
        rw [e2]
        refine hcompat (k :: c) m' ?_
        rw [getFrom_cons_some]
        have hg : (Module.mk r children raw st).getChild k = some child := hc
        rw [hg]
        exact hm
      by_cases hp : path = []
      · subst hp
        have hc : ¬ (!(([] : List Str).length == 0) && !false) = true := by simp
        rw [if_neg hc] at h
        simp only at h
        obtain ⟨hframe, hsub⟩ := live_installChildren_mirror children []
          ⟨s._modules, Live.registerMutations ns [] (Module.mk r children raw st).mutations
            s._mutations, s.state, s.stateOf, s.next⟩ s' hn'.1 hn'.2
          (hchildren _ rfl) h
        refine ⟨fun q x _ hq => absurd rfl (hq q), fun c m' hm => ?_⟩
        cases c with
        | nil =>
          exact hframe [] _ (hroot rfl) (fun k _ c e => by
            have := congrArg List.length e
            simp at this)
        | cons k c' =>
          obtain ⟨child, hchild, hrest⟩ := getFrom_some_cons hm
          exact hsub k child c' m' hchild hrest
      · have hc : (!(path.length == 0) && !false) = true := by
          cases path with
          | nil => exact absurd rfl hp
          | cons a b => rfl
        rw [if_pos hc] at h
        cases hg : Live.graftState path.dropLast (lastKey path)
            (Live.moduleState (s.stateOf path) st) s with
        | error e =>
          rw [hg] at h
          cases h
        | ok s1 =>
          rw [hg] at h
          simp only at h
          obtain ⟨id, fields, hf, e1⟩ := live_graftState_ok hg
          have hpath := dropLast_append_lastKey hp
          have hs1 : s1.stateOf = s.stateOf := by rw [e1]
          have hst1 : s1.state = Live.setNestedState s.state path.dropLast
              (.obj id (objSet fields (lastKey path) (Live.moduleState (s.stateOf path) st))) := by
            rw [e1]
          obtain ⟨hframe, hsub⟩ := live_installChildren_mirror children path
            ⟨s1._modules, Live.registerMutations ns path (Module.mk r children raw st).mutations
              s1._mutations, s1.state, s1.stateOf, s1.next⟩ s' hn'.1 hn'.2
            (hchildren _ hs1) h
          have hself : Live.slotAt s1.state path = some (s.stateOf path) := by
            have hg2 := live_graft_self (lastKey path) (Live.moduleState (s.stateOf path) st)
              hf []
            rw [← List.singleton_append, ← List.append_assoc, hpath, List.append_nil] at hg2
            rw [hst1, hg2, live_slotAt_nil]
            obtain ⟨i, hi⟩ := hcompat [] (Module.mk r children raw st) rfl
            rw [List.append_nil] at hi
            rw [hi]
            exact congrArg some (live_moduleState_slot st i)
          have hnoext : ∀ k c, path ≠ path ++ k :: c := by
            intro k c e
            have := congrArg List.length e
            simp at this
          refine ⟨fun q x hq hne => ?_, fun c m' hm => ?_⟩
          · refine hframe q x ?_ (fun k _ c => hne (k :: c))
            show Live.slotAt s1.state q = some x
            rw [hst1]
            refine live_graft_frame (lastKey path) _ hf hq (fun c e => hne c ?_)
            rw [e, ← List.singleton_append, ← List.append_assoc, hpath]
          · cases c with
            | nil =>
              rw [List.append_nil]
              exact hframe path _ hself (fun k _ c => hnoext k c)
            | cons k c' =>
              obtain ⟨child, hchild, hrest⟩ := getFrom_some_cons hm
              have := hsub k child c' m' hchild hrest
              rw [this]
              show some (s1.stateOf (path ++ k :: c')) = _
              rw [hs1]
theorem live_installChildren_mirror : ∀ (children : List (Str × Module)) (path : List Str)
    (s s' : Live.Store), (objKeys children).Nodup → Module.treeNodupIn children = true →
    (∀ k child c m', objGet children k = some child →
      getFrom (some child) c = .ok (some m') →
      ∃ id, s.stateOf (path ++ k :: c) = Live.stateSlot m'.state id) →
    Live.installChildren path children false s = .ok s' →
    (∀ q x, Live.slotAt s.state q = some x →
      (∀ k ∈ objKeys children, ∀ c, q ≠ path ++ k :: c) → Live.slotAt s'.state q = some x) ∧
    (∀ k child c m', objGet children k = some child →
      getFrom (some child) c = .ok (some m') →
      Live.slotAt s'.state (path ++ k :: c) = some (s.stateOf (path ++ k :: c)))
  | [], path, s, s', _, _, _, h => by
    rw [Live.installChildren] at h
    injection h with h
    subst h
    refine ⟨fun q x hq _ => hq, fun k child c m' hc => ?_⟩
    cases hc
  | (k, c) :: rest, path, s, s', hk, hn, hcompat, h => by
    have hk' : k ∉ objKeys rest ∧ (objKeys rest).Nodup := List.nodup_cons.mp hk
    have hn' := (treeNodupIn_cons k c rest).mp hn
    rw [Live.installChildren] at h
    cases hi : Live.installModule (path ++ [k]) c false s with
    | error e =>
      rw [hi] at h
      cases h
    | ok s1 =>
      rw [hi] at h
      simp only at h
      have hkeep := live_install_keeps c (path ++ [k]) false s s1 hi
      have hcompat1 : ∀ c' m', getFrom (some c) c' = .ok (some m') →
          ∃ id, s.stateOf ((path ++ [k]) ++ c') = Live.stateSlot m'.state id := by
        intro c' m' hm
        rw [List.append_assoc]
        exact hcompat k c c' m' (by simp [objGet]) hm
      obtain ⟨hf1, hs1⟩ := live_installModule_mirror c (path ++ [k]) s s1 hn'.1 hcompat1
        (fun e => by simp at e) hi
      have hcompat2 : ∀ k' child c' m', objGet rest k' = some child →
          getFrom (some child) c' = .ok (some m') →
          ∃ id, s1.stateOf (path ++ k' :: c') = Live.stateSlot m'.state id := by
        intro k' child c' m' hc hm
        rw [hkeep.1]
        refine hcompat k' child c' m' ?_ hm
        have hkk : ¬ k = k' := fun e => hk'.1 (e ▸ mem_keys_of_objGet hc)
        simpa [objGet, hkk] using hc
      obtain ⟨hf2, hs2⟩ := live_installChildren_mirror rest path s1 s' hk'.2 hn'.2 hcompat2 h
      refine ⟨fun q x hq hne => ?_, fun k' child c' m' hchild hm => ?_⟩
      · refine hf2 q x ?_ (fun k' hk'' c' => hne k' (List.mem_cons_of_mem _ hk'') c')
        refine hf1 q x hq (fun c' e => hne k (List.mem_cons_self _ _) c' ?_)
        rw [e, List.append_assoc]
        rfl
      · by_cases hkk : k = k'
        · subst hkk
          have hchild' : c = child := by
            simpa [objGet] using hchild
          subst hchild'
          refine hf2 _ _ ?_ (fun k' hk'' c'' e => ?_)
          · have := hs1 c' m' hm
            rw [List.append_assoc] at this
            exact this
          · have e' := List.append_cancel_left e
            injection e' with e1 _
            exact hk'.1 (e1 ▸ hk'')
        · have hchild' : objGet rest k' = some child := by
            simpa [objGet, hkk] using hchild
          have := hs2 k' child c' m' hchild' hm
          rw [this, hkeep.1]
end

theorem getFrom_modifyAt_frame_state (f : Module → Module) (k : Str)
    (hf : ∀ (y : Module) (a : Str), k ≠ a → (f y).getChild a = y.getChild a)
    (hs : ∀ y : Module, (f y).state = y.state) :
    ∀ (p : List Str) (m : Module) (q : List Str) (x : Module), (∀ c, q ≠ p ++ k :: c) →
      getFrom (some (m.modifyAt p f)) q = .ok (some x) →
      ∃ x', getFrom (some m) q = .ok (some x') ∧ x'.state = x.state := by
  intro p
  induction p with
  | nil =>
    intro m q x hq hx
    cases q with
    | nil =>
      have hmx : f m = x := by
        simpa [getFrom, Module.modifyAt] using hx
      exact ⟨m, rfl, by rw [← hmx, hs]⟩
    | cons a q' =>
      have hka : k ≠ a := fun e => hq q' (by rw [e]; rfl)
      have h1 : getFrom (some (f m)) (a :: q') = getFrom ((f m).getChild a) q' := rfl
      have h2 : getFrom (some m) (a :: q') = getFrom (m.getChild a) q' := rfl
      have hx' : getFrom (some (f m)) (a :: q') = .ok (some x) := hx
      rw [h1, hf m a hka] at hx'
      exact ⟨x, h2.trans hx', rfl⟩
  | cons b rest ih =>
    intro m q x hq hx
    cases hc : m.getChild b with
    | none =>
      simp only [Module.modifyAt, hc] at hx
      exact ⟨x, hx, rfl⟩
    | some child =>
      simp only [Module.modifyAt, hc] at hx
      cases q with
      | nil =>
        have hmx : Module.mk m.runtime (objSet m._children b (child.modifyAt rest f))
            m._rawModule m.state = x := by
          simpa [getFrom] using hx
        exact ⟨m, rfl, by rw [← hmx]; rfl⟩
      | cons a q' =>
        have h2 : getFrom (some m) (a :: q') = getFrom (m.getChild a) q' := rfl
        have h1 : getFrom (some (Module.mk m.runtime
            (objSet m._children b (child.modifyAt rest f)) m._rawModule m.state)) (a :: q') =
            getFrom (objGet (objSet m._children b (child.modifyAt rest f)) a) q' := rfl
        rw [h1] at hx
        by_cases hab : b = a
        · subst hab
          rw [objGet_objSet_same] at hx
          obtain ⟨x', hx', hst⟩ := ih child q' x (fun c hc' => hq c (by rw [hc']; rfl)) hx
          refine ⟨x', ?_, hst⟩
          rw [h2, hc]
          exact hx'
        · rw [objGet_objSet_ne _ _ hab] at hx
          exact ⟨x, h2.trans hx, rfl⟩

theorem state_of_map_eq {x y : Except JsError (Option Module)}
    (h : x.map (Option.map Module.state) = y.map (Option.map Module.state)) (m : Module)
    (hx : x = .ok (some m)) : ∃ m', y = .ok (some m') ∧ m'.state = m.state := by
  subst hx
  cases y with
  | error e => simp [Except.map] at h
  | ok b =>
    cases b with
    | none => simp [Except.map] at h
    | some m' =>
      refine ⟨m', rfl, ?_⟩
      simp only [Except.map, Option.map] at h
      injection h with h
      injection h with h
      exact h.symm

theorem collection_new_eq (options : RawModule) :
    ModuleCollection.new options = .ok ⟨buildModule false options⟩ := by
  rw [ModuleCollection.new, register_eq_attach options _ [] false (fun hne => absurd rfl hne)]
  rfl

theorem live_new_mirrors {options : RawModule} {s : Live.Store}
    (h : Live.Store.new options = .ok s) : Live.Mirrors s := by
  unfold Live.Store.new at h
  rw [collection_new_eq] at h
  simp only at h
  have hn : (buildModule false options).treeNodup = true := buildModule_treeNodup false options
  have hcompat := live_stamp_registered (buildModule false options) []
    (fun _ => Slot.foreign, 0) hn
  have hkeep := live_install_keeps _ _ _ _ _ h
  obtain ⟨_, hsub⟩ := live_installModule_mirror (buildModule false options) [] _ s hn
    (fun c m' hm => hcompat c m' hm)
    (fun _ => by
      obtain ⟨i, hi⟩ := hcompat [] (buildModule false options) rfl
      rw [live_slotAt_nil]
      show some (Live.moduleState ((Live.stamp [] (buildModule false options)
        (fun _ => Slot.foreign, 0)).1 []) (buildModule false options).state).slot =
        some ((Live.stamp [] (buildModule false options) (fun _ => Slot.foreign, 0)).1 [])
      have hi' : (Live.stamp [] (buildModule false options) (fun _ => Slot.foreign, 0)).1 [] =
          Live.stateSlot (buildModule false options).state i := hi
      rw [hi']
      exact congrArg some (live_moduleState_slot _ i))
    h
  refine ⟨fun path m hp => ?_, ?_, fun path m hp => ?_⟩
  · rw [hkeep.2.1] at hp
    have := hsub path m hp
    rw [List.nil_append] at this
    rw [this, hkeep.1]
  · rw [hkeep.2.1]
    exact hn
  · rw [hkeep.2.1] at hp
    obtain ⟨i, hi⟩ := hcompat path m hp
    rw [List.nil_append] at hi
    exact ⟨i, by rw [hkeep.1]; exact hi⟩

theorem live_registerModule_mirrors {s s' : Live.Store} (hM : Live.Mirrors s)
    (path : List Str) (raw : RawModule)
    (h : Live.registerModule path raw false s = .ok s') : Live.Mirrors s' := by
  unfold Live.registerModule at h
  have hne : path ≠ [] := by
    intro e
    subst e
    simp at h
  have hlen : ¬ (path.length == 0) = true := by
    cases path with
    | nil => exact absurd rfl hne
    | cons a b => simp
  rw [if_neg hlen] at h
  cases hreg : s._modules.register path raw true with
  | error e =>
    rw [hreg] at h
    cases h
  | ok mc' =>
    rw [hreg] at h
    simp only at h
    have hp := register_ok_parent hreg
    rw [register_eq_attach raw s._modules path true hp] at hreg
    injection hreg with hreg
    subst hreg
    have hget := get_attach hp (buildModule true raw) []
    rw [List.append_nil] at hget
    have hget' : (s._modules.attach path (buildModule true raw)).get path =
        .ok (some (buildModule true raw)) := hget
    rw [hget'] at h
    simp only at h
    have hn := buildModule_treeNodup true raw
    have hcompat := live_stamp_registered (buildModule true raw) path (s.stateOf, s.next) hn
    have hkeep := live_install_keeps _ _ _ _ _ h
    obtain ⟨hframe, hsub⟩ := live_installModule_mirror (buildModule true raw) path _ s' hn
      (fun c m' hm => hcompat c m' hm) (fun e => absurd e hne) h
    have hpath := dropLast_append_lastKey hne
    refine ⟨fun q m hq => ?_, ?_, fun q m hq => ?_⟩
    · rw [hkeep.2.1] at hq
      have hq' : (s._modules.attach path (buildModule true raw)).get q = .ok (some m) := hq
      rw [hkeep.1]
      by_cases hex : ∃ c, q = path ++ c
      · obtain ⟨c, hc⟩ := hex
        subst hc
        rw [get_attach hp] at hq'
        exact hsub c m hq'
      · have hneq : ∀ c, q ≠ path.dropLast ++ lastKey path :: c := by
          intro c hc
          refine hex ⟨c, ?_⟩
          rw [hc, ← hpath, List.append_assoc, List.singleton_append, hpath]
        have hq2 : getFrom (some (s._modules.root.modifyAt path.dropLast
            (fun y => y.addChild (lastKey path) (buildModule true raw)))) q = .ok (some m) := by
          simpa only [ModuleCollection.attach, hne, if_false, ModuleCollection.get] using hq'
        obtain ⟨m', hm'⟩ := getFrom_modifyAt_frame
          (fun y => y.addChild (lastKey path) (buildModule true raw)) (lastKey path)
          (fun y a hka => getChild_addChild_ne y _ hka) path.dropLast s._modules.root q hneq
          ⟨m, hq2⟩
        have hold := hM.1 q m' hm'
        have hfr := hframe q _ hold (fun c e => hex ⟨c, e⟩)
        rw [hfr]
        show some (s.stateOf q) = some ((Live.stamp path (buildModule true raw)
          (s.stateOf, s.next)).1 q)
        rw [live_stamp_frame (buildModule true raw) path _ q (fun c e => hex ⟨c, e⟩)]
    · rw [hkeep.2.1]
      show (s._modules.attach path (buildModule true raw)).root.treeNodup = true
      simp only [ModuleCollection.attach, hne, if_false]
      exact treeNodup_modifyAt _
        (fun x hx => treeNodup_addChild _ hx (buildModule_treeNodup true raw)) _ _ hM.2.1
    · rw [hkeep.2.1] at hq
      have hq' : (s._modules.attach path (buildModule true raw)).get q = .ok (some m) := hq
      rw [hkeep.1]
      by_cases hex : ∃ c, q = path ++ c
      · obtain ⟨c, hc⟩ := hex
        subst hc
        rw [get_attach hp] at hq'
        exact hcompat c m hq'
      · have hneq : ∀ c, q ≠ path.dropLast ++ lastKey path :: c := by
          intro c hc
          refine hex ⟨c, ?_⟩
          rw [hc, ← hpath, List.append_assoc, List.singleton_append, hpath]
        have hq2 : getFrom (some (s._modules.root.modifyAt path.dropLast
            (fun y => y.addChild (lastKey path) (buildModule true raw)))) q = .ok (some m) := by
          simpa only [ModuleCollection.attach, hne, if_false, ModuleCollection.get] using hq'
        obtain ⟨m', hm', hst⟩ := getFrom_modifyAt_frame_state
          (fun y => y.addChild (lastKey path) (buildModule true raw)) (lastKey path)
          (fun y a hka => getChild_addChild_ne y _ hka) (fun y => by cases y; rfl)
          path.dropLast s._modules.root q m hneq hq2
        obtain ⟨i, hi⟩ := hM.2.2 q m' hm'
        refine ⟨i, ?_⟩
        show (Live.stamp path (buildModule true raw) (s.stateOf, s.next)).1 q = _
        rw [live_stamp_frame (buildModule true raw) path _ q (fun c e => hex ⟨c, e⟩), ← hst]
        exact hi

theorem live_resetStore_keeps {s s' : Live.Store} (h : Live.resetStore s = .ok s') :
    s'.state = s.state ∧ s'.stateOf = s.stateOf ∧ s'._modules = s._modules := by
  unfold Live.resetStore at h
  obtain ⟨h1, h2, _, h4⟩ := live_install_keeps _ _ _ _ _ h
  exact ⟨h4 rfl, h1, h2⟩

theorem live_unregisterModule_mirrors {s s' : Live.Store} (hM : Live.Mirrors s)
    (path : List Str) (m : Module) (hget : s._modules.get path = .ok (some m))
    (hrt : m.runtime = true) (hne : path ≠ [])
    (h : Live.unregisterModule path s = .ok s') : Live.Mirrors s' := by
  obtain ⟨parent, hparent, hu⟩ := unregister_runtime hne hget hrt
  have hpath := dropLast_append_lastKey hne
  obtain ⟨id, fields, hf⟩ : ∃ id fields,
      Live.getNestedState s.state path.dropLast = .ok (.obj id fields) := by
    have hs := hM.1 path m hget
    rw [← hpath] at hs
    obtain ⟨v, hv, _⟩ := live_getNestedState_of_slotAt _ _ _ (hM.1 path.dropLast parent hparent)
    have h2 := live_slotAt_of_append path.dropLast s.state v [lastKey path] _ hs hv
    obtain ⟨id, fields, sub, hr, _, _⟩ := live_slotAt_cons h2
    subst hr
    exact ⟨id, fields, hv⟩
  unfold Live.unregisterModule at h
  rw [hu] at h
  simp only at h
  have hd : Live.deleteState path.dropLast (lastKey path)
      { s with _modules := ⟨s._modules.root.modifyAt path.dropLast
        (fun y => y.removeChild (lastKey path))⟩ } =
      .ok { s with
        _modules := ⟨s._modules.root.modifyAt path.dropLast
          (fun y => y.removeChild (lastKey path))⟩
        state := Live.setNestedState s.state path.dropLast
          (.obj id (objDelete fields (lastKey path))) } := by
    unfold Live.deleteState
    simp only [hf]
  rw [hd] at h
  simp only at h
  obtain ⟨h1, h2, h3⟩ := live_resetStore_keeps h
  have hgone : ∀ q x, getFrom (some (s._modules.root.modifyAt path.dropLast
      (fun y => y.removeChild (lastKey path)))) q = .ok (some x) →
      ∀ c, q ≠ path.dropLast ++ lastKey path :: c := by
    intro q x hq' c hc
    rw [hc] at hq'
    exact getFrom_removed (lastKey path) hM.2.1 hparent c x hq'
  refine ⟨fun q x hq => ?_, ?_, fun q x hq => ?_⟩
  · rw [h3] at hq
    have hq' : getFrom (some (s._modules.root.modifyAt path.dropLast
        (fun y => y.removeChild (lastKey path)))) q = .ok (some x) := hq
    have hneq := hgone q x hq'
    obtain ⟨m', hm'⟩ := getFrom_modifyAt_frame (fun y => y.removeChild (lastKey path))
      (lastKey path) (fun y a hka => objGet_objDelete_ne hka _) path.dropLast s._modules.root
      q hneq ⟨x, hq'⟩
    rw [h1, h2]
    exact live_delete_frame (lastKey path) hf (hM.1 q m' hm') hneq
  · rw [h3]
    exact treeNodup_modifyAt _ (fun x hx => treeNodup_removeChild _ hx) _ _ hM.2.1
  · rw [h3] at hq
    have hq' : getFrom (some (s._modules.root.modifyAt path.dropLast
        (fun y => y.removeChild (lastKey path)))) q = .ok (some x) := hq
    obtain ⟨m', hm', hst⟩ := getFrom_modifyAt_frame_state
      (fun y => y.removeChild (lastKey path)) (lastKey path)
      (fun y a hka => objGet_objDelete_ne hka _) (fun y => by cases y; rfl)
      path.dropLast s._modules.root q x (hgone q x hq') hq'
    obtain ⟨i, hi⟩ := hM.2.2 q m' hm'
    exact ⟨i, by rw [h2, ← hst]; exact hi⟩

theorem live_hotUpdate_mirrors {s s' : Live.Store} (hM : Live.Mirrors s) (spec : RawModule)
    (h : Live.hotUpdate spec s = .ok s') : Live.Mirrors s' := by
  unfold Live.hotUpdate at h
  obtain ⟨h1, h2, h3⟩ := live_resetStore_keeps h
  have hv := fun q => update_view Module.state (fun m raw => by cases m; rfl)
    (fun m k c => by cases m; rfl) spec [] s._modules.root q
  refine ⟨fun q x hq => ?_, ?_, fun q x hq => ?_⟩
  · rw [h3] at hq
    obtain ⟨m', hm', _⟩ := state_of_map_eq (hv q) x hq
    rw [h1, h2]
    exact hM.1 q m' hm'
  · rw [h3]
    exact update_treeNodup spec [] s._modules.root hM.2.1
  · rw [h3] at hq
    obtain ⟨m', hm', hst⟩ := state_of_map_eq (hv q) x hq
    obtain ⟨i, hi⟩ := hM.2.2 q m' hm'
    exact ⟨i, by rw [h2, ← hst]; exact hi⟩

theorem live_callHandler_mirrors (mc : ModuleCollection) (σ : List Str → Slot)
    (w : WrappedMutation) (p : JVal) (hk : Live.KeepsObjects mc w p) (s : Live.Store)
    (hs : Live.Mirrors s ∧ s._modules = mc ∧ s.stateOf = σ) :
    Live.Mirrors (Live.callHandler w p s).1 ∧ (Live.callHandler w p s).1._modules = mc ∧
      (Live.callHandler w p s).1.stateOf = σ := by
  obtain ⟨hM, ht, hσ⟩ := hs
  unfold Live.callHandler
  cases hl : Live.getNestedState s.state w.localCtx.path with
  | error e => exact ⟨hM, ht, hσ⟩
  | ok l =>
    refine ⟨⟨fun q x hq => ?_, hM.2⟩, ht, hσ⟩
    have hq' : s._modules.get q = .ok (some x) := hq
    show Live.slotAt (Live.setNestedState s.state w.localCtx.path _) q = some (s.stateOf q)
    refine live_slotAt_set _ _ _ _ q (hM.1 q x hq') (fun c hc => ?_)
    subst hc
    rw [ht] at hq'
    exact hk l c x _ hq' (live_slotAt_of_append _ _ l c _ (hM.1 _ x hq) hl)

theorem live_runHandlers_mirrors (mc : ModuleCollection) (σ : List Str → Slot) (p : JVal) :
    ∀ (entry : List WrappedMutation), (∀ w ∈ entry, Live.KeepsObjects mc w p) →
    ∀ s : Live.Store, (Live.Mirrors s ∧ s._modules = mc ∧ s.stateOf = σ) →
    Live.Mirrors (Live.runHandlers entry p s).1 := by
  intro entry
  induction entry with
  | nil =>
    intro _ s hs
    exact hs.1
  | cons w rest ih =>
    intro hk s hs
    have h1 := live_callHandler_mirrors mc σ w p (hk w (List.mem_cons_self _ _)) s hs
    rw [Live.runHandlers]
    cases hr : (Live.callHandler w p s).2 with
    | some e => exact h1.1
    | none => exact ih (fun w' hw' => hk w' (List.mem_cons_of_mem _ hw')) _ h1

theorem live_commit_mirrors {s : Live.Store} (hM : Live.Mirrors s) (t : Str) (p : JVal)
    (hk : ∀ entry, objGet s._mutations t = some entry →
      ∀ w ∈ entry, Live.KeepsObjects s._modules w p) :
    Live.Mirrors (Live.commit t p s).1 := by
  unfold Live.commit
  cases he : objGet s._mutations t with
  | none => exact hM
  | some entry =>
    exact live_runHandlers_mirrors s._modules s.stateOf p entry (hk entry he) s ⟨hM, rfl, rfl⟩

theorem live_reachable_mirrors {s : Live.Store} (h : Live.Reachable s) : Live.Mirrors s := by
  induction h with
  | new hnew => exact live_new_mirrors hnew
  | commit type payload _ hk ih => exact live_commit_mirrors ih type payload hk
  | registerModule path rawModule _ hok ih => exact live_registerModule_mirrors ih path rawModule hok
  | unregisterModule path m _ hget hrt hne hok ih =>
    exact live_unregisterModule_mirrors ih path m hget hrt hne hok
  | @hotUpdate s0 newOptions _ ih =>
    unfold Live.after
    cases hh : Live.hotUpdate newOptions s0 with
    | error e => exact ih
    | ok s1 => exact live_hotUpdate_mirrors ih newOptions hh
  | replaceState state _ hs ih => exact ⟨fun path m hp => hs path m hp, ih.2⟩

mutual
theorem live_installModule_hot_completes : ∀ (module : Module) (path : List Str)
    (s : Live.Store), module.treeNodup = true → s._modules.get path = .ok (some module) →
    ∃ s', Live.installModule path module true s = .ok s'
  | .mk r children raw st, path, s, hn, hget => by
    have hn' := (treeNodup_mk r children raw st).mp hn
    rw [Live.installModule, getNamespace_eq_spec s._modules path _ hget]
    have hc : ¬ (!(path.length == 0) && !true) = true := by simp
    simp only [if_neg hc]
    refine live_installChildren_hot_completes children path _ hn'.1 hn'.2 (fun k child hk => ?_)
    show getFrom (some s._modules.root) (path ++ [k]) = .ok (some child)
    have hget' : getFrom (some s._modules.root) path =
        .ok (some (Module.mk r children raw st)) := hget
    rw [getFrom_concat, hget']
    exact congrArg Except.ok hk
theorem live_installChildren_hot_completes : ∀ (children : List (Str × Module))
    (path : List Str) (s : Live.Store), (objKeys children).Nodup →
    Module.treeNodupIn children = true →
    (∀ k child, objGet children k = some child →
      s._modules.get (path ++ [k]) = .ok (some child)) →
    ∃ s', Live.installChildren path children true s = .ok s'
  | [], path, s, _, _, _ => ⟨s, by rw [Live.installChildren]⟩
  | (k, c) :: rest, path, s, hk, hn, hreg => by
    have hk' : k ∉ objKeys rest ∧ (objKeys rest).Nodup := List.nodup_cons.mp hk
    have hn' := (treeNodupIn_cons k c rest).mp hn
    obtain ⟨s1, h1⟩ := live_installModule_hot_completes c (path ++ [k]) s hn'.1
      (hreg k c (by simp [objGet]))
    have hkeep := live_install_keeps c (path ++ [k]) true s s1 h1
    obtain ⟨s2, h2⟩ := live_installChildren_hot_completes rest path s1 hk'.2 hn'.2
      (fun k' child hc => by
        rw [hkeep.2.1]
        refine hreg k' child ?_
        have hkk : ¬ k = k' := fun e => hk'.1 (e ▸ mem_keys_of_objGet hc)
        simpa [objGet, hkk] using hc)
    exact ⟨s2, by rw [Live.installChildren, h1]; exact h2⟩
end

theorem live_hotUpdate_completes (s : Live.Store) (hn : s._modules.root.treeNodup = true)
    (newOptions : RawModule) : ∃ s', Live.hotUpdate newOptions s = .ok s' := by
  unfold Live.hotUpdate Live.resetStore
  exact live_installModule_hot_completes _ [] _ (update_treeNodup newOptions [] s._modules.root hn)
    rfl

theorem objGet_assignFields (old : List (Str × SVal)) (k : Str) :
    ∀ fs : List (Str × JVal), objGet (SVal.assignFields old fs) k =
      (objGet fs k).map (fun v => SVal.assign ((objGet old k).getD .undefined) v) := by
  intro fs
  induction fs with
  | nil => rfl
  | cons x rest ih =>
    obtain ⟨k', v⟩ := x
    rw [SVal.assignFields]
    by_cases h : k' = k
    · subst h
      rw [objGet_cons_self, objGet_cons_self]
      rfl
    · simp only [objGet, h, if_false]
      exact ih

theorem objGet_eraseFields (k : Str) :
    ∀ fs : List (Str × SVal), objGet (SVal.eraseFields fs) k = (objGet fs k).map SVal.erase := by
  intro fs
  induction fs with
  | nil => rfl
  | cons x rest ih =>
    obtain ⟨k', v⟩ := x
    rw [SVal.eraseFields]
    by_cases h : k' = k
    · subst h
      rw [objGet_cons_self, objGet_cons_self]
      rfl
    · simp only [objGet, h, if_false]
      exact ih

theorem live_slotAt_assign_erase : ∀ (chain : List Str) (v : SVal),
    Live.slotAt (v.assign v.erase) chain = Live.slotAt v chain := by
  intro chain
  induction chain with
  | nil =>
    intro v
    rw [live_slotAt_nil, live_slotAt_nil]
    cases v with
    | obj id fields =>
      rw [SVal.erase, SVal.assign]
      exact congrArg some (live_slot_obj id _ _)
    | _ => rfl
  | cons k rest ih =>
    intro v
    cases v with
    | obj id fields =>
      rw [SVal.erase, SVal.assign]
      simp only [live_slotAt_cons_obj]
      rw [objGet_assignFields, objGet_eraseFields]
      cases hk : objGet fields k with
      | none => rfl
      | some sub =>
        simp only [Option.map, Option.getD]
        exact ih sub
    | _ => rfl

/-- C21 (as amended): in every store reached from construction by any
sequence of hot updates, of registrations that complete without
`preserveState`, of removals that complete of registered runtime modules,
of replacements of the state by a state that holds at every registered
path the state of the module registered there, and of commits whose
handlers never remove or replace the state of a module registered under
their own, no object being given as the state of two modules, for every
path registered in the module tree the root state has a value at that path
(walking the keys of the path), and that value is the state of the module
at that path: what `getNestedState` returns there is the object that the
constructor of the module set as its field `state` (the value itself when
the state is not an object). -/
theorem state_mirrors_tree {s : Live.Store} (h : Live.Reachable s) (path : List Str)
    (m : Module) (hm : s._modules.get path = .ok (some m)) :
    Live.slotAt s.state path = some (s.stateOf path) ∧
    (∃ v, Live.getNestedState s.state path = .ok v ∧ v.slot = s.stateOf path) ∧
    ∃ id, s.stateOf path = Live.stateSlot m.state id := by
  have hM := live_reachable_mirrors h
  exact ⟨hM.1 path m hm, live_getNestedState_of_slotAt path s.state _ (hM.1 path m hm),
    hM.2.2 path m hm⟩

theorem state_mirrors_tree_witness :
    Live.slotAt (Live.after (Live.registerModule ["A".toList, "m".toList] plainSpec false)
        (Live.commit "A/ma".toList .null (Live.storeOf nestedSpec)).1).state
        ["A".toList, "m".toList] =
      some ((Live.after (Live.registerModule ["A".toList, "m".toList] plainSpec false)
        (Live.commit "A/ma".toList .null (Live.storeOf nestedSpec)).1).stateOf
        ["A".toList, "m".toList]) ∧
    (∃ v, Live.getNestedState
        (Live.after (Live.registerModule ["A".toList, "m".toList] plainSpec false)
          (Live.commit "A/ma".toList .null (Live.storeOf nestedSpec)).1).state
        ["A".toList, "m".toList] = .ok v ∧
      v.slot = (Live.after (Live.registerModule ["A".toList, "m".toList] plainSpec false)
        (Live.commit "A/ma".toList .null (Live.storeOf nestedSpec)).1).stateOf
        ["A".toList, "m".toList]) ∧
    ∃ id, (Live.after (Live.registerModule ["A".toList, "m".toList] plainSpec false)
        (Live.commit "A/ma".toList .null (Live.storeOf nestedSpec)).1).stateOf
        ["A".toList, "m".toList] = Live.stateSlot (buildModule true plainSpec).state id :=
  state_mirrors_tree
    (Live.Reachable.registerModule ["A".toList, "m".toList] plainSpec
      (Live.Reachable.commit "A/ma".toList .null
        (@Live.Reachable.new nestedSpec (Live.storeOf nestedSpec) rfl)
        (fun entry he w hw => by
          have he' : some [(⟨keepState, ⟨"A/".toList, ["A".toList]⟩⟩ : WrappedMutation)] =
              some entry := he
          injection he' with he'
          subst he'
          have hw' : w = ⟨keepState, ⟨"A/".toList, ["A".toList]⟩⟩ := by
            simpa using hw
          subst hw'
          intro localState chain _ slot _ hs
          show Live.slotAt (localState.assign localState.erase) chain = some slot
          rw [live_slotAt_assign_erase]
          exact hs))
      rfl)
    ["A".toList, "m".toList] (buildModule true plainSpec) rfl

/-- C21 (as stated) fails.  After `replaceState` with the empty object on
`cartStore`, the path `cart` is still registered and the root state has no
value there.  After `registerModule` of `m` with `preserveState` on
`counterStore`, the path `m` is registered and the root state has no
value there.  After the commit of `wipe` on `wipeStore`, whose handler
empties the root state, the path `cart` is still registered and the root
state has no value there.  All three stores are reached from construction
by one completed call.  With the state objects told apart: after
`replaceState` with another object `{ cart: { items: 3 } }` the root state
has a value at the registered path `cart`, equal to the state of the
module, and it is not the state object of the module, which is the object
its constructor created; after the other two calls the root state holds
nothing at the registered path, while the module still has its state
object. -/
theorem mirror_broken_counterexample :
    ((Reachable (replaceState (.obj []) cartStore).store ∧
      (replaceState (.obj []) cartStore).result = .ok () ∧
      ((replaceState (.obj []) cartStore).store._modules.get ["cart".toList]).map
        (Option.map Module.state) = .ok (some (.obj [("items".toList, .num 3)])) ∧
      hasPath (replaceState (.obj []) cartStore).store.state ["cart".toList] = false ∧
      getNestedState (replaceState (.obj []) cartStore).store.state ["cart".toList] =
        .ok .undefined) ∧
    (Reachable (registerModule ["m".toList] plainSpec true counterStore).store ∧
      (registerModule ["m".toList] plainSpec true counterStore).result = .ok () ∧
      ((registerModule ["m".toList] plainSpec true counterStore).store._modules.get
        ["m".toList]).map (Option.map Module.state) = .ok (some (.obj [("n".toList, .num 1)])) ∧
      hasPath (registerModule ["m".toList] plainSpec true counterStore).store.state
        ["m".toList] = false ∧
      getNestedState (registerModule ["m".toList] plainSpec true counterStore).store.state
        ["m".toList] = .ok .undefined) ∧
    (Reachable (commit "wipe".toList .null none wipeStore).store ∧
      (commit "wipe".toList .null none wipeStore).result = .ok () ∧
      hasPath wipeStore.state ["cart".toList] = true ∧
      ((commit "wipe".toList .null none wipeStore).store._modules.get ["cart".toList]).map
        (Option.map Module.state) = .ok (some (.obj [("n".toList, .num 1)])) ∧
      hasPath (commit "wipe".toList .null none wipeStore).store.state ["cart".toList] = false ∧
      getNestedState (commit "wipe".toList .null none wipeStore).store.state ["cart".toList] =
        .ok .undefined)) ∧
    ((Live.Store.new cartSpec = .ok (Live.storeOf cartSpec) ∧
      Live.slotAt (Live.storeOf cartSpec).state ["cart".toList] = some (.object 1) ∧
      ((Live.replaceState
        (SVal.ofValue (.obj [("cart".toList, .obj [("items".toList, .num 3)])]))
        (Live.storeOf cartSpec))._modules.get ["cart".toList]).map (Option.map Module.state) =
        .ok (some (.obj [("items".toList, .num 3)])) ∧
      (Live.getNestedState (Live.replaceState
        (SVal.ofValue (.obj [("cart".toList, .obj [("items".toList, .num 3)])]))
        (Live.storeOf cartSpec)).state ["cart".toList]).map SVal.erase =
        .ok (.obj [("items".toList, .num 3)]) ∧
      Live.slotAt (Live.replaceState
        (SVal.ofValue (.obj [("cart".toList, .obj [("items".toList, .num 3)])]))
        (Live.storeOf cartSpec)).state ["cart".toList] = some .foreign ∧
      (Live.replaceState
        (SVal.ofValue (.obj [("cart".toList, .obj [("items".toList, .num 3)])]))
        (Live.storeOf cartSpec)).stateOf ["cart".toList] = .object 1) ∧
    (Live.Store.new counterSpec = .ok (Live.storeOf counterSpec) ∧
      Live.registerModule ["m".toList] plainSpec true (Live.storeOf counterSpec) =
        .ok (Live.after (Live.registerModule ["m".toList] plainSpec true)
          (Live.storeOf counterSpec)) ∧
      ((Live.after (Live.registerModule ["m".toList] plainSpec true)
        (Live.storeOf counterSpec))._modules.get ["m".toList]).map (Option.map Module.state) =
        .ok (some (.obj [("n".toList, .num 1)])) ∧
      Live.slotAt (Live.after (Live.registerModule ["m".toList] plainSpec true)
        (Live.storeOf counterSpec)).state ["m".toList] = none ∧
      (Live.after (Live.registerModule ["m".toList] plainSpec true)
        (Live.storeOf counterSpec)).stateOf ["m".toList] = .object 1) ∧
    (Live.Store.new wipeSpec = .ok (Live.storeOf wipeSpec) ∧
      Live.slotAt (Live.storeOf wipeSpec).state ["cart".toList] = some (.object 1) ∧
      (Live.commit "wipe".toList .null (Live.storeOf wipeSpec)).2 = none ∧
      ((Live.commit "wipe".toList .null (Live.storeOf wipeSpec)).1._modules.get
        ["cart".toList]).map (Option.map Module.state) =
        .ok (some (.obj [("n".toList, .num 1)])) ∧
      Live.slotAt (Live.commit "wipe".toList .null (Live.storeOf wipeSpec)).1.state
        ["cart".toList] = none ∧
      (Live.commit "wipe".toList .null (Live.storeOf wipeSpec)).1.stateOf ["cart".toList] =
        .object 1)) :=
  ⟨⟨⟨Reachable.call (.replaceState (.obj [])) (@Reachable.new cartSpec false cartStore [] rfl),
      rfl, rfl, rfl, rfl⟩,
    ⟨Reachable.call (.registerModule ["m".toList] plainSpec true)
      (@Reachable.new counterSpec false counterStore [] rfl), rfl, rfl, rfl, rfl⟩,
    ⟨Reachable.call (.commit "wipe".toList .null none)
      (@Reachable.new wipeSpec false wipeStore [] rfl), rfl, rfl, rfl, rfl, rfl⟩⟩,
    ⟨rfl, rfl, rfl, rfl, rfl, rfl⟩, ⟨rfl, rfl, rfl, rfl, rfl⟩, ⟨rfl, rfl, rfl, rfl, rfl, rfl⟩⟩

end Vuex
